import Mathlib

/-!
# Contiguity weights of geoda-lib: a shallow embedding

The development follows `src/cpp/src/weights/contiguity-weights.cpp` and the
accessors of `src/src/cpp/geometry/geometry.cpp`.

Modelling conventions.

* `std::set<int>` and `std::set<unsigned int>` are strictly increasing lists of
  naturals; `set_insert` is `std::set::insert` and iteration is list order.
* `std::vector<T>` and the `GalElement` array are lists; a read `v[i]` is
  `v.getD i d`, a write `v[i] = a` is `v.set i a`.  Reads and writes outside the
  bounds are undefined behaviour in the source; the theorems that depend on them
  carry the hypothesis that excludes them.
* Hash maps and ordered maps are association lists that are walked in insertion
  order; every consumer only inserts into sets, so the walk order is immaterial.
* Coordinates (`double`, `jcv_real`) are exact values of an arbitrary linearly
  ordered ring `α`, the integers in the closed examples; rounding, `NaN` and
  signed zeros are outside the model.  Indices (`int`, `unsigned int`, `size_t`)
  are naturals, the source never producing a negative one, and
  `static_cast<int>(sqrt(n) + 2)` is `Nat.sqrt n + 2`.
* The stream output `ss << v` of a coordinate is a parameter `fmt : α → String`.
* Classes whose code is not in the sources at hand (`weights/partition.h`) and
  the diagram that `jcv_diagram_generate` leaves are parameters.
-/

set_option linter.unusedSectionVars false
set_option linter.unusedVariables false

namespace geoda

/-! ## Containers -/

/-- Insertion into a `std::set` of indices kept as a strictly increasing list. -/
def set_insert (a : Nat) : List Nat → List Nat
  | [] => [a]
  | b :: t => if a < b then a :: b :: t else if a = b then b :: t else b :: set_insert a t

/-- The statement `m[k] = f (m[k])` on an association list, where `m[k]` is
created with the value `d` when the key is absent (`operator[]` of the maps). -/
def map_modify {K V : Type} [DecidableEq K] (m : List (K × V)) (k : K) (d : V) (f : V → V) :
    List (K × V) :=
  match m with
  | [] => [(k, f d)]
  | (k', v) :: t => if k' = k then (k', f v) :: t else (k', v) :: map_modify t k d f

/-- Read access `m[k]` of a map, `d` standing for the value of an absent key. -/
def map_find {K V : Type} [DecidableEq K] (m : List (K × V)) (k : K) (d : V) : V :=
  match m with
  | [] => d
  | (k', v) :: t => if k' = k then v else map_find t k d

/-- The statement `nbr_map[a].insert(b)` on a vector of sets. -/
def nbr_insert (nbr_map : List (List Nat)) (a b : Nat) : List (List Nat) :=
  nbr_map.set a (set_insert b (nbr_map.getD a []))

/-! ## Higher-order expander (`make_higher_ord_contiguity`) -/

/-- Body of the loop `for d` of `make_higher_ord_contiguity`: the set `n_at_d[d]`
obtained from `prev1 = n_at_d[d - 1]` and `prev2 = n_at_d[d - 2]`. -/
def next_layer (weights : List (List Nat)) (prev1 prev2 : List Nat) : List Nat :=
  prev1.foldl
    (fun acc it =>
      (weights.getD it []).foldl
        (fun acc nbr => if nbr ∉ prev1 ∧ nbr ∉ prev2 then set_insert nbr acc else acc) acc)
    []

/-- The vector `n_at_d` of `distance + 1` sets built for node `i`. -/
def n_at_d (weights : List (List Nat)) (i distance : Nat) : List (List Nat) :=
  let v0 : List (List Nat) := List.replicate (distance + 1) []
  let v1 := v0.set 0 (set_insert i (v0.getD 0 []))
  let v2 := (weights.getD i []).foldl (fun v nbr => v.set 1 (set_insert nbr (v.getD 1 []))) v1
  (List.range' 2 (distance - 1)).foldl
    (fun v d => v.set d (next_layer weights (v.getD (d - 1) []) (v.getD (d - 2) []))) v2

/-- The row `X[i]` of `make_higher_ord_contiguity`: the layers from
`cummulative ? 1 : distance` to `distance`, concatenated and sorted with
`std::greater`. -/
def higher_ord_row (weights : List (List Nat)) (i distance : Nat) (cummulative : Bool) :
    List Nat :=
  let layers := n_at_d weights i distance
  let lo := if cummulative then 1 else distance
  let filled := (List.range' lo (distance + 1 - lo)).foldl
    (fun acc d => acc ++ layers.getD d []) []
  filled.insertionSort (fun a b => b ≤ a)

/-- Model of `make_higher_ord_contiguity(distance, obs, weights, cummulative)`;
the result is the content of the array `weights` after the call. -/
def make_higher_ord_contiguity (distance obs : Nat) (weights : List (List Nat))
    (cummulative : Bool) : List (List Nat) :=
  if obs < 1 ∨ distance ≤ 1 then weights
  else
    let X := (List.range obs).map (fun i => higher_ord_row weights i distance cummulative)
    (List.range obs).foldl (fun w i => w.set i (X.getD i [])) weights

/-- Model of `neighbors_to_gal`: the array of neighbour lists read off the sets. -/
def neighbors_to_gal (nbr_map : List (List Nat)) : List (List Nat) :=
  if nbr_map.length = 0 then []
  else (List.range nbr_map.length).map (fun i => nbr_map.getD i [])

/-- Model of `convert_to_weights(nbr_map, order_contiguity, include_lower_order)`. -/
def convert_to_weights (nbr_map : List (List Nat)) (order_contiguity : Nat)
    (include_lower_order : Bool) : List (List Nat) :=
  let num_obs := nbr_map.length
  let gal := (List.range num_obs).map (fun i => nbr_map.getD i [])
  let gal := if order_contiguity > 1 then
      make_higher_ord_contiguity order_contiguity num_obs gal include_lower_order
    else gal
  (List.range num_obs).map (fun i => gal.getD i [])

/-! ## Geometry collection (`geometry.cpp`) -/

/-- The four arrays of a `GeometryCollection`: coordinates, start offset of every
part, number of parts of every geometry. -/
structure GeometryCollection (α : Type) where
  x : List α
  y : List α
  parts : List Nat
  sizes : List Nat

section Geometry

variable {α : Type} [LinearOrderedRing α]

/-- Number of geometries, `geoms.size()`.  The accessor is declared in
`geometry/geometry.h`; the constructors of `geometry.cpp` create one geometry for
every entry of `sizes`. -/
def GeometryCollection.size (geoms : GeometryCollection α) : Nat := geoms.sizes.length

/-- The loop shared by `get_point`, `get_num_points` and `get_part`: the slot of
`parts` where polygon `polygon_index` starts, an empty polygon taking one slot. -/
def part_offset (geoms : GeometryCollection α) (polygon_index : Nat) : Nat :=
  (List.range polygon_index).foldl
    (fun part_offset i =>
      part_offset + (if geoms.sizes.getD i 0 = 0 then 1 else geoms.sizes.getD i 0)) 0

/-- Model of `PolygonCollection::get_num_points`.  The source computes
`end - start` on two `int` and returns it as `size_t`: when `end` is smaller than
`start` the negative difference wraps around `2^64`. -/
def get_num_points (geoms : GeometryCollection α) (polygon_index : Nat) : Nat :=
  let num_parts := geoms.sizes.getD polygon_index 0
  let part_offset := part_offset geoms polygon_index
  let start := geoms.parts.getD part_offset 0
  let stop := if part_offset + num_parts ≥ geoms.parts.length then geoms.x.length
    else geoms.parts.getD (part_offset + num_parts) 0
  if start ≤ stop then stop - start else 18446744073709551616 - (start - stop)

/-- Model of `PolygonCollection::get_point`: the pair `(lng, lat)`. -/
def get_point (geoms : GeometryCollection α) (polygon_index point_index : Nat) : α × α :=
  let part_offset := part_offset geoms polygon_index
  let start := geoms.parts.getD part_offset 0
  let k := point_index + start
  (geoms.x.getD k 0, geoms.y.getD k 0)

/-! ## Exact engines (`precision_threshold == 0`) -/

/-- The statement `point_to_polygon[lng][lat].insert(i)`. -/
def point_to_polygon_insert (m : List (α × List (α × List Nat))) (lng lat : α) (i : Nat) :
    List (α × List (α × List Nat)) :=
  map_modify m lng [] (fun inner => map_modify inner lat [] (set_insert i))

/-- Body of the loop over the parts `j` of polygon `i` in
`simple_polygon_queen_weights`: every point of the part is filed under `i`. -/
def queen_add_part (geoms : GeometryCollection α) (i j : Nat)
    (m : List (α × List (α × List Nat))) : List (α × List (α × List Nat)) :=
  let num_points := geoms.x.length
  let num_all_parts := geoms.parts.length
  let start := geoms.parts.getD j 0
  let stop := if j + 1 = num_all_parts then num_points else geoms.parts.getD (j + 1) 0
  (List.range' start (stop - start)).foldl
    (fun m k => point_to_polygon_insert m (geoms.x.getD k 0) (geoms.y.getD k 0) i) m

/-- First loop of `simple_polygon_queen_weights`: the dictionary from points to
polygon indices, together with the running `part_index`. -/
def queen_point_to_polygon (geoms : GeometryCollection α) :
    List (α × List (α × List Nat)) × Nat :=
  (List.range geoms.size).foldl
    (fun st i =>
      let num_parts := geoms.sizes.getD i 0
      let m := (List.range' st.2 num_parts).foldl (fun m j => queen_add_part geoms i j m) st.1
      let offset_part := if num_parts = 0 then 1 else num_parts
      (m, st.2 + offset_part))
    ([], 0)

/-- The loops over `kt` and `lt` of `simple_polygon_queen_weights`: every pair of
distinct members of one bucket becomes a pair of mutual neighbours. -/
def queen_pairs : List Nat → List (List Nat) → List (List Nat)
  | [], nbr_map => nbr_map
  | kt :: rest, nbr_map =>
    queen_pairs rest
      (rest.foldl
        (fun nm lt => if kt ≠ lt then nbr_insert (nbr_insert nm kt lt) lt kt else nm) nbr_map)

/-- The neighbour map of `simple_polygon_queen_weights` before conversion. -/
def queen_nbr_map (geoms : GeometryCollection α) : List (List Nat) :=
  (queen_point_to_polygon geoms).1.foldl
    (fun nm it => it.2.foldl (fun nm jt => queen_pairs jt.2 nm) nm)
    (List.replicate geoms.size [])

/-- Model of `geoda::simple_polygon_queen_weights`. -/
def simple_polygon_queen_weights (geoms : GeometryCollection α) (order_contiguity : Nat)
    (include_lower_order : Bool) : List (List Nat) :=
  convert_to_weights (queen_nbr_map geoms) order_contiguity include_lower_order

/-- Key of the edge leaving point `j` of polygon `i` in
`simple_polygon_rook_weights`; `fmt` is the stream output of a `double`. -/
def rook_edge_key (fmt : α → String) (geoms : GeometryCollection α) (i j : Nat) : String :=
  let pt1 := get_point geoms i j
  let next_j := (j + 1) % get_num_points geoms i
  let pt2 := get_point geoms i next_j
  fmt pt1.1 ++ "," ++ fmt pt1.2 ++ "," ++ fmt pt2.1 ++ "," ++ fmt pt2.2

/-- The reads of a call `get_point(i, j)` stay inside the arrays: the slot
`parts[part_offset]` exists and `x[k]`, `y[k]` exist for `k = j + start`. -/
def point_in_bounds (geoms : GeometryCollection α) (i j : Nat) : Bool :=
  decide (part_offset geoms i < geoms.parts.length) &&
    decide (j + geoms.parts.getD (part_offset geoms i) 0 < geoms.x.length) &&
    decide (j + geoms.parts.getD (part_offset geoms i) 0 < geoms.y.length)

/-- The loop over the points `j` of polygon `i` in `simple_polygon_rook_weights`,
with `n` turns to go: the edge leaving point `j` is filed under `i`. The result
is `none` when `get_point` reads outside of the arrays. -/
def rook_polygon_edges (fmt : α → String) (geoms : GeometryCollection α) (i : Nat) :
    Nat → Nat → List (String × List Nat) → Option (List (String × List Nat))
  | 0, _, m => some m
  | n + 1, j, m =>
    if point_in_bounds geoms i j = true ∧
        point_in_bounds geoms i ((j + 1) % get_num_points geoms i) = true then
      rook_polygon_edges fmt geoms i n (j + 1)
        (map_modify m (rook_edge_key fmt geoms i j) [] (set_insert i))
    else none

/-- First loop of `simple_polygon_rook_weights`: the dictionary from edge keys to
polygon indices; `none` when `get_num_points` or `get_point` reads outside of
the arrays. -/
def rook_edge_to_polygon (fmt : α → String) (geoms : GeometryCollection α) :
    Option (List (String × List Nat)) :=
  (List.range geoms.size).foldl
    (fun m i =>
      match m with
      | none => none
      | some m =>
        if part_offset geoms i < geoms.parts.length then
          rook_polygon_edges fmt geoms i (get_num_points geoms i) 0 m
        else none)
    (some [])

/-- Model of `geoda::simple_polygon_rook_weights`.  The loop over
`edge_to_polygon` binds `polys` and has no other statement.  The result is `none`
when the first loop reads outside of the arrays. -/
def simple_polygon_rook_weights (fmt : α → String) (geoms : GeometryCollection α)
    (order_contiguity : Nat) (include_lower_order : Bool) : Option (List (List Nat)) :=
  match rook_edge_to_polygon fmt geoms with
  | none => none
  | some edge_to_polygon =>
    let nbr_map := edge_to_polygon.foldl (fun nm _edge_polys => nm)
      (List.replicate geoms.size [])
    some (convert_to_weights nbr_map order_contiguity include_lower_order)

end Geometry

/-! ## Tolerant engine (`polygon_contiguity_weights_threshold`) -/

/-- A `box_type`: the pairs `(x, y)` of the minimum and of the maximum corner. -/
structure box_type (α : Type) where
  min_corner : α × α
  max_corner : α × α

/-- The classes of `weights/partition.h` and the accessor `get_bbox` of
`geometry/geometry.h`, which the engine uses and whose code is not part of the
sources at hand, as parameters.  `β` is the state of a `BasePartition`, `μ` the
state of a `PartitionM`.  A chain is the list of the ids visited from `first`
through `tail` until `EMPTY_COUNT`.  `sweep geoms curr nbr is_queen threshold`
is `PolygonPartition(geoms, curr).sweep(PolygonPartition(geoms, nbr), ...)`
after `MakePartition`. -/
structure PartitionOps (α β μ : Type) where
  base_alloc : Nat → Nat → α → β
  base_include : β → Nat → α → β
  base_cells : β → Nat
  base_chain : β → Nat → List Nat
  m_new : Nat → Nat → α → μ
  m_initIx : μ → Nat → α → α → μ
  m_sum : μ → Nat
  m_include : μ → Nat → μ
  m_remove : μ → Nat → μ
  m_lowest : μ → Nat → Nat
  m_upmost : μ → Nat → Nat
  m_chain : μ → Nat → List Nat
  get_bbox : GeometryCollection α → Nat → box_type α
  sweep : GeometryCollection α → Nat → Nat → Bool → α → Bool

section Threshold

variable {α β μ : Type} [LinearOrderedRing α]

/-- Model of `geoda::bbox_intersects`. -/
def bbox_intersects (b1 b2 : box_type α) : Bool :=
  let x1_min := b1.min_corner.1
  let x1_max := b1.max_corner.1
  let y1_min := b1.min_corner.2
  let y1_max := b1.max_corner.2
  let x2_min := b2.min_corner.1
  let x2_max := b2.max_corner.1
  let y2_min := b2.min_corner.2
  let y2_max := b2.max_corner.2
  let not_intersects : Bool :=
    decide (x1_min > x2_max) || decide (x1_max < x2_min) ||
    decide (y1_min > y2_max) || decide (y1_max < y2_min)
  !not_intersects

/-- Value of `*std::min_element(v.begin(), v.end())`; `none` for an empty vector,
where the source dereferences the end iterator. -/
def min_element : List α → Option α
  | [] => none
  | a :: t => some (t.foldl (fun m b => if b < m then b else m) a)

/-- Value of `*std::max_element(v.begin(), v.end())`; `none` for an empty vector. -/
def max_element : List α → Option α
  | [] => none
  | a :: t => some (t.foldl (fun m b => if m < b then b else m) a)

/-- The loop that files every polygon in `gMinX` and `gMaxX` (fields of the pair)
after their `alloc`. -/
def x_partitions (ops : PartitionOps α β μ) (geoms : GeometryCollection α) (gRecords gx : Nat)
    (shp_x_len shp_min_x : α) : β × β :=
  (List.range gRecords).foldl
    (fun st cnt =>
      let box := ops.get_bbox geoms cnt
      (ops.base_include st.1 cnt (box.min_corner.1 - shp_min_x),
       ops.base_include st.2 cnt (box.max_corner.1 - shp_min_x)))
    (ops.base_alloc gRecords gx shp_x_len, ops.base_alloc gRecords gx shp_x_len)

/-- One construction of `gYPartition` with `gy` buckets: `new PartitionM` and the
loop of `initIx`. -/
def y_partition_build (ops : PartitionOps α β μ) (geoms : GeometryCollection α)
    (gRecords gy : Nat) (shp_y_len shp_min_y : α) : μ :=
  (List.range gRecords).foldl
    (fun part cnt =>
      let box := ops.get_bbox geoms cnt
      let lwr := box.min_corner.2 - shp_min_y
      let upr := box.max_corner.2 - shp_min_y
      ops.m_initIx part cnt lwr upr)
    (ops.m_new gRecords gy shp_y_len)

/-- The `do ... while (total == 0)` loop that settles the bucket count of
`gYPartition`; every turn costs one unit of `fuel`, and `none` says that the
fuel did not suffice. -/
def y_partition_loop (ops : PartitionOps α β μ) (geoms : GeometryCollection α)
    (gRecords : Nat) (shp_y_len shp_min_y : α) : Nat → Nat → Option μ
  | 0, _ => none
  | fuel + 1, gy =>
    let gYPartition := y_partition_build ops geoms gRecords gy shp_y_len shp_min_y
    let total := ops.m_sum gYPartition
    if total > gRecords * 8 then
      y_partition_loop ops geoms gRecords shp_y_len shp_min_y fuel (gy / 2 + 1)
    else if total = 0 then
      y_partition_loop ops geoms gRecords shp_y_len shp_min_y fuel gy
    else some gYPartition

/-- The loop over the cells `lowest(curr) .. upmost(curr)` that pushes the
potential neighbours of `curr` on the stack `neighbors` (head of the list is the
top of the stack). -/
def collect_neighbors (ops : PartitionOps α β μ) (gY : μ) (curr : Nat) : List Nat :=
  (List.range' (ops.m_lowest gY curr) (ops.m_upmost gY curr + 1 - ops.m_lowest gY curr)).foldl
    (fun neighbors cell =>
      (ops.m_chain gY cell).foldl
        (fun neighbors potential => if potential ≠ curr then potential :: neighbors
          else neighbors) neighbors)
    []

/-- The loop `while (!neighbors.empty())`: the stack `related` of the candidates
that pass the bounding-box filter and the sweep test. -/
def test_neighbors (ops : PartitionOps α β μ) (geoms : GeometryCollection α) (is_queen : Bool)
    (precision_threshold : α) (curr : Nat) (neighbors : List Nat) : List Nat :=
  neighbors.foldl
    (fun related nbr =>
      if bbox_intersects (ops.get_bbox geoms curr) (ops.get_bbox geoms nbr) then
        if ops.sweep geoms curr nbr is_queen precision_threshold then nbr :: related
        else related
      else related)
    []

/-- The loop `while (!related.empty())`: `curr` and every related polygon become
mutual neighbours. -/
def record_related (curr : Nat) (related : List Nat) (nbr_map : List (List Nat)) :
    List (List Nat) :=
  related.foldl (fun nm nbr => nbr_insert (nbr_insert nm curr nbr) nbr curr) nbr_map

/-- The sweep `for step` over the cells of `gMinX`: state is the pair of
`gYPartition` and `nbr_map`. -/
def threshold_sweep (ops : PartitionOps α β μ) (geoms : GeometryCollection α) (is_queen : Bool)
    (precision_threshold : α) (gMinX gMaxX : β) (gY : μ) (gRecords : Nat) :
    μ × List (List Nat) :=
  (List.range (ops.base_cells gMinX)).foldl
    (fun st step =>
      let gY := (ops.base_chain gMinX step).foldl (fun part curr => ops.m_include part curr) st.1
      (ops.base_chain gMaxX step).foldl
        (fun st curr =>
          let neighbors := collect_neighbors ops st.1 curr
          let related := test_neighbors ops geoms is_queen precision_threshold curr neighbors
          (ops.m_remove st.1 curr, record_related curr related st.2))
        (gY, st.2))
    (gY, List.replicate gRecords [])

/-- Model of `geoda::polygon_contiguity_weights_threshold`.  The result is `none`
where the source reads the minimum of an empty coordinate vector or where the
bucket loop does not finish within `fuel` turns. -/
def polygon_contiguity_weights_threshold (ops : PartitionOps α β μ) (fuel : Nat)
    (geoms : GeometryCollection α) (is_queen : Bool) (precision_threshold : α)
    (order_contiguity : Nat) (include_lower_order : Bool) : Option (List (List Nat)) :=
  let gRecords := geoms.size
  match min_element geoms.x, max_element geoms.x, min_element geoms.y, max_element geoms.y with
  | some shp_min_x, some shp_max_x, some shp_min_y, some shp_max_y =>
    let shp_x_len := shp_max_x - shp_min_x
    let shp_y_len := shp_max_y - shp_min_y
    let gx := gRecords / 8 + 2
    let gX := x_partitions ops geoms gRecords gx shp_x_len shp_min_x
    let gy := Nat.sqrt gRecords + 2
    match y_partition_loop ops geoms gRecords shp_y_len shp_min_y fuel gy with
    | some gYPartition =>
      let nbr_map := (threshold_sweep ops geoms is_queen precision_threshold gX.1 gX.2
        gYPartition gRecords).2
      some (convert_to_weights nbr_map order_contiguity include_lower_order)
    | none => none
  | _, _, _, _ => none

/-- Model of `geoda::polygon_contiguity_weights`: the exact engines for a zero
threshold, the tolerant engine otherwise. -/
def polygon_contiguity_weights (ops : PartitionOps α β μ) (fuel : Nat) (fmt : α → String)
    (geoms : GeometryCollection α) (is_queen : Bool) (precision_threshold : α)
    (order_contiguity : Nat) (include_lower_order : Bool) : Option (List (List Nat)) :=
  if precision_threshold = 0 then
    if is_queen then some (simple_polygon_queen_weights geoms order_contiguity include_lower_order)
    else simple_polygon_rook_weights fmt geoms order_contiguity include_lower_order
  else
    polygon_contiguity_weights_threshold ops fuel geoms is_queen precision_threshold
      order_contiguity include_lower_order

end Threshold

/-! ## Point route (`point_contiguity_weights`) -/

/-- A `jcv_point`. -/
structure jcv_point (α : Type) where
  x : α
  y : α

/-- A `jcv_graphedge`: the index of the neighbouring site (`none` for a null
pointer), the two end points, the angle. -/
structure jcv_graphedge (α : Type) where
  neighbor : Option Nat
  pos0 : jcv_point α
  pos1 : jcv_point α
  angle : α

/-- A `jcv_site`: position, index into the input array, the chain `edges`. -/
structure jcv_site (α : Type) where
  p : jcv_point α
  index : Nat
  edges : List (jcv_graphedge α)

/-- A `jcv_diagram`: the array `sites[0 .. numsites)` and the clipping rectangle. -/
structure jcv_diagram (α : Type) where
  sites : List (jcv_site α)
  min : jcv_point α
  max : jcv_point α

section PointRoute

variable {α : Type} [LinearOrderedRing α]

/-- Model of `jcv_point_str`; `fmt` is the stream output of a `jcv_real`. -/
def jcv_point_str (fmt : α → String) (pt : jcv_point α) : String :=
  fmt pt.x ++ "," ++ fmt pt.y

/-- Model of `jcv_edge_str`. -/
def jcv_edge_str (fmt : α → String) (edge : jcv_graphedge α) : String :=
  let x0 := Min.min edge.pos0.x edge.pos0.x
  let x1 := Max.max edge.pos1.x edge.pos1.x
  let y0 := Min.min edge.pos0.y edge.pos0.y
  let y1 := Max.max edge.pos1.y edge.pos1.y
  "[" ++ fmt x0 ++ "," ++ fmt y0 ++ "," ++ fmt x1 ++ "," ++ fmt y1 ++ "]"

/-- The loop over the sites and their graph edges: the pair of the maps
`edge_to_site` and `jcvpoint_to_site`. -/
def site_maps (fmt : α → String) (diagram : jcv_diagram α) (is_queen : Bool) :
    List (String × List Nat) × List (String × List Nat) :=
  diagram.sites.foldl
    (fun maps site =>
      site.edges.foldl
        (fun maps e =>
          if is_queen then
            let jcvpoint_to_site :=
              map_modify maps.2 (jcv_point_str fmt e.pos0) [] (set_insert site.index)
            (maps.1, map_modify jcvpoint_to_site (jcv_point_str fmt e.pos1) []
              (set_insert site.index))
          else
            (map_modify maps.1 (jcv_edge_str fmt e) [] (set_insert site.index), maps.2))
        maps)
    ([], [])

/-- The loops over `nbr1_it` and `nbr2_it`: the members of one bucket become
neighbours of each other. -/
def bucket_pairs (nbrs : List Nat) (nbr_map : List (List Nat)) : List (List Nat) :=
  nbrs.foldl
    (fun nm ii => nbrs.foldl (fun nm jj => if ii ≠ jj then nbr_insert nm ii jj else nm) nm)
    nbr_map

/-- The neighbour map of `point_contiguity_weights` before conversion. -/
def point_nbr_map (fmt : α → String) (diagram : jcv_diagram α) (num_obs : Nat)
    (is_queen : Bool) : List (List Nat) :=
  let maps := site_maps fmt diagram is_queen
  let nbr_map : List (List Nat) := List.replicate num_obs []
  if is_queen then maps.2.foldl (fun nm it => bucket_pairs it.2 nm) nbr_map
  else maps.1.foldl (fun nm it => bucket_pairs it.2 nm) nbr_map

/-- Model of `geoda::point_contiguity_weights`.  `generated` is what the call of
`jcv_diagram_generate` leaves for the centroids of `geoms` and the padded
bounding box: `none` when that call does not return because one of its
assertions fails.  The sweep behind it places its circle events with `sqrtf`
on `float` coordinates and has no exact counterpart, so the diagram is an
argument; the steps of the sweep that are exact are modelled further down
(`jcv_init_sites`, `jcv_prune`, `jcv_fillgaps`).  For `order_contiguity > 1` the source ends with `delete gal`
on the array that `neighbors_to_gal` made with `new GalElement[...]`; the
behaviour is undefined and the call does not return, unless there is no
observation, where `gal` is the null pointer. -/
def point_contiguity_weights (fmt : α → String) (generated : Option (jcv_diagram α))
    (geoms : GeometryCollection α) (is_queen : Bool) (_precision_threshold : α)
    (order_contiguity : Nat) (include_lower_order : Bool) : Option (List (List Nat)) :=
  match generated with
  | none => none
  | some diagram =>
    let num_obs := geoms.size
    let nbr_map := point_nbr_map fmt diagram num_obs is_queen
    if order_contiguity > 1 then
      let gal := neighbors_to_gal nbr_map
      let gal := make_higher_ord_contiguity order_contiguity num_obs gal include_lower_order
      let result_vec := (List.range num_obs).map (fun i => gal.getD i [])
      if nbr_map.length = 0 then some result_vec else none
    else
      some ((List.range num_obs).map (fun i => nbr_map.getD i []))

end PointRoute

/-! ## Specification-side notions -/

/-- Every set of the vector is strictly increasing. -/
def NbrSorted (nm : List (List Nat)) : Prop := ∀ l ∈ nm, l.Pairwise (fun a b => a < b)

/-- The vector `nm2` has the size of `nm1`, keeps its sets strictly increasing,
and lists `j` for `i` exactly when `nm1` did or `i` is a valid index with
`R i j`. -/
def Extends (R : Nat → Nat → Prop) (nm1 nm2 : List (List Nat)) : Prop :=
  nm2.length = nm1.length ∧ (NbrSorted nm1 → NbrSorted nm2) ∧
    ∀ i j, j ∈ nm2.getD i [] ↔ j ∈ nm1.getD i [] ∨ (i < nm1.length ∧ R i j)

/-- The set filed under the point `(lng, lat)` in a dictionary of the queen
engine, `point_to_polygon[lng][lat]`. -/
def bucket {α : Type} [DecidableEq α] (m : List (α × List (α × List Nat))) (lng lat : α) :
    List Nat :=
  map_find (map_find m lng []) lat []

/-- Every member `p` of every set stored in the dictionary satisfies `V p lng lat`
for the key `(lng, lat)` of the set. -/
def Sound {α : Type} (V : Nat → α → α → Prop) (m : List (α × List (α × List Nat))) : Prop :=
  ∀ it ∈ m, ∀ jt ∈ it.2, ∀ p ∈ jt.2, V p it.1 jt.1

/-- The dictionary `m2` is `m1` with `p` added under `(lng, lat)` for every
`V p lng lat`. -/
def MapExt {α : Type} [DecidableEq α] (V : Nat → α → α → Prop)
    (m1 m2 : List (α × List (α × List Nat))) : Prop :=
  (∀ W : Nat → α → α → Prop, Sound W m1 → (∀ p x y, V p x y → W p x y) → Sound W m2) ∧
    ∀ x y p, p ∈ bucket m2 x y ↔ p ∈ bucket m1 x y ∨ V p x y

/-- First slot of geometry `i` in `parts`: every geometry before it occupies
`max(sizes[t], 1)` consecutive slots. -/
def slot_start (sizes : List Nat) (i : Nat) : Nat :=
  ((sizes.take i).map (fun s => max s 1)).sum

/-- The coordinate index `k` belongs to part `j`: it lies between the start
offset of the part and the start offset of the next part, or the end of the
coordinate arrays for the last part. -/
def in_part {α : Type} (geoms : GeometryCollection α) (j k : Nat) : Prop :=
  ∃ s, geoms.parts[j]? = some s ∧ s ≤ k ∧
    ((j + 1 = geoms.parts.length ∧ k < geoms.x.length) ∨
      ∃ e, geoms.parts[j + 1]? = some e ∧ k < e)

/-- The point `pt` is a vertex of polygon `i`: it is stored at a coordinate index
of one of the `sizes[i]` parts of the polygon. -/
def IsVertex {α : Type} (geoms : GeometryCollection α) (i : Nat) (pt : α × α) : Prop :=
  ∃ n, geoms.sizes[i]? = some n ∧ ∃ j k, slot_start geoms.sizes i ≤ j ∧
    j < slot_start geoms.sizes i + n ∧ in_part geoms j k ∧
    geoms.x[k]? = some pt.1 ∧ geoms.y[k]? = some pt.2

/-- Well-formed collection: as many `x` as `y`, every geometry has its
`max(sizes[i], 1)` consecutive slots in `parts`, and every offset of `parts` lies
within the coordinate arrays. -/
def well_formed {α : Type} (geoms : GeometryCollection α) : Prop :=
  geoms.x.length = geoms.y.length ∧
    slot_start geoms.sizes geoms.sizes.length ≤ geoms.parts.length ∧
    ∀ p ∈ geoms.parts, p ≤ geoms.x.length

instance {α : Type} (geoms : GeometryCollection α) : Decidable (well_formed geoms) := by
  unfold well_formed; infer_instance

/-- The offsets of `parts` ascend: every part starts where the part before it
ends. -/
def ascending_parts {α : Type} (geoms : GeometryCollection α) : Prop :=
  geoms.parts.Pairwise (fun a b => a ≤ b)

instance {α : Type} (geoms : GeometryCollection α) : Decidable (ascending_parts geoms) := by
  unfold ascending_parts; infer_instance

section QueenSpec

variable {α : Type} [LinearOrderedRing α]

/-- End of part `j` as the queen loop computes it. -/
def queen_stop (geoms : GeometryCollection α) (j : Nat) : Nat :=
  if j + 1 = geoms.parts.length then geoms.x.length else geoms.parts.getD (j + 1) 0

/-- The points the queen loop files under polygon `i`. -/
def queen_files (geoms : GeometryCollection α) (p : Nat) (x y : α) : Prop :=
  p < geoms.size ∧ ∃ j ∈ List.range' (part_offset geoms p) (geoms.sizes.getD p 0),
    ∃ k ∈ List.range' (geoms.parts.getD j 0) (queen_stop geoms j - geoms.parts.getD j 0),
      x = geoms.x.getD k 0 ∧ y = geoms.y.getD k 0

end QueenSpec

/-- The set `n_at_d[d]` of node `i` as a function of `d`: the recurrence that the
loop of `make_higher_ord_contiguity` runs on its vector. -/
def layer_list (weights : List (List Nat)) (i : Nat) : Nat → List Nat
  | 0 => set_insert i []
  | 1 => (weights.getD i []).foldl (fun s nbr => set_insert nbr s) []
  | d + 2 => next_layer weights (layer_list weights i (d + 1)) (layer_list weights i d)

/-- The layers of the specification: `layer[0] = {i}`, `layer[1] = W1(i)` and
`layer[d]` is the union of `W1(u)` for `u` in `layer[d-1]` minus
`layer[d-1] ∪ layer[d-2]`. -/
def layer (W1 : List (List Nat)) (i : Nat) : Nat → Finset Nat
  | 0 => {i}
  | 1 => (W1.getD i []).toFinset
  | d + 2 => ((layer W1 i (d + 1)).biUnion (fun u => (W1.getD u []).toFinset))
      \ (layer W1 i (d + 1) ∪ layer W1 i d)

/-- The node `j` is reachable from `i` by a walk of exactly `n` steps of `W1`. -/
def reach (W1 : List (List Nat)) (i : Nat) : Nat → Nat → Prop
  | 0, j => j = i
  | n + 1, j => ∃ u, reach W1 i n u ∧ j ∈ W1.getD u []

/-- The shortest-path distance from `i` to `j` in `W1` is `k`. -/
def dist_eq (W1 : List (List Nat)) (i k j : Nat) : Prop :=
  reach W1 i k j ∧ ∀ m < k, ¬ reach W1 i m j

/-- The chain of scenarios S3 and S4. -/
def chain4 : List (List Nat) := [[1], [0, 2], [1, 3], [2]]

/-- Scenario S1: the squares A and B, one ring each. -/
def two_squares : GeometryCollection Int :=
  { x := [0, 1, 1, 0, 0, 1, 2, 2, 1, 1]
    y := [0, 0, 1, 1, 0, 0, 0, 1, 1, 0]
    parts := [0, 5]
    sizes := [1, 1] }

/-- Polygons `i` and `j` share an edge: two distinct consecutive ring vertices of
`i` coincide with two consecutive ring vertices of `j`, in either direction. -/
def shares_edge {α : Type} [LinearOrderedRing α] (geoms : GeometryCollection α)
    (i j : Nat) : Prop :=
  ∃ a < get_num_points geoms i, ∃ b < get_num_points geoms j,
    get_point geoms i a ≠ get_point geoms i ((a + 1) % get_num_points geoms i) ∧
    ((get_point geoms i a = get_point geoms j b ∧
        get_point geoms i ((a + 1) % get_num_points geoms i)
          = get_point geoms j ((b + 1) % get_num_points geoms j)) ∨
      (get_point geoms i a = get_point geoms j ((b + 1) % get_num_points geoms j) ∧
        get_point geoms i ((a + 1) % get_num_points geoms i) = get_point geoms j b))

instance {α : Type} [LinearOrderedRing α] (geoms : GeometryCollection α) (i j : Nat) :
    Decidable (shares_edge geoms i j) := by
  unfold shares_edge; infer_instance

/-- Scenario S6: one square. -/
def one_square : GeometryCollection Int :=
  { x := [0, 1, 1, 0, 0]
    y := [0, 0, 1, 1, 0]
    parts := [0]
    sizes := [1] }

/-- The partitions hand out only ids that satisfy `IdB`: there are invariants of
a `BasePartition` and of a `PartitionM` that hold after `alloc` and `new` for `N`
items, are kept by every update with an id that satisfies `IdB`, and under which
every id of every chain satisfies `IdB`. -/
def PartitionOps.confined {α β μ : Type} (ops : PartitionOps α β μ) (N : Nat)
    (IdB : Nat → Prop) : Prop :=
  ∃ (InvB : β → Prop) (InvM : μ → Prop),
    (∀ gx len, InvB (ops.base_alloc N gx len)) ∧
    (∀ b id c, InvB b → IdB id → InvB (ops.base_include b id c)) ∧
    (∀ b step, InvB b → ∀ id ∈ ops.base_chain b step, IdB id) ∧
    (∀ gy len, InvM (ops.m_new N gy len)) ∧
    (∀ m id lwr upr, InvM m → IdB id → InvM (ops.m_initIx m id lwr upr)) ∧
    (∀ m id, InvM m → IdB id → InvM (ops.m_include m id)) ∧
    (∀ m id, InvM m → InvM (ops.m_remove m id)) ∧
    (∀ m cell, InvM m → ∀ id ∈ ops.m_chain m cell, IdB id)

/-- The candidate `nbr` of `curr` passes the bounding-box filter and the sweep
test of the tolerant engine. -/
def accepted {α β μ : Type} [LinearOrderedRing α] (ops : PartitionOps α β μ)
    (geoms : GeometryCollection α) (is_queen : Bool) (precision_threshold : α)
    (curr nbr : Nat) : Prop :=
  bbox_intersects (ops.get_bbox geoms curr) (ops.get_bbox geoms nbr) = true ∧
    ops.sweep geoms curr nbr is_queen precision_threshold = true

/-- The relation `R` only holds between distinct ids that satisfy `IdB`, one of
which accepted the other, and it holds in both directions. -/
def PairClass {α β μ : Type} [LinearOrderedRing α] (ops : PartitionOps α β μ)
    (geoms : GeometryCollection α) (is_queen : Bool) (precision_threshold : α)
    (IdB : Nat → Prop) (R : Nat → Nat → Prop) : Prop :=
  ∀ i j, R i j → R j i ∧ i ≠ j ∧ IdB i ∧ IdB j ∧
    (accepted ops geoms is_queen precision_threshold i j ∨
      accepted ops geoms is_queen precision_threshold j i)

/-- The pairs that the point route records: distinct site indices filed under one
key. -/
def point_pairs {α : Type} [LinearOrderedRing α] (fmt : α → String) (diagram : jcv_diagram α) (is_queen : Bool)
    (i j : Nat) : Prop :=
  ∃ it ∈ (if is_queen then (site_maps fmt diagram is_queen).2
      else (site_maps fmt diagram is_queen).1), i ≠ j ∧ i ∈ it.2 ∧ j ∈ it.2

/-- A concrete instance of the partition classes for closed examples: one bucket
on each axis, a `BasePartition` is the list of the ids filed in it, a
`PartitionM` is the number of items with the list of the active ids; every box
is the unit box at the origin and the sweep test accepts every pair. -/
def single_bucket_ops : PartitionOps Int (List Nat) (Nat × List Nat) where
  base_alloc := fun _ _ _ => []
  base_include := fun b id _ => id :: b
  base_cells := fun _ => 1
  base_chain := fun b step => if step = 0 then b else []
  m_new := fun n _ _ => (n, [])
  m_initIx := fun m _ _ _ => m
  m_sum := fun m => m.1
  m_include := fun m id => (m.1, id :: m.2)
  m_remove := fun m id => (m.1, m.2.filter (fun a => a ≠ id))
  m_lowest := fun _ _ => 0
  m_upmost := fun _ _ => 0
  m_chain := fun m cell => if cell = 0 then m.2 else []
  get_bbox := fun _ _ => { min_corner := (0, 0), max_corner := (1, 1) }
  sweep := fun _ _ _ _ _ => true

/-- A diagram for closed examples with the sites of three collinear points: each
cell is given by its two vertical border edges between `y = -1` and `y = 1`. -/
def three_cells : jcv_diagram Int :=
  { sites :=
      [ { p := ⟨0, 0⟩, index := 0,
          edges := [⟨none, ⟨-1, -1⟩, ⟨-1, 1⟩, 0⟩, ⟨some 1, ⟨1, 1⟩, ⟨1, -1⟩, 0⟩] },
        { p := ⟨2, 0⟩, index := 1,
          edges := [⟨some 0, ⟨1, -1⟩, ⟨1, 1⟩, 0⟩, ⟨some 2, ⟨3, 1⟩, ⟨3, -1⟩, 0⟩] },
        { p := ⟨4, 0⟩, index := 2,
          edges := [⟨some 1, ⟨3, -1⟩, ⟨3, 1⟩, 0⟩, ⟨none, ⟨5, 1⟩, ⟨5, -1⟩, 0⟩] } ]
    min := ⟨-1, -1⟩
    max := ⟨5, 1⟩ }

/-- Three squares in a row, one ring each: `A` and `B` of scenario S1 and the
square `C` from `(2,0)` to `(3,1)`. -/
def three_squares : GeometryCollection Int :=
  { x := [0, 1, 1, 0, 0, 1, 2, 2, 1, 1, 2, 3, 3, 2, 2]
    y := [0, 0, 1, 1, 0, 0, 0, 1, 1, 0, 0, 0, 1, 1, 0]
    parts := [0, 5, 10]
    sizes := [1, 1, 1] }

/-- A stream output of integers for closed examples. -/
def int_fmt (a : Int) : String := toString a

/-- The graph edge with its two end points exchanged. -/
def swap_endpoints {α : Type} (edge : jcv_graphedge α) : jcv_graphedge α :=
  { edge with pos0 := edge.pos1, pos1 := edge.pos0 }

/-- The edge between the cells of the first two sites of `three_cells`, as the
first site holds it. -/
def shared_cell_edge : jcv_graphedge Int := ⟨some 1, ⟨1, 1⟩, ⟨1, -1⟩, 0⟩

/-- Three unit squares, one ring each, with the lower left corners `(0,0)`,
`(4,0)` and `(2,3)`: their centroids do not lie on one line. -/
def triangle_squares : GeometryCollection Int :=
  { x := [0, 1, 1, 0, 0, 4, 5, 5, 4, 4, 2, 3, 3, 2, 2]
    y := [0, 0, 1, 1, 0, 0, 0, 1, 1, 0, 3, 3, 4, 4, 3]
    parts := [0, 5, 10]
    sizes := [1, 1, 1] }

/-- A collection with zero geometries and no coordinates. -/
def empty_collection : GeometryCollection Int :=
  { x := [], y := [], parts := [], sizes := [] }

/-- A collection with zero geometries whose coordinate arrays hold one stray
point. -/
def stray_collection : GeometryCollection Int :=
  { x := [0], y := [0], parts := [], sizes := [] }

/-- The map `m2` is `m1` with `p` added under the key `k` for every `V p k`. -/
def KeyExt {K : Type} [DecidableEq K] (V : Nat → K → Prop) (m1 m2 : List (K × List Nat)) :
    Prop :=
  (∀ W : Nat → K → Prop, (∀ it ∈ m1, ∀ p ∈ it.2, W p it.1) → (∀ p k, V p k → W p k) →
      ∀ it ∈ m2, ∀ p ∈ it.2, W p it.1) ∧
    ∀ k p, p ∈ map_find m2 k [] ↔ p ∈ map_find m1 k [] ∨ V p k

/-- A stream output of integers in tally marks, a minus sign first for a
negative number. -/
def tally_fmt (a : Int) : String :=
  String.mk ((if a < 0 then ['-'] else []) ++ List.replicate a.natAbs '|')

/-! ## Site preparation of `jcv_diagram_generate` (`jc_voronoi.h`) -/

/-- A `jcv_rect`. -/
structure jcv_rect (α : Type) where
  min : jcv_point α
  max : jcv_point α

section SitePreparation

variable {α : Type} [LinearOrderedRing α]

/-- Model of `jcv_point_cmp`, the comparison handed to `qsort`. -/
def jcv_point_cmp (s1 s2 : jcv_point α) : Int :=
  if s1.y ≠ s2.y then (if s1.y < s2.y then -1 else 1) else (if s1.x < s2.x then -1 else 1)

/-- Model of `jcv_point_less`. -/
def jcv_point_less (pt1 pt2 : jcv_point α) : Bool :=
  if pt1.y = pt2.y then decide (pt1.x < pt2.x) else decide (pt1.y < pt2.y)

/-- Model of `jcv_point_eq`. -/
def jcv_point_eq (pt1 pt2 : jcv_point α) : Bool :=
  decide (pt1.y = pt2.y) && decide (pt1.x = pt2.x)

/-- The loop of `jcv_diagram_generate` that fills the site array:
`sites[i].p = points[i]`, `sites[i].edges = 0`, `sites[i].index = i`. -/
def jcv_init_sites (points : List (jcv_point α)) : List (jcv_site α) :=
  (List.range points.length).map (fun i => ⟨points.getD i ⟨0, 0⟩, i, []⟩)

/-- The array is in the order that `qsort` with `jcv_point_cmp` leaves: no site
compares as smaller than a site before it. -/
def sorted_by_cmp (sites : List (jcv_site α)) : Prop :=
  sites.Pairwise (fun a b => jcv_point_cmp b.p a.p ≠ -1)

/-- The test that drops a point outside of the bounding rectangle; no point is
dropped for a null `rect`. -/
def outside_rect (rect : Option (jcv_rect α)) (p : jcv_point α) : Bool :=
  match rect with
  | none => false
  | some r =>
    decide (p.x < r.min.x) || decide (p.x > r.max.x) || decide (p.y < r.min.y) ||
      decide (p.y > r.max.y)

/-- One turn of the pruning loop of `jcv_diagram_generate` on the pair of the
site array and `offset`. -/
def jcv_prune_step (rect : Option (jcv_rect α)) (st : List (jcv_site α) × Nat) (i : Nat) :
    List (jcv_site α) × Nat :=
  let sites := st.1
  let offset := st.2
  let s := sites.getD i ⟨⟨0, 0⟩, 0, []⟩
  if 0 < i ∧ jcv_point_eq s.p (sites.getD (i - 1) ⟨⟨0, 0⟩, 0, []⟩).p = true then
    (sites, offset + 1)
  else if outside_rect rect s.p = true then (sites, offset + 1)
  else (sites.set (i - offset) s, offset)

/-- The pruning loop of `jcv_diagram_generate` on the sorted site array: the
sites `sites[0 .. num_points - offset)` that the diagram keeps. -/
def jcv_prune (rect : Option (jcv_rect α)) (sites : List (jcv_site α)) (num_points : Nat) :
    List (jcv_site α) :=
  let st := (List.range num_points).foldl (jcv_prune_step rect) (sites, 0)
  st.1.take (num_points - st.2)

/-- The diagram that `jcv_diagram_generate` leaves for the sorted site array
`sorted_sites` and the rectangle `rect`: the sites that the pruning keeps, in
their order, each with the edge chain that the sweep and `jcv_fillgaps` gave it. -/
def generated_from (diagram : jcv_diagram α) (rect : jcv_rect α)
    (sorted_sites : List (jcv_site α)) : Prop :=
  diagram.sites.map (fun s => (s.p, s.index))
      = (jcv_prune (some rect) sorted_sites sorted_sites.length).map (fun s => (s.p, s.index)) ∧
    diagram.min = rect.min ∧ diagram.max = rect.max

/-- The seed sites of `point_contiguity_weights`: the centroid of every
geometry; `get_centroid` is the accessor of `geometry/geometry.h`. -/
def seed_sites (get_centroid : GeometryCollection α → Nat → α × α)
    (geoms : GeometryCollection α) : List (jcv_point α) :=
  (List.range geoms.size).map (fun i => ⟨(get_centroid geoms i).1, (get_centroid geoms i).2⟩)

/-- The site at position `i` of the sorted array passes the two tests of the
pruning loop. -/
def kept_at (rect : Option (jcv_rect α)) (sites : List (jcv_site α)) (i : Nat) : Bool :=
  !(decide (0 < i) &&
      jcv_point_eq (sites.getD i ⟨⟨0, 0⟩, 0, []⟩).p (sites.getD (i - 1) ⟨⟨0, 0⟩, 0, []⟩).p) &&
    !outside_rect rect (sites.getD i ⟨⟨0, 0⟩, 0, []⟩).p

/-- The sites among the first `i` of the sorted array that pass the tests. -/
def kept_upto (rect : Option (jcv_rect α)) (sites : List (jcv_site α)) (i : Nat) :
    List (jcv_site α) :=
  ((List.range i).filter (kept_at rect sites)).map (fun k => sites.getD k ⟨⟨0, 0⟩, 0, []⟩)

end SitePreparation

/-- Four input points for closed examples: a repeated point and a point outside
of `sample_rect`. -/
def sample_points : List (jcv_point Int) := [⟨2, 0⟩, ⟨0, 0⟩, ⟨2, 0⟩, ⟨9, 9⟩]

/-- The sites of `sample_points` in the order of `jcv_point_cmp`. -/
def sample_sorted : List (jcv_site Int) :=
  [⟨⟨0, 0⟩, 1, []⟩, ⟨⟨2, 0⟩, 0, []⟩, ⟨⟨2, 0⟩, 2, []⟩, ⟨⟨9, 9⟩, 3, []⟩]

/-- The clipping rectangle from `(0,0)` to `(5,5)`. -/
def sample_rect : jcv_rect Int := ⟨⟨0, 0⟩, ⟨5, 5⟩⟩

/-- The diagram of one retained site at `(1,1)` with input position `0`, in the
rectangle that has shrunk to that point, with two gap edges. -/
def one_cell : jcv_diagram Int :=
  { sites := [ { p := ⟨1, 1⟩, index := 0,
                 edges := [⟨none, ⟨1, 1⟩, ⟨1, 1⟩, 0⟩, ⟨none, ⟨1, 1⟩, ⟨7, 7⟩, 0⟩] } ]
    min := ⟨1, 1⟩
    max := ⟨1, 1⟩ }

/-! ## Edges, clipping and gap filling of the Voronoi engine (`jc_voronoi.h`)

Arithmetic is exact in a linearly ordered field; a division by zero, which gives
an infinity or a `NaN` in the source, gives `0` here.  An end point equal to the
marker `JCV_INVALID_VALUE` in both coordinates is `none`. -/

/-- A `jcv_edge`: the points of `sites[0]` and `sites[1]` (`none` for a null
pointer), the end points `pos[0]` and `pos[1]`, the coefficients of the line
`a x + b y = c`. -/
structure jcv_edge (α : Type) where
  site0 : jcv_point α
  site1 : Option (jcv_point α)
  pos0 : Option (jcv_point α)
  pos1 : Option (jcv_point α)
  a : α
  b : α
  c : α

section VoronoiEdges

variable {α : Type} [LinearOrderedField α]

/-- Model of `jcv_edge_create` for the sites at `s1` and `s2`. -/
def jcv_edge_create (s1 s2 : jcv_point α) : jcv_edge α :=
  let dx := s2.x - s1.x
  let dy := s2.y - s1.y
  let dx_is_larger : Bool := decide (dx * dx > dy * dy)
  let c := dx * (s1.x + dx * (1 / 2)) + dy * (s1.y + dy * (1 / 2))
  if dx_is_larger then
    { site0 := s1, site1 := some s2, pos0 := none, pos1 := none, a := 1, b := dy / dx,
      c := c / dx }
  else
    { site0 := s1, site1 := some s2, pos0 := none, pos1 := none, a := dx / dy, b := 1,
      c := c / dy }

/-- Model of `jcv_edge_clipline`: the returned flag and the edge with the end
points it stores. -/
def jcv_edge_clipline (e : jcv_edge α) (min max : jcv_point α) : Bool × jcv_edge α :=
  let pxmin := min.x
  let pxmax := max.x
  let pymin := min.y
  let pymax := max.y
  let s12 : Option (jcv_point α) × Option (jcv_point α) :=
    if e.a = 1 ∧ e.b ≥ 0 then (e.pos1, e.pos0) else (e.pos0, e.pos1)
  let s1 := s12.1
  let s2 := s12.2
  let ends : (α × α) × (α × α) :=
    if e.a = 1 then
      let y1 := pymin
      let y1 := match s1 with
        | some s => if s.y > pymin then s.y else y1
        | none => y1
      let y1 := if y1 > pymax then pymax else y1
      let x1 := e.c - e.b * y1
      let y2 := pymax
      let y2 := match s2 with
        | some s => if s.y < pymax then s.y else y2
        | none => y2
      let y2 := if y2 < pymin then pymin else y2
      let x2 := e.c - e.b * y2
      let p1 : α × α :=
        if x1 > pxmax then (pxmax, (e.c - pxmax) / e.b)
        else if x1 < pxmin then (pxmin, (e.c - pxmin) / e.b)
        else (x1, y1)
      let p2 : α × α :=
        if x2 > pxmax then (pxmax, (e.c - pxmax) / e.b)
        else if x2 < pxmin then (pxmin, (e.c - pxmin) / e.b)
        else (x2, y2)
      (p1, p2)
    else
      let x1 := pxmin
      let x1 := match s1 with
        | some s => if s.x > pxmin then s.x else x1
        | none => x1
      let x1 := if x1 > pxmax then pxmax else x1
      let y1 := e.c - e.a * x1
      let x2 := pxmax
      let x2 := match s2 with
        | some s => if s.x < pxmax then s.x else x2
        | none => x2
      let x2 := if x2 < pxmin then pxmin else x2
      let y2 := e.c - e.a * x2
      let p1 : α × α :=
        if y1 > pymax then ((e.c - pymax) / e.a, pymax)
        else if y1 < pymin then ((e.c - pymin) / e.a, pymin)
        else (x1, y1)
      let p2 : α × α :=
        if y2 > pymax then ((e.c - pymax) / e.a, pymax)
        else if y2 < pymin then ((e.c - pymin) / e.a, pymin)
        else (x2, y2)
      (p1, p2)
  let x1 := ends.1.1
  let y1 := ends.1.2
  let x2 := ends.2.1
  let y2 := ends.2.2
  (!(decide (x1 = x2) && decide (y1 = y2)),
    { e with pos0 := some ⟨x1, y1⟩, pos1 := some ⟨x2, y2⟩ })

/-- The bounding rectangle that `point_contiguity_weights` hands to
`jcv_diagram_generate`: the extent of the centroids `x`, `y`, widened by 2% of
the range on every side.  `dbl_max` is `std::numeric_limits<double>::max()`. -/
def point_bounding_box (dbl_max : α) (x y : List α) : jcv_rect α :=
  let x_orig_min := x.foldl (fun m xi => if xi < m then xi else m) dbl_max
  let x_orig_max := x.foldl (fun m xi => if xi > m then xi else m) (-dbl_max)
  let y_orig_min := y.foldl (fun m yi => if yi < m then yi else m) dbl_max
  let y_orig_max := y.foldl (fun m yi => if yi > m then yi else m) (-dbl_max)
  let x_range := x_orig_max - x_orig_min
  let y_range := y_orig_max - y_orig_min
  let bb_pad : α := 2 / 100
  { min := ⟨x_orig_min - x_range * bb_pad, y_orig_min - y_range * bb_pad⟩
    max := ⟨x_orig_max + x_range * bb_pad, y_orig_max + y_range * bb_pad⟩ }

/-- Model of `jcv_point_on_edge`. -/
def jcv_point_on_edge (pt min max : jcv_point α) : Bool :=
  decide (pt.x = min.x) || decide (pt.y = min.y) || decide (pt.x = max.x) ||
    decide (pt.y = max.y)

/-- Model of `jcv_calc_sort_metric` for the site at `site_p` and the edge from
`pos0` to `pos1`; `atan2` and `pi` are `JCV_ATAN2` and `JCV_PI`. -/
def jcv_calc_sort_metric (atan2 : α → α → α) (pi : α) (site_p pos0 pos1 : jcv_point α) : α :=
  let half : α := 1 / 2
  let x := (pos0.x + pos1.x) * half
  let y := (pos0.y + pos1.y) * half
  let diffy := y - site_p.y
  let angle := atan2 diffy (x - site_p.x)
  if diffy < 0 then angle + 2 * pi else angle

/-- Model of `jcv_create_corner_edge`: the gap edge after `current`.  When none
of the four cases applies the source leaves `gap->pos[1]` as the allocation
returned it; `uninit` is that value. -/
def jcv_create_corner_edge (atan2 : α → α → α) (pi : α) (min max : jcv_point α)
    (uninit site_p : jcv_point α) (current : jcv_graphedge α) : jcv_graphedge α :=
  let pos0 := current.pos1
  let pos1 : jcv_point α :=
    if current.pos1.x < max.x ∧ current.pos1.y = min.y then ⟨max.x, min.y⟩
    else if current.pos1.x > min.x ∧ current.pos1.y = max.y then ⟨min.x, max.y⟩
    else if current.pos1.y > min.y ∧ current.pos1.x = min.x then ⟨min.x, min.y⟩
    else if current.pos1.y < max.y ∧ current.pos1.x = max.x then ⟨max.x, max.y⟩
    else uninit
  { neighbor := none, pos0 := pos0, pos1 := pos1,
    angle := jcv_calc_sort_metric atan2 pi site_p pos0 pos1 }

/-- The loop `while (current && next)` of `jcv_fillgaps` on the edge chain of one
site; `cur` is the position of `current` in the chain, `next` is the edge after
it or the head of the chain after the last one.  Every turn costs one unit of
fuel, and `none` says that the fuel did not suffice. -/
def jcv_fillgaps_loop (atan2 : α → α → α) (pi : α) (min max : jcv_point α)
    (uninit site_p : jcv_point α) : Nat → List (jcv_graphedge α) → Nat →
    Option (List (jcv_graphedge α))
  | 0, _, _ => none
  | fuel + 1, edges, cur =>
    match edges[cur]?, edges.head? with
    | some current, some head =>
      let next := (edges[cur + 1]?).getD head
      if jcv_point_on_edge current.pos1 min max = true ∧
          jcv_point_eq current.pos1 next.pos0 = false then
        if current.pos1.x = next.pos0.x ∨ current.pos1.y = next.pos0.y then
          let gap : jcv_graphedge α :=
            { neighbor := none, pos0 := current.pos1, pos1 := next.pos0,
              angle := jcv_calc_sort_metric atan2 pi site_p current.pos1 next.pos0 }
          jcv_fillgaps_loop atan2 pi min max uninit site_p fuel (edges.insertIdx (cur + 1) gap)
            (cur + 1)
        else if jcv_point_on_edge current.pos1 min max = true ∧
            jcv_point_on_edge next.pos0 min max = true then
          let gap := jcv_create_corner_edge atan2 pi min max uninit site_p current
          jcv_fillgaps_loop atan2 pi min max uninit site_p fuel (edges.insertIdx (cur + 1) gap)
            (cur + 1)
        else some edges
      else jcv_fillgaps_loop atan2 pi min max uninit site_p fuel edges (cur + 1)
    | _, _ => some edges

/-- The body of the loop over the sites in `jcv_fillgaps` for one site.  The
result is `none` when the assertion `numsites == 1` fails; `ndebug` says that
assertions are compiled out. -/
def jcv_fillgaps_site (atan2 : α → α → α) (pi : α) (ndebug : Bool) (fuel numsites : Nat)
    (min max uninit : jcv_point α) (site : jcv_site α) : Option (jcv_site α) :=
  let first : Option (List (jcv_graphedge α)) :=
    match site.edges with
    | [] =>
      if ndebug = false ∧ numsites ≠ 1 then none
      else
        some [{ neighbor := none, pos0 := min, pos1 := ⟨max.x, min.y⟩,
                angle := jcv_calc_sort_metric atan2 pi site.p min ⟨max.x, min.y⟩ }]
    | edges => some edges
  match first with
  | none => none
  | some edges =>
    let start : List (jcv_graphedge α) × Nat :=
      match edges with
      | [current] =>
        ([current, jcv_create_corner_edge atan2 pi min max uninit site.p current], 1)
      | edges => (edges, 0)
    match jcv_fillgaps_loop atan2 pi min max uninit site.p fuel start.1 start.2 with
    | none => none
    | some filled => some { site with edges := filled }

/-- The loop over the sites of `jcv_fillgaps`: it stops with `none` at the first
site whose body fails. -/
def jcv_fillgaps_sites (atan2 : α → α → α) (pi : α) (ndebug : Bool) (fuel numsites : Nat)
    (min max uninit : jcv_point α) : List (jcv_site α) → Option (List (jcv_site α))
  | [] => some []
  | site :: rest =>
    match jcv_fillgaps_site atan2 pi ndebug fuel numsites min max uninit site with
    | none => none
    | some filled =>
      match jcv_fillgaps_sites atan2 pi ndebug fuel numsites min max uninit rest with
      | none => none
      | some others => some (filled :: others)

/-- Model of `jcv_fillgaps`. -/
def jcv_fillgaps (atan2 : α → α → α) (pi : α) (ndebug : Bool) (fuel : Nat)
    (uninit : jcv_point α) (diagram : jcv_diagram α) : Option (jcv_diagram α) :=
  match jcv_fillgaps_sites atan2 pi ndebug fuel diagram.sites.length diagram.min diagram.max
      uninit diagram.sites with
  | none => none
  | some sites => some { diagram with sites := sites }

end VoronoiEdges

/-! ## The three collinear points of scenario S2 -/

deriving instance DecidableEq for jcv_point, jcv_graphedge, jcv_site

/-- The value of `std::numeric_limits<double>::max()`. -/
def dbl_max : ℚ := 2 ^ 1024 - 2 ^ 971

/-- The point collection with the points `(0,0)`, `(1,0)`, `(2,0)`. -/
def collinear_geoms : GeometryCollection ℚ :=
  { x := [0, 1, 2], y := [0, 0, 0], parts := [0, 1, 2], sizes := [1, 1, 1] }

/-- The seed sites of `collinear_geoms`; a point is its own centroid. -/
def collinear_points : List (jcv_point ℚ) := [⟨0, 0⟩, ⟨1, 0⟩, ⟨2, 0⟩]

/-- The bounding rectangle that `point_contiguity_weights` computes for
`collinear_geoms`. -/
def collinear_rect : jcv_rect ℚ :=
  point_bounding_box dbl_max collinear_geoms.x collinear_geoms.y

/-- The diagram of `collinear_points` in `collinear_rect` at the call of
`jcv_fillgaps` when no graph edge has been attached to a site: the site array,
which is in the order of `jcv_point_cmp` as it stands, after the pruning loop. -/
def collinear_sites : jcv_diagram ℚ :=
  { sites := jcv_prune (some collinear_rect) (jcv_init_sites collinear_points) 3
    min := collinear_rect.min
    max := collinear_rect.max }

/-- The flag that `jcv_edge_clipline` returns in `collinear_rect` for the edge
that `jcv_edge_create` makes for the sites at `s1` and `s2`, with the end points
`pos0` and `pos1` that the sweep has set. -/
def collinear_clip (s1 s2 : jcv_point ℚ) (pos0 pos1 : Option (jcv_point ℚ)) : Bool :=
  (jcv_edge_clipline { jcv_edge_create s1 s2 with pos0 := pos0, pos1 := pos1 }
    collinear_rect.min collinear_rect.max).1

/-! ## Edge chain of a site (`jcv_sortedges_insert`, `jcv_finishline`) -/

section SortedEdges

variable {α : Type} [LinearOrderedRing α]

/-- The loop of `jcv_sortedges_insert` over the chain after its head: the edges
that `current` passes, and the chain from `current->next` where the loop stops. -/
def sortedges_walk (edge : jcv_graphedge α) :
    List (jcv_graphedge α) → List (jcv_graphedge α) × List (jcv_graphedge α)
  | [] => ([], [])
  | next :: rest =>
    if next.angle < edge.angle then
      (next :: (sortedges_walk edge rest).1, (sortedges_walk edge rest).2)
    else ([], next :: rest)

/-- The place where `jcv_sortedges_insert` links `edge` into the chain `edges`:
the edges before it and the chain `edge->next`. -/
def sortedges_place (edges : List (jcv_graphedge α)) (edge : jcv_graphedge α) :
    List (jcv_graphedge α) × List (jcv_graphedge α) :=
  match edges with
  | [] => ([], [])
  | head :: rest =>
    if head.angle ≥ edge.angle then ([], head :: rest)
    else (head :: (sortedges_walk edge rest).1, (sortedges_walk edge rest).2)

/-- Model of `jcv_sortedges_insert` on the chain `site->edges`. -/
def jcv_sortedges_insert (edges : List (jcv_graphedge α)) (edge : jcv_graphedge α) :
    List (jcv_graphedge α) :=
  (sortedges_place edges edge).1 ++ edge :: (sortedges_place edges edge).2

/-- The body of the loop of `jcv_finishline` for one site after the graph edge `ge`
is filled in: `jcv_sortedges_insert`, then the removal of `ge->next` when it has
the angle and the two end points of `ge`. -/
def finishline_attach (edges : List (jcv_graphedge α)) (ge : jcv_graphedge α) :
    List (jcv_graphedge α) :=
  let place := sortedges_place edges ge
  let next_chain :=
    match place.2 with
    | [] => []
    | next :: rest =>
      if ge.angle = next.angle then
        if jcv_point_eq ge.pos0 next.pos0 = true ∧ jcv_point_eq ge.pos1 next.pos1 = true then rest
        else next :: rest
      else next :: rest
  place.1 ++ ge :: next_chain

end SortedEdges

/-- A chain of two graph edges in the order of their angles. -/
def sample_chain : List (jcv_graphedge Int) :=
  [⟨none, ⟨0, 0⟩, ⟨1, 0⟩, 1⟩, ⟨some 1, ⟨1, 0⟩, ⟨1, 1⟩, 3⟩]

/-- A graph edge with the angle and the end points of the second edge of
`sample_chain`. -/
def sample_edge : jcv_graphedge Int := ⟨some 2, ⟨1, 0⟩, ⟨1, 1⟩, 3⟩

/-- Two squares that touch in the point `(1,1)`, with an empty geometry between
them in the collection: the empty geometry takes the slot `1` of `parts`. -/
def squares_around_empty : GeometryCollection Int :=
  { x := [0, 1, 1, 0, 0, 1, 2, 2, 1, 1]
    y := [0, 0, 1, 1, 0, 1, 1, 2, 2, 1]
    parts := [0, 5, 5]
    sizes := [1, 0, 1] }

/-! ## Bucket count of `gYPartition` -/

/-- The start value of `gy` in `polygon_contiguity_weights_threshold`:
`static_cast<int>(sqrt(gRecords) + 2)`. -/
def initial_buckets (gRecords : Nat) : Nat := Nat.sqrt gRecords + 2

/-- The statement `gy = gy / 2 + 1` of the bucket loop. -/
def halve_buckets (gy : Nat) : Nat := gy / 2 + 1

/-- The point `p` lies in the closed rectangle from `min` to `max`. -/
def in_rect {α : Type} [LinearOrderedField α] (min max p : jcv_point α) : Prop :=
  min.x ≤ p.x ∧ p.x ≤ max.x ∧ min.y ≤ p.y ∧ p.y ≤ max.y

/-- The point `p` lies on the line `a*x + b*y = c` of the edge `e`. -/
def on_line {α : Type} [LinearOrderedField α] (e : jcv_edge α) (p : jcv_point α) : Prop :=
  e.a * p.x + e.b * p.y = e.c

deriving instance DecidableEq for jcv_edge

/-- The edge of the sites `(0,0)` and `(2,1)` as `jcv_edge_create` leaves it: the
line `x + y/2 = 5/4`, both end points invalid. -/
def sample_bisector : jcv_edge ℚ :=
  { site0 := ⟨0, 0⟩, site1 := some ⟨2, 1⟩, pos0 := none, pos1 := none, a := 1, b := 1 / 2,
    c := 5 / 4 }

/-! ## Event queue of the Voronoi engine (`jcv_pq_*`, `jc_voronoi.h`) -/

/-- The fields of a `jcv_halfedge` that the event queue reads and writes: the key
`y`, `vertex.x`, and the back-pointer `pqpos`. -/
structure jcv_halfedge (α : Type) where
  y : α
  vertex_x : α
  pqpos : Nat

/-- A `jcv_priorityqueue` together with the half-edges that its items point to:
`items` is the buffer of pointers, `he` the half-edge behind every pointer. -/
structure pq_state (α : Type) where
  maxnumitems : Nat
  numitems : Nat
  items : Nat → Nat
  he : Nat → jcv_halfedge α

section EventQueue

variable {α : Type} [LinearOrder α]

/-- Model of `jcv_halfedge_compare`. -/
def jcv_halfedge_compare (he1 he2 : jcv_halfedge α) : Bool :=
  if he1.y = he2.y then decide (he1.vertex_x > he2.vertex_x) else decide (he1.y > he2.y)

/-- The statement `items[pos] = node`. -/
def pq_set_item (st : pq_state α) (pos node : Nat) : pq_state α :=
  { st with items := Function.update st.items pos node }

/-- The statement `node->pqpos = pos`. -/
def pq_set_pqpos (st : pq_state α) (node pos : Nat) : pq_state α :=
  { st with he := Function.update st.he node { st.he node with pqpos := pos } }

/-- The `for` loop of `jcv_pq_moveup`; it halves `pos` in every turn, so that
`pos` turns suffice. -/
def pq_moveup_loop (node : Nat) : Nat → pq_state α → Nat → pq_state α × Nat
  | 0, st, pos => (st, pos)
  | fuel + 1, st, pos =>
    let parent := pos / 2
    if pos > 1 ∧ jcv_halfedge_compare (st.he (st.items parent)) (st.he node) = true then
      let st := pq_set_item st pos (st.items parent)
      let st := pq_set_pqpos st (st.items pos) pos
      pq_moveup_loop node fuel st parent
    else (st, pos)

/-- Model of `jcv_pq_moveup`: the queue after the call and the returned position. -/
def jcv_pq_moveup (st : pq_state α) (pos : Nat) : pq_state α × Nat :=
  let node := st.items pos
  let r := pq_moveup_loop node pos st pos
  let st := pq_set_pqpos r.1 node r.2
  (pq_set_item st r.2 node, r.2)

/-- Model of `jcv_pq_maxchild`. -/
def jcv_pq_maxchild (st : pq_state α) (pos : Nat) : Nat :=
  let child := 2 * pos
  if child ≥ st.numitems then 0
  else if child + 1 < st.numitems ∧
      jcv_halfedge_compare (st.he (st.items child)) (st.he (st.items (child + 1))) = true then
    child + 1
  else child

/-- The `while` loop of `jcv_pq_movedown`; `pos` grows in every turn and stays
below `numitems`, so that `numitems` turns suffice. -/
def pq_movedown_loop (node : Nat) : Nat → pq_state α → Nat → Nat → pq_state α × Nat
  | 0, st, pos, _ => (st, pos)
  | fuel + 1, st, pos, child =>
    if child ≠ 0 ∧ jcv_halfedge_compare (st.he node) (st.he (st.items child)) = true then
      let st := pq_set_item st pos (st.items child)
      let st := pq_set_pqpos st (st.items pos) pos
      pq_movedown_loop node fuel st child (jcv_pq_maxchild st child)
    else (st, pos)

/-- Model of `jcv_pq_movedown`: the queue after the call and the returned position. -/
def jcv_pq_movedown (st : pq_state α) (pos : Nat) : pq_state α × Nat :=
  let node := st.items pos
  let child := jcv_pq_maxchild st pos
  let r := pq_movedown_loop node st.numitems st pos child
  let st := pq_set_item r.1 r.2 node
  (pq_set_pqpos st (st.items r.2) r.2, r.2)

/-- Model of `jcv_pq_create` for the buffer `buffer`; `he` is the memory of the
half-edges. -/
def jcv_pq_create (capacity : Nat) (buffer : Nat → Nat) (he : Nat → jcv_halfedge α) :
    pq_state α :=
  { maxnumitems := capacity, numitems := 1, items := buffer, he := he }

/-- Model of `jcv_pq_empty`. -/
def jcv_pq_empty (st : pq_state α) : Bool := decide (st.numitems = 1)

/-- Model of `jcv_pq_push`; `none` when the assertion
`numitems < maxnumitems` fails. -/
def jcv_pq_push (st : pq_state α) (node : Nat) : Option (pq_state α × Nat) :=
  if st.numitems < st.maxnumitems then
    let n := st.numitems
    let st := { st with numitems := n + 1 }
    let st := pq_set_item st n node
    some (jcv_pq_moveup st n)
  else none

/-- Model of `jcv_pq_pop`: the returned pointer and the queue after the call. -/
def jcv_pq_pop (st : pq_state α) : Nat × pq_state α :=
  let node := st.items 1
  let st := { st with numitems := st.numitems - 1 }
  let st := pq_set_item st 1 (st.items st.numitems)
  (node, (jcv_pq_movedown st 1).1)

/-- Model of `jcv_pq_top`. -/
def jcv_pq_top (st : pq_state α) : Nat := st.items 1

/-- Model of `jcv_pq_remove`. -/
def jcv_pq_remove (st : pq_state α) (node : Nat) : pq_state α :=
  if st.numitems = 1 then st
  else
    let pos := (st.he node).pqpos
    if pos = 0 then st
    else
      let st := { st with numitems := st.numitems - 1 }
      let st := pq_set_item st pos (st.items st.numitems)
      let st :=
        if jcv_halfedge_compare (st.he node) (st.he (st.items pos)) = true then
          (jcv_pq_moveup st pos).1
        else (jcv_pq_movedown st pos).1
      pq_set_pqpos st node pos

end EventQueue

section EventQueueSpec

variable {α : Type} [LinearOrder α]

/-- The key of a half-edge in the event queue: the pair `(y, vertex.x)` in the
lexicographic order. -/
def pq_key (h : jcv_halfedge α) : α ×ₗ α := toLex (h.y, h.vertex_x)

/-- The half-edge behind the pointer `x` is stored in the queue, in one of the
slots `items[1 .. numitems)`. -/
def pq_mem (st : pq_state α) (x : Nat) : Prop :=
  ∃ i, 1 ≤ i ∧ i < st.numitems ∧ st.items i = x

/-- The slots `items[1 .. numitems)` are a binary min-heap under
`jcv_halfedge_compare`: no item compares as greater than its children. -/
def pq_heap (st : pq_state α) : Prop :=
  ∀ i, 2 ≤ i → i < st.numitems →
    jcv_halfedge_compare (st.he (st.items (i / 2))) (st.he (st.items i)) = false

/-- Every stored half-edge points back to its slot: `items[i]->pqpos == i`. -/
def pq_backptr (st : pq_state α) : Prop :=
  ∀ i, 1 ≤ i → i < st.numitems → (st.he (st.items i)).pqpos = i

/-- The invariant of the event queue. -/
def pq_inv (st : pq_state α) : Prop :=
  1 ≤ st.numitems ∧ pq_heap st ∧ pq_backptr st

/-- The buffer `items` read with `node` in the slot `pos`, the slot that the loops
of `jcv_pq_moveup` and `jcv_pq_movedown` keep free for `node`. -/
def pq_virtual (st : pq_state α) (pos node : Nat) : Nat → Nat :=
  Function.update st.items pos node

/-- What the loops of `jcv_pq_moveup` and `jcv_pq_movedown` keep while `node` is
held back for the slot `pos`: the keys are those of `kf`, every half-edge but
`node` points back to its slot, no pointer is stored twice, the stored pointers
are those of `Mem0`, and the half-edges outside of `Mem0` are those of `he0`. -/
def pq_hole (kf : Nat → α ×ₗ α) (Mem0 : Nat → Prop) (he0 : Nat → jcv_halfedge α) (node : Nat)
    (st : pq_state α) (pos : Nat) : Prop :=
  (∀ h, pq_key (st.he h) = kf h) ∧
  (∀ i, 1 ≤ i → i < st.numitems → i ≠ pos → (st.he (st.items i)).pqpos = i) ∧
  (∀ i j, 1 ≤ i → i < st.numitems → 1 ≤ j → j < st.numitems →
    pq_virtual st pos node i = pq_virtual st pos node j → i = j) ∧
  (∀ x, (∃ i, 1 ≤ i ∧ i < st.numitems ∧ pq_virtual st pos node i = x) ↔ Mem0 x) ∧
  (∀ x, ¬ Mem0 x → st.he x = he0 x)

/-- The order that `jcv_pq_moveup` keeps in the array `w` of `n` slots while the
item of the slot `pos` moves up: every item but the one at `pos` is not smaller
than its parent, and the children of `pos` are not smaller than its parent. -/
def up_ord (kf : Nat → α ×ₗ α) (w : Nat → Nat) (n pos : Nat) : Prop :=
  (∀ i, 2 ≤ i → i < n → i ≠ pos → kf (w (i / 2)) ≤ kf (w i)) ∧
  (∀ i, 2 ≤ i → i < n → i / 2 = pos → 2 ≤ pos → kf (w (pos / 2)) ≤ kf (w i))

/-- The order that `jcv_pq_movedown` keeps in the array `w` of `n` slots while the
item of the slot `pos` moves down: every item but the children of `pos` is not
smaller than its parent, and the children of `pos` are not smaller than its
parent. -/
def down_ord (kf : Nat → α ×ₗ α) (w : Nat → Nat) (n pos : Nat) : Prop :=
  (∀ i, 2 ≤ i → i < n → i / 2 ≠ pos → kf (w (i / 2)) ≤ kf (w i)) ∧
  (∀ i, 2 ≤ i → i < n → i / 2 = pos → 2 ≤ pos → kf (w (pos / 2)) ≤ kf (w i))

/-- The array `w` with the items of the slots `p` and `q` exchanged. -/
def swap_slots (w : Nat → Nat) (p q : Nat) : Nat → Nat :=
  fun i => if i = q then w p else if i = p then w q else w i

end EventQueueSpec

/-- What a call of the event queue leaves behind, from `st` to the queue `st'`:
the invariant holds, the stored pointers are those of `Mem`, no key has changed,
the capacity is the same, and a half-edge that is stored neither before nor
after the call is untouched. -/
def pq_post {α : Type} [LinearOrder α] (st st' : pq_state α) (Mem : Nat → Prop) : Prop :=
  pq_inv st' ∧ (∀ x, pq_mem st' x ↔ Mem x) ∧
    (∀ x, pq_key (st'.he x) = pq_key (st.he x)) ∧
    (∀ x, ¬ pq_mem st x → ¬ Mem x → st'.he x = st.he x) ∧
    st'.maxnumitems = st.maxnumitems

/-- The queues that calls of `jcv_pq_push`, `jcv_pq_pop` and `jcv_pq_remove` lead
to from a queue just created: a push of a half-edge that is not stored, within
the capacity; a pop from a queue that is not empty; a remove of a half-edge that
is stored or has `pqpos == 0`; between the calls a half-edge that is not stored
may be written (the engine sets its key before a push, and `jcv_halfedge_new`
sets `pqpos = 0`). -/
inductive pq_reachable {α : Type} [LinearOrder α] : pq_state α → Prop
  | create (capacity : Nat) (buffer : Nat → Nat) (he : Nat → jcv_halfedge α) :
      pq_reachable (jcv_pq_create capacity buffer he)
  | push (st : pq_state α) (h : Nat) (st' : pq_state α) (p : Nat) :
      pq_reachable st → ¬ pq_mem st h → jcv_pq_push st h = some (st', p) → pq_reachable st'
  | pop (st : pq_state α) : pq_reachable st → 1 < st.numitems → pq_reachable (jcv_pq_pop st).2
  | remove (st : pq_state α) (h : Nat) :
      pq_reachable st → pq_mem st h ∨ (st.he h).pqpos = 0 → pq_reachable (jcv_pq_remove st h)
  | write (st : pq_state α) (h : Nat) (v : jcv_halfedge α) :
      pq_reachable st → ¬ pq_mem st h →
      pq_reachable { st with he := Function.update st.he h v }

/-- The queue after `jcv_pq_push(node)`, the queue itself where the assertion
fails. -/
def pq_pushed {α : Type} [LinearOrder α] (st : pq_state α) (node : Nat) : pq_state α :=
  match jcv_pq_push st node with
  | some r => r.1
  | none => st

/-- A queue of capacity `4` just created; the half-edge behind the pointer `h` has
the key `(h % 3, 0)`. -/
def sample_queue0 : pq_state Int :=
  jcv_pq_create 4 (fun _ => 0) (fun h => ⟨(h : Int) % 3, 0, 0⟩)

/-- The queue `sample_queue0` after the pushes of the pointers `5` and `7`. -/
def sample_queue : pq_state Int := pq_pushed (pq_pushed sample_queue0 5) 7

instance pq_mem_decidable {α : Type} [LinearOrder α] (st : pq_state α) (x : Nat) :
    Decidable (pq_mem st x) :=
  decidable_of_iff (∃ i, i < st.numitems ∧ (1 ≤ i ∧ st.items i = x))
    ⟨fun ⟨i, h1, h2, h3⟩ => ⟨i, h2, h1, h3⟩, fun ⟨i, h1, h2, h3⟩ => ⟨i, h2, h1, h3⟩⟩

instance pq_heap_decidable {α : Type} [LinearOrder α] (st : pq_state α) :
    Decidable (pq_heap st) :=
  decidable_of_iff (∀ i, i < st.numitems → 2 ≤ i →
      jcv_halfedge_compare (st.he (st.items (i / 2))) (st.he (st.items i)) = false)
    ⟨fun h i h1 h2 => h i h2 h1, fun h i h1 h2 => h i h2 h1⟩

instance pq_backptr_decidable {α : Type} [LinearOrder α] (st : pq_state α) :
    Decidable (pq_backptr st) :=
  decidable_of_iff (∀ i, i < st.numitems → 1 ≤ i → (st.he (st.items i)).pqpos = i)
    ⟨fun h i h1 h2 => h i h2 h1, fun h i h1 h2 => h i h2 h1⟩

instance pq_inv_decidable {α : Type} [LinearOrder α] (st : pq_state α) :
    Decidable (pq_inv st) := by
  unfold pq_inv
  infer_instance

/-- A queue of capacity `16` just created; the half-edge behind the pointer `h` has
the key `(h, 0)`. -/
def trace_queue0 : pq_state Int :=
  jcv_pq_create 16 (fun _ => 0) (fun h => ⟨(h : Int), 0, 0⟩)

/-- The queue `trace_queue0` after the pushes of `1` and `20`, the remove of `20`,
and the pushes of `5`, `9`, `6`, `7`, `10`, `11` and `8`. -/
def trace_queue : pq_state Int :=
  [5, 9, 6, 7, 10, 11, 8].foldl pq_pushed
    (jcv_pq_remove (pq_pushed (pq_pushed trace_queue0 1) 20) 20)

/-- The successor `he->right` of a half-edge in the beach line, which is the list
`line` of the half-edges from `beachline_start` to `beachline_end` along the
`right` pointers; `0` is the null pointer. -/
def he_right : List Nat → Nat → Nat
  | [], _ => 0
  | [_], _ => 0
  | a :: b :: t, he => if a = he then b else he_right (b :: t) he

/-- The predecessor `he->left` of a half-edge in the beach line; `0` is the null
pointer. -/
def he_left : List Nat → Nat → Nat
  | [], _ => 0
  | [_], _ => 0
  | a :: b :: t, he => if b = he then a else he_left (b :: t) he

/-- Model of `jcv_halfedge_link`: `newedge` becomes the right neighbour of `edge`. -/
def jcv_halfedge_link : List Nat → Nat → Nat → List Nat
  | [], _, _ => []
  | a :: t, edge, newedge =>
    if a = edge then a :: newedge :: t else a :: jcv_halfedge_link t edge newedge

/-- Model of `jcv_halfedge_unlink`: the neighbours of `he` are joined. -/
def jcv_halfedge_unlink (line : List Nat) (he : Nat) : List Nat := line.erase he

/-- The state of the sweep in `jcv_context_internal`. Half-edges are pointers
(`0` is null); their fields `y`, `vertex.x` and `pqpos` are in the store
`eventqueue.he`, `has_edge` says whether `he->edge` is not null, and the `left`
and `right` pointers of the half-edges between the two sentinels are the list
`line`. `next_halfedge` is the address that `jcv_alloc` hands out next. -/
structure jcv_context_internal (α : Type) where
  beachline_start : Nat
  beachline_end : Nat
  line : List Nat
  last_inserted : Nat
  halfedgepool : List Nat
  next_halfedge : Nat
  has_edge : Nat → Bool
  eventqueue : pq_state α
  numsites : Nat
  currentsite : Nat

/-- The answers that one turn of the main loop of `jcv_diagram_generate` gets
from the coordinates: `site_less` is `jcv_point_less(&site->p, &lowest_pq_point)`,
`low_half` the test `p->x < (max.x - min.x) / 2`, `rightof he` the answer of
`jcv_halfedge_rightof(he, p)`; `hit1` and `hit2` are the answers of the two calls
of `jcv_check_circle_event` once both half-edges have an edge (the comparison of
the sites and `jcv_halfedge_intersect`), and `(y1, x1)`, `(y2, x2)` the keys
`(y, vertex.x)` that the event writes before the push. -/
structure sweep_answers (α : Type) where
  site_less : Bool
  low_half : Bool
  rightof : Nat → Bool
  hit1 : Bool
  y1 : α
  x1 : α
  hit2 : Bool
  y2 : α
  x2 : α

/-- The outcome of a run of the main loop: `finished` when the loop has ended,
`running` when the answers given are used up before that, `failed` when an
assertion fails or a null pointer is read. -/
inductive sweep_result (σ : Type) where
  | finished : σ → sweep_result σ
  | running : σ → sweep_result σ
  | failed : sweep_result σ

section Sweep

variable {α : Type} [LinearOrder α]

/-- Model of `jcv_alloc_halfedge`: the head of the pool, a new address when the
pool is empty. -/
def jcv_alloc_halfedge (c : jcv_context_internal α) : Nat × jcv_context_internal α :=
  match c.halfedgepool with
  | he :: pool => (he, { c with halfedgepool := pool })
  | [] => (c.next_halfedge, { c with next_halfedge := c.next_halfedge + 1 })

/-- Model of `jcv_halfedge_new`; `edge` says whether the edge given is not null. -/
def jcv_halfedge_new (c : jcv_context_internal α) (edge : Bool) :
    Nat × jcv_context_internal α :=
  let r := jcv_alloc_halfedge c
  (r.1, { r.2 with has_edge := Function.update r.2.has_edge r.1 edge,
                   eventqueue := pq_set_pqpos r.2.eventqueue r.1 0 })

/-- Model of `jcv_halfedge_delete`: the half-edge goes to the pool. -/
def jcv_halfedge_delete (c : jcv_context_internal α) (he : Nat) : jcv_context_internal α :=
  { c with halfedgepool := he :: c.halfedgepool }

/-- Model of `jcv_nextsite`: the index of the next site, `none` for the null
pointer. -/
def jcv_nextsite (c : jcv_context_internal α) : Option Nat × jcv_context_internal α :=
  if c.currentsite < c.numsites then
    (some c.currentsite, { c with currentsite := c.currentsite + 1 })
  else (none, c)

/-- The first loop of `jcv_get_edge_above_x`:
`do he = he->right; while (he != beachline_end && rightof(he, p))`. -/
def walk_right (rightof : Nat → Bool) (line : List Nat) (beachline_end : Nat) :
    Nat → Nat → Option Nat
  | 0, _ => none
  | fuel + 1, he =>
    let he := he_right line he
    if he = 0 then none
    else if he ≠ beachline_end ∧ rightof he = true then
      walk_right rightof line beachline_end fuel he
    else some he

/-- The second loop of `jcv_get_edge_above_x`:
`do he = he->left; while (he != beachline_start && !rightof(he, p))`. -/
def walk_left (rightof : Nat → Bool) (line : List Nat) (beachline_start : Nat) :
    Nat → Nat → Option Nat
  | 0, _ => none
  | fuel + 1, he =>
    let he := he_left line he
    if he = 0 then none
    else if he ≠ beachline_start ∧ rightof he = false then
      walk_left rightof line beachline_start fuel he
    else some he

/-- Model of `jcv_get_edge_above_x`; `none` when a loop reads a null pointer. -/
def jcv_get_edge_above_x (a : sweep_answers α) (c : jcv_context_internal α) : Option Nat :=
  let he :=
    if c.last_inserted = 0 then
      if a.low_half = true then c.beachline_start else c.beachline_end
    else c.last_inserted
  if he = c.beachline_start ∨ (he ≠ c.beachline_end ∧ a.rightof he = true) then
    match walk_right a.rightof c.line c.beachline_end c.line.length he with
    | none => none
    | some he => some (he_left c.line he)
  else walk_left a.rightof c.line c.beachline_start c.line.length he

/-- Model of `jcv_check_circle_event`: `0` when one of the half-edges has no
edge, the answer `hit` otherwise. -/
def jcv_check_circle_event (c : jcv_context_internal α) (hit : Bool) (he1 he2 : Nat) : Bool :=
  if c.has_edge he1 = false ∨ c.has_edge he2 = false then false else hit

/-- The writes `he->vertex = p; he->y = ...` of an event on the fields of the key. -/
def pq_set_key (st : pq_state α) (node : Nat) (y x : α) : pq_state α :=
  { st with he := Function.update st.he node { st.he node with y := y, vertex_x := x } }

/-- The call `jcv_pq_push(internal->eventqueue, he)` of an event after its key is
written; `none` when the assertion of `jcv_pq_push` fails. -/
def push_event (c : jcv_context_internal α) (he : Nat) (y x : α) :
    Option (jcv_context_internal α) :=
  match jcv_pq_push (pq_set_key c.eventqueue he y x) he with
  | some r => some { c with eventqueue := r.1 }
  | none => none

/-- The end of `jcv_site_event` and of `jcv_circle_event`, the same statements in
both: `if (jcv_check_circle_event(he1, he2, &p))` the half-edge `he1` is removed
from the queue, gets its new key and is pushed, and then
`if (jcv_check_circle_event(he3, he4, &p))` the half-edge `he3` gets its key and
is pushed. -/
def check_circle_events (a : sweep_answers α) (c : jcv_context_internal α)
    (he1 he2 he3 he4 : Nat) : Option (jcv_context_internal α) :=
  let c1 :=
    if jcv_check_circle_event c a.hit1 he1 he2 = true then
      push_event { c with eventqueue := jcv_pq_remove c.eventqueue he1 } he1 a.y1 a.x1
    else some c
  match c1 with
  | none => none
  | some c =>
    if jcv_check_circle_event c a.hit2 he3 he4 = true then push_event c he3 a.y2 a.x2
    else some c

/-- Model of `jcv_site_event`; `none` when a null pointer is read or the assertion
of `jcv_pq_push` fails. -/
def jcv_site_event (a : sweep_answers α) (c : jcv_context_internal α) :
    Option (jcv_context_internal α) :=
  match jcv_get_edge_above_x a c with
  | none => none
  | some left =>
    let right := he_right c.line left
    if left = 0 ∨ right = 0 then none
    else
      let r1 := jcv_halfedge_new c true
      let edge1 := r1.1
      let r2 := jcv_halfedge_new r1.2 true
      let edge2 := r2.1
      let c := r2.2
      let c := { c with line := jcv_halfedge_link (jcv_halfedge_link c.line left edge1) edge1 edge2 }
      let c := { c with last_inserted := right }
      check_circle_events a c left edge1 edge2 right

/-- Model of `jcv_circle_event`; `none` when a null pointer is read or the
assertion of `jcv_pq_push` fails. -/
def jcv_circle_event (a : sweep_answers α) (c : jcv_context_internal α) :
    Option (jcv_context_internal α) :=
  let r := jcv_pq_pop c.eventqueue
  let left := r.1
  let c := { c with eventqueue := r.2 }
  let leftleft := he_left c.line left
  let right := he_right c.line left
  let rightright := he_right c.line right
  if left = 0 ∨ right = 0 ∨ c.has_edge left = false ∨ c.has_edge right = false
      ∨ leftleft = 0 ∨ rightright = 0 then none
  else
    let c := { c with last_inserted := rightright }
    let c := { c with eventqueue := jcv_pq_remove c.eventqueue right }
    let c := { c with line := jcv_halfedge_unlink (jcv_halfedge_unlink c.line left) right }
    let c := jcv_halfedge_delete (jcv_halfedge_delete c left) right
    let r := jcv_halfedge_new c true
    let he := r.1
    let c := r.2
    let c := { c with line := jcv_halfedge_link c.line leftleft he }
    check_circle_events a c leftleft he he rightright

/-- One turn of the main loop of `jcv_diagram_generate_useralloc`, on the context
and the local variable `site`. -/
def jcv_sweep_step (a : sweep_answers α) (c : jcv_context_internal α) (site : Option Nat) :
    sweep_result (jcv_context_internal α × Option Nat) :=
  if site.isSome = true ∧ (jcv_pq_empty c.eventqueue = true ∨ a.site_less = true) then
    match jcv_site_event a c with
    | none => sweep_result.failed
    | some c => sweep_result.running ((jcv_nextsite c).2, (jcv_nextsite c).1)
  else if jcv_pq_empty c.eventqueue = false then
    match jcv_circle_event a c with
    | none => sweep_result.failed
    | some c => sweep_result.running (c, site)
  else sweep_result.finished (c, site)

/-- The main loop `while (!finished)` of `jcv_diagram_generate_useralloc`, one
element of `answers` for each turn. -/
def jcv_sweep_loop :
    List (sweep_answers α) → jcv_context_internal α → Option Nat →
      sweep_result (jcv_context_internal α)
  | [], c, _ => sweep_result.running c
  | a :: rest, c, site =>
    match jcv_sweep_step a c site with
    | sweep_result.failed => sweep_result.failed
    | sweep_result.finished s => sweep_result.finished s.1
    | sweep_result.running s => jcv_sweep_loop rest s.1 s.2

/-- The context of `jcv_diagram_generate_useralloc` before the first site is
taken: the two sentinels without an edge, the queue of capacity
`max_num_events = num_points * 2`, and `numsites = num_points - offset` sites
after the pruning. -/
def jcv_sweep_init (num_points offset : Nat) (buffer : Nat → Nat)
    (store : Nat → jcv_halfedge α) : jcv_context_internal α :=
  { beachline_start := 1
    beachline_end := 2
    line := [1, 2]
    last_inserted := 0
    halfedgepool := []
    next_halfedge := 3
    has_edge := fun _ => false
    eventqueue := pq_set_pqpos (pq_set_pqpos (jcv_pq_create (num_points * 2) buffer store) 1 0) 2 0
    numsites := num_points - offset
    currentsite := 0 }

/-- The sweep of `jcv_diagram_generate_useralloc` up to the end of the main loop:
the bottom site and the first site are taken, then the loop runs. -/
def jcv_diagram_generate_useralloc (num_points offset : Nat) (buffer : Nat → Nat)
    (store : Nat → jcv_halfedge α) (answers : List (sweep_answers α)) :
    sweep_result (jcv_context_internal α) :=
  let c := jcv_sweep_init num_points offset buffer store
  let c := (jcv_nextsite c).2
  let r := jcv_nextsite c
  jcv_sweep_loop answers r.2 r.1

end Sweep

/-- The invariant of the sweep for a run on `num_points` points with `r` site
events to come: the beach line runs from `beachline_start` to `beachline_end`
without a repetition; the pool holds other, distinct half-edges; the sentinels
are the half-edges of the line without an edge; the queue satisfies its
invariant and has the capacity `2 * num_points`; every queued half-edge is on
the line and it and its right neighbour have an edge; the half-edges of the
line that are not queued have `pqpos == 0`; and the line holds at most
`2 * numsites` half-edges, the two sentinels among them, once the site events
to come have added theirs, where `numsites ≤ num_points`. -/
structure sweep_inv {α : Type} [LinearOrder α] (num_points : Nat)
    (c : jcv_context_internal α) (r : Nat) : Prop where
  start_ne : c.beachline_start ≠ c.beachline_end
  head : c.line.head? = some c.beachline_start
  last : c.line.getLast? = some c.beachline_end
  nodup : c.line.Nodup
  live : ∀ x ∈ c.line, x ≠ 0 ∧ x < c.next_halfedge
  pool : ∀ x ∈ c.halfedgepool, x ≠ 0 ∧ x < c.next_halfedge ∧ x ∉ c.line
  pool_nodup : c.halfedgepool.Nodup
  edge_iff : ∀ x ∈ c.line,
    c.has_edge x = false ↔ (x = c.beachline_start ∨ x = c.beachline_end)
  queue : pq_inv c.eventqueue
  cap : c.eventqueue.maxnumitems = num_points * 2
  stored : ∀ x, pq_mem c.eventqueue x →
    x ∈ c.line ∧ c.has_edge x = true ∧ c.has_edge (he_right c.line x) = true
  idle : ∀ x ∈ c.line, ¬ pq_mem c.eventqueue x → (c.eventqueue.he x).pqpos = 0
  last_ins : c.last_inserted = 0 ∨ c.last_inserted ∈ c.line
  count : c.line.length + 2 * r ≤ 2 * c.numsites ∨ (c.line.length = 2 ∧ r = 0)
  sites_le : c.numsites ≤ num_points

/-- The number of site events to come in the main loop: the sites that
`jcv_nextsite` has not handed out, and the local variable `site` when it is not
null. -/
def sites_left {α : Type} (c : jcv_context_internal α) (site : Option Nat) : Nat :=
  c.numsites - c.currentsite + (if site.isSome = true then 1 else 0)

/-- Answers for three turns of the main loop: a site event that walks to the
right end of the beach line, a site event that walks to its left end, and a
circle event; every `jcv_check_circle_event` with two edges answers yes. -/
def sample_answers : List (sweep_answers Int) :=
  [⟨true, true, fun _ => true, true, 10, 0, true, 11, 0⟩,
   ⟨true, true, fun _ => false, true, 20, 0, true, 21, 0⟩,
   ⟨true, true, fun _ => false, true, 30, 0, true, 31, 0⟩]

/-! ## Candidates of the tolerant engine -/

section Candidates

variable {α β μ : Type} [LinearOrderedRing α]

/-- The sweep `for step` of `polygon_contiguity_weights_threshold` with the pairs
`(curr, nbr)` that the loop `while (!neighbors.empty())` hands to the bounding-box
filter and the sweep test, in the order of the `curr`; the state is the pair of
`gYPartition` and the pairs so far. The partition goes through the same calls
as in `threshold_sweep`. -/
def threshold_candidates (ops : PartitionOps α β μ) (gMinX gMaxX : β) (gY : μ) :
    μ × List (Nat × Nat) :=
  (List.range (ops.base_cells gMinX)).foldl
    (fun st step =>
      let gY := (ops.base_chain gMinX step).foldl (fun part curr => ops.m_include part curr) st.1
      (ops.base_chain gMaxX step).foldl
        (fun st curr =>
          let neighbors := collect_neighbors ops st.1 curr
          (ops.m_remove st.1 curr, st.2 ++ neighbors.map (fun nbr => (curr, nbr))))
        (gY, st.2))
    (gY, [])

/-- The candidate pairs of a call of `polygon_contiguity_weights_threshold`: the
partitions are built as in that function; `none` in the same cases. -/
def polygon_threshold_candidates (ops : PartitionOps α β μ) (fuel : Nat)
    (geoms : GeometryCollection α) : Option (List (Nat × Nat)) :=
  let gRecords := geoms.size
  match min_element geoms.x, max_element geoms.x, min_element geoms.y, max_element geoms.y with
  | some shp_min_x, some shp_max_x, some shp_min_y, some shp_max_y =>
    let shp_x_len := shp_max_x - shp_min_x
    let shp_y_len := shp_max_y - shp_min_y
    let gx := gRecords / 8 + 2
    let gX := x_partitions ops geoms gRecords gx shp_x_len shp_min_x
    let gy := Nat.sqrt gRecords + 2
    match y_partition_loop ops geoms gRecords shp_y_len shp_min_y fuel gy with
    | some gYPartition => some (threshold_candidates ops gX.1 gX.2 gYPartition).2
    | none => none
  | _, _, _, _ => none

end Candidates

/-- Modelled from the spec: the bucket of a coordinate in section 4.5,
`floor(coord · num_buckets / axis_length)`. -/
def spec_bucket (num_buckets : Nat) (axis_length coord : Int) : Nat :=
  (Int.fdiv (coord * num_buckets) axis_length).toNat

/-- Modelled from the spec: the state of a `BasePartition` of section 4.5, the
number of buckets, the axis length and the chain of every bucket. -/
structure spec_base where
  cells : Nat
  len : Int
  chain : Nat → List Nat

/-- Modelled from the spec: the state of a `PartitionM` of section 4.5, the
number of items and of buckets, the axis length, the bucket span of every id
and the chain of the active ids of every bucket. -/
structure spec_m where
  items : Nat
  cells : Nat
  len : Int
  lowest : Nat → Nat
  upmost : Nat → Nat
  chain : Nat → List Nat

/-- Modelled from the spec: `bbox(i)` of section 6, the least and the greatest
coordinates of the points of geometry `i`. -/
def spec_get_bbox (geoms : GeometryCollection Int) (i : Nat) : box_type Int :=
  match (List.range (get_num_points geoms i)).map (get_point geoms i) with
  | [] => { min_corner := (0, 0), max_corner := (0, 0) }
  | p :: rest =>
    rest.foldl
      (fun b q =>
        { min_corner := (min b.min_corner.1 q.1, min b.min_corner.2 q.2)
          max_corner := (max b.max_corner.1 q.1, max b.max_corner.2 q.2) })
      { min_corner := p, max_corner := p }

/-- Modelled from the spec: the partition classes as section 4.5 describes them.
`include(id, coord)` of a `BasePartition` puts `id` at the head of the chain of
its bucket; `initIx` of a `PartitionM` stores the bucket span of the id,
`include` and `remove` put the id at the head of, and take it out of, the chain
of every bucket of its span, and `Sum()` adds `upmost - lowest + 1` over the
ids. The sweep test of a pair is not described there and accepts every pair. -/
def spec_partition_ops : PartitionOps Int spec_base spec_m where
  base_alloc := fun _ num_buckets len => { cells := num_buckets, len := len, chain := fun _ => [] }
  base_include := fun b id c =>
    { b with chain := Function.update b.chain (spec_bucket b.cells b.len c)
                        (id :: b.chain (spec_bucket b.cells b.len c)) }
  base_cells := fun b => b.cells
  base_chain := fun b step => b.chain step
  m_new := fun n num_buckets len =>
    { items := n, cells := num_buckets, len := len, lowest := fun _ => 0, upmost := fun _ => 0,
      chain := fun _ => [] }
  m_initIx := fun m id lwr upr =>
    { m with lowest := Function.update m.lowest id (spec_bucket m.cells m.len lwr)
             upmost := Function.update m.upmost id (spec_bucket m.cells m.len upr) }
  m_sum := fun m => ((List.range m.items).map (fun id => m.upmost id - m.lowest id + 1)).sum
  m_include := fun m id =>
    { m with chain := fun cell =>
                if m.lowest id ≤ cell ∧ cell ≤ m.upmost id then id :: m.chain cell
                else m.chain cell }
  m_remove := fun m id =>
    { m with chain := fun cell =>
                if m.lowest id ≤ cell ∧ cell ≤ m.upmost id then (m.chain cell).erase id
                else m.chain cell }
  m_lowest := fun m id => m.lowest id
  m_upmost := fun m id => m.upmost id
  m_chain := fun m cell => m.chain cell
  get_bbox := spec_get_bbox
  sweep := fun _ _ _ _ _ => true

/-- Three rectangles: `0` is `[0, 10] × [0, 70]`, `1` is `[5, 20] × [0, 70]`, which
overlaps it, and `2` is `[90, 100] × [90, 100]`. -/
def tall_rectangles : GeometryCollection Int :=
  { x := [0, 10, 10, 0, 0, 5, 20, 20, 5, 5, 90, 100, 100, 90, 90]
    y := [0, 0, 70, 70, 0, 0, 0, 70, 70, 0, 90, 90, 100, 100, 90]
    parts := [0, 5, 10]
    sizes := [1, 1, 1] }

/-- Three rectangles: `0` is `[0, 10] × [0, 10]`, `1` is `[5, 20] × [50, 60]`, whose
x-extent overlaps that of `0`, and `2` is `[90, 100] × [90, 100]`. -/
def stacked_rectangles : GeometryCollection Int :=
  { x := [0, 10, 10, 0, 0, 5, 20, 20, 5, 5, 90, 100, 100, 90, 90]
    y := [0, 0, 10, 10, 0, 50, 50, 60, 60, 50, 90, 90, 100, 100, 90]
    parts := [0, 5, 10]
    sizes := [1, 1, 1] }

/-- Thirty-six geometries of one part each, every one the segment from `(0,0)`
to `(0,1)`, as high as the whole map. -/
def full_height_strips : GeometryCollection Int :=
  { x := List.replicate 72 0
    y := (List.range 72).map (fun k => ((k % 2 : Nat) : Int))
    parts := (List.range 36).map (fun i => 2 * i)
    sizes := List.replicate 36 1 }

/-! ## Vertex coincidence (`points_equals`) -/

/-- The `double` nearest to a rational number, ties going to the even
significand of 53 bits (the rounding of the arithmetic of `double`).  A finite
`double` is a rational that the function leaves unchanged.  The exponent has no
bound here: a difference of two doubles below the normal range is a double
itself and is not rounded, and one beyond the largest double is above every
finite threshold, as the infinity of the source is. -/
def round_to_double (q : ℚ) : ℚ :=
  if q = 0 then 0
  else
    let e : Int := Int.log 2 |q|
    let ulp : ℚ := (2 : ℚ) ^ (e - 52)
    let m : ℚ := |q| / ulp
    let f : Int := ⌊m⌋
    let n : Int :=
      if m - f < 1 / 2 then f
      else if 1 / 2 < m - f then f + 1
      else if f % 2 = 0 then f else f + 1
    (if q < 0 then -1 else 1) * ((n : ℚ) * ulp)

/-- Model of `geoda::points_equals`; a `point_type` is the pair of its
coordinates, which are doubles, and each subtraction gives the double nearest
to the difference. -/
def points_equals (p1 p2 : ℚ × ℚ) (precision_threshold : ℚ) : Bool :=
  decide (|round_to_double (p1.1 - p2.1)| ≤ precision_threshold) &&
    decide (|round_to_double (p1.2 - p2.2)| ≤ precision_threshold)

/-- The closed unit square and the closed square from `(1, 1)` to `(2, 2)`, which
meet in the corner `(1, 1)` only. -/
def corner_boxes : box_type Int × box_type Int :=
  ({ min_corner := (0, 0), max_corner := (1, 1) }, { min_corner := (1, 1), max_corner := (2, 2) })

/-! ## UTM conversion (`utils/UTM.h`) -/

/-- Model of `UTM::UTMLetterDesignator`. -/
def UTMLetterDesignator {α : Type} [LinearOrderedRing α] (Lat : α) : Char :=
  if (84 ≥ Lat) ∧ (Lat ≥ 72) then 'X'
  else if (72 > Lat) ∧ (Lat ≥ 64) then 'W'
  else if (64 > Lat) ∧ (Lat ≥ 56) then 'V'
  else if (56 > Lat) ∧ (Lat ≥ 48) then 'U'
  else if (48 > Lat) ∧ (Lat ≥ 40) then 'T'
  else if (40 > Lat) ∧ (Lat ≥ 32) then 'S'
  else if (32 > Lat) ∧ (Lat ≥ 24) then 'R'
  else if (24 > Lat) ∧ (Lat ≥ 16) then 'Q'
  else if (16 > Lat) ∧ (Lat ≥ 8) then 'P'
  else if (8 > Lat) ∧ (Lat ≥ 0) then 'N'
  else if (0 > Lat) ∧ (Lat ≥ -8) then 'M'
  else if (-8 > Lat) ∧ (Lat ≥ -16) then 'L'
  else if (-16 > Lat) ∧ (Lat ≥ -24) then 'K'
  else if (-24 > Lat) ∧ (Lat ≥ -32) then 'J'
  else if (-32 > Lat) ∧ (Lat ≥ -40) then 'H'
  else if (-40 > Lat) ∧ (Lat ≥ -48) then 'G'
  else if (-48 > Lat) ∧ (Lat ≥ -56) then 'F'
  else if (-56 > Lat) ∧ (Lat ≥ -64) then 'E'
  else if (-64 > Lat) ∧ (Lat ≥ -72) then 'D'
  else if (-72 > Lat) ∧ (Lat ≥ -80) then 'C'
  else 'Z'

/-- The least latitude of the band that a letter of `UTMLetterDesignator` stands
for, `84` for a character that is no band letter. -/
def utm_band_floor (c : Char) : Int :=
  if c = 'X' then 72
  else if c = 'W' then 64
  else if c = 'V' then 56
  else if c = 'U' then 48
  else if c = 'T' then 40
  else if c = 'S' then 32
  else if c = 'R' then 24
  else if c = 'Q' then 16
  else if c = 'P' then 8
  else if c = 'N' then 0
  else if c = 'M' then -8
  else if c = 'L' then -16
  else if c = 'K' then -24
  else if c = 'J' then -32
  else if c = 'H' then -40
  else if c = 'G' then -48
  else if c = 'F' then -56
  else if c = 'E' then -64
  else if c = 'D' then -72
  else if c = 'C' then -80
  else 84

/-- The letters of the latitude bands, from south to north. -/
def utm_band_letters : List Char :=
  ['C', 'D', 'E', 'F', 'G', 'H', 'J', 'K', 'L', 'M', 'N', 'P', 'Q', 'R', 'S', 'T', 'U', 'V', 'W', 'X']

/-- The conversion `static_cast<int>(x)` of a `double`: the integer next to `x`
toward zero, `none` where it is not a value of a 32-bit `int` (the conversion is
undefined there). -/
def static_cast_int {α : Type} [LinearOrderedField α] [FloorRing α] (x : α) : Option Int :=
  let t : Int := if 0 ≤ x then ⌊x⌋ else ⌈x⌉
  if -2147483648 ≤ t ∧ t ≤ 2147483647 then some t else none

/-- The local variable `LongTemp` of `UTM::LLtoUTM`,
`(Long + 180) - static_cast<int>((Long + 180) / 360) * 360 - 180`, in exact
arithmetic; `none` where the conversion or the product of the two `int` leaves
the range of `int`. -/
def LLtoUTM_LongTemp {α : Type} [LinearOrderedField α] [FloorRing α] (Long : α) : Option α :=
  match static_cast_int ((Long + 180) / 360) with
  | none => none
  | some t =>
    if -2147483648 ≤ t * 360 ∧ t * 360 ≤ 2147483647 then
      some ((Long + 180) - ((t * 360 : Int) : α) - 180)
    else none

/-! ## Polygons read back from a collection (`geometry.cpp`) -/

/-- The four arrays of a `Polygon`: coordinates, one entry of `parts` and of
`holes` for every ring. -/
structure Polygon (α : Type) where
  x : List α
  y : List α
  parts : List Nat
  holes : List Bool
deriving DecidableEq

section PolygonAccess

variable {α ζ : Type} [LinearOrderedRing α]

/-- Model of `Polygon::add`: the ring is appended, its start offset is pushed on
`parts` before the coordinates are copied. -/
def Polygon.add (poly : Polygon α) (in_x in_y : List α) (is_hole : Bool) : Polygon α :=
  if in_x.length = in_y.length then
    { x := poly.x ++ in_x
      y := poly.y ++ in_y
      parts := poly.parts ++ [if poly.parts.isEmpty then 0 else poly.x.length]
      holes := poly.holes ++ [is_hole] }
  else poly

/-- Model of `GeometryCollection::ConvertToUTM`: the pair `(north, east)` and the
new state of `utm_zones`.  `LLtoUTM lat lng zone` stands for `UTM::LLtoUTM`, which
computes the zone when the given one is empty (`none`) and returns northing,
easting and the zone. -/
def ConvertToUTM (LLtoUTM : α → α → Option ζ → α × α × ζ) (utm_zones : List (Option ζ))
    (index : Nat) (lat lng : α) : (α × α) × List (Option ζ) :=
  match utm_zones.getD index none with
  | none =>
    let r := LLtoUTM lat lng none
    ((r.1, r.2.1), utm_zones.set index (some r.2.2))
  | some zone =>
    let r := LLtoUTM lat lng (some zone)
    ((r.1, r.2.1), utm_zones)

/-- The first loop of `PolygonCollection::get_polygon`: the slot `part_index` of
`parts` where the rings are read.  The test is on `num_parts`, the number of
parts of polygon `polygon_index`, for every `i`. -/
def get_polygon_part_index (geoms : GeometryCollection α) (polygon_index : Nat) : Nat :=
  let num_parts := geoms.sizes.getD polygon_index 0
  (List.range polygon_index).foldl
    (fun part_index i => part_index + (if num_parts = 0 then 1 else geoms.sizes.getD i 0)) 0

/-- Body of the loop over `k` in `get_polygon`: one point is pushed on `poly.x`
and `poly.y`. -/
def get_polygon_point (geoms : GeometryCollection α) (convert_to_UTM : Bool)
    (LLtoUTM : α → α → Option ζ → α × α × ζ) (polygon_index : Nat)
    (st : Polygon α × List (Option ζ)) (k : Nat) : Polygon α × List (Option ζ) :=
  let lat := geoms.y.getD k 0
  let lng := geoms.x.getD k 0
  if convert_to_UTM then
    let r := ConvertToUTM LLtoUTM st.2 polygon_index lat lng
    ({ st.1 with x := st.1.x ++ [r.1.2], y := st.1.y ++ [r.1.1] }, r.2)
  else
    ({ st.1 with x := st.1.x ++ [lng], y := st.1.y ++ [lat] }, st.2)

/-- Body of the loop over `j` in `get_polygon`: the points of slot `j` are
copied, then `parts` and `holes` get their entry. -/
def get_polygon_ring (geoms : GeometryCollection α) (holes : List Bool) (convert_to_UTM : Bool)
    (LLtoUTM : α → α → Option ζ → α × α × ζ) (polygon_index : Nat)
    (st : Polygon α × List (Option ζ)) (j : Nat) : Polygon α × List (Option ζ) :=
  let start := geoms.parts.getD j 0
  let stop := if j + 1 = geoms.parts.length then geoms.x.length else geoms.parts.getD (j + 1) 0
  let st := (List.range' start (stop - start)).foldl
    (get_polygon_point geoms convert_to_UTM LLtoUTM polygon_index) st
  ({ st.1 with
      parts := st.1.parts ++ [if st.1.parts.isEmpty then 0 else st.1.x.length]
      holes := st.1.holes ++ [holes.getD j false] }, st.2)

/-- Model of `PolygonCollection::get_polygon`: the polygon `poly` after the call
and the new state of `utm_zones`. -/
def get_polygon (geoms : GeometryCollection α) (holes : List Bool) (convert_to_UTM : Bool)
    (LLtoUTM : α → α → Option ζ → α × α × ζ) (utm_zones : List (Option ζ))
    (polygon_index : Nat) (poly : Polygon α) : Polygon α × List (Option ζ) :=
  let num_parts := geoms.sizes.getD polygon_index 0
  let part_index := get_polygon_part_index geoms polygon_index
  (List.range' part_index num_parts).foldl
    (get_polygon_ring geoms holes convert_to_UTM LLtoUTM polygon_index) (poly, utm_zones)

/-- The x coordinates stored in slot `j` of `parts`. -/
def ring_x (geoms : GeometryCollection α) (j : Nat) : List α :=
  let start := geoms.parts.getD j 0
  let stop := if j + 1 = geoms.parts.length then geoms.x.length else geoms.parts.getD (j + 1) 0
  (List.range' start (stop - start)).map (fun k => geoms.x.getD k 0)

/-- The y coordinates stored in slot `j` of `parts`. -/
def ring_y (geoms : GeometryCollection α) (j : Nat) : List α :=
  let start := geoms.parts.getD j 0
  let stop := if j + 1 = geoms.parts.length then geoms.x.length else geoms.parts.getD (j + 1) 0
  (List.range' start (stop - start)).map (fun k => geoms.y.getD k 0)

end PolygonAccess

/-- The empty `Polygon` a caller passes to `get_polygon`. -/
def empty_polygon : Polygon Int := ⟨[], [], [], []⟩

/-- A conversion that is never called (`convert_to_UTM` is false). -/
def no_conversion : Int → Int → Option Unit → Int × Int × Unit := fun lat lng _ => (lat, lng, ())

/-- One polygon of two rings: a square of side `3` and a square hole of side `1`
inside it. -/
def square_with_hole : GeometryCollection Int :=
  { x := [0, 3, 3, 0, 0, 1, 1, 2, 2, 1]
    y := [0, 0, 3, 3, 0, 1, 2, 2, 1, 1]
    parts := [0, 5]
    sizes := [2] }

/-! ## Connectivity of weights (`geoda-weight.cpp`) -/

/-- The loop over the neighbours in `GeoDaWeight::CheckConnectivity`: a neighbour
that is not a key of `access_dict` is pushed on `magzine` and entered in
`access_dict`.  The state is the pair `(access_dict, magzine)`, the map given by
its keys. -/
def bfs_scan (nbrs : List Nat) (st : List Nat × List Nat) : List Nat × List Nat :=
  nbrs.foldl (fun st v => if v ∈ st.1 then st else (set_insert v st.1, st.2 ++ [v])) st

/-- The loop `while (!magzine.empty())` of `CheckConnectivity`, at most `fuel`
rounds: the keys of `access_dict` when the list is empty. -/
def bfs_loop (GetNeighbors : Nat → List Nat) : Nat → List Nat × List Nat → Option (List Nat)
  | 0, st => if st.2.isEmpty then some st.1 else none
  | fuel + 1, st =>
    match st.2 with
    | [] => some st.1
    | nbr :: magzine => bfs_loop GetNeighbors fuel (bfs_scan (GetNeighbors nbr) (st.1, magzine))

/-- Model of `GeoDaWeight::CheckConnectivity` for a weights object of `num_obs`
observations with the neighbour lists `GetNeighbors`. -/
def CheckConnectivity (GetNeighbors : Nat → List Nat) (num_obs fuel : Nat) : Option Bool :=
  let nbrs := GetNeighbors 0
  if nbrs.isEmpty then some false
  else
    match bfs_loop GetNeighbors fuel (bfs_scan nbrs ([0], [])) with
    | none => none
    | some access_dict =>
      if access_dict.length < num_obs then
        some ((List.range num_obs).all (fun i =>
          decide (i ∈ access_dict) || (GetNeighbors i).any (fun j => decide (j ∈ access_dict))))
      else some true

/-- Invariant of the traversal: `access_dict` holds `0` and only observations
below `N` that a path of neighbour links reaches from `0`, holds every entry of
`magzine`, and holds all neighbours of its keys that are not waiting in
`magzine`. -/
def bfs_inv (G : Nat → List Nat) (N : Nat) (st : List Nat × List Nat) : Prop :=
  0 ∈ st.1 ∧ st.1.Nodup ∧
  (∀ v ∈ st.1, v < N ∧ Relation.ReflTransGen (fun a c => c ∈ G a) 0 v) ∧
  (∀ v ∈ st.2, v ∈ st.1) ∧
  (∀ v ∈ st.1, v ∈ st.2 ∨ ∀ w ∈ G v, w ∈ st.1)

/-- Neighbour lists of the path `0 - 1 - 2`. -/
def path_graph : Nat → List Nat
  | 0 => [1]
  | 1 => [0, 2]
  | 2 => [1]
  | _ => []

/-! ## Events of the sweep, counted -/

section SweepCount

variable {α : Type} [LinearOrder α]

/-- The main loop of `jcv_diagram_generate_useralloc` with two counters that the
source does not keep: `n.1` counts the turns that ran `jcv_site_event`, `n.2` the
turns that ran `jcv_circle_event`.  The turns are those of `jcv_sweep_loop`. -/
def jcv_sweep_counted :
    List (sweep_answers α) → jcv_context_internal α → Option Nat → Nat × Nat →
      sweep_result (jcv_context_internal α) × (Nat × Nat)
  | [], c, _, n => (sweep_result.running c, n)
  | a :: rest, c, site, n =>
    match jcv_sweep_step a c site with
    | sweep_result.failed => (sweep_result.failed, n)
    | sweep_result.finished s => (sweep_result.finished s.1, n)
    | sweep_result.running s =>
      jcv_sweep_counted rest s.1 s.2
        (if site.isSome = true ∧ (jcv_pq_empty c.eventqueue = true ∨ a.site_less = true) then
          (n.1 + 1, n.2)
        else (n.1, n.2 + 1))

/-- The sweep of `jcv_diagram_generate_useralloc` with the two counters, both
zero before the first turn of the main loop. -/
def jcv_diagram_generate_counted (num_points offset : Nat) (buffer : Nat → Nat)
    (store : Nat → jcv_halfedge α) (answers : List (sweep_answers α)) :
    sweep_result (jcv_context_internal α) × (Nat × Nat) :=
  let c := jcv_sweep_init num_points offset buffer store
  let c := (jcv_nextsite c).2
  let r := jcv_nextsite c
  jcv_sweep_counted answers r.2 r.1 (0, 0)

end SweepCount

/-! # Theorems -/

/-! ## Sets and vectors of sets -/

theorem mem_set_insert (a x : Nat) (l : List Nat) : x ∈ set_insert a l ↔ x = a ∨ x ∈ l := by
  induction l with
  | nil => simp [set_insert]
  | cons b t ih =>
    unfold set_insert
    split_ifs with h1 h2
    · simp
    · subst h2; simp
    · simp only [List.mem_cons, ih]; tauto

theorem set_insert_sorted (a : Nat) (l : List Nat) (h : l.Pairwise (fun a b => a < b)) :
    (set_insert a l).Pairwise (fun a b => a < b) := by
  induction l with
  | nil => simp [set_insert]
  | cons b t ih =>
    unfold set_insert
    rw [List.pairwise_cons] at h
    split_ifs with h1 h2
    · refine List.pairwise_cons.2 ⟨?_, List.pairwise_cons.2 h⟩
      intro c hc
      rcases List.mem_cons.1 hc with rfl | hc
      · exact h1
      · exact lt_trans h1 (h.1 c hc)
    · exact List.pairwise_cons.2 h
    · refine List.pairwise_cons.2 ⟨?_, ih h.2⟩
      intro c hc
      rcases (mem_set_insert a c t).1 hc with rfl | hc
      · omega
      · exact h.1 c hc

theorem getD_set_vec (nm : List (List Nat)) (a i : Nat) (v : List Nat) :
    (nm.set a v).getD i [] = if a = i ∧ a < nm.length then v else nm.getD i [] := by
  simp only [List.getD_eq_getElem?_getD, List.getElem?_set]
  by_cases h : a = i
  · subst h
    by_cases h2 : a < nm.length
    · simp [h2]
    · simp [h2, List.getElem?_eq_none (not_lt.1 h2)]
  · simp [h]

theorem getD_mem_of_ne_nil {nm : List (List Nat)} {i : Nat} {x : Nat}
    (h : x ∈ nm.getD i []) : nm.getD i [] ∈ nm := by
  rw [List.getD_eq_getElem?_getD] at h ⊢
  cases hh : nm[i]? with
  | none => simp [hh] at h
  | some v => simpa using List.mem_iff_getElem?.2 ⟨i, hh⟩

theorem nbrSorted_getD {nm : List (List Nat)} (h : NbrSorted nm) (i : Nat) :
    (nm.getD i []).Pairwise (fun a b => a < b) := by
  rw [List.getD_eq_getElem?_getD]
  cases hh : nm[i]? with
  | none => simp
  | some v => simpa using h v (List.mem_iff_getElem?.2 ⟨i, hh⟩)

theorem nbrSorted_of_getD {nm : List (List Nat)}
    (h : ∀ i, (nm.getD i []).Pairwise (fun a b => a < b)) : NbrSorted nm := by
  intro l hl
  obtain ⟨n, hn⟩ := List.mem_iff_getElem?.1 hl
  have := h n
  rw [List.getD_eq_getElem?_getD, hn] at this
  simpa using this

theorem nbrSorted_replicate (n : Nat) : NbrSorted (List.replicate n []) := by
  intro l hl
  rw [List.eq_of_mem_replicate hl]
  exact List.Pairwise.nil

theorem getD_replicate_nil (n i : Nat) : (List.replicate n ([] : List Nat)).getD i [] = [] := by
  rw [List.getD_eq_getElem?_getD, List.getElem?_replicate]
  split_ifs <;> rfl

theorem Extends.nbr_refl (nm : List (List Nat)) : Extends (fun _ _ => False) nm nm :=
  ⟨rfl, id, fun i j => by simp⟩

theorem Extends.nbr_insert_one (nm : List (List Nat)) (a b : Nat) :
    Extends (fun i j => i = a ∧ j = b) nm (nbr_insert nm a b) := by
  refine ⟨by simp [nbr_insert], ?_, ?_⟩
  · intro hs
    apply nbrSorted_of_getD
    intro i
    unfold nbr_insert
    rw [getD_set_vec]
    split_ifs
    · exact set_insert_sorted _ _ (nbrSorted_getD hs a)
    · exact nbrSorted_getD hs i
  · intro i j
    unfold nbr_insert
    rw [getD_set_vec]
    split_ifs with h
    · obtain ⟨rfl, h2⟩ := h
      rw [mem_set_insert]
      tauto
    · constructor
      · exact Or.inl
      · rintro (h1 | ⟨h1, rfl, rfl⟩)
        · exact h1
        · exact absurd ⟨rfl, h1⟩ h

theorem Extends.nbr_trans {R1 R2 : Nat → Nat → Prop} {nm1 nm2 nm3 : List (List Nat)}
    (h1 : Extends R1 nm1 nm2) (h2 : Extends R2 nm2 nm3) :
    Extends (fun i j => R1 i j ∨ R2 i j) nm1 nm3 := by
  refine ⟨h2.1.trans h1.1, fun hs => h2.2.1 (h1.2.1 hs), ?_⟩
  intro i j
  rw [h2.2.2, h1.2.2, h1.1]
  tauto

theorem Extends.nbr_congr {R1 R2 : Nat → Nat → Prop} {nm1 nm2 : List (List Nat)}
    (h : Extends R1 nm1 nm2) (hR : ∀ i j, R1 i j ↔ R2 i j) : Extends R2 nm1 nm2 := by
  refine ⟨h.1, h.2.1, ?_⟩
  intro i j
  rw [h.2.2, hR]

theorem Extends.nbr_foldl {ι : Type} (step : List (List Nat) → ι → List (List Nat))
    (P : ι → Nat → Nat → Prop) (es : List ι)
    (hstep : ∀ nm e, e ∈ es → Extends (P e) nm (step nm e)) (nm : List (List Nat)) :
    Extends (fun i j => ∃ e ∈ es, P e i j) nm (es.foldl step nm) := by
  induction es generalizing nm with
  | nil => exact (Extends.nbr_refl nm).nbr_congr (by simp)
  | cons e t ih =>
    rw [List.foldl_cons]
    have h1 := hstep nm e (List.mem_cons_self _ _)
    have h2 := ih (fun nm e' he' => hstep nm e' (List.mem_cons_of_mem _ he')) (step nm e)
    refine (h1.nbr_trans h2).nbr_congr ?_
    intro i j
    simp only [List.mem_cons, exists_eq_or_imp]

/-! ## Association lists -/

section Maps

variable {K V : Type} [DecidableEq K]

theorem map_find_modify (m : List (K × V)) (k k' : K) (d : V) (f : V → V) :
    map_find (map_modify m k d f) k' d
      = if k' = k then f (map_find m k d) else map_find m k' d := by
  induction m with
  | nil =>
    simp only [map_modify, map_find]
    by_cases h : k = k'
    · subst h; simp
    · simp [h, Ne.symm h]
  | cons e t ih =>
    obtain ⟨k0, v0⟩ := e
    simp only [map_modify]
    by_cases h0 : k0 = k
    · subst h0
      simp only [if_true, map_find]
      by_cases h : k0 = k'
      · subst h; simp
      · simp [h, Ne.symm h]
    · simp only [h0, if_false, map_find]
      by_cases h : k0 = k'
      · subst h; simp [h0]
      · simp only [h, if_false]; exact ih

theorem map_find_mem (m : List (K × V)) (k : K) (d : V) :
    (k, map_find m k d) ∈ m ∨ map_find m k d = d := by
  induction m with
  | nil => right; rfl
  | cons e t ih =>
    obtain ⟨k0, v0⟩ := e
    simp only [map_find]
    by_cases h : k0 = k
    · subst h; simp
    · simp only [h, if_false]
      rcases ih with ih | ih
      · left; exact List.mem_cons_of_mem _ ih
      · right; exact ih

theorem map_modify_forall (Q : K → V → Prop) (m : List (K × V)) (k : K) (d : V) (f : V → V)
    (hm : ∀ e ∈ m, Q e.1 e.2) (hd : Q k (f d)) (hf : ∀ v, (k, v) ∈ m → Q k (f v)) :
    ∀ e ∈ map_modify m k d f, Q e.1 e.2 := by
  induction m with
  | nil =>
    intro e he
    simp only [map_modify, List.mem_singleton] at he
    subst he; exact hd
  | cons e0 t ih =>
    obtain ⟨k0, v0⟩ := e0
    intro e he
    simp only [map_modify] at he
    by_cases h0 : k0 = k
    · subst h0
      simp only [if_true, List.mem_cons] at he
      rcases he with rfl | he
      · exact hf v0 (List.mem_cons_self _ _)
      · exact hm e (List.mem_cons_of_mem _ he)
    · simp only [h0, if_false, List.mem_cons] at he
      rcases he with rfl | he
      · exact hm _ (List.mem_cons_self _ _)
      · exact ih (fun e he => hm e (List.mem_cons_of_mem _ he))
          (fun v hv => hf v (List.mem_cons_of_mem _ hv)) e he

end Maps

/-! ## The dictionary of the queen engine -/

section QueenMap

variable {α : Type} [LinearOrderedRing α]

theorem mem_bucket_insert (m : List (α × List (α × List Nat))) (lng lat x y : α) (i p : Nat) :
    p ∈ bucket (point_to_polygon_insert m lng lat i) x y
      ↔ p ∈ bucket m x y ∨ (p = i ∧ x = lng ∧ y = lat) := by
  unfold bucket point_to_polygon_insert
  rw [map_find_modify]
  by_cases hx : x = lng
  · subst hx
    simp only [if_true]
    rw [map_find_modify]
    by_cases hy : y = lat
    · subst hy
      simp only [if_true, mem_set_insert]
      tauto
    · simp [hy]
  · simp [hx]

theorem sound_insert (W : Nat → α → α → Prop) (m : List (α × List (α × List Nat)))
    (lng lat : α) (i : Nat) (hm : Sound W m) (hi : W i lng lat) :
    Sound W (point_to_polygon_insert m lng lat i) := by
  unfold point_to_polygon_insert
  have key : ∀ inner : List (α × List Nat), (∀ jt ∈ inner, ∀ p ∈ jt.2, W p lng jt.1) →
      ∀ jt ∈ map_modify inner lat [] (set_insert i), ∀ p ∈ jt.2, W p lng jt.1 := by
    intro inner hin
    refine map_modify_forall (fun (y : α) (s : List Nat) => ∀ p ∈ s, W p lng y) inner lat [] _
      hin ?_ ?_
    · intro p hp
      rw [mem_set_insert] at hp
      rcases hp with rfl | hp
      · exact hi
      · simp at hp
    · intro v hv p hp
      rw [mem_set_insert] at hp
      rcases hp with rfl | hp
      · exact hi
      · exact hin _ hv p hp
  refine map_modify_forall
    (fun (x : α) (inner : List (α × List Nat)) => ∀ jt ∈ inner, ∀ p ∈ jt.2, W p x jt.1) m lng [] _
    hm ?_ ?_
  · exact key [] (by simp)
  · intro v hv
    exact key v (hm _ hv)

theorem bucket_entry (m : List (α × List (α × List Nat))) (x y : α) (p : Nat)
    (hp : p ∈ bucket m x y) : ∃ it ∈ m, ∃ jt ∈ it.2, jt.2 = bucket m x y := by
  unfold bucket at hp ⊢
  rcases map_find_mem (map_find m x []) y [] with h2 | h2
  · rcases map_find_mem m x [] with h1 | h1
    · exact ⟨_, h1, _, h2, rfl⟩
    · rw [h1] at h2; simp at h2
  · rw [h2] at hp; simp at hp

theorem MapExt.map_refl (m : List (α × List (α × List Nat))) : MapExt (fun _ _ _ => False) m m :=
  ⟨fun _ h _ => h, fun x y p => by simp⟩

theorem MapExt.map_insert (m : List (α × List (α × List Nat))) (lng lat : α) (i : Nat) :
    MapExt (fun p x y => p = i ∧ x = lng ∧ y = lat) m (point_to_polygon_insert m lng lat i) :=
  ⟨fun W hW hV => sound_insert W m lng lat i hW (hV _ _ _ ⟨rfl, rfl, rfl⟩),
    fun x y p => mem_bucket_insert m lng lat x y i p⟩

theorem MapExt.map_trans {V1 V2 : Nat → α → α → Prop} {m1 m2 m3 : List (α × List (α × List Nat))}
    (h1 : MapExt V1 m1 m2) (h2 : MapExt V2 m2 m3) :
    MapExt (fun p x y => V1 p x y ∨ V2 p x y) m1 m3 := by
  refine ⟨fun W hW hV => h2.1 W (h1.1 W hW fun p x y h => hV p x y (Or.inl h))
    fun p x y h => hV p x y (Or.inr h), ?_⟩
  intro x y p
  rw [h2.2, h1.2]
  tauto

theorem MapExt.map_congr {V1 V2 : Nat → α → α → Prop} {m1 m2 : List (α × List (α × List Nat))}
    (h : MapExt V1 m1 m2) (hV : ∀ p x y, V1 p x y ↔ V2 p x y) : MapExt V2 m1 m2 := by
  refine ⟨fun W hW hW2 => h.1 W hW fun p x y h1 => hW2 p x y ((hV p x y).1 h1), ?_⟩
  intro x y p
  rw [h.2, hV]

theorem MapExt.map_foldl {ι : Type}
    (step : List (α × List (α × List Nat)) → ι → List (α × List (α × List Nat)))
    (P : ι → Nat → α → α → Prop) (es : List ι)
    (hstep : ∀ m e, e ∈ es → MapExt (P e) m (step m e)) (m : List (α × List (α × List Nat))) :
    MapExt (fun p x y => ∃ e ∈ es, P e p x y) m (es.foldl step m) := by
  induction es generalizing m with
  | nil => exact (MapExt.map_refl m).map_congr (by simp)
  | cons e t ih =>
    rw [List.foldl_cons]
    have h1 := hstep m e (List.mem_cons_self _ _)
    have h2 := ih (fun m e' he' => hstep m e' (List.mem_cons_of_mem _ he')) (step m e)
    refine (h1.map_trans h2).map_congr ?_
    intro p x y
    simp only [List.mem_cons, exists_eq_or_imp]

end QueenMap

/-! ## Exact queen engine -/

section Queen

variable {α : Type} [LinearOrderedRing α]

theorem queen_add_part_ext (geoms : GeometryCollection α) (i j : Nat)
    (m : List (α × List (α × List Nat))) :
    MapExt (fun p x y => p = i ∧
        ∃ k ∈ List.range' (geoms.parts.getD j 0) (queen_stop geoms j - geoms.parts.getD j 0),
          x = geoms.x.getD k 0 ∧ y = geoms.y.getD k 0)
      m (queen_add_part geoms i j m) := by
  unfold queen_add_part
  refine (MapExt.map_foldl (fun m k => point_to_polygon_insert m (geoms.x.getD k 0)
    (geoms.y.getD k 0) i) (fun k p x y => p = i ∧ x = geoms.x.getD k 0 ∧ y = geoms.y.getD k 0)
    _ (fun m k _ => MapExt.map_insert m _ _ i) m).map_congr ?_
  intro p x y
  unfold queen_stop
  constructor
  · rintro ⟨k, hk, rfl, hx, hy⟩
    exact ⟨rfl, k, hk, hx, hy⟩
  · rintro ⟨rfl, k, hk, hx, hy⟩
    exact ⟨k, hk, rfl, hx, hy⟩

theorem part_offset_succ (geoms : GeometryCollection α) (n : Nat) :
    part_offset geoms (n + 1)
      = part_offset geoms n + (if geoms.sizes.getD n 0 = 0 then 1 else geoms.sizes.getD n 0) := by
  unfold part_offset
  rw [List.range_succ, List.foldl_append]
  rfl

theorem part_offset_eq_slot_start (geoms : GeometryCollection α) (i : Nat)
    (hi : i ≤ geoms.sizes.length) : part_offset geoms i = slot_start geoms.sizes i := by
  induction i with
  | zero => simp [part_offset, slot_start]
  | succ n ih =>
    have hn : n < geoms.sizes.length := hi
    rw [part_offset_succ, ih (le_of_lt hn)]
    unfold slot_start
    rw [List.take_succ, List.getElem?_eq_getElem hn]
    simp only [Option.toList, List.map_append, List.sum_append, List.map_cons, List.map_nil,
      List.sum_cons, List.sum_nil, add_zero]
    have : geoms.sizes.getD n 0 = geoms.sizes[n] := by
      rw [List.getD_eq_getElem?_getD, List.getElem?_eq_getElem hn]; rfl
    rw [this]
    split_ifs with h
    · rw [h]; rfl
    · congr 1
      omega

theorem queen_fold_state (geoms : GeometryCollection α) (n : Nat) :
    (List.range n).foldl
      (fun (st : List (α × List (α × List Nat)) × Nat) i =>
        let num_parts := geoms.sizes.getD i 0
        let m := (List.range' st.2 num_parts).foldl (fun m j => queen_add_part geoms i j m) st.1
        let offset_part := if num_parts = 0 then 1 else num_parts
        (m, st.2 + offset_part))
      ([], 0)
    = ((List.range n).foldl
        (fun m i => (List.range' (part_offset geoms i) (geoms.sizes.getD i 0)).foldl
          (fun m j => queen_add_part geoms i j m) m) [],
       part_offset geoms n) := by
  induction n with
  | zero => simp [part_offset]
  | succ n ih =>
    rw [List.range_succ, List.foldl_append, List.foldl_append, ih, part_offset_succ]
    rfl

theorem queen_map_ext (geoms : GeometryCollection α) :
    MapExt (queen_files geoms) [] (queen_point_to_polygon geoms).1 := by
  unfold queen_point_to_polygon
  rw [queen_fold_state]
  refine (MapExt.map_foldl _ (fun i p x y => p = i ∧
      ∃ j ∈ List.range' (part_offset geoms i) (geoms.sizes.getD i 0),
      ∃ k ∈ List.range' (geoms.parts.getD j 0) (queen_stop geoms j - geoms.parts.getD j 0),
        x = geoms.x.getD k 0 ∧ y = geoms.y.getD k 0) (List.range geoms.size) ?_ []).map_congr ?_
  · intro m i _
    refine (MapExt.map_foldl (fun m j => queen_add_part geoms i j m) _ _
      (fun m j _ => queen_add_part_ext geoms i j m) m).map_congr ?_
    intro p x y
    constructor
    · rintro ⟨j, hj, rfl, h⟩
      exact ⟨rfl, j, hj, h⟩
    · rintro ⟨rfl, j, hj, h⟩
      exact ⟨j, hj, rfl, h⟩
  · intro p x y
    unfold queen_files
    constructor
    · rintro ⟨i, hi, rfl, h⟩
      exact ⟨List.mem_range.1 hi, h⟩
    · rintro ⟨hp, h⟩
      exact ⟨p, List.mem_range.2 hp, rfl, h⟩

theorem queen_bucket_iff (geoms : GeometryCollection α) (x y : α) (p : Nat) :
    p ∈ bucket (queen_point_to_polygon geoms).1 x y ↔ queen_files geoms p x y := by
  rw [(queen_map_ext geoms).2]
  simp [bucket, map_find]

theorem queen_sound (geoms : GeometryCollection α) :
    Sound (queen_files geoms) (queen_point_to_polygon geoms).1 :=
  (queen_map_ext geoms).1 _ (by intro it hit; simp at hit) (fun _ _ _ h => h)

theorem getD_eq_of_getElem? {β : Type} {l : List β} {k : Nat} {v d : β} (h : l[k]? = some v) :
    l.getD k d = v := by
  rw [List.getD_eq_getElem?_getD, h]; rfl

theorem getElem?_of_lt_getD {β : Type} (l : List β) (k : Nat) (d : β) (h : k < l.length) :
    l[k]? = some (l.getD k d) := by
  rw [List.getD_eq_getElem?_getD, List.getElem?_eq_getElem h]; rfl

theorem queen_files_iff_isVertex (geoms : GeometryCollection α) (hwf : well_formed geoms)
    (p : Nat) (x y : α) : queen_files geoms p x y ↔ IsVertex geoms p (x, y) := by
  obtain ⟨hxy, _, hparts⟩ := hwf
  have hle : ∀ j e, geoms.parts[j]? = some e → e ≤ geoms.x.length := fun j e h =>
    hparts e (List.mem_iff_getElem?.2 ⟨j, h⟩)
  unfold queen_files IsVertex in_part queen_stop GeometryCollection.size
  constructor
  · rintro ⟨hp, j, hj, k, hk, hx, hy⟩
    rw [List.mem_range'_1] at hj hk
    rw [part_offset_eq_slot_start geoms p (le_of_lt hp)] at hj
    have hn := getElem?_of_lt_getD geoms.sizes p 0 hp
    refine ⟨_, hn, j, k, hj.1, hj.2, ?_, ?_⟩
    · have hjlt : j < geoms.parts.length := by
        by_contra hcon
        have h1 : geoms.parts.getD j 0 = 0 := by
          rw [List.getD_eq_getElem?_getD, List.getElem?_eq_none (not_lt.1 hcon)]; rfl
        have h2 : geoms.parts.getD (j + 1) 0 = 0 := by
          rw [List.getD_eq_getElem?_getD, List.getElem?_eq_none (by omega)]; rfl
        rw [h1, h2] at hk
        have h3 : ¬ j + 1 = geoms.parts.length := by omega
        simp only [h3, if_false] at hk
        omega
      refine ⟨_, getElem?_of_lt_getD geoms.parts j 0 hjlt, hk.1, ?_⟩
      by_cases hlast : j + 1 = geoms.parts.length
      · left
        simp only [hlast, if_true] at hk
        exact ⟨hlast, by omega⟩
      · right
        simp only [hlast, if_false] at hk
        exact ⟨_, getElem?_of_lt_getD geoms.parts (j + 1) 0 (by omega), by omega⟩
    · have hkx : k < geoms.x.length := by
        by_cases hlast : j + 1 = geoms.parts.length
        · simp only [hlast, if_true] at hk
          omega
        · simp only [hlast, if_false] at hk
          have hj1 : j + 1 < geoms.parts.length := by
            by_contra hcon
            have h2 : geoms.parts.getD (j + 1) 0 = 0 := by
              rw [List.getD_eq_getElem?_getD, List.getElem?_eq_none (by omega)]; rfl
            rw [h2] at hk
            omega
          have := hle (j + 1) _ (getElem?_of_lt_getD geoms.parts (j + 1) 0 hj1)
          omega
      subst hx hy
      exact ⟨getElem?_of_lt_getD geoms.x k 0 hkx, getElem?_of_lt_getD geoms.y k 0 (by omega)⟩
  · rintro ⟨n, hn, j, k, hj1, hj2, ⟨s, hs, hsk, hstop⟩, hx, hy⟩
    have hp : p < geoms.sizes.length := by
      by_contra hcon
      rw [List.getElem?_eq_none (not_lt.1 hcon)] at hn
      cases hn
    refine ⟨hp, j, ?_, k, ?_, (getD_eq_of_getElem? hx).symm, (getD_eq_of_getElem? hy).symm⟩
    · rw [List.mem_range'_1, part_offset_eq_slot_start geoms p (le_of_lt hp),
        getD_eq_of_getElem? hn]
      exact ⟨hj1, hj2⟩
    · rw [List.mem_range'_1, getD_eq_of_getElem? hs]
      refine ⟨hsk, ?_⟩
      rcases hstop with ⟨hlast, hk⟩ | ⟨e, he, hk⟩
      · simp only [hlast, if_true]
        omega
      · have hj1 : j + 1 < geoms.parts.length := by
          by_contra hcon
          rw [List.getElem?_eq_none (not_lt.1 hcon)] at he
          cases he
        have h3 : ¬ j + 1 = geoms.parts.length := by omega
        simp only [h3, if_false, getD_eq_of_getElem? he]
        omega

theorem queen_pairs_ext (polys : List Nat) (nm : List (List Nat)) :
    Extends (fun i j => i ≠ j ∧ i ∈ polys ∧ j ∈ polys) nm (queen_pairs polys nm) := by
  induction polys generalizing nm with
  | nil => exact (Extends.nbr_refl nm).nbr_congr (by simp)
  | cons kt rest ih =>
    unfold queen_pairs
    have hinner := Extends.nbr_foldl
      (fun nm lt => if kt ≠ lt then nbr_insert (nbr_insert nm kt lt) lt kt else nm)
      (fun lt i j => kt ≠ lt ∧ ((i = kt ∧ j = lt) ∨ (i = lt ∧ j = kt))) rest
      (by
        intro nm lt _
        by_cases h : kt = lt
        · simp only [h, ne_eq, not_true_eq_false, if_false]
          exact (Extends.nbr_refl nm).nbr_congr (by simp)
        · simp only [ne_eq, h, not_false_eq_true, if_true]
          exact ((Extends.nbr_insert_one nm kt lt).nbr_trans (Extends.nbr_insert_one _ lt kt)).nbr_congr
            (by intro i j; simp)) nm
    refine (hinner.nbr_trans (ih _)).nbr_congr ?_
    intro i j
    simp only [List.mem_cons]
    constructor
    · rintro (⟨lt, hlt, hne, (⟨rfl, rfl⟩ | ⟨rfl, rfl⟩)⟩ | ⟨hne, hi, hj⟩)
      · exact ⟨hne, Or.inl rfl, Or.inr hlt⟩
      · exact ⟨Ne.symm hne, Or.inr hlt, Or.inl rfl⟩
      · exact ⟨hne, Or.inr hi, Or.inr hj⟩
    · rintro ⟨hne, (rfl | hi), (rfl | hj)⟩
      · exact absurd rfl hne
      · exact Or.inl ⟨j, hj, hne, Or.inl ⟨rfl, rfl⟩⟩
      · exact Or.inl ⟨i, hi, Ne.symm hne, Or.inr ⟨rfl, rfl⟩⟩
      · exact Or.inr ⟨hne, hi, hj⟩

theorem queen_nbr_map_ext (geoms : GeometryCollection α) :
    Extends (fun i j => ∃ it ∈ (queen_point_to_polygon geoms).1, ∃ jt ∈ it.2,
        i ≠ j ∧ i ∈ jt.2 ∧ j ∈ jt.2)
      (List.replicate geoms.size []) (queen_nbr_map geoms) := by
  unfold queen_nbr_map
  refine Extends.nbr_foldl
    (fun nm (it : α × List (α × List Nat)) =>
      it.2.foldl (fun nm (jt : α × List Nat) => queen_pairs jt.2 nm) nm)
    (fun it i j => ∃ jt ∈ it.2, i ≠ j ∧ i ∈ jt.2 ∧ j ∈ jt.2) _ ?_ _
  intro nm it _
  exact Extends.nbr_foldl (fun nm (jt : α × List Nat) => queen_pairs jt.2 nm)
    (fun jt i j => i ≠ j ∧ i ∈ jt.2 ∧ j ∈ jt.2) it.2 (fun nm jt _ => queen_pairs_ext jt.2 nm) nm

theorem queen_nbr_map_length (geoms : GeometryCollection α) :
    (queen_nbr_map geoms).length = geoms.size := by
  rw [(queen_nbr_map_ext geoms).1, List.length_replicate]

theorem mem_queen_nbr_map (geoms : GeometryCollection α) (i j : Nat) :
    j ∈ (queen_nbr_map geoms).getD i [] ↔
      i ≠ j ∧ ∃ x y, queen_files geoms i x y ∧ queen_files geoms j x y := by
  rw [(queen_nbr_map_ext geoms).2.2, getD_replicate_nil, List.length_replicate]
  constructor
  · rintro (h | ⟨_, it, hit, jt, hjt, hne, hi, hj⟩)
    · simp at h
    · exact ⟨hne, it.1, jt.1, queen_sound geoms it hit jt hjt i hi,
        queen_sound geoms it hit jt hjt j hj⟩
  · rintro ⟨hne, x, y, hi, hj⟩
    right
    refine ⟨hi.1, ?_⟩
    have hi2 := (queen_bucket_iff geoms x y i).2 hi
    have hj2 := (queen_bucket_iff geoms x y j).2 hj
    obtain ⟨it, hit, jt, hjt, heq⟩ := bucket_entry _ x y i hi2
    exact ⟨it, hit, jt, hjt, hne, heq ▸ hi2, heq ▸ hj2⟩

end Queen

/-! ## Higher-order expander -/

theorem mem_foldl_gen {ι : Type} (step : List Nat → ι → List Nat) (Q : ι → Nat → Prop)
    (es : List ι) (h : ∀ acc e x, e ∈ es → (x ∈ step acc e ↔ x ∈ acc ∨ Q e x))
    (acc : List Nat) (x : Nat) : x ∈ es.foldl step acc ↔ x ∈ acc ∨ ∃ e ∈ es, Q e x := by
  induction es generalizing acc with
  | nil => simp
  | cons e t ih =>
    rw [List.foldl_cons, ih (fun acc e' x he' => h acc e' x (List.mem_cons_of_mem _ he')),
      h acc e x (List.mem_cons_self _ _)]
    simp only [List.mem_cons, exists_eq_or_imp]
    tauto

theorem mem_next_layer (weights : List (List Nat)) (prev1 prev2 : List Nat) (x : Nat) :
    x ∈ next_layer weights prev1 prev2 ↔
      (∃ u ∈ prev1, x ∈ weights.getD u []) ∧ x ∉ prev1 ∧ x ∉ prev2 := by
  unfold next_layer
  rw [mem_foldl_gen _ (fun it x => x ∈ weights.getD it [] ∧ x ∉ prev1 ∧ x ∉ prev2)]
  · simp only [List.not_mem_nil, false_or]
    constructor
    · rintro ⟨u, hu, h1, h2⟩
      exact ⟨⟨u, hu, h1⟩, h2⟩
    · rintro ⟨⟨u, hu, h1⟩, h2⟩
      exact ⟨u, hu, h1, h2⟩
  · intro acc it x _
    rw [mem_foldl_gen _ (fun nbr x => x = nbr ∧ x ∉ prev1 ∧ x ∉ prev2)]
    · constructor
      · rintro (h | ⟨nbr, hn, rfl, h⟩)
        · exact Or.inl h
        · exact Or.inr ⟨hn, h⟩
      · rintro (h | ⟨hn, h⟩)
        · exact Or.inl h
        · exact Or.inr ⟨x, hn, rfl, h⟩
    · intro acc nbr x _
      split_ifs with hc
      · rw [mem_set_insert]
        constructor
        · rintro (rfl | h)
          · exact Or.inr ⟨rfl, hc⟩
          · exact Or.inl h
        · rintro (h | ⟨rfl, _⟩)
          · exact Or.inr h
          · exact Or.inl rfl
      · constructor
        · exact Or.inl
        · rintro (h | ⟨rfl, h⟩)
          · exact h
          · exact absurd h hc

theorem mem_layer_list (weights : List (List Nat)) (i d x : Nat) :
    x ∈ layer_list weights i d ↔ x ∈ layer weights i d := by
  induction d using Nat.strong_induction_on generalizing x with
  | _ d ih =>
    match d with
    | 0 => simp [layer_list, layer, mem_set_insert]
    | 1 =>
      simp only [layer_list, layer, List.mem_toFinset]
      rw [mem_foldl_gen _ (fun nbr x => x = nbr)]
      · simp
      · intro acc e x _
        rw [mem_set_insert]; tauto
    | d + 2 =>
      simp only [layer_list, layer, mem_next_layer, Finset.mem_sdiff, Finset.mem_biUnion,
        Finset.mem_union, List.mem_toFinset, not_or]
      rw [ih (d + 1) (by omega), ih d (by omega)]
      constructor
      · rintro ⟨⟨u, hu, h⟩, h1, h2⟩
        exact ⟨⟨u, (ih (d + 1) (by omega) u).1 hu, h⟩, h1, h2⟩
      · rintro ⟨⟨u, hu, h⟩, h1, h2⟩
        exact ⟨⟨u, (ih (d + 1) (by omega) u).2 hu, h⟩, h1, h2⟩

theorem foldl_set_one (l : List Nat) (v : List (List Nat)) :
    (l.foldl (fun v nbr => v.set 1 (set_insert nbr (v.getD 1 []))) v).length = v.length ∧
    ∀ d, (l.foldl (fun v nbr => v.set 1 (set_insert nbr (v.getD 1 []))) v).getD d []
      = if d = 1 ∧ 1 < v.length then l.foldl (fun s nbr => set_insert nbr s) (v.getD 1 [])
        else v.getD d [] := by
  induction l generalizing v with
  | nil =>
    refine ⟨rfl, fun d => ?_⟩
    simp only [List.foldl_nil]
    split_ifs with h
    · rw [h.1]
    · rfl
  | cons a t ih =>
    simp only [List.foldl_cons]
    obtain ⟨h1, h2⟩ := ih (v.set 1 (set_insert a (v.getD 1 [])))
    refine ⟨by rw [h1, List.length_set], fun d => ?_⟩
    rw [h2, List.length_set, getD_set_vec, getD_set_vec]
    by_cases hd : d = 1 ∧ 1 < v.length
    · simp [hd.1, hd.2]
    · simp only [hd, if_false]
      split_ifs with h3
      · exact absurd ⟨h3.1.symm, h3.2⟩ hd
      · rfl

theorem n_at_d_loop (weights : List (List Nat)) (i : Nat) (v : List (List Nat)) (t : Nat)
    (h0 : v.getD 0 [] = layer_list weights i 0) (h1 : v.getD 1 [] = layer_list weights i 1) :
    let r := (List.range' 2 t).foldl
      (fun v d => v.set d (next_layer weights (v.getD (d - 1) []) (v.getD (d - 2) []))) v
    r.length = v.length ∧ ∀ d, d < 2 + t → d < v.length → r.getD d [] = layer_list weights i d := by
  induction t with
  | zero =>
    refine ⟨rfl, fun d hd _ => ?_⟩
    simp only [List.range'_zero, List.foldl_nil]
    have : d = 0 ∨ d = 1 := by omega
    rcases this with rfl | rfl
    · exact h0
    · exact h1
  | succ t ih =>
    obtain ⟨hl, hg⟩ := ih
    simp only [List.range'_concat, List.foldl_append, List.foldl_cons, List.foldl_nil, one_mul]
    refine ⟨by rw [List.length_set, hl], fun d hd hdl => ?_⟩
    rw [getD_set_vec]
    by_cases hdt : 2 + t = d
    · subst hdt
      rw [if_pos ⟨rfl, by rw [hl]; exact hdl⟩]
      have e1 : 2 + t - 1 = t + 1 := by omega
      have e2 : 2 + t - 2 = t := by omega
      rw [e1, e2, hg (t + 1) (by omega) (by omega), hg t (by omega) (by omega)]
      have e3 : 2 + t = t + 2 := by omega
      rw [e3]
      rfl
    · rw [if_neg (fun h => hdt h.1)]
      exact hg d (by omega) hdl

theorem n_at_d_getD (weights : List (List Nat)) (i distance d : Nat) (hdist : 1 ≤ distance)
    (hd : d ≤ distance) : (n_at_d weights i distance).getD d [] = layer_list weights i d := by
  unfold n_at_d
  simp only []
  have e0 : (List.replicate (distance + 1) ([] : List Nat)).getD 0 [] = [] :=
    getD_replicate_nil _ _
  rw [e0]
  obtain ⟨hl2, hg2⟩ := foldl_set_one (weights.getD i [])
    ((List.replicate (distance + 1) ([] : List Nat)).set 0 (set_insert i []))
  have hlen1 : ((List.replicate (distance + 1) ([] : List Nat)).set 0 (set_insert i [])).length
      = distance + 1 := by simp
  have h0 := hg2 0
  have h1 := hg2 1
  rw [if_neg (by omega), getD_set_vec, if_pos ⟨rfl, by simp⟩] at h0
  rw [if_pos ⟨rfl, by omega⟩, getD_set_vec, if_neg (by omega), getD_replicate_nil] at h1
  obtain ⟨_, hg⟩ := n_at_d_loop weights i _ (distance - 1) h0 h1
  exact hg d (by omega) (by rw [hl2, hlen1]; omega)

theorem mem_higher_ord_row (weights : List (List Nat)) (i distance : Nat) (cummulative : Bool)
    (hdist : 1 ≤ distance) (x : Nat) :
    x ∈ higher_ord_row weights i distance cummulative ↔
      ∃ d, (if cummulative then 1 else distance) ≤ d ∧ d ≤ distance ∧ x ∈ layer weights i d := by
  unfold higher_ord_row
  simp only [List.mem_insertionSort]
  rw [mem_foldl_gen (fun acc d => acc ++ (n_at_d weights i distance).getD d [])
    (fun d x => x ∈ (n_at_d weights i distance).getD d []) _
    (fun acc e x _ => List.mem_append)]
  simp only [List.not_mem_nil, false_or, List.mem_range'_1]
  have hlo : (if cummulative then 1 else distance) ≤ distance := by split_ifs <;> omega
  constructor
  · rintro ⟨d, ⟨h1, h2⟩, hx⟩
    have hd : d ≤ distance := by omega
    rw [n_at_d_getD weights i distance d hdist hd, mem_layer_list] at hx
    exact ⟨d, h1, hd, hx⟩
  · rintro ⟨d, h1, hd, hx⟩
    refine ⟨d, ⟨h1, by omega⟩, ?_⟩
    rw [n_at_d_getD weights i distance d hdist hd, mem_layer_list]
    exact hx

theorem higher_ord_row_sorted (weights : List (List Nat)) (i distance : Nat)
    (cummulative : Bool) :
    (higher_ord_row weights i distance cummulative).Sorted (fun a b => b ≤ a) := by
  unfold higher_ord_row
  haveI : IsTotal Nat (fun a b => b ≤ a) := ⟨fun a b => le_total b a⟩
  haveI : IsTrans Nat (fun a b => b ≤ a) := ⟨fun a b c h1 h2 => le_trans h2 h1⟩
  exact List.sorted_insertionSort _ _

theorem foldl_set_range (f : Nat → List Nat) (n : Nat) (w : List (List Nat)) :
    ((List.range n).foldl (fun w i => w.set i (f i)) w).length = w.length ∧
    ∀ j, ((List.range n).foldl (fun w i => w.set i (f i)) w).getD j []
      = if j < n ∧ j < w.length then f j else w.getD j [] := by
  induction n with
  | zero => simp
  | succ n ih =>
    obtain ⟨hl, hg⟩ := ih
    rw [List.range_succ, List.foldl_append]
    simp only [List.foldl_cons, List.foldl_nil]
    refine ⟨by rw [List.length_set, hl], fun j => ?_⟩
    rw [getD_set_vec, hl, hg]
    by_cases hj : n = j
    · subst hj
      by_cases hlt : n < w.length
      · simp [hlt]
      · simp [hlt]
    · have : (j < n + 1 ∧ j < w.length) ↔ (j < n ∧ j < w.length) := by
        constructor
        · rintro ⟨h1, h2⟩; exact ⟨by omega, h2⟩
        · rintro ⟨h1, h2⟩; exact ⟨by omega, h2⟩
      simp only [hj, false_and, if_false, this]

theorem make_higher_ord_length (distance obs : Nat) (weights : List (List Nat))
    (cummulative : Bool) :
    (make_higher_ord_contiguity distance obs weights cummulative).length = weights.length := by
  unfold make_higher_ord_contiguity
  split_ifs
  · rfl
  · exact (foldl_set_range _ obs weights).1

theorem make_higher_ord_getD (distance obs : Nat) (weights : List (List Nat))
    (cummulative : Bool) (hdist : 2 ≤ distance) (i : Nat) (hi : i < obs)
    (hiw : i < weights.length) :
    (make_higher_ord_contiguity distance obs weights cummulative).getD i []
      = higher_ord_row weights i distance cummulative := by
  unfold make_higher_ord_contiguity
  rw [if_neg (by omega)]
  simp only []
  rw [(foldl_set_range _ obs weights).2, if_pos ⟨hi, hiw⟩, List.getD_eq_getElem?_getD,
    List.getElem?_map, List.getElem?_range hi]
  rfl

theorem make_higher_ord_one (obs : Nat) (weights : List (List Nat)) (cummulative : Bool) :
    make_higher_ord_contiguity 1 obs weights cummulative = weights := by
  unfold make_higher_ord_contiguity
  rw [if_pos (Or.inr (le_refl 1))]

theorem range_map_getD (nm : List (List Nat)) :
    (List.range nm.length).map (fun i => nm.getD i []) = nm := by
  apply List.ext_getElem?
  intro n
  rw [List.getElem?_map]
  by_cases h : n < nm.length
  · rw [List.getElem?_range h, List.getElem?_eq_getElem h]
    simp [List.getD_eq_getElem?_getD, List.getElem?_eq_getElem h]
  · rw [List.getElem?_eq_none (by simpa using h), List.getElem?_eq_none (by simpa using h)]
    rfl

theorem convert_to_weights_one (nbr_map : List (List Nat)) (include_lower_order : Bool) :
    convert_to_weights nbr_map 1 include_lower_order = nbr_map := by
  unfold convert_to_weights
  simp only [gt_iff_lt, lt_irrefl, if_false]
  rw [range_map_getD, range_map_getD]

theorem convert_to_weights_eq (nbr_map : List (List Nat)) (order_contiguity : Nat)
    (include_lower_order : Bool) :
    convert_to_weights nbr_map order_contiguity include_lower_order
      = make_higher_ord_contiguity order_contiguity nbr_map.length nbr_map
          include_lower_order := by
  unfold convert_to_weights
  simp only [range_map_getD]
  split_ifs with h
  · have hlen :=
      make_higher_ord_length order_contiguity nbr_map.length nbr_map include_lower_order
    generalize make_higher_ord_contiguity order_contiguity nbr_map.length nbr_map
      include_lower_order = r at hlen ⊢
    rw [← hlen]
    exact range_map_getD r
  · rw [range_map_getD]
    unfold make_higher_ord_contiguity
    rw [if_pos (Or.inr (by omega))]

/-! ## Walks and distances -/

theorem reach_succ_of_mem (W1 : List (List Nat)) (i n u x : Nat) (hu : reach W1 i n u)
    (hx : x ∈ W1.getD u []) : reach W1 i (n + 1) x := ⟨u, hu, hx⟩

theorem exists_dist_of_reach (W1 : List (List Nat)) (i m x : Nat) (h : reach W1 i m x) :
    ∃ m0, m0 ≤ m ∧ dist_eq W1 i m0 x := by
  classical
  have hex : ∃ n, reach W1 i n x := ⟨m, h⟩
  exact ⟨Nat.find hex, Nat.find_min' hex h, Nat.find_spec hex, fun m' hm' => Nat.find_min hex hm'⟩

theorem lt_length_of_mem_getD {W1 : List (List Nat)} {u x : Nat} (h : x ∈ W1.getD u []) :
    u < W1.length := by
  by_contra hcon
  rw [List.getD_eq_getElem?_getD, List.getElem?_eq_none (not_lt.1 hcon)] at h
  simp at h

theorem layer_eq_dist (W1 : List (List Nat))
    (hsym : ∀ i < W1.length, ∀ j ∈ W1.getD i [], i ∈ W1.getD j [])
    (hirr : ∀ i < W1.length, i ∉ W1.getD i []) (i d : Nat) :
    (∀ x, x ∈ layer W1 i d ↔ dist_eq W1 i d x) ∧
      (∀ x, x ∈ layer W1 i (d + 1) ↔ dist_eq W1 i (d + 1) x) := by
  induction d with
  | zero =>
    constructor
    · intro x
      simp [layer, dist_eq, reach]
    · intro x
      simp only [layer, dist_eq, reach, List.mem_toFinset, exists_eq_left, zero_add]
      constructor
      · intro hx
        refine ⟨hx, fun m hm => ?_⟩
        have : m = 0 := by omega
        subst this
        simp only [reach]
        rintro rfl
        exact hirr x (lt_length_of_mem_getD hx) hx
      · exact fun h => h.1
  | succ d ih =>
    obtain ⟨ih0, ih1⟩ := ih
    refine ⟨ih1, fun x => ?_⟩
    simp only [layer, Finset.mem_sdiff, Finset.mem_biUnion, Finset.mem_union,
      List.mem_toFinset, not_or]
    constructor
    · rintro ⟨⟨u, hu, hxu⟩, hn1, hn0⟩
      have hdu := (ih1 u).1 hu
      refine ⟨⟨u, hdu.1, hxu⟩, fun m hm hreach => ?_⟩
      obtain ⟨m0, hm0, hdist⟩ := exists_dist_of_reach W1 i m x hreach
      by_cases c1 : m0 = d + 1
      · subst c1; exact hn1 ((ih1 x).2 hdist)
      · by_cases c0 : m0 = d
        · subst c0; exact hn0 ((ih0 x).2 hdist)
        · have hux : u ∈ W1.getD x [] := hsym u (lt_length_of_mem_getD hxu) x hxu
          exact hdu.2 (m0 + 1) (by omega) ⟨x, hdist.1, hux⟩
    · rintro ⟨⟨u, hu, hxu⟩, hmin⟩
      have hdu : dist_eq W1 i (d + 1) u :=
        ⟨hu, fun m hm hr => hmin (m + 1) (by omega) ⟨u, hr, hxu⟩⟩
      refine ⟨⟨u, (ih1 u).2 hdu, hxu⟩, fun h => ?_, fun h => ?_⟩
      · exact hmin (d + 1) (by omega) ((ih1 x).1 h).1
      · exact hmin d (by omega) ((ih0 x).1 h).1

theorem make_higher_ord_getD_gen (distance obs : Nat) (weights : List (List Nat))
    (cummulative : Bool) (i : Nat) :
    (make_higher_ord_contiguity distance obs weights cummulative).getD i []
      = if 2 ≤ distance ∧ i < obs ∧ i < weights.length then
          higher_ord_row weights i distance cummulative
        else weights.getD i [] := by
  by_cases h : 2 ≤ distance ∧ i < obs ∧ i < weights.length
  · rw [if_pos h]
    exact make_higher_ord_getD distance obs weights cummulative h.1 i h.2.1 h.2.2
  · rw [if_neg h]
    unfold make_higher_ord_contiguity
    split_ifs with h1
    · rfl
    · simp only []
      rw [(foldl_set_range _ obs weights).2]
      have h2 : ¬ (i < obs ∧ i < weights.length) := fun hc => h ⟨by omega, hc⟩
      rw [if_neg h2]

theorem layer_mem_source (W1 : List (List Nat)) (i d x : Nat) (hd : 1 ≤ d)
    (hx : x ∈ layer W1 i d) : ∃ u, x ∈ W1.getD u [] := by
  match d with
  | 1 => exact ⟨i, by simpa [layer] using hx⟩
  | d + 2 =>
    simp only [layer, Finset.mem_sdiff, Finset.mem_biUnion, List.mem_toFinset] at hx
    obtain ⟨⟨u, _, hu⟩, _⟩ := hx
    exact ⟨u, hu⟩

theorem make_higher_ord_mem_source (distance obs : Nat) (weights : List (List Nat))
    (cummulative : Bool) (i x : Nat)
    (hx : x ∈ (make_higher_ord_contiguity distance obs weights cummulative).getD i []) :
    ∃ u, x ∈ weights.getD u [] := by
  rw [make_higher_ord_getD_gen] at hx
  split_ifs at hx with h
  · rw [mem_higher_ord_row weights i distance cummulative (by omega)] at hx
    obtain ⟨d, h1, _, hd⟩ := hx
    refine layer_mem_source weights i d x ?_ hd
    split_ifs at h1 <;> omega
  · exact ⟨i, hx⟩

theorem getD_eq_nil_of_replicate (n i : Nat) (l : List (List Nat))
    (h : l = List.replicate n []) : l.getD i [] = [] := by
  rw [h]; exact getD_replicate_nil n i

theorem make_higher_ord_replicate (distance n : Nat) (cummulative : Bool) :
    make_higher_ord_contiguity distance n (List.replicate n []) cummulative
      = List.replicate n [] := by
  rw [List.eq_replicate_iff]
  refine ⟨by rw [make_higher_ord_length, List.length_replicate], fun b hb => ?_⟩
  obtain ⟨k, hk⟩ := List.mem_iff_getElem?.1 hb
  rw [List.eq_nil_iff_forall_not_mem]
  intro x hx
  have hx2 : x ∈ (make_higher_ord_contiguity distance n (List.replicate n [])
      cummulative).getD k [] := by
    rw [List.getD_eq_getElem?_getD, hk]; exact hx
  obtain ⟨u, hu⟩ := make_higher_ord_mem_source _ _ _ _ _ _ hx2
  rw [getD_replicate_nil] at hu
  simp at hu

theorem convert_to_weights_replicate (n order_contiguity : Nat) (include_lower_order : Bool) :
    convert_to_weights (List.replicate n []) order_contiguity include_lower_order
      = List.replicate n [] := by
  rw [convert_to_weights_eq, List.length_replicate, make_higher_ord_replicate]

theorem foldl_keep {σ ι : Type} (l : List ι) (s : σ) : l.foldl (fun nm _ => nm) s = s := by
  induction l with
  | nil => rfl
  | cons _ t ih => exact ih

theorem slot_start_succ_le (sizes : List Nat) (i : Nat) (hi : i < sizes.length) :
    slot_start sizes i + 1 ≤ slot_start sizes sizes.length := by
  unfold slot_start
  rw [List.take_length]
  conv_rhs => rw [← List.take_append_drop i sizes]
  rw [List.map_append, List.sum_append, List.drop_eq_getElem_cons hi, List.map_cons,
    List.sum_cons]
  have : 1 ≤ max sizes[i] 1 := le_max_right _ _
  omega

theorem simple_polygon_rook_weights_eq {α : Type} [LinearOrderedRing α] (fmt : α → String)
    (geoms : GeometryCollection α) (order_contiguity : Nat) (include_lower_order : Bool) :
    simple_polygon_rook_weights fmt geoms order_contiguity include_lower_order
      = (rook_edge_to_polygon fmt geoms).map (fun _ => List.replicate geoms.size []) := by
  unfold simple_polygon_rook_weights
  cases rook_edge_to_polygon fmt geoms with
  | none => rfl
  | some m =>
    simp only [foldl_keep, Option.map_some']
    exact congrArg some (convert_to_weights_replicate _ _ _)

theorem rook_result_eq {α : Type} [LinearOrderedRing α] (fmt : α → String)
    (geoms : GeometryCollection α) (order_contiguity : Nat) (include_lower_order : Bool)
    (A : List (List Nat))
    (h : simple_polygon_rook_weights fmt geoms order_contiguity include_lower_order = some A) :
    A = List.replicate geoms.size [] := by
  rw [simple_polygon_rook_weights_eq] at h
  cases hm : rook_edge_to_polygon fmt geoms with
  | none => rw [hm] at h; cases h
  | some m =>
    rw [hm] at h
    exact (Option.some.inj h).symm

theorem rook_polygon_edges_some {α : Type} [LinearOrderedRing α] (fmt : α → String)
    (geoms : GeometryCollection α) (i : Nat) (n : Nat) :
    ∀ (j : Nat) (m : List (String × List Nat)),
      (∀ k, j ≤ k → k < j + n → point_in_bounds geoms i k = true ∧
        point_in_bounds geoms i ((k + 1) % get_num_points geoms i) = true) →
      ∃ m2, rook_polygon_edges fmt geoms i n j m = some m2 := by
  induction n with
  | zero => intro j m _; exact ⟨m, rfl⟩
  | succ n ih =>
    intro j m h
    unfold rook_polygon_edges
    rw [if_pos (h j (le_refl _) (by omega))]
    exact ih (j + 1) _ (fun k hk1 hk2 => h k (by omega) (by omega))

theorem get_num_points_bounds {α : Type} [LinearOrderedRing α] (geoms : GeometryCollection α)
    (hwf : well_formed geoms) (hasc : ascending_parts geoms) (i : Nat)
    (hi : i < geoms.size) :
    part_offset geoms i < geoms.parts.length ∧
    geoms.parts.getD (part_offset geoms i) 0 + get_num_points geoms i ≤ geoms.x.length := by
  have hilt : i < geoms.sizes.length := hi
  have hoff : part_offset geoms i < geoms.parts.length := by
    rw [part_offset_eq_slot_start geoms i (le_of_lt hilt)]
    have := slot_start_succ_le geoms.sizes i hilt
    have := hwf.2.1
    omega
  refine ⟨hoff, ?_⟩
  have hstart : geoms.parts.getD (part_offset geoms i) 0 ≤ geoms.x.length := by
    apply hwf.2.2
    rw [List.getD_eq_getElem _ _ hoff]
    exact List.getElem_mem _
  unfold get_num_points
  dsimp only
  by_cases hc : part_offset geoms i + geoms.sizes.getD i 0 ≥ geoms.parts.length
  · rw [if_pos hc, if_pos hstart]
    omega
  · rw [if_neg hc]
    have hlt : part_offset geoms i + geoms.sizes.getD i 0 < geoms.parts.length := not_le.1 hc
    have hstop : geoms.parts.getD (part_offset geoms i + geoms.sizes.getD i 0) 0
        ≤ geoms.x.length := by
      apply hwf.2.2
      rw [List.getD_eq_getElem _ _ hlt]
      exact List.getElem_mem _
    have hle : geoms.parts.getD (part_offset geoms i) 0
        ≤ geoms.parts.getD (part_offset geoms i + geoms.sizes.getD i 0) 0 := by
      rw [List.getD_eq_getElem _ _ hoff, List.getD_eq_getElem _ _ hlt]
      rcases Nat.eq_zero_or_pos (geoms.sizes.getD i 0) with h0 | hpos
      · simp only [h0, add_zero, le_refl]
      · exact List.pairwise_iff_getElem.1 hasc _ _ hoff hlt (by omega)
    rw [if_pos hle]
    omega

theorem rook_edge_to_polygon_some {α : Type} [LinearOrderedRing α] (fmt : α → String)
    (geoms : GeometryCollection α) (hwf : well_formed geoms) (hasc : ascending_parts geoms) :
    ∃ m, rook_edge_to_polygon fmt geoms = some m := by
  unfold rook_edge_to_polygon
  have key : ∀ (n : Nat), n ≤ geoms.size → ∀ m0 : List (String × List Nat),
      ∃ m, (List.range n).foldl
        (fun m i =>
          match m with
          | none => none
          | some m =>
            if part_offset geoms i < geoms.parts.length then
              rook_polygon_edges fmt geoms i (get_num_points geoms i) 0 m
            else none)
        (some m0) = some m := by
    intro n
    induction n with
    | zero => intro _ m0; exact ⟨m0, rfl⟩
    | succ n ih =>
      intro hn m0
      obtain ⟨m1, hm1⟩ := ih (by omega) m0
      rw [List.range_succ, List.foldl_append, hm1]
      simp only [List.foldl_cons, List.foldl_nil]
      obtain ⟨hoff, hb⟩ := get_num_points_bounds geoms hwf hasc n (by omega)
      rw [if_pos hoff]
      apply rook_polygon_edges_some
      intro k _ hk
      have hk2 : k < get_num_points geoms n := by omega
      have hmod : (k + 1) % get_num_points geoms n < get_num_points geoms n :=
        Nat.mod_lt _ (by omega)
      have hxy := hwf.1
      unfold point_in_bounds
      simp only [Bool.and_eq_true, decide_eq_true_eq]
      refine ⟨⟨⟨hoff, by omega⟩, by omega⟩, ⟨⟨hoff, by omega⟩, by omega⟩⟩
  exact key geoms.size (le_refl _) []

theorem rook_returns {α : Type} [LinearOrderedRing α] (fmt : α → String)
    (geoms : GeometryCollection α) (order_contiguity : Nat) (include_lower_order : Bool)
    (hwf : well_formed geoms) (hasc : ascending_parts geoms) :
    simple_polygon_rook_weights fmt geoms order_contiguity include_lower_order
      = some (List.replicate geoms.size []) := by
  obtain ⟨m, hm⟩ := rook_edge_to_polygon_some fmt geoms hwf hasc
  rw [simple_polygon_rook_weights_eq, hm]
  rfl

/-! ## Tolerant engine -/

theorem foldl_inv {σ ι : Type} (P : σ → Prop) (step : σ → ι → σ) (es : List ι)
    (h : ∀ s e, e ∈ es → P s → P (step s e)) (s : σ) (hs : P s) : P (es.foldl step s) := by
  induction es generalizing s with
  | nil => exact hs
  | cons e t ih =>
    rw [List.foldl_cons]
    exact ih (fun s e' he' => h s e' (List.mem_cons_of_mem _ he')) _
      (h s e (List.mem_cons_self _ _) hs)

section ThresholdLemmas

variable {α β μ : Type} [LinearOrderedRing α]

theorem mem_collect_neighbors (ops : PartitionOps α β μ) (gY : μ) (curr x : Nat)
    (hx : x ∈ collect_neighbors ops gY curr) : x ≠ curr ∧ ∃ cell, x ∈ ops.m_chain gY cell := by
  unfold collect_neighbors at hx
  revert x
  refine foldl_inv (fun acc : List Nat => ∀ x ∈ acc, x ≠ curr ∧ ∃ cell, x ∈ ops.m_chain gY cell)
    _ _ ?_ [] (by simp)
  intro acc cell _ hacc
  have key : ∀ (l : List Nat) (acc : List Nat), (∀ x ∈ l, x ∈ ops.m_chain gY cell) →
      (∀ x ∈ acc, x ≠ curr ∧ ∃ cell, x ∈ ops.m_chain gY cell) →
      ∀ x ∈ l.foldl (fun neighbors potential =>
        if potential ≠ curr then potential :: neighbors else neighbors) acc,
        x ≠ curr ∧ ∃ cell, x ∈ ops.m_chain gY cell := by
    intro l
    induction l with
    | nil => intro acc _ hacc; exact hacc
    | cons a t ih =>
      intro acc hl hacc
      rw [List.foldl_cons]
      refine ih _ (fun x hx => hl x (List.mem_cons_of_mem _ hx)) ?_
      split_ifs with ha
      · intro x hx
        rcases List.mem_cons.1 hx with rfl | hx
        · exact ⟨ha, cell, hl _ (List.mem_cons_self _ _)⟩
        · exact hacc x hx
      · exact hacc
  exact key _ acc (fun x hx => hx) hacc

theorem mem_test_neighbors (ops : PartitionOps α β μ) (geoms : GeometryCollection α)
    (is_queen : Bool) (precision_threshold : α) (curr : Nat) (neighbors : List Nat) (x : Nat)
    (hx : x ∈ test_neighbors ops geoms is_queen precision_threshold curr neighbors) :
    x ∈ neighbors ∧ accepted ops geoms is_queen precision_threshold curr x := by
  unfold test_neighbors at hx
  have key : ∀ (l acc : List Nat),
      ∀ x ∈ l.foldl (fun related nbr =>
        if bbox_intersects (ops.get_bbox geoms curr) (ops.get_bbox geoms nbr) then
          if ops.sweep geoms curr nbr is_queen precision_threshold then nbr :: related
          else related
        else related) acc,
        x ∈ acc ∨ (x ∈ l ∧ accepted ops geoms is_queen precision_threshold curr x) := by
    intro l
    induction l with
    | nil => intro acc x hx; exact Or.inl hx
    | cons a t ih =>
      intro acc x hx
      rw [List.foldl_cons] at hx
      rcases ih _ x hx with h | ⟨h1, h2⟩
      · split_ifs at h with hb hs
        · rcases List.mem_cons.1 h with rfl | h
          · exact Or.inr ⟨List.mem_cons_self _ _, hb, hs⟩
          · exact Or.inl h
        · exact Or.inl h
        · exact Or.inl h
      · exact Or.inr ⟨List.mem_cons_of_mem _ h1, h2⟩
  rcases key neighbors [] x hx with h | h
  · simp at h
  · exact h

theorem record_related_ext (curr : Nat) (related : List Nat) (nm : List (List Nat)) :
    Extends (fun i j => ∃ nbr ∈ related, (i = curr ∧ j = nbr) ∨ (i = nbr ∧ j = curr))
      nm (record_related curr related nm) := by
  unfold record_related
  exact Extends.nbr_foldl (fun nm nbr => nbr_insert (nbr_insert nm curr nbr) nbr curr)
    (fun nbr i j => (i = curr ∧ j = nbr) ∨ (i = nbr ∧ j = curr)) related
    (fun nm nbr _ => (Extends.nbr_insert_one nm curr nbr).nbr_trans (Extends.nbr_insert_one _ nbr curr)) nm

theorem PairClass.or (ops : PartitionOps α β μ) (geoms : GeometryCollection α)
    (is_queen : Bool) (precision_threshold : α) (IdB : Nat → Prop) (R1 R2 : Nat → Nat → Prop)
    (h1 : PairClass ops geoms is_queen precision_threshold IdB R1)
    (h2 : PairClass ops geoms is_queen precision_threshold IdB R2) :
    PairClass ops geoms is_queen precision_threshold IdB (fun i j => R1 i j ∨ R2 i j) := by
  intro i j h
  rcases h with h | h
  · obtain ⟨a, b⟩ := h1 i j h
    exact ⟨Or.inl a, b⟩
  · obtain ⟨a, b⟩ := h2 i j h
    exact ⟨Or.inr a, b⟩

theorem threshold_sweep_ext (ops : PartitionOps α β μ) (geoms : GeometryCollection α)
    (is_queen : Bool) (precision_threshold : α) (gMinX gMaxX : β) (gY : μ) (N : Nat)
    (IdB : Nat → Prop) (InvM : μ → Prop)
    (hmin : ∀ step, ∀ id ∈ ops.base_chain gMinX step, IdB id)
    (hmax : ∀ step, ∀ id ∈ ops.base_chain gMaxX step, IdB id)
    (hinc : ∀ m id, InvM m → IdB id → InvM (ops.m_include m id))
    (hrem : ∀ m id, InvM m → InvM (ops.m_remove m id))
    (hchain : ∀ m cell, InvM m → ∀ id ∈ ops.m_chain m cell, IdB id)
    (hY : InvM gY) :
    ∃ R, PairClass ops geoms is_queen precision_threshold IdB R ∧
      Extends R (List.replicate N [])
        (threshold_sweep ops geoms is_queen precision_threshold gMinX gMaxX gY N).2 := by
  unfold threshold_sweep
  have hP := foldl_inv
    (fun st : μ × List (List Nat) => InvM st.1 ∧
      ∃ R, PairClass ops geoms is_queen precision_threshold IdB R ∧
        Extends R (List.replicate N []) st.2)
    (fun st step =>
      let gY := (ops.base_chain gMinX step).foldl (fun part curr => ops.m_include part curr) st.1
      (ops.base_chain gMaxX step).foldl
        (fun st curr =>
          let neighbors := collect_neighbors ops st.1 curr
          let related := test_neighbors ops geoms is_queen precision_threshold curr neighbors
          (ops.m_remove st.1 curr, record_related curr related st.2))
        (gY, st.2))
    (List.range (ops.base_cells gMinX)) ?_ (gY, List.replicate N [])
    ⟨hY, _, fun i j h => h.elim, Extends.nbr_refl _⟩
  · exact hP.2
  · intro st step _ hst
    obtain ⟨hInv, R, hR, hExt⟩ := hst
    have hInv2 : InvM ((ops.base_chain gMinX step).foldl
        (fun part curr => ops.m_include part curr) st.1) :=
      foldl_inv InvM _ _ (fun m id hid hm => hinc m id hm (hmin step id hid)) _ hInv
    refine foldl_inv
      (fun st : μ × List (List Nat) => InvM st.1 ∧
        ∃ R, PairClass ops geoms is_queen precision_threshold IdB R ∧
          Extends R (List.replicate N []) st.2) _ _ ?_ _ ⟨hInv2, R, hR, hExt⟩
    intro st2 curr hcurr hst2
    obtain ⟨hI, R2, hR2, hE2⟩ := hst2
    refine ⟨hrem _ _ hI, _, ?_, hE2.nbr_trans (record_related_ext curr _ st2.2)⟩
    apply PairClass.or _ _ _ _ _ _ _ hR2
    have hrel : ∀ nbr ∈ test_neighbors ops geoms is_queen precision_threshold curr
        (collect_neighbors ops st2.1 curr),
        nbr ≠ curr ∧ IdB nbr ∧ accepted ops geoms is_queen precision_threshold curr nbr := by
      intro nbr hn
      obtain ⟨h1, h2⟩ := mem_test_neighbors ops geoms is_queen precision_threshold curr _ nbr hn
      obtain ⟨h3, cell, h4⟩ := mem_collect_neighbors ops st2.1 curr nbr h1
      exact ⟨h3, hchain _ cell hI nbr h4, h2⟩
    have hc : IdB curr := hmax step curr hcurr
    rintro i j ⟨nbr, hn, (⟨rfl, rfl⟩ | ⟨rfl, rfl⟩)⟩
    · obtain ⟨h1, h2, h3⟩ := hrel j hn
      exact ⟨⟨j, hn, Or.inr ⟨rfl, rfl⟩⟩, Ne.symm h1, hc, h2, Or.inl h3⟩
    · obtain ⟨h1, h2, h3⟩ := hrel i hn
      exact ⟨⟨i, hn, Or.inl ⟨rfl, rfl⟩⟩, h1, h2, hc, Or.inr h3⟩

theorem y_partition_loop_inv (ops : PartitionOps α β μ) (geoms : GeometryCollection α)
    (gRecords : Nat) (shp_y_len shp_min_y : α) (InvM : μ → Prop)
    (hbuild : ∀ gy, InvM (y_partition_build ops geoms gRecords gy shp_y_len shp_min_y))
    (fuel gy : Nat) (gY : μ)
    (h : y_partition_loop ops geoms gRecords shp_y_len shp_min_y fuel gy = some gY) :
    InvM gY := by
  induction fuel generalizing gy with
  | zero => simp [y_partition_loop] at h
  | succ fuel ih =>
    simp only [y_partition_loop] at h
    split_ifs at h with h1 h2
    · exact ih _ h
    · exact ih _ h
    · cases h
      exact hbuild gy

theorem threshold_result (ops : PartitionOps α β μ) (fuel : Nat) (geoms : GeometryCollection α)
    (is_queen : Bool) (precision_threshold : α) (order_contiguity : Nat)
    (include_lower_order : Bool) (A : List (List Nat)) (IdB : Nat → Prop)
    (hId : ∀ cnt < geoms.size, IdB cnt) (hconf : ops.confined geoms.size IdB)
    (h : polygon_contiguity_weights_threshold ops fuel geoms is_queen precision_threshold
      order_contiguity include_lower_order = some A) :
    ∃ nm R, A = convert_to_weights nm order_contiguity include_lower_order ∧
      PairClass ops geoms is_queen precision_threshold IdB R ∧
      Extends R (List.replicate geoms.size []) nm := by
  obtain ⟨InvB, InvM, hB0, hBi, hBc, hM0, hMix, hMi, hMr, hMc⟩ := hconf
  unfold polygon_contiguity_weights_threshold at h
  simp only [] at h
  split at h
  · rename_i shp_min_x shp_max_x shp_min_y shp_max_y _ _ _ _
    split at h
    · rename_i gYPartition hloop
      cases h
      have hX : InvB (x_partitions ops geoms geoms.size (geoms.size / 8 + 2)
            (shp_max_x - shp_min_x) shp_min_x).1 ∧
          InvB (x_partitions ops geoms geoms.size (geoms.size / 8 + 2)
            (shp_max_x - shp_min_x) shp_min_x).2 := by
        unfold x_partitions
        refine foldl_inv (fun st : β × β => InvB st.1 ∧ InvB st.2) _ _ ?_ _ ⟨hB0 _ _, hB0 _ _⟩
        intro st cnt hcnt hst
        have := hId cnt (List.mem_range.1 hcnt)
        exact ⟨hBi _ _ _ hst.1 this, hBi _ _ _ hst.2 this⟩
      have hYinv : InvM gYPartition := by
        refine y_partition_loop_inv ops geoms geoms.size _ _ InvM ?_ _ _ _ hloop
        intro gy
        unfold y_partition_build
        refine foldl_inv InvM _ _ ?_ _ (hM0 _ _)
        intro m cnt hcnt hm
        exact hMix _ _ _ _ hm (hId cnt (List.mem_range.1 hcnt))
      obtain ⟨R, hR, hE⟩ := threshold_sweep_ext ops geoms is_queen precision_threshold
        (x_partitions ops geoms geoms.size (geoms.size / 8 + 2)
            (shp_max_x - shp_min_x) shp_min_x).1
        (x_partitions ops geoms geoms.size (geoms.size / 8 + 2)
            (shp_max_x - shp_min_x) shp_min_x).2
        gYPartition geoms.size IdB InvM
        (fun step => hBc _ step hX.1) (fun step => hBc _ step hX.2) hMi hMr hMc hYinv
      exact ⟨_, R, rfl, hR, hE⟩
    · cases h
  · cases h

theorem confined_true (ops : PartitionOps α β μ) (N : Nat) :
    ops.confined N (fun _ => True) :=
  ⟨fun _ => True, fun _ => True, by simp, by simp, by simp, by simp, by simp, by simp, by simp,
    by simp⟩

end ThresholdLemmas

theorem single_bucket_ops_confined (N : Nat) :
    single_bucket_ops.confined N (fun id => id < N) := by
  refine ⟨fun b => ∀ id ∈ b, id < N, fun m => ∀ id ∈ m.2, id < N, ?_, ?_, ?_, ?_, ?_, ?_, ?_, ?_⟩
  · intro _ _ id hid
    simp [single_bucket_ops] at hid
  · intro b id _ hb hid x hx
    simp only [single_bucket_ops, List.mem_cons] at hx
    rcases hx with rfl | hx
    · exact hid
    · exact hb x hx
  · intro b step hb id hid
    simp only [single_bucket_ops] at hid
    split_ifs at hid
    · exact hb id hid
    · simp at hid
  · intro _ _ id hid
    simp [single_bucket_ops] at hid
  · intro m id _ _ hm _
    exact hm
  · intro m id hm hid x hx
    simp only [single_bucket_ops, List.mem_cons] at hx
    rcases hx with rfl | hx
    · exact hid
    · exact hm x hx
  · intro m id hm x hx
    simp only [single_bucket_ops, List.mem_filter] at hx
    exact hm x hx.1
  · intro m cell hm id hid
    simp only [single_bucket_ops] at hid
    split_ifs at hid
    · exact hm id hid
    · simp at hid

/-! ## Point route -/

section PointLemmas

variable {α : Type} [LinearOrderedRing α]

theorem bucket_pairs_ext (nbrs : List Nat) (nm : List (List Nat)) :
    Extends (fun i j => i ≠ j ∧ i ∈ nbrs ∧ j ∈ nbrs) nm (bucket_pairs nbrs nm) := by
  unfold bucket_pairs
  refine (Extends.nbr_foldl
    (fun nm ii => nbrs.foldl (fun nm jj => if ii ≠ jj then nbr_insert nm ii jj else nm) nm)
    (fun ii i j => ∃ jj ∈ nbrs, ii ≠ jj ∧ i = ii ∧ j = jj) nbrs ?_ nm).nbr_congr ?_
  · intro nm ii _
    refine Extends.nbr_foldl (fun nm jj => if ii ≠ jj then nbr_insert nm ii jj else nm)
      (fun jj i j => ii ≠ jj ∧ i = ii ∧ j = jj) nbrs ?_ nm
    intro nm jj _
    by_cases h : ii = jj
    · simp only [h, ne_eq, not_true_eq_false, if_false]
      exact (Extends.nbr_refl nm).nbr_congr (by simp)
    · simp only [ne_eq, h, not_false_eq_true, if_true]
      exact (Extends.nbr_insert_one nm ii jj).nbr_congr (by simp)
  · intro i j
    constructor
    · rintro ⟨ii, hii, jj, hjj, hne, rfl, rfl⟩
      exact ⟨hne, hii, hjj⟩
    · rintro ⟨hne, hi, hj⟩
      exact ⟨i, hi, j, hj, hne, rfl, rfl⟩

theorem map_insert_all (Q : Nat → Prop) {K : Type} [DecidableEq K] (m : List (K × List Nat))
    (k : K) (i : Nat) (hm : ∀ it ∈ m, ∀ p ∈ it.2, Q p) (hi : Q i) :
    ∀ it ∈ map_modify m k [] (set_insert i), ∀ p ∈ it.2, Q p := by
  refine map_modify_forall (fun (_ : K) (s : List Nat) => ∀ p ∈ s, Q p) m k [] _ hm ?_ ?_
  · intro p hp
    rw [mem_set_insert] at hp
    rcases hp with rfl | hp
    · exact hi
    · simp at hp
  · intro v hv p hp
    rw [mem_set_insert] at hp
    rcases hp with rfl | hp
    · exact hi
    · exact hm _ hv p hp

theorem site_maps_sound (fmt : α → String) (diagram : jcv_diagram α) (is_queen : Bool) :
    (∀ it ∈ (site_maps fmt diagram is_queen).1, ∀ p ∈ it.2, ∃ s ∈ diagram.sites, s.index = p) ∧
    (∀ it ∈ (site_maps fmt diagram is_queen).2, ∀ p ∈ it.2, ∃ s ∈ diagram.sites, s.index = p) := by
  unfold site_maps
  refine foldl_inv
    (fun maps : List (String × List Nat) × List (String × List Nat) =>
      (∀ it ∈ maps.1, ∀ p ∈ it.2, ∃ s ∈ diagram.sites, s.index = p) ∧
      (∀ it ∈ maps.2, ∀ p ∈ it.2, ∃ s ∈ diagram.sites, s.index = p)) _ _ ?_ _
    ⟨by simp, by simp⟩
  intro maps site hsite hmaps
  refine foldl_inv
    (fun maps : List (String × List Nat) × List (String × List Nat) =>
      (∀ it ∈ maps.1, ∀ p ∈ it.2, ∃ s ∈ diagram.sites, s.index = p) ∧
      (∀ it ∈ maps.2, ∀ p ∈ it.2, ∃ s ∈ diagram.sites, s.index = p)) _ _ ?_ _ hmaps
  intro maps e _ hm
  have hq : ∃ s ∈ diagram.sites, s.index = site.index := ⟨site, hsite, rfl⟩
  cases is_queen with
  | true =>
    simp only [if_true]
    exact ⟨hm.1, map_insert_all _ _ _ _ (map_insert_all _ _ _ _ hm.2 hq) hq⟩
  | false =>
    simp only [Bool.false_eq_true, if_false]
    exact ⟨map_insert_all _ _ _ _ hm.1 hq, hm.2⟩

theorem point_nbr_map_ext (fmt : α → String) (diagram : jcv_diagram α) (num_obs : Nat)
    (is_queen : Bool) :
    Extends (point_pairs fmt diagram is_queen) (List.replicate num_obs [])
      (point_nbr_map fmt diagram num_obs is_queen) := by
  unfold point_nbr_map point_pairs
  simp only []
  cases is_queen with
  | true =>
    simp only [if_true]
    exact Extends.nbr_foldl (fun nm (it : String × List Nat) => bucket_pairs it.2 nm)
      (fun it i j => i ≠ j ∧ i ∈ it.2 ∧ j ∈ it.2) _ (fun nm it _ => bucket_pairs_ext it.2 nm) _
  | false =>
    simp only [Bool.false_eq_true, if_false]
    exact Extends.nbr_foldl (fun nm (it : String × List Nat) => bucket_pairs it.2 nm)
      (fun it i j => i ≠ j ∧ i ∈ it.2 ∧ j ∈ it.2) _ (fun nm it _ => bucket_pairs_ext it.2 nm) _

theorem point_pairs_spec (fmt : α → String) (diagram : jcv_diagram α) (is_queen : Bool)
    (i j : Nat) (h : point_pairs fmt diagram is_queen i j) :
    point_pairs fmt diagram is_queen j i ∧ i ≠ j ∧ (∃ s ∈ diagram.sites, s.index = i) ∧
      ∃ s ∈ diagram.sites, s.index = j := by
  obtain ⟨it, hit, hne, hi, hj⟩ := h
  have hs := site_maps_sound fmt diagram is_queen
  refine ⟨⟨it, hit, Ne.symm hne, hj, hi⟩, hne, ?_, ?_⟩
  · cases is_queen with
    | true => exact hs.2 it hit i hi
    | false => exact hs.1 it hit i hi
  · cases is_queen with
    | true => exact hs.2 it hit j hj
    | false => exact hs.1 it hit j hj

theorem neighbors_to_gal_eq (nbr_map : List (List Nat)) : neighbors_to_gal nbr_map = nbr_map := by
  unfold neighbors_to_gal
  split_ifs with h
  · exact (List.length_eq_zero.1 h).symm
  · exact range_map_getD nbr_map

theorem point_contiguity_weights_eq (fmt : α → String) (diagram : jcv_diagram α)
    (geoms : GeometryCollection α) (is_queen : Bool) (precision_threshold : α)
    (order_contiguity : Nat) (include_lower_order : Bool) :
    point_contiguity_weights fmt (some diagram) geoms is_queen precision_threshold
        order_contiguity include_lower_order
      = if order_contiguity > 1 ∧ geoms.size ≠ 0 then none
        else some (convert_to_weights (point_nbr_map fmt diagram geoms.size is_queen)
          order_contiguity include_lower_order) := by
  have hlen : (point_nbr_map fmt diagram geoms.size is_queen).length = geoms.size := by
    rw [(point_nbr_map_ext fmt diagram geoms.size is_queen).1, List.length_replicate]
  rw [convert_to_weights_eq]
  unfold point_contiguity_weights
  simp only [neighbors_to_gal_eq]
  generalize point_nbr_map fmt diagram geoms.size is_queen = nm at hlen ⊢
  rw [← hlen]
  by_cases h : order_contiguity > 1
  · rw [if_pos h]
    by_cases h0 : nm.length = 0
    · rw [if_pos h0, if_neg (fun hc => hc.2 h0)]
      have hl := make_higher_ord_length order_contiguity nm.length nm include_lower_order
      generalize make_higher_ord_contiguity order_contiguity nm.length nm include_lower_order
        = r at hl ⊢
      rw [← hl]
      exact congrArg some (range_map_getD r)
    · rw [if_neg h0, if_pos ⟨h, h0⟩]
  · rw [if_neg h, if_neg (fun hc => h hc.1), range_map_getD]
    unfold make_higher_ord_contiguity
    rw [if_pos (Or.inr (by omega))]

theorem point_contiguity_weights_low (fmt : α → String) (diagram : jcv_diagram α)
    (geoms : GeometryCollection α) (is_queen : Bool) (precision_threshold : α)
    (order_contiguity : Nat) (include_lower_order : Bool) (h : order_contiguity ≤ 1) :
    point_contiguity_weights fmt (some diagram) geoms is_queen precision_threshold
        order_contiguity include_lower_order
      = some (convert_to_weights (point_nbr_map fmt diagram geoms.size is_queen)
          order_contiguity include_lower_order) := by
  rw [point_contiguity_weights_eq, if_neg (fun hc => by omega)]

theorem point_contiguity_weights_one (fmt : α → String) (diagram : jcv_diagram α)
    (geoms : GeometryCollection α) (is_queen : Bool) (precision_threshold : α)
    (include_lower_order : Bool) :
    point_contiguity_weights fmt (some diagram) geoms is_queen precision_threshold 1
        include_lower_order
      = some (point_nbr_map fmt diagram geoms.size is_queen) := by
  rw [point_contiguity_weights_low fmt diagram geoms is_queen precision_threshold 1
    include_lower_order (le_refl _), convert_to_weights_one]

theorem point_contiguity_weights_some (fmt : α → String) (diagram : jcv_diagram α)
    (geoms : GeometryCollection α) (is_queen : Bool) (precision_threshold : α)
    (order_contiguity : Nat) (include_lower_order : Bool) (A : List (List Nat))
    (h : point_contiguity_weights fmt (some diagram) geoms is_queen precision_threshold
      order_contiguity include_lower_order = some A) :
    A = convert_to_weights (point_nbr_map fmt diagram geoms.size is_queen) order_contiguity
      include_lower_order := by
  rw [point_contiguity_weights_eq] at h
  split_ifs at h
  exact (Option.some.inj h).symm

theorem point_contiguity_weights_high (fmt : α → String) (diagram : jcv_diagram α)
    (geoms : GeometryCollection α) (is_queen : Bool) (precision_threshold : α)
    (order_contiguity : Nat) (include_lower_order : Bool) (h : 2 ≤ order_contiguity)
    (hN : 1 ≤ geoms.size) :
    point_contiguity_weights fmt (some diagram) geoms is_queen precision_threshold
        order_contiguity include_lower_order = none := by
  rw [point_contiguity_weights_eq, if_pos ⟨by omega, by omega⟩]

end PointLemmas

/-! ## From the recorded pairs to the adjacency -/

theorem Extends.mem_iff {R : Nat → Nat → Prop} {N : Nat} {nm : List (List Nat)}
    (h : Extends R (List.replicate N []) nm) (i j : Nat) :
    j ∈ nm.getD i [] ↔ i < N ∧ R i j := by
  rw [h.2.2, getD_replicate_nil, List.length_replicate]
  simp

theorem Extends.length_eq {R : Nat → Nat → Prop} {N : Nat} {nm : List (List Nat)}
    (h : Extends R (List.replicate N []) nm) : nm.length = N := by
  rw [h.1, List.length_replicate]

theorem Extends.sorted {R : Nat → Nat → Prop} {N : Nat} {nm : List (List Nat)}
    (h : Extends R (List.replicate N []) nm) : NbrSorted nm :=
  h.2.1 (nbrSorted_replicate N)

theorem Extends.symm_of {R : Nat → Nat → Prop} {N : Nat} {nm : List (List Nat)}
    (h : Extends R (List.replicate N []) nm) (hR : ∀ i j, R i j → R j i ∧ j < N) (i j : Nat) :
    j ∈ nm.getD i [] ↔ i ∈ nm.getD j [] := by
  rw [h.mem_iff, h.mem_iff]
  constructor
  · rintro ⟨hi, hr⟩
    exact ⟨(hR i j hr).2, (hR i j hr).1⟩
  · rintro ⟨hj, hr⟩
    exact ⟨(hR j i hr).2, (hR j i hr).1⟩

theorem mem_getD_of_mem {nm : List (List Nat)} {l : List Nat} (hl : l ∈ nm) :
    ∃ i, nm.getD i [] = l := by
  obtain ⟨n, hn⟩ := List.mem_iff_getElem?.1 hl
  exact ⟨n, by rw [List.getD_eq_getElem?_getD, hn]; rfl⟩

theorem convert_to_weights_bounded (nm : List (List Nat)) (N order_contiguity : Nat)
    (include_lower_order : Bool) (hlen : nm.length = N)
    (hb : ∀ i x, x ∈ nm.getD i [] → x < N) :
    (convert_to_weights nm order_contiguity include_lower_order).length = N ∧
      ∀ l ∈ convert_to_weights nm order_contiguity include_lower_order, ∀ x ∈ l, x < N := by
  rw [convert_to_weights_eq]
  refine ⟨by rw [make_higher_ord_length, hlen], fun l hl x hx => ?_⟩
  obtain ⟨i, hi⟩ := mem_getD_of_mem hl
  rw [← hi] at hx
  obtain ⟨u, hu⟩ := make_higher_ord_mem_source _ _ _ _ _ _ hx
  exact hb u x hu

/-! ## Claims on the exact engines and on the expander -/

section ClaimsExact

variable {α β μ : Type} [LinearOrderedRing α]

/-- C1. Exact queen rule: for a well-formed polygon collection,
`polygon_contiguity_weights` with `is_queen = true`, threshold `0` and order `1`
returns an adjacency that lists `j` for `i` if and only if `i ≠ j` and some
vertex of polygon `i` has exactly the coordinates of some vertex of polygon `j`. -/
theorem polygon_queen_exact_rule (ops : PartitionOps α β μ) (fuel : Nat) (fmt : α → String)
    (geoms : GeometryCollection α) (include_lower_order : Bool) (hwf : well_formed geoms) :
    ∃ A, polygon_contiguity_weights ops fuel fmt geoms true 0 1 include_lower_order = some A ∧
      ∀ i j, j ∈ A.getD i [] ↔
        (i ≠ j ∧ ∃ pt, IsVertex geoms i pt ∧ IsVertex geoms j pt) := by
  refine ⟨queen_nbr_map geoms, ?_, ?_⟩
  · simp [polygon_contiguity_weights, simple_polygon_queen_weights, convert_to_weights_one]
  · intro i j
    rw [mem_queen_nbr_map]
    constructor
    · rintro ⟨hne, x, y, hi, hj⟩
      exact ⟨hne, (x, y), (queen_files_iff_isVertex geoms hwf i x y).1 hi,
        (queen_files_iff_isVertex geoms hwf j x y).1 hj⟩
    · rintro ⟨hne, pt, hi, hj⟩
      exact ⟨hne, pt.1, pt.2, (queen_files_iff_isVertex geoms hwf i pt.1 pt.2).2 hi,
        (queen_files_iff_isVertex geoms hwf j pt.1 pt.2).2 hj⟩

end ClaimsExact

/-- C1, scenarios S1 and S6: the two squares are well formed, the rule holds for
them, they give `[[1], [0]]`, and one square alone gives `[[]]`. -/
theorem polygon_queen_exact_rule_witness :
    well_formed two_squares ∧
    (∃ A, polygon_contiguity_weights single_bucket_ops 1 int_fmt two_squares true 0 1 false
        = some A ∧
      ∀ i j, j ∈ A.getD i [] ↔
        (i ≠ j ∧ ∃ pt, IsVertex two_squares i pt ∧ IsVertex two_squares j pt)) ∧
    polygon_contiguity_weights single_bucket_ops 1 int_fmt two_squares true 0 1 false
      = some [[1], [0]] ∧
    polygon_contiguity_weights single_bucket_ops 1 int_fmt one_square true 0 1 false
      = some [[]] :=
  ⟨by decide,
    polygon_queen_exact_rule single_bucket_ops 1 int_fmt two_squares false (by decide),
    by decide, by decide⟩

/-- C2, the squares of scenario S1 under the rook rule: the squares share an
edge, the one from `(1,0)` to `(1,1)`, in both directions of the pair, and the
exact engine returns two empty lists for them, whatever the stream output `fmt`. -/
theorem polygon_rook_two_squares (ops : PartitionOps Int (List Nat) (Nat × List Nat))
    (fuel : Nat) (fmt : Int → String) (include_lower_order : Bool) :
    shares_edge two_squares 0 1 ∧ shares_edge two_squares 1 0 ∧
    polygon_contiguity_weights ops fuel fmt two_squares false 0 1 include_lower_order
      = some [[], []] := by
  refine ⟨by decide, by decide, ?_⟩
  simp only [polygon_contiguity_weights, if_true, Bool.false_eq_true, if_false,
    simple_polygon_rook_weights_eq]
  rfl

/-- C3. Layer recurrence: for a first-order adjacency `W1` over `N ≥ 1` nodes with
all entries below `N`, an order `k ≥ 2` and a node `i`, the list that
`make_higher_ord_contiguity` writes for `i` is sorted in non-increasing order and
its elements are those of the layers `layer[d]` of `W1` for `d` from
`cumulative ? 1 : k` to `k`. -/
theorem higher_order_layer_recurrence (W1 : List (List Nat)) (k i : Nat) (cumulative : Bool)
    (hN : 1 ≤ W1.length) (hb : ∀ l ∈ W1, ∀ x ∈ l, x < W1.length) (hk : 2 ≤ k)
    (hi : i < W1.length) :
    ((make_higher_ord_contiguity k W1.length W1 cumulative).getD i []).Sorted
        (fun a b => b ≤ a) ∧
      ∀ x, x ∈ (make_higher_ord_contiguity k W1.length W1 cumulative).getD i [] ↔
        ∃ d, (if cumulative then 1 else k) ≤ d ∧ d ≤ k ∧ x ∈ layer W1 i d := by
  rw [make_higher_ord_getD k W1.length W1 cumulative hk i hi hi]
  exact ⟨higher_ord_row_sorted W1 i k cumulative,
    mem_higher_ord_row W1 i k cumulative (by omega)⟩

/-- C3, scenario S4: the chain satisfies the hypotheses, node `0` gets the layers
`1` and `2`, and the whole output is `[[2,1],[3,2,0],[3,1,0],[2,1]]`. -/
theorem higher_order_layer_recurrence_witness :
    (((make_higher_ord_contiguity 2 chain4.length chain4 true).getD 0 []).Sorted
        (fun a b => b ≤ a) ∧
      ∀ x, x ∈ (make_higher_ord_contiguity 2 chain4.length chain4 true).getD 0 [] ↔
        ∃ d, (if true = true then 1 else 2) ≤ d ∧ d ≤ 2 ∧ x ∈ layer chain4 0 d) ∧
    make_higher_ord_contiguity 2 4 chain4 true = [[2, 1], [3, 2, 0], [3, 1, 0], [2, 1]] :=
  ⟨higher_order_layer_recurrence chain4 2 0 true (by decide) (by decide) (by decide)
    (by decide), by decide⟩

/-- C4. Frontier mode is the `k`-th breadth-first layer: for a symmetric and
irreflexive `W1`, an order `k ≥ 1` and a node `i`, the non-cumulative output for
`i` holds exactly the nodes at shortest-path distance `k` from `i`. -/
theorem frontier_is_bfs_layer (W1 : List (List Nat)) (k i : Nat)
    (hsym : ∀ a < W1.length, ∀ b ∈ W1.getD a [], a ∈ W1.getD b [])
    (hirr : ∀ a < W1.length, a ∉ W1.getD a []) (hk : 1 ≤ k) (hi : i < W1.length) :
    ∀ x, x ∈ (make_higher_ord_contiguity k W1.length W1 false).getD i [] ↔
      dist_eq W1 i k x := by
  intro x
  rw [make_higher_ord_getD_gen]
  by_cases h2 : 2 ≤ k
  · rw [if_pos ⟨h2, hi, hi⟩, mem_higher_ord_row W1 i k false hk]
    simp only [Bool.false_eq_true, if_false]
    rw [← (layer_eq_dist W1 hsym hirr i k).1 x]
    constructor
    · rintro ⟨d, h1, h3, hx⟩
      have : d = k := by omega
      subst this; exact hx
    · intro hx
      exact ⟨k, le_refl _, le_refl _, hx⟩
  · have hk1 : k = 1 := by omega
    subst hk1
    rw [if_neg (fun h => h2 h.1), ← (layer_eq_dist W1 hsym hirr i 1).1 x]
    simp [layer]

/-- C4, scenario S3: the chain is symmetric and irreflexive, node `0` gets the
nodes at distance `2`, and the whole output is `[[2],[3],[0],[1]]`. -/
theorem frontier_is_bfs_layer_witness :
    (∀ x, x ∈ (make_higher_ord_contiguity 2 chain4.length chain4 false).getD 0 [] ↔
      dist_eq chain4 0 2 x) ∧
    make_higher_ord_contiguity 2 4 chain4 false = [[2], [3], [0], [1]] :=
  ⟨frontier_is_bfs_layer chain4 2 0 (by decide) (by decide) (by decide) (by decide),
    by decide⟩

/-- C5. Order `1` is the identity: `make_higher_ord_contiguity` with distance `1`
and `convert_to_weights` with `order_contiguity = 1` return every neighbour list
unchanged, for both values of the cumulative flag. -/
theorem order_one_is_identity (W1 : List (List Nat)) (obs : Nat) (cumulative : Bool) :
    make_higher_ord_contiguity 1 obs W1 cumulative = W1 ∧
      convert_to_weights W1 1 cumulative = W1 :=
  ⟨make_higher_ord_one obs W1 cumulative, convert_to_weights_one W1 cumulative⟩

/-- C6. Cumulative order monotonicity: for `W1` with in-range entries and orders
`k2 > k1 ≥ 1`, every element of the cumulative order-`k1` output for a node also
occurs in the cumulative order-`k2` output for that node. -/
theorem cumulative_order_monotone (W1 : List (List Nat)) (k1 k2 i : Nat)
    (hb : ∀ l ∈ W1, ∀ x ∈ l, x < W1.length) (h1 : 1 ≤ k1) (h12 : k1 < k2) :
    ∀ x, x ∈ (make_higher_ord_contiguity k1 W1.length W1 true).getD i [] →
      x ∈ (make_higher_ord_contiguity k2 W1.length W1 true).getD i [] := by
  intro x hx
  rw [make_higher_ord_getD_gen] at hx ⊢
  by_cases hi : i < W1.length
  · rw [if_pos ⟨by omega, hi, hi⟩, mem_higher_ord_row W1 i k2 true (by omega)]
    simp only [if_true]
    split_ifs at hx with hc
    · rw [mem_higher_ord_row W1 i k1 true h1] at hx
      simp only [if_true] at hx
      obtain ⟨d, hd1, hd2, hd⟩ := hx
      exact ⟨d, hd1, by omega, hd⟩
    · exact ⟨1, le_refl _, by omega, by simpa [layer] using hx⟩
  · rw [if_neg (fun h => hi h.2.2)] at hx ⊢
    exact hx

/-- C6 on the chain of scenario S4: the entries are in range, and the cumulative
output of order `2` for node `0` lies in the cumulative output of order `3`. -/
theorem cumulative_order_monotone_witness :
    (∀ l ∈ chain4, ∀ x ∈ l, x < chain4.length) ∧
    ∀ x, x ∈ (make_higher_ord_contiguity 2 chain4.length chain4 true).getD 0 [] →
      x ∈ (make_higher_ord_contiguity 3 chain4.length chain4 true).getD 0 [] :=
  ⟨by decide, cumulative_order_monotone chain4 2 3 0 (by decide) (by decide) (by decide)⟩

/-! ## Claims on the first-order adjacency of the three routes -/

section ClaimsRoutes

variable {α β μ : Type} [LinearOrderedRing α]

/-- C7. First-order symmetry in every route: the order-1 adjacency of the exact
queen engine, of the tolerant engine (for partitions that hand out only the ids
below `N` that were put in, whatever the sweep tester answers) and of the point
route (which returns for every generated diagram; its site indices are below
`N`) lists `j` for `i` if and only if it lists `i` for `j`. -/
theorem first_order_symmetry (ops : PartitionOps α β μ) (fuel : Nat) (fmt : α → String)
    (diagram : jcv_diagram α) (geoms : GeometryCollection α) (precision_threshold : α)
    (include_lower_order : Bool)
    (hops : ops.confined geoms.size (fun id => id < geoms.size))
    (hdiag : ∀ s ∈ diagram.sites, s.index < geoms.size) :
    (∀ i j, j ∈ (simple_polygon_queen_weights geoms 1 include_lower_order).getD i [] ↔
      i ∈ (simple_polygon_queen_weights geoms 1 include_lower_order).getD j []) ∧
    (∀ is_queen A, polygon_contiguity_weights_threshold ops fuel geoms is_queen
        precision_threshold 1 include_lower_order = some A →
      ∀ i j, j ∈ A.getD i [] ↔ i ∈ A.getD j []) ∧
    (∀ is_queen, ∃ A,
      point_contiguity_weights fmt (some diagram) geoms is_queen precision_threshold 1
        include_lower_order = some A ∧
      ∀ i j, j ∈ A.getD i [] ↔ i ∈ A.getD j []) := by
  refine ⟨fun i j => ?_, fun is_queen A hA i j => ?_, fun is_queen =>
    ⟨_, point_contiguity_weights_one fmt diagram geoms is_queen precision_threshold
      include_lower_order, fun i j => ?_⟩⟩
  · simp only [simple_polygon_queen_weights, convert_to_weights_one, mem_queen_nbr_map]
    constructor
    · rintro ⟨hne, x, y, hi, hj⟩
      exact ⟨Ne.symm hne, x, y, hj, hi⟩
    · rintro ⟨hne, x, y, hi, hj⟩
      exact ⟨Ne.symm hne, x, y, hj, hi⟩
  · obtain ⟨nm, R, rfl, hR, hE⟩ := threshold_result ops fuel geoms is_queen precision_threshold
      1 include_lower_order A _ (fun _ h => h) hops hA
    rw [convert_to_weights_one]
    exact hE.symm_of (fun a b h => ⟨(hR a b h).1, (hR a b h).2.2.2.1⟩) i j
  · refine (point_nbr_map_ext fmt diagram geoms.size is_queen).symm_of (fun a b h => ?_) i j
    obtain ⟨h1, _, _, s, hs, rfl⟩ := point_pairs_spec fmt diagram is_queen a b h
    exact ⟨h1, hdiag s hs⟩

/-- C8. First-order irreflexivity in every route: the order-1 adjacency of the
exact queen engine, of the tolerant engine and of the point route never lists
`i` among the neighbours of `i`. -/
theorem first_order_irreflexive (ops : PartitionOps α β μ) (fuel : Nat) (fmt : α → String)
    (diagram : jcv_diagram α) (geoms : GeometryCollection α) (precision_threshold : α)
    (include_lower_order : Bool) :
    (∀ i, i ∉ (simple_polygon_queen_weights geoms 1 include_lower_order).getD i []) ∧
    (∀ is_queen A, polygon_contiguity_weights_threshold ops fuel geoms is_queen
        precision_threshold 1 include_lower_order = some A → ∀ i, i ∉ A.getD i []) ∧
    (∀ is_queen, ∃ A,
      point_contiguity_weights fmt (some diagram) geoms is_queen precision_threshold 1
        include_lower_order = some A ∧
      ∀ i, i ∉ A.getD i []) := by
  refine ⟨fun i => ?_, fun is_queen A hA i => ?_, fun is_queen =>
    ⟨_, point_contiguity_weights_one fmt diagram geoms is_queen precision_threshold
      include_lower_order, fun i => ?_⟩⟩
  · simp only [simple_polygon_queen_weights, convert_to_weights_one, mem_queen_nbr_map]
    exact fun h => h.1 rfl
  · obtain ⟨nm, R, rfl, hR, hE⟩ := threshold_result ops fuel geoms is_queen precision_threshold
      1 include_lower_order A _ (fun _ _ => trivial) (confined_true ops _) hA
    rw [convert_to_weights_one, hE.mem_iff]
    exact fun h => (hR i i h.2).2.1 rfl
  · rw [(point_nbr_map_ext fmt diagram geoms.size is_queen).mem_iff]
    exact fun h => (point_pairs_spec fmt diagram is_queen i i h.2).2.1 rfl

/-- C9. First-order lists are ascending and duplicate-free: every neighbour list
that `polygon_contiguity_weights` (exact or tolerant engine) and
`point_contiguity_weights` return for order `1` is strictly increasing, hence
without a repeated index. -/
theorem first_order_lists_ascending (ops : PartitionOps α β μ) (fuel : Nat) (fmt : α → String)
    (diagram : jcv_diagram α) (geoms : GeometryCollection α) (include_lower_order : Bool) :
    (∀ is_queen precision_threshold A, polygon_contiguity_weights ops fuel fmt geoms is_queen
        precision_threshold 1 include_lower_order = some A →
      ∀ l ∈ A, l.Sorted (fun a b => a < b) ∧ l.Nodup) ∧
    (∀ is_queen precision_threshold, ∃ A,
      point_contiguity_weights fmt (some diagram) geoms is_queen precision_threshold 1
        include_lower_order = some A ∧
      ∀ l ∈ A, l.Sorted (fun a b => a < b) ∧ l.Nodup) := by
  have hnd : ∀ l : List Nat, l.Pairwise (fun a b => a < b) →
      l.Sorted (fun a b => a < b) ∧ l.Nodup :=
    fun l h => ⟨h, h.imp (fun hab => Nat.ne_of_lt hab)⟩
  refine ⟨fun is_queen precision_threshold A hA l hl => hnd l ?_,
    fun is_queen precision_threshold =>
      ⟨_, point_contiguity_weights_one fmt diagram geoms is_queen precision_threshold
        include_lower_order, fun l hl => hnd l ?_⟩⟩
  · unfold polygon_contiguity_weights at hA
    split_ifs at hA with h0 hq
    · cases hA
      rw [simple_polygon_queen_weights, convert_to_weights_one] at hl
      exact (queen_nbr_map_ext geoms).sorted l hl
    · rw [rook_result_eq fmt geoms 1 include_lower_order A hA] at hl
      exact nbrSorted_replicate _ l hl
    · obtain ⟨nm, R, rfl, _, hE⟩ := threshold_result ops fuel geoms is_queen
        precision_threshold 1 include_lower_order A _ (fun _ _ => trivial)
        (confined_true ops _) hA
      rw [convert_to_weights_one] at hl
      exact hE.sorted l hl
  · exact (point_nbr_map_ext fmt diagram geoms.size is_queen).sorted l hl

theorem point_contiguity_weights_abort (fmt : α → String)
    (generated : Option (jcv_diagram α)) (geoms : GeometryCollection α) (is_queen : Bool)
    (precision_threshold : α) (order_contiguity : Nat) (include_lower_order : Bool)
    (h : 2 ≤ order_contiguity) (hN : 1 ≤ geoms.size) :
    point_contiguity_weights fmt generated geoms is_queen precision_threshold order_contiguity
      include_lower_order = none := by
  cases generated with
  | none => rfl
  | some diagram =>
    exact point_contiguity_weights_high fmt diagram geoms is_queen precision_threshold
      order_contiguity include_lower_order h hN

/-- C10. Shape and bounds of the output, and the orders for which the point
route returns one.  Every adjacency that `polygon_contiguity_weights` returns at
threshold `0` has exactly `N` lists of indices below `N`; the queen engine
always returns, the rook engine returns for a well-formed collection whose part
offsets ascend.  For `order_contiguity ≤ 1` and a generated diagram whose site
indices are below `N`, `point_contiguity_weights` returns `N` lists of indices
below `N`.  For `order_contiguity ≥ 2` and `N ≥ 1` it does not return, whatever
the diagram: the statement `delete gal` frees an array that came from `new[]`;
so on `triangle_squares` at order `2`, for both rules, while the polygon route
returns three lists for three squares in a row at order `2`. -/
theorem point_route_aborts_above_order_one (ops : PartitionOps α β μ) (fuel : Nat)
    (fmt : α → String) (geoms : GeometryCollection α) (is_queen : Bool)
    (precision_threshold : α) (order_contiguity : Nat) (include_lower_order : Bool) :
    (∀ A, polygon_contiguity_weights ops fuel fmt geoms is_queen 0 order_contiguity
        include_lower_order = some A →
      A.length = geoms.size ∧ ∀ l ∈ A, ∀ x ∈ l, x < geoms.size) ∧
    (∃ A, polygon_contiguity_weights ops fuel fmt geoms true 0 order_contiguity
        include_lower_order = some A) ∧
    (well_formed geoms → ascending_parts geoms →
      ∃ A, polygon_contiguity_weights ops fuel fmt geoms false 0 order_contiguity
        include_lower_order = some A) ∧
    (∀ diagram : jcv_diagram α, (∀ s ∈ diagram.sites, s.index < geoms.size) →
      order_contiguity ≤ 1 →
      ∃ A, point_contiguity_weights fmt (some diagram) geoms is_queen precision_threshold
          order_contiguity include_lower_order = some A ∧
        A.length = geoms.size ∧ ∀ l ∈ A, ∀ x ∈ l, x < geoms.size) ∧
    (∀ generated : Option (jcv_diagram α), 1 ≤ geoms.size → 2 ≤ order_contiguity →
      point_contiguity_weights fmt generated geoms is_queen precision_threshold
        order_contiguity include_lower_order = none) ∧
    (∀ generated : Option (jcv_diagram Int),
      point_contiguity_weights int_fmt generated triangle_squares true 0 2 true = none ∧
      point_contiguity_weights int_fmt generated triangle_squares false 0 2 false = none) ∧
    polygon_contiguity_weights single_bucket_ops 5 int_fmt three_squares true 0 2 true
      = some [[2, 1], [2, 0], [1, 0]] := by
  refine ⟨?_, ?_, ?_, ?_, ?_, ?_, by decide⟩
  · intro A hA
    unfold polygon_contiguity_weights at hA
    rw [if_pos rfl] at hA
    cases is_queen with
    | true =>
      simp only [if_true, Option.some.injEq] at hA
      subst hA
      unfold simple_polygon_queen_weights
      refine convert_to_weights_bounded _ _ _ _ (queen_nbr_map_length geoms) ?_
      intro i x hx
      rw [mem_queen_nbr_map] at hx
      obtain ⟨_, _, _, _, hj⟩ := hx
      exact hj.1
    | false =>
      simp only [Bool.false_eq_true, if_false] at hA
      rw [rook_result_eq fmt geoms order_contiguity include_lower_order A hA]
      refine ⟨List.length_replicate _ _, fun l hl x hx => ?_⟩
      rw [List.eq_of_mem_replicate hl] at hx
      simp at hx
  · refine ⟨simple_polygon_queen_weights geoms order_contiguity include_lower_order, ?_⟩
    simp only [polygon_contiguity_weights, if_true]
  · intro hwf hasc
    refine ⟨List.replicate geoms.size [], ?_⟩
    simp only [polygon_contiguity_weights, if_true, Bool.false_eq_true, if_false]
    exact rook_returns fmt geoms order_contiguity include_lower_order hwf hasc
  · intro diagram hdiag hle
    refine ⟨_, point_contiguity_weights_low fmt diagram geoms is_queen precision_threshold
      order_contiguity include_lower_order hle, ?_⟩
    refine convert_to_weights_bounded _ _ _ _
      (point_nbr_map_ext fmt diagram geoms.size is_queen).length_eq ?_
    intro i x hx
    rw [(point_nbr_map_ext fmt diagram geoms.size is_queen).mem_iff] at hx
    obtain ⟨_, _, _, s, hs, rfl⟩ := point_pairs_spec fmt diagram is_queen i x hx.2
    exact hdiag s hs
  · intro generated hN h2
    exact point_contiguity_weights_abort fmt generated geoms is_queen precision_threshold
      order_contiguity include_lower_order h2 hN
  · intro generated
    exact ⟨point_contiguity_weights_abort int_fmt generated triangle_squares true 0 2 true
        (by decide) (by decide),
      point_contiguity_weights_abort int_fmt generated triangle_squares false 0 2 false
        (by decide) (by decide)⟩

end ClaimsRoutes

/-- C7 on three squares in a row and on the three collinear cells: the partitions
of `single_bucket_ops` are confined, the site indices are in range, the three
routes are symmetric, and the tolerant engine does return an adjacency. -/
theorem first_order_symmetry_witness :
    single_bucket_ops.confined three_squares.size (fun id => id < three_squares.size) ∧
    (∀ s ∈ three_cells.sites, s.index < three_squares.size) ∧
    simple_polygon_queen_weights three_squares 1 false = [[1], [0, 2], [1]] ∧
    (∀ i j, j ∈ (simple_polygon_queen_weights three_squares 1 false).getD i [] ↔
      i ∈ (simple_polygon_queen_weights three_squares 1 false).getD j []) ∧
    polygon_contiguity_weights_threshold single_bucket_ops 5 three_squares true 1 1 false
      = some [[1, 2], [0, 2], [0, 1]] ∧
    (∀ i j, j ∈ ([[1, 2], [0, 2], [0, 1]] : List (List Nat)).getD i [] ↔
      i ∈ ([[1, 2], [0, 2], [0, 1]] : List (List Nat)).getD j []) ∧
    (∃ A, point_contiguity_weights int_fmt (some three_cells) three_squares true 0 1 false
        = some A ∧
      ∀ i j, j ∈ A.getD i [] ↔ i ∈ A.getD j []) :=
  ⟨single_bucket_ops_confined _, by decide, by decide,
    (first_order_symmetry single_bucket_ops 5 int_fmt three_cells three_squares 1 false
      (single_bucket_ops_confined _) (by decide)).1,
    by decide,
    (first_order_symmetry single_bucket_ops 5 int_fmt three_cells three_squares 1 false
      (single_bucket_ops_confined _) (by decide)).2.1 true _ (by decide),
    (first_order_symmetry single_bucket_ops 5 int_fmt three_cells three_squares 0 false
      (single_bucket_ops_confined _) (by decide)).2.2 true⟩

/-- C8 on three squares in a row: the tolerant engine returns
`[[1, 2], [0, 2], [0, 1]]`, which lists no index for itself. -/
theorem first_order_irreflexive_witness :
    polygon_contiguity_weights_threshold single_bucket_ops 5 three_squares true 1 1 false
      = some [[1, 2], [0, 2], [0, 1]] ∧
    ∀ i, i ∉ ([[1, 2], [0, 2], [0, 1]] : List (List Nat)).getD i [] :=
  ⟨by decide,
    (first_order_irreflexive single_bucket_ops 5 int_fmt three_cells three_squares 1 false).2.1
      true _ (by decide)⟩

/-- C9 on the three collinear cells and on three squares in a row: the point
route returns `[[1], [0, 2], [1]]`, the list of the middle point being `[0, 2]`
in that order, and the lists of the tolerant engine are ascending. -/
theorem first_order_lists_ascending_witness :
    point_contiguity_weights int_fmt (some three_cells) three_squares true 0 1 false
      = some [[1], [0, 2], [1]] ∧
    polygon_contiguity_weights single_bucket_ops 5 int_fmt three_squares true 1 1 false
      = some [[1, 2], [0, 2], [0, 1]] ∧
    ∀ l ∈ ([[1, 2], [0, 2], [0, 1]] : List (List Nat)), l.Sorted (fun a b => a < b) ∧ l.Nodup :=
  ⟨by decide, by decide,
    (first_order_lists_ascending single_bucket_ops 5 int_fmt three_cells three_squares false).1
      true 1 _ (by decide)⟩

/-! ## Claims on the error behaviour and on the rook keys -/

/-- C17, the edge between the first two cells of `three_cells`: `jcv_edge_str`
writes the end points in the order in which the cell holds them, for every
stream output, so the edge and the same segment with its end points exchanged
get different keys, and the rook adjacency of the three cells is empty although
the queen adjacency is the path. -/
theorem rook_key_depends_on_orientation :
    (∀ (fmt : Int → String) (edge : jcv_graphedge Int), jcv_edge_str fmt edge
      = "[" ++ fmt edge.pos0.x ++ "," ++ fmt edge.pos0.y ++ "," ++ fmt edge.pos1.x ++ ","
          ++ fmt edge.pos1.y ++ "]") ∧
    jcv_edge_str int_fmt shared_cell_edge = "[1,1,1,-1]" ∧
    jcv_edge_str int_fmt (swap_endpoints shared_cell_edge) = "[1,-1,1,1]" ∧
    jcv_edge_str int_fmt shared_cell_edge ≠ jcv_edge_str int_fmt (swap_endpoints shared_cell_edge) ∧
    point_contiguity_weights int_fmt (some three_cells) three_squares false 0 1 false
      = some [[], [], []] ∧
    point_contiguity_weights int_fmt (some three_cells) three_squares true 0 1 false
      = some [[1], [0, 2], [1]] := by
  refine ⟨fun fmt edge => ?_, by decide, by decide, by decide, by decide, by decide⟩
  simp [jcv_edge_str]

/-- C14, zero geometries: the exact engines return the empty adjacency, but the
tolerant engine returns nothing, for every partition code, every amount of fuel
and every non-zero threshold: with empty coordinate arrays it reads the minimum
of an empty vector, and with a stray coordinate the bucket loop finds the sum `0`
in every turn and never ends. -/
theorem threshold_engine_fails_on_empty_input :
    (∀ (β μ : Type) (ops : PartitionOps Int β μ) (fuel : Nat) (fmt : Int → String)
      (is_queen : Bool) (order_contiguity : Nat) (include_lower_order : Bool),
      polygon_contiguity_weights ops fuel fmt empty_collection is_queen 0 order_contiguity
        include_lower_order = some []) ∧
    (∀ (β μ : Type) (ops : PartitionOps Int β μ) (fuel : Nat) (fmt : Int → String)
      (is_queen : Bool) (order_contiguity : Nat) (include_lower_order : Bool),
      polygon_contiguity_weights ops fuel fmt empty_collection is_queen 1 order_contiguity
        include_lower_order = none) ∧
    (∀ (β μ : Type) (ops : PartitionOps Int β μ) (fuel : Nat) (is_queen : Bool)
      (precision_threshold : Int) (order_contiguity : Nat) (include_lower_order : Bool),
      polygon_contiguity_weights_threshold ops fuel empty_collection is_queen
        precision_threshold order_contiguity include_lower_order = none) ∧
    (∀ (fuel : Nat) (is_queen : Bool) (precision_threshold : Int) (order_contiguity : Nat)
      (include_lower_order : Bool),
      polygon_contiguity_weights_threshold single_bucket_ops fuel stray_collection is_queen
        precision_threshold order_contiguity include_lower_order = none) := by
  refine ⟨?_, ?_, ?_, ?_⟩
  · intro β μ ops fuel fmt is_queen order_contiguity include_lower_order
    cases is_queen with
    | true =>
      simp only [polygon_contiguity_weights, if_true, simple_polygon_queen_weights]
      have h : queen_nbr_map empty_collection = [] := by decide
      rw [h, convert_to_weights_eq]
      exact congrArg some (make_higher_ord_replicate order_contiguity 0 include_lower_order)
    | false =>
      simp only [polygon_contiguity_weights, if_true, Bool.false_eq_true, if_false,
        simple_polygon_rook_weights_eq]
      rfl
  · intro β μ ops fuel fmt is_queen order_contiguity include_lower_order
    simp [polygon_contiguity_weights, polygon_contiguity_weights_threshold, empty_collection,
      min_element]
  · intro β μ ops fuel is_queen precision_threshold order_contiguity include_lower_order
    simp [polygon_contiguity_weights_threshold, empty_collection, min_element]
  · intro fuel is_queen precision_threshold order_contiguity include_lower_order
    have hloop : ∀ (fuel gy : Nat) (len ymin : Int),
        y_partition_loop single_bucket_ops stray_collection 0 len ymin fuel gy = none := by
      intro fuel
      induction fuel with
      | zero => intro gy len ymin; rfl
      | succ n ih =>
        intro gy len ymin
        simp only [y_partition_loop]
        have hsum : single_bucket_ops.m_sum
            (y_partition_build single_bucket_ops stray_collection 0 gy len ymin) = 0 := rfl
        rw [hsum]
        simp only [Nat.zero_mul, gt_iff_lt, lt_irrefl, if_false, if_true]
        exact ih gy len ymin
    simp only [polygon_contiguity_weights_threshold, stray_collection, min_element, max_element,
      List.foldl_nil, GeometryCollection.size, List.length_nil]
    rw [show (GeometryCollection.mk [(0 : Int)] [0] [] []) = stray_collection from rfl, hloop]

/-- C16, counterexample: with `order_contiguity = 0` and with the threshold `-1`
the two entry points return an adjacency, the one of order `1`. -/
theorem order_zero_and_negative_threshold_accepted :
    polygon_contiguity_weights single_bucket_ops 5 int_fmt two_squares true 0 0 false
      = some [[1], [0]] ∧
    point_contiguity_weights int_fmt (some three_cells) three_squares true 0 0 false
      = some [[1], [0, 2], [1]] ∧
    polygon_contiguity_weights single_bucket_ops 5 int_fmt three_squares true (-1) 1 false
      = some [[1, 2], [0, 2], [0, 1]] ∧
    point_contiguity_weights int_fmt (some three_cells) three_squares true (-1) 1 false
      = some [[1], [0, 2], [1]] := by
  refine ⟨by decide, by decide, by decide, by decide⟩

section ClaimsPreconditions

variable {α β μ : Type} [LinearOrderedRing α]

/-- C16, amended. No precondition is checked: `order_contiguity = 0` gives the
result of order `1` in both entry points, a negative `precision_threshold` sends
`polygon_contiguity_weights` to the tolerant engine like every non-zero
threshold, and `point_contiguity_weights` does not look at the threshold. -/
theorem preconditions_are_not_checked (ops : PartitionOps α β μ) (fuel : Nat)
    (fmt : α → String) (diagram : Option (jcv_diagram α)) (geoms : GeometryCollection α)
    (is_queen : Bool) (precision_threshold other_threshold : α) (order_contiguity : Nat)
    (include_lower_order : Bool) (hneg : precision_threshold < 0) :
    polygon_contiguity_weights ops fuel fmt geoms is_queen other_threshold 0 include_lower_order
      = polygon_contiguity_weights ops fuel fmt geoms is_queen other_threshold 1
          include_lower_order ∧
    point_contiguity_weights fmt diagram geoms is_queen other_threshold 0 include_lower_order
      = point_contiguity_weights fmt diagram geoms is_queen other_threshold 1
          include_lower_order ∧
    polygon_contiguity_weights ops fuel fmt geoms is_queen precision_threshold order_contiguity
        include_lower_order
      = polygon_contiguity_weights_threshold ops fuel geoms is_queen precision_threshold
          order_contiguity include_lower_order ∧
    point_contiguity_weights fmt diagram geoms is_queen precision_threshold order_contiguity
        include_lower_order
      = point_contiguity_weights fmt diagram geoms is_queen other_threshold order_contiguity
          include_lower_order := by
  have hconv : ∀ nm : List (List Nat),
      convert_to_weights nm 0 include_lower_order = convert_to_weights nm 1 include_lower_order := by
    intro nm
    simp [convert_to_weights]
  refine ⟨?_, ?_, ?_, rfl⟩
  · unfold polygon_contiguity_weights polygon_contiguity_weights_threshold
      simple_polygon_queen_weights simple_polygon_rook_weights
    simp only [hconv]
  · cases diagram with
    | none => rfl
    | some d =>
      rw [point_contiguity_weights_low fmt d geoms is_queen other_threshold 0
          include_lower_order (by omega),
        point_contiguity_weights_low fmt d geoms is_queen other_threshold 1
          include_lower_order (le_refl _), hconv]
  · unfold polygon_contiguity_weights
    rw [if_neg (ne_of_lt hneg)]

end ClaimsPreconditions

/-- C16, amended, on three squares in a row with the threshold `-1`: the
threshold is negative and the four equations hold there. -/
theorem preconditions_are_not_checked_witness :
    ((-1 : Int) < 0) ∧
    polygon_contiguity_weights single_bucket_ops 5 int_fmt three_squares true 0 0 false
      = polygon_contiguity_weights single_bucket_ops 5 int_fmt three_squares true 0 1 false ∧
    point_contiguity_weights int_fmt (some three_cells) three_squares true 0 0 false
      = point_contiguity_weights int_fmt (some three_cells) three_squares true 0 1 false ∧
    polygon_contiguity_weights single_bucket_ops 5 int_fmt three_squares true (-1) 2 false
      = polygon_contiguity_weights_threshold single_bucket_ops 5 three_squares true (-1) 2
          false ∧
    point_contiguity_weights int_fmt (some three_cells) three_squares true (-1) 2 false
      = point_contiguity_weights int_fmt (some three_cells) three_squares true 0 2 false :=
  ⟨by decide,
    preconditions_are_not_checked single_bucket_ops 5 int_fmt (some three_cells) three_squares
      true (-1) 0 2 false (by decide)⟩

/-! ## Validity of the expanded graph -/

theorem reach_head (W1 : List (List Nat)) (i n j : Nat) :
    reach W1 i (n + 1) j ↔ ∃ v, v ∈ W1.getD i [] ∧ reach W1 v n j := by
  induction n generalizing j with
  | zero =>
    simp only [reach]
    constructor
    · rintro ⟨u, rfl, h⟩
      exact ⟨j, h, rfl⟩
    · rintro ⟨v, h, rfl⟩
      exact ⟨i, rfl, h⟩
  | succ n ih =>
    constructor
    · rintro ⟨u, hu, hj⟩
      obtain ⟨v, hv, hvu⟩ := (ih u).1 hu
      exact ⟨v, hv, u, hvu, hj⟩
    · rintro ⟨v, hv, u, hvu, hj⟩
      exact ⟨u, (ih u).2 ⟨v, hv, hvu⟩, hj⟩

theorem reach_symm (W1 : List (List Nat))
    (hsym : ∀ a < W1.length, ∀ b ∈ W1.getD a [], a ∈ W1.getD b []) (n i j : Nat)
    (h : reach W1 i n j) : reach W1 j n i := by
  induction n generalizing i j with
  | zero =>
    simp only [reach] at h ⊢
    exact h.symm
  | succ n ih =>
    obtain ⟨u, hu, hj⟩ := h
    exact (reach_head W1 j n i).2 ⟨u, hsym u (lt_length_of_mem_getD hj) j hj, ih i u hu⟩

theorem dist_eq_symm (W1 : List (List Nat))
    (hsym : ∀ a < W1.length, ∀ b ∈ W1.getD a [], a ∈ W1.getD b []) (k i j : Nat)
    (h : dist_eq W1 i k j) : dist_eq W1 j k i :=
  ⟨reach_symm W1 hsym k i j h.1, fun m hm hr => h.2 m hm (reach_symm W1 hsym m j i hr)⟩

theorem mem_expanded_iff (W1 : List (List Nat))
    (hsym : ∀ a < W1.length, ∀ b ∈ W1.getD a [], a ∈ W1.getD b [])
    (hirr : ∀ a < W1.length, a ∉ W1.getD a []) (k : Nat) (cumulative : Bool) (hk : 1 ≤ k)
    (i x : Nat) :
    x ∈ (make_higher_ord_contiguity k W1.length W1 cumulative).getD i [] ↔
      ∃ d, (if cumulative then 1 else k) ≤ d ∧ d ≤ k ∧ dist_eq W1 i d x := by
  rw [make_higher_ord_getD_gen]
  by_cases hi : i < W1.length
  · by_cases h2 : 2 ≤ k
    · rw [if_pos ⟨h2, hi, hi⟩, mem_higher_ord_row W1 i k cumulative hk]
      constructor
      · rintro ⟨d, h1, h3, hx⟩
        exact ⟨d, h1, h3, ((layer_eq_dist W1 hsym hirr i d).1 x).1 hx⟩
      · rintro ⟨d, h1, h3, hx⟩
        exact ⟨d, h1, h3, ((layer_eq_dist W1 hsym hirr i d).1 x).2 hx⟩
    · have hk1 : k = 1 := by omega
      subst hk1
      rw [if_neg (fun h => h2 h.1)]
      have hl : x ∈ W1.getD i [] ↔ x ∈ layer W1 i 1 := by simp [layer]
      rw [hl, (layer_eq_dist W1 hsym hirr i 1).1 x]
      constructor
      · intro h
        exact ⟨1, by split_ifs <;> omega, le_refl _, h⟩
      · rintro ⟨d, h1, h3, hx⟩
        have : d = 1 := by split_ifs at h1 <;> omega
        subst this; exact hx
  · rw [if_neg (fun h => hi h.2.2)]
    have hnil : W1.getD i [] = [] := by
      rw [List.getD_eq_getElem?_getD, List.getElem?_eq_none (not_lt.1 hi)]; rfl
    rw [hnil]
    constructor
    · intro h; simp at h
    · rintro ⟨d, h1, _, hx⟩
      have hd : 1 ≤ d := by split_ifs at h1 <;> omega
      obtain ⟨d', rfl⟩ : ∃ d', d = d' + 1 := ⟨d - 1, by omega⟩
      obtain ⟨v, hv, _⟩ := (reach_head W1 i d' x).1 hx.1
      rw [hnil] at hv
      simp at hv

theorem set_insert_foldl_sorted {ι : Type} (step : List Nat → ι → List Nat) (es : List ι)
    (h : ∀ acc e, acc.Pairwise (fun a b => a < b) → (step acc e).Pairwise (fun a b => a < b))
    (acc : List Nat) (hacc : acc.Pairwise (fun a b => a < b)) :
    (es.foldl step acc).Pairwise (fun a b => a < b) :=
  foldl_inv (fun l : List Nat => l.Pairwise (fun a b => a < b)) step es
    (fun s e _ hs => h s e hs) acc hacc

theorem next_layer_sorted (weights : List (List Nat)) (prev1 prev2 : List Nat) :
    (next_layer weights prev1 prev2).Pairwise (fun a b => a < b) := by
  unfold next_layer
  refine set_insert_foldl_sorted _ _ ?_ [] List.Pairwise.nil
  intro acc it hacc
  refine set_insert_foldl_sorted _ _ ?_ acc hacc
  intro acc nbr hacc
  split_ifs
  · exact set_insert_sorted _ _ hacc
  · exact hacc

theorem layer_list_sorted (weights : List (List Nat)) (i d : Nat) :
    (layer_list weights i d).Pairwise (fun a b => a < b) := by
  match d with
  | 0 => exact set_insert_sorted _ _ List.Pairwise.nil
  | 1 =>
    exact set_insert_foldl_sorted _ _ (fun acc e h => set_insert_sorted _ _ h) []
      List.Pairwise.nil
  | d + 2 => exact next_layer_sorted _ _ _

theorem foldl_append_eq_flatten {ι : Type} (f : ι → List Nat) (l : List ι) (init : List Nat) :
    l.foldl (fun acc d => acc ++ f d) init = init ++ (l.map f).flatten := by
  induction l generalizing init with
  | nil => simp
  | cons a t ih => simp [ih, List.append_assoc]

theorem higher_ord_row_nodup (W1 : List (List Nat))
    (hsym : ∀ a < W1.length, ∀ b ∈ W1.getD a [], a ∈ W1.getD b [])
    (hirr : ∀ a < W1.length, a ∉ W1.getD a []) (i k : Nat) (cumulative : Bool) (hk : 1 ≤ k) :
    (higher_ord_row W1 i k cumulative).Nodup := by
  unfold higher_ord_row
  simp only []
  rw [(List.perm_insertionSort _ _).nodup_iff, foldl_append_eq_flatten, List.nil_append,
    List.nodup_flatten]
  have hlo : (if cumulative then 1 else k) ≤ k := by split_ifs <;> omega
  have hget : ∀ d ∈ List.range' (if cumulative then 1 else k) (k + 1 - if cumulative then 1 else k),
      (n_at_d W1 i k).getD d [] = layer_list W1 i d := by
    intro d hd
    rw [List.mem_range'_1] at hd
    exact n_at_d_getD W1 i k d hk (by omega)
  constructor
  · intro l hl
    obtain ⟨d, hd, rfl⟩ := List.mem_map.1 hl
    rw [hget d hd]
    exact (layer_list_sorted W1 i d).imp (fun h => Nat.ne_of_lt h)
  · rw [List.pairwise_map]
    have hp := List.pairwise_lt_range' (if cumulative then 1 else k)
      (k + 1 - if cumulative then 1 else k)
    have hp2 : List.Pairwise (fun a b => a < b ∧ (n_at_d W1 i k).getD a [] = layer_list W1 i a ∧
        (n_at_d W1 i k).getD b [] = layer_list W1 i b)
        (List.range' (if cumulative then 1 else k) (k + 1 - if cumulative then 1 else k)) := by
      rw [List.pairwise_iff_getElem] at hp ⊢
      intro a b ha hb hab
      exact ⟨hp a b ha hb hab, hget _ (List.getElem_mem _), hget _ (List.getElem_mem _)⟩
    refine hp2.imp ?_
    rintro a b ⟨hab, ha, hb⟩
    rw [ha, hb, List.disjoint_left]
    intro x hxa hxb
    rw [mem_layer_list, (layer_eq_dist W1 hsym hirr i a).1 x] at hxa
    rw [mem_layer_list, (layer_eq_dist W1 hsym hirr i b).1 x] at hxb
    exact hxb.2 a hab hxa.1

/-- C11. The expander preserves the validity of the adjacency graph: for a
symmetric, irreflexive, duplicate-free `W1` with all entries below `N`, every
order `k ≥ 1` and both values of the cumulative flag, the output is symmetric,
irreflexive, duplicate-free (each list strictly descending for `k ≥ 2`), has `N`
lists and only entries below `N`. -/
theorem expander_preserves_validity (W1 : List (List Nat)) (k : Nat) (cumulative : Bool)
    (hsym : ∀ a < W1.length, ∀ b ∈ W1.getD a [], a ∈ W1.getD b [])
    (hirr : ∀ a < W1.length, a ∉ W1.getD a []) (hnd : ∀ l ∈ W1, l.Nodup)
    (hb : ∀ l ∈ W1, ∀ x ∈ l, x < W1.length) (hk : 1 ≤ k) :
    (∀ i j, j ∈ (make_higher_ord_contiguity k W1.length W1 cumulative).getD i [] ↔
      i ∈ (make_higher_ord_contiguity k W1.length W1 cumulative).getD j []) ∧
    (∀ i, i ∉ (make_higher_ord_contiguity k W1.length W1 cumulative).getD i []) ∧
    (∀ l ∈ make_higher_ord_contiguity k W1.length W1 cumulative, l.Nodup) ∧
    (2 ≤ k → ∀ l ∈ make_higher_ord_contiguity k W1.length W1 cumulative,
      l.Sorted (fun a b => b < a)) ∧
    (make_higher_ord_contiguity k W1.length W1 cumulative).length = W1.length ∧
    (∀ l ∈ make_higher_ord_contiguity k W1.length W1 cumulative, ∀ x ∈ l, x < W1.length) := by
  have hrow : ∀ l ∈ make_higher_ord_contiguity k W1.length W1 cumulative,
      (2 ≤ k ∧ ∃ i, l = higher_ord_row W1 i k cumulative) ∨ (k = 1 ∧ l ∈ W1) := by
    intro l hl
    obtain ⟨n, hn⟩ := List.mem_iff_getElem?.1 hl
    have hlt : n < W1.length := by
      by_contra hcon
      rw [List.getElem?_eq_none (by rw [make_higher_ord_length]; omega)] at hn
      cases hn
    have hg := make_higher_ord_getD_gen k W1.length W1 cumulative n
    rw [List.getD_eq_getElem?_getD, hn] at hg
    simp only [Option.getD_some] at hg
    by_cases h2 : 2 ≤ k
    · rw [if_pos ⟨h2, hlt, hlt⟩] at hg
      exact Or.inl ⟨h2, n, hg⟩
    · rw [if_neg (fun h => h2 h.1)] at hg
      refine Or.inr ⟨by omega, ?_⟩
      rw [hg, List.getD_eq_getElem?_getD, List.getElem?_eq_getElem hlt]
      exact List.getElem_mem _
  refine ⟨fun i j => ?_, fun i hi => ?_, fun l hl => ?_, fun h2 l hl => ?_,
    make_higher_ord_length _ _ _ _, fun l hl x hx => ?_⟩
  · rw [mem_expanded_iff W1 hsym hirr k cumulative hk, mem_expanded_iff W1 hsym hirr k cumulative hk]
    constructor
    · rintro ⟨d, h1, h2, h⟩
      exact ⟨d, h1, h2, dist_eq_symm W1 hsym d i j h⟩
    · rintro ⟨d, h1, h2, h⟩
      exact ⟨d, h1, h2, dist_eq_symm W1 hsym d j i h⟩
  · rw [mem_expanded_iff W1 hsym hirr k cumulative hk] at hi
    obtain ⟨d, h1, _, h⟩ := hi
    have hd : 0 < d := by split_ifs at h1 <;> omega
    exact h.2 0 hd rfl
  · rcases hrow l hl with ⟨_, i, rfl⟩ | ⟨_, hW⟩
    · exact higher_ord_row_nodup W1 hsym hirr i k cumulative hk
    · exact hnd l hW
  · rcases hrow l hl with ⟨_, i, rfl⟩ | ⟨h1, _⟩
    · have hs := higher_ord_row_sorted W1 i k cumulative
      have hn := higher_ord_row_nodup W1 hsym hirr i k cumulative hk
      exact (List.Pairwise.and hs hn).imp (fun h => lt_of_le_of_ne h.1 (Ne.symm h.2))
    · omega
  · obtain ⟨i, hi⟩ := mem_getD_of_mem hl
    rw [← hi] at hx
    obtain ⟨u, hu⟩ := make_higher_ord_mem_source _ _ _ _ _ _ hx
    exact hb _ (getD_mem_of_ne_nil hu) x hu

/-- C11 on the chain of scenario S4, order `2`, cumulative: the chain satisfies
the four hypotheses and the output `[[2,1],[3,2,0],[3,1,0],[2,1]]` is valid. -/
theorem expander_preserves_validity_witness :
    (∀ l ∈ chain4, l.Nodup) ∧
    make_higher_ord_contiguity 2 chain4.length chain4 true
      = [[2, 1], [3, 2, 0], [3, 1, 0], [2, 1]] ∧
    (∀ i j, j ∈ (make_higher_ord_contiguity 2 chain4.length chain4 true).getD i [] ↔
      i ∈ (make_higher_ord_contiguity 2 chain4.length chain4 true).getD j []) ∧
    (∀ i, i ∉ (make_higher_ord_contiguity 2 chain4.length chain4 true).getD i []) ∧
    (∀ l ∈ make_higher_ord_contiguity 2 chain4.length chain4 true, l.Nodup) ∧
    (2 ≤ 2 → ∀ l ∈ make_higher_ord_contiguity 2 chain4.length chain4 true,
      l.Sorted (fun a b => b < a)) ∧
    (make_higher_ord_contiguity 2 chain4.length chain4 true).length = chain4.length ∧
    (∀ l ∈ make_higher_ord_contiguity 2 chain4.length chain4 true, ∀ x ∈ l, x < chain4.length) :=
  ⟨by decide, by decide,
    expander_preserves_validity chain4 2 true (by decide) (by decide) (by decide) (by decide)
      (by decide)⟩

/-! ## Rook and queen keys of the point route -/

section KeyMaps

variable {K : Type} [DecidableEq K]

theorem KeyExt.key_refl (m : List (K × List Nat)) : KeyExt (fun _ _ => False) m m :=
  ⟨fun _ h _ => h, fun k p => by simp⟩

theorem KeyExt.key_insert (m : List (K × List Nat)) (k : K) (i : Nat) :
    KeyExt (fun p k' => p = i ∧ k' = k) m (map_modify m k [] (set_insert i)) := by
  constructor
  · intro W hW hV
    refine map_modify_forall (fun (k' : K) (s : List Nat) => ∀ p ∈ s, W p k') m k [] _ hW ?_ ?_
    · intro p hp
      rw [mem_set_insert] at hp
      rcases hp with rfl | hp
      · exact hV _ _ ⟨rfl, rfl⟩
      · simp at hp
    · intro v hv p hp
      rw [mem_set_insert] at hp
      rcases hp with rfl | hp
      · exact hV _ _ ⟨rfl, rfl⟩
      · exact hW _ hv p hp
  · intro k' p
    rw [map_find_modify]
    by_cases hk : k' = k
    · subst hk
      simp only [if_true, mem_set_insert]
      tauto
    · simp [hk]

theorem KeyExt.key_trans {V1 V2 : Nat → K → Prop} {m1 m2 m3 : List (K × List Nat)}
    (h1 : KeyExt V1 m1 m2) (h2 : KeyExt V2 m2 m3) :
    KeyExt (fun p k => V1 p k ∨ V2 p k) m1 m3 := by
  refine ⟨fun W hW hV => h2.1 W (h1.1 W hW fun p k h => hV p k (Or.inl h))
    fun p k h => hV p k (Or.inr h), ?_⟩
  intro k p
  rw [h2.2, h1.2]
  tauto

theorem KeyExt.key_congr {V1 V2 : Nat → K → Prop} {m1 m2 : List (K × List Nat)}
    (h : KeyExt V1 m1 m2) (hV : ∀ p k, V1 p k ↔ V2 p k) : KeyExt V2 m1 m2 := by
  refine ⟨fun W hW hW2 => h.1 W hW fun p k h1 => hW2 p k ((hV p k).1 h1), ?_⟩
  intro k p
  rw [h.2, hV]

theorem KeyExt.key_foldl {ι : Type} (step : List (K × List Nat) → ι → List (K × List Nat))
    (P : ι → Nat → K → Prop) (es : List ι)
    (hstep : ∀ m e, e ∈ es → KeyExt (P e) m (step m e)) (m : List (K × List Nat)) :
    KeyExt (fun p k => ∃ e ∈ es, P e p k) m (es.foldl step m) := by
  induction es generalizing m with
  | nil => exact (KeyExt.key_refl m).key_congr (by simp)
  | cons e t ih =>
    rw [List.foldl_cons]
    have h1 := hstep m e (List.mem_cons_self _ _)
    have h2 := ih (fun m e' he' => hstep m e' (List.mem_cons_of_mem _ he')) (step m e)
    refine (h1.key_trans h2).key_congr ?_
    intro p k
    simp only [List.mem_cons, exists_eq_or_imp]

end KeyMaps

theorem foldl_pair_snd {σ τ ι : Type} (g : τ → ι → τ) (l : List ι) (st : σ × τ) :
    l.foldl (fun (st : σ × τ) x => (st.1, g st.2 x)) st = (st.1, l.foldl g st.2) := by
  induction l generalizing st with
  | nil => rfl
  | cons x t ih => exact ih (st.1, g st.2 x)

theorem foldl_pair_fst {σ τ ι : Type} (g : σ → ι → σ) (l : List ι) (st : σ × τ) :
    l.foldl (fun (st : σ × τ) x => (g st.1 x, st.2)) st = (l.foldl g st.1, st.2) := by
  induction l generalizing st with
  | nil => rfl
  | cons x t ih => exact ih (g st.1 x, st.2)

section RookQueenKeys

variable {α : Type} [LinearOrderedRing α]

theorem site_maps_queen_eq (fmt : α → String) (diagram : jcv_diagram α) :
    site_maps fmt diagram true
      = ([], diagram.sites.foldl
          (fun m site => site.edges.foldl
            (fun m e => map_modify (map_modify m (jcv_point_str fmt e.pos0) []
              (set_insert site.index)) (jcv_point_str fmt e.pos1) [] (set_insert site.index)) m)
          []) := by
  unfold site_maps
  simp only [if_true]
  have h := foldl_pair_snd (σ := List (String × List Nat))
    (fun m (site : jcv_site α) => site.edges.foldl
      (fun m e => map_modify (map_modify m (jcv_point_str fmt e.pos0) []
        (set_insert site.index)) (jcv_point_str fmt e.pos1) [] (set_insert site.index)) m)
    diagram.sites ([], [])
  rw [← h]
  congr 1
  funext st site
  exact foldl_pair_snd
    (fun m (e : jcv_graphedge α) => map_modify (map_modify m (jcv_point_str fmt e.pos0) []
      (set_insert site.index)) (jcv_point_str fmt e.pos1) [] (set_insert site.index))
    site.edges st

theorem site_maps_rook_eq (fmt : α → String) (diagram : jcv_diagram α) :
    site_maps fmt diagram false
      = (diagram.sites.foldl
          (fun m site => site.edges.foldl
            (fun m e => map_modify m (jcv_edge_str fmt e) [] (set_insert site.index)) m)
          [], []) := by
  unfold site_maps
  simp only [Bool.false_eq_true, if_false]
  have h := foldl_pair_fst (τ := List (String × List Nat))
    (fun m (site : jcv_site α) => site.edges.foldl
      (fun m e => map_modify m (jcv_edge_str fmt e) [] (set_insert site.index)) m)
    diagram.sites ([], [])
  rw [← h]
  congr 1
  funext st site
  exact foldl_pair_fst
    (fun m (e : jcv_graphedge α) => map_modify m (jcv_edge_str fmt e) [] (set_insert site.index))
    site.edges st

theorem queen_keys_ext (fmt : α → String) (diagram : jcv_diagram α) :
    KeyExt (fun p k => ∃ s ∈ diagram.sites, ∃ e ∈ s.edges, p = s.index ∧
        (k = jcv_point_str fmt e.pos0 ∨ k = jcv_point_str fmt e.pos1))
      [] (site_maps fmt diagram true).2 := by
  rw [site_maps_queen_eq]
  refine KeyExt.key_foldl _ (fun (s : jcv_site α) p k => ∃ e ∈ s.edges, p = s.index ∧
    (k = jcv_point_str fmt e.pos0 ∨ k = jcv_point_str fmt e.pos1)) _ ?_ []
  intro m s _
  refine KeyExt.key_foldl _ (fun (e : jcv_graphedge α) p k => p = s.index ∧
    (k = jcv_point_str fmt e.pos0 ∨ k = jcv_point_str fmt e.pos1)) _ ?_ m
  intro m e _
  refine ((KeyExt.key_insert m (jcv_point_str fmt e.pos0) s.index).key_trans
    (KeyExt.key_insert _ (jcv_point_str fmt e.pos1) s.index)).key_congr ?_
  intro p k
  tauto

theorem rook_keys_ext (fmt : α → String) (diagram : jcv_diagram α) :
    KeyExt (fun p k => ∃ s ∈ diagram.sites, ∃ e ∈ s.edges, p = s.index ∧
        k = jcv_edge_str fmt e)
      [] (site_maps fmt diagram false).1 := by
  rw [site_maps_rook_eq]
  refine KeyExt.key_foldl _ (fun (s : jcv_site α) p k => ∃ e ∈ s.edges, p = s.index ∧
    k = jcv_edge_str fmt e) _ ?_ []
  intro m s _
  exact KeyExt.key_foldl _ (fun (e : jcv_graphedge α) p k => p = s.index ∧
    k = jcv_edge_str fmt e) _ (fun m e _ => KeyExt.key_insert m (jcv_edge_str fmt e) s.index) m

theorem split_at_comma (a a' r r' : List Char) (ha : ',' ∉ a) (ha' : ',' ∉ a')
    (h : a ++ ',' :: r = a' ++ ',' :: r') : a = a' ∧ r = r' := by
  induction a generalizing a' with
  | nil =>
    cases a' with
    | nil => simpa using h
    | cons c t =>
      simp only [List.nil_append, List.cons_append, List.cons.injEq] at h
      exact absurd (h.1 ▸ List.mem_cons_self _ _) ha'
  | cons c t ih =>
    cases a' with
    | nil =>
      simp only [List.nil_append, List.cons_append, List.cons.injEq] at h
      exact absurd (h.1 ▸ List.mem_cons_self _ _) ha
    | cons c' t' =>
      simp only [List.cons_append, List.cons.injEq] at h
      obtain ⟨h1, h2⟩ := ih t' (fun hc => ha (List.mem_cons_of_mem _ hc))
        (fun hc => ha' (List.mem_cons_of_mem _ hc)) h.2
      exact ⟨by rw [h.1, h1], h2⟩

theorem point_key_of_edge_key (fmt : α → String) (hfmt : ∀ a, ',' ∉ (fmt a).data)
    (e e' : jcv_graphedge α) (h : jcv_edge_str fmt e = jcv_edge_str fmt e') :
    jcv_point_str fmt e.pos0 = jcv_point_str fmt e'.pos0 := by
  have hd := congrArg String.data h
  simp only [jcv_edge_str, min_self, max_self, String.data_append] at hd
  simp only [List.append_assoc, List.singleton_append, List.cons_append, List.nil_append,
    List.cons.injEq, true_and] at hd
  obtain ⟨h1, h2⟩ := split_at_comma _ _ _ _ (hfmt _) (hfmt _) hd
  obtain ⟨h3, _⟩ := split_at_comma _ _ _ _ (hfmt _) (hfmt _) h2
  apply String.ext
  simp [jcv_point_str, String.data_append, h1, h3]

theorem point_pairs_rook_queen (fmt : α → String) (hfmt : ∀ a, ',' ∉ (fmt a).data)
    (diagram : jcv_diagram α) (i j : Nat) (h : point_pairs fmt diagram false i j) :
    point_pairs fmt diagram true i j := by
  obtain ⟨it, hit, hne, hi, hj⟩ := h
  simp only [Bool.false_eq_true, if_false] at hit
  have hs := (rook_keys_ext fmt diagram).1
    (fun p k => ∃ s ∈ diagram.sites, ∃ e ∈ s.edges, p = s.index ∧ k = jcv_edge_str fmt e)
    (by intro it hit; simp at hit) (fun _ _ h => h) it hit
  obtain ⟨si, hsi, ei, hei, hii, hki⟩ := hs i hi
  obtain ⟨sj, hsj, ej, hej, hjj, hkj⟩ := hs j hj
  have hkey := point_key_of_edge_key fmt hfmt ei ej (hki.symm.trans hkj)
  have hq := (queen_keys_ext fmt diagram).2
  have hi2 : i ∈ map_find (site_maps fmt diagram true).2 (jcv_point_str fmt ei.pos0) [] :=
    (hq _ i).2 (Or.inr ⟨si, hsi, ei, hei, hii, Or.inl rfl⟩)
  have hj2 : j ∈ map_find (site_maps fmt diagram true).2 (jcv_point_str fmt ei.pos0) [] :=
    (hq _ j).2 (Or.inr ⟨sj, hsj, ej, hej, hjj, Or.inl hkey⟩)
  refine ⟨(jcv_point_str fmt ei.pos0,
    map_find (site_maps fmt diagram true).2 (jcv_point_str fmt ei.pos0) []), ?_, hne, hi2, hj2⟩
  simp only [if_true]
  rcases map_find_mem (site_maps fmt diagram true).2 (jcv_point_str fmt ei.pos0) [] with h | h
  · exact h
  · rw [h] at hi2; simp at hi2

end RookQueenKeys

theorem tally_fmt_no_comma (a : Int) : ',' ∉ (tally_fmt a).data := by
  unfold tally_fmt
  simp only [List.mem_append, List.mem_replicate, not_or]
  constructor
  · split_ifs
    · simp
    · simp
  · rintro ⟨_, h⟩
    exact absurd h (by decide)

section ClaimRookQueen

variable {α β μ : Type} [LinearOrderedRing α]

/-- C12. Rook is contained in queen at order `1`: every pair that
`polygon_contiguity_weights` reports at threshold `0` with `is_queen = false` is
reported with `is_queen = true`, the queen engine returning whenever the rook
engine does, and the rook engine returning for a well-formed collection with
ascending part offsets; and so for `point_contiguity_weights` on one diagram,
where both rules return, the stream output of a coordinate never writing a
comma. -/
theorem rook_within_queen (ops : PartitionOps α β μ) (fuel : Nat) (fmt : α → String)
    (diagram : jcv_diagram α) (geoms : GeometryCollection α) (precision_threshold : α)
    (include_lower_order : Bool) (hfmt : ∀ a, ',' ∉ (fmt a).data) :
    (∃ queen,
      polygon_contiguity_weights ops fuel fmt geoms true 0 1 include_lower_order = some queen ∧
      ∀ rook,
        polygon_contiguity_weights ops fuel fmt geoms false 0 1 include_lower_order
          = some rook →
        ∀ i j, j ∈ rook.getD i [] → j ∈ queen.getD i []) ∧
    (well_formed geoms → ascending_parts geoms →
      ∃ rook, polygon_contiguity_weights ops fuel fmt geoms false 0 1 include_lower_order
        = some rook) ∧
    (∃ rook queen,
      point_contiguity_weights fmt (some diagram) geoms false precision_threshold 1
        include_lower_order = some rook ∧
      point_contiguity_weights fmt (some diagram) geoms true precision_threshold 1
        include_lower_order = some queen ∧
      ∀ i j, j ∈ rook.getD i [] → j ∈ queen.getD i []) := by
  refine ⟨?_, ?_, ?_⟩
  · refine ⟨simple_polygon_queen_weights geoms 1 include_lower_order, ?_, ?_⟩
    · simp [polygon_contiguity_weights]
    · intro rook hrook i j h
      simp only [polygon_contiguity_weights, if_true, Bool.false_eq_true, if_false] at hrook
      rw [rook_result_eq fmt geoms 1 include_lower_order rook hrook, getD_replicate_nil] at h
      simp at h
  · intro hwf hasc
    refine ⟨List.replicate geoms.size [], ?_⟩
    simp only [polygon_contiguity_weights, if_true, Bool.false_eq_true, if_false]
    exact rook_returns fmt geoms 1 include_lower_order hwf hasc
  · refine ⟨_, _, point_contiguity_weights_one fmt diagram geoms false precision_threshold
      include_lower_order, point_contiguity_weights_one fmt diagram geoms true
      precision_threshold include_lower_order, ?_⟩
    intro i j h
    rw [(point_nbr_map_ext fmt diagram geoms.size _).mem_iff] at h ⊢
    exact ⟨h.1, point_pairs_rook_queen fmt hfmt diagram i j h.2⟩

end ClaimRookQueen

/-- C12 on three squares in a row and the three collinear cells with the tally
output: no comma is written, the rook adjacency is `[[], [], []]` on both routes
and lies in the queen adjacency `[[1], [0, 2], [1]]`. -/
theorem rook_within_queen_witness :
    (∀ a, ',' ∉ (tally_fmt a).data) ∧
    point_contiguity_weights tally_fmt (some three_cells) three_squares false 0 1 false
      = some [[], [], []] ∧
    point_contiguity_weights tally_fmt (some three_cells) three_squares true 0 1 false
      = some [[1], [0, 2], [1]] ∧
    polygon_contiguity_weights single_bucket_ops 5 tally_fmt three_squares false 0 1 false
      = some [[], [], []] ∧
    (∃ queen,
      polygon_contiguity_weights single_bucket_ops 5 tally_fmt three_squares true 0 1 false
        = some queen ∧
      ∀ rook,
        polygon_contiguity_weights single_bucket_ops 5 tally_fmt three_squares false 0 1 false
          = some rook →
        ∀ i j, j ∈ rook.getD i [] → j ∈ queen.getD i []) ∧
    (well_formed three_squares → ascending_parts three_squares →
      ∃ rook, polygon_contiguity_weights single_bucket_ops 5 tally_fmt three_squares false 0 1
        false = some rook) ∧
    (∃ rook queen,
      point_contiguity_weights tally_fmt (some three_cells) three_squares false 0 1 false
        = some rook ∧
      point_contiguity_weights tally_fmt (some three_cells) three_squares true 0 1 false
        = some queen ∧
      ∀ i j, j ∈ rook.getD i [] → j ∈ queen.getD i []) :=
  ⟨tally_fmt_no_comma, by decide, by decide, by decide,
    rook_within_queen single_bucket_ops 5 tally_fmt three_cells three_squares 0 false
      tally_fmt_no_comma⟩

/-! ## Site preparation -/

section PruneLemmas

variable {α : Type} [LinearOrderedRing α]

theorem take_succ_set {γ : Type} (l : List γ) (m : Nat) (a : γ) (h : m < l.length) :
    (l.set m a).take (m + 1) = l.take m ++ [a] := by
  induction l generalizing m with
  | nil => simp at h
  | cons b t ih =>
    cases m with
    | zero => simp
    | succ m =>
      simp only [List.set_cons_succ, List.take_succ_cons, List.cons_append, List.cons.injEq,
        true_and]
      exact ih m (by simpa using h)

theorem kept_upto_succ (rect : Option (jcv_rect α)) (sites : List (jcv_site α)) (i : Nat) :
    kept_upto rect sites (i + 1)
      = kept_upto rect sites i ++
          (if kept_at rect sites i = true then [sites.getD i ⟨⟨0, 0⟩, 0, []⟩] else []) := by
  unfold kept_upto
  rw [List.range_succ, List.filter_append, List.map_append]
  congr 1
  by_cases h : kept_at rect sites i = true
  · simp [h]
  · simp [h]

theorem jcv_prune_loop_inv (rect : Option (jcv_rect α)) (orig : List (jcv_site α)) (i : Nat)
    (hi : i ≤ orig.length) :
    ((List.range i).foldl (jcv_prune_step rect) (orig, 0)).1.length = orig.length ∧
    ((List.range i).foldl (jcv_prune_step rect) (orig, 0)).2
        + (kept_upto rect orig i).length = i ∧
    ((List.range i).foldl (jcv_prune_step rect) (orig, 0)).1.take
        (i - ((List.range i).foldl (jcv_prune_step rect) (orig, 0)).2)
      = kept_upto rect orig i ∧
    ∀ j, i ≤ j + 1 → ((List.range i).foldl (jcv_prune_step rect) (orig, 0)).1[j]? = orig[j]? := by
  induction i with
  | zero => simp [kept_upto]
  | succ i ih =>
    obtain ⟨hlen, hoff, htake, hrest⟩ := ih (by omega)
    rw [List.range_succ, List.foldl_append]
    simp only [List.foldl_cons, List.foldl_nil]
    generalize (List.range i).foldl (jcv_prune_step rect) (orig, 0) = st at hlen hoff htake hrest
    obtain ⟨arr, off⟩ := st
    simp only at hlen hoff htake hrest
    have hs : arr.getD i ⟨⟨0, 0⟩, 0, []⟩ = orig.getD i ⟨⟨0, 0⟩, 0, []⟩ := by
      rw [List.getD_eq_getElem?_getD, List.getD_eq_getElem?_getD, hrest i (by omega)]
    have hprev : 0 < i → arr.getD (i - 1) ⟨⟨0, 0⟩, 0, []⟩ = orig.getD (i - 1) ⟨⟨0, 0⟩, 0, []⟩ := by
      intro h0
      rw [List.getD_eq_getElem?_getD, List.getD_eq_getElem?_getD, hrest (i - 1) (by omega)]
    rw [kept_upto_succ]
    by_cases hk : kept_at rect orig i = true
    · have hstep : jcv_prune_step rect (arr, off) i
          = (arr.set (i - off) (orig.getD i ⟨⟨0, 0⟩, 0, []⟩), off) := by
        unfold kept_at at hk
        simp only [Bool.and_eq_true, Bool.not_eq_true', Bool.and_eq_false_iff, decide_eq_false_iff_not,
          not_lt, Nat.le_zero] at hk
        unfold jcv_prune_step
        simp only [hs]
        have h1 : ¬ (0 < i ∧ jcv_point_eq (orig.getD i ⟨⟨0, 0⟩, 0, []⟩).p
            (arr.getD (i - 1) ⟨⟨0, 0⟩, 0, []⟩).p = true) := by
          rintro ⟨h0, he⟩
          rw [hprev h0] at he
          rcases hk.1 with h | h
          · omega
          · rw [h] at he; cases he
        rw [if_neg h1, if_neg (by rw [hk.2]; simp)]
      rw [hstep, if_pos hk]
      simp only [List.length_set, List.length_append, List.length_singleton]
      have him : i - off < arr.length := by omega
      refine ⟨hlen, by omega, ?_, ?_⟩
      · have e : i + 1 - off = (i - off) + 1 := by omega
        rw [e, take_succ_set arr (i - off) _ him, htake]
      · intro j hj
        rw [List.getElem?_set]
        by_cases hij : i - off = j
        · have hj2 : j = i := by omega
          subst hj2
          rw [if_pos hij, if_pos him]
          exact (getElem?_of_lt_getD orig j _ (by omega)).symm
        · rw [if_neg hij]
          exact hrest j (by omega)
    · have hstep : jcv_prune_step rect (arr, off) i = (arr, off + 1) := by
        unfold kept_at at hk
        unfold jcv_prune_step
        simp only [hs]
        by_cases h1 : 0 < i ∧ jcv_point_eq (orig.getD i ⟨⟨0, 0⟩, 0, []⟩).p
            (arr.getD (i - 1) ⟨⟨0, 0⟩, 0, []⟩).p = true
        · rw [if_pos h1]
        · rw [if_neg h1]
          have h2 : outside_rect rect (orig.getD i ⟨⟨0, 0⟩, 0, []⟩).p = true := by
            by_contra hcon
            apply hk
            simp only [Bool.and_eq_true, Bool.not_eq_true', Bool.and_eq_false_iff,
              decide_eq_false_iff_not]
            refine ⟨?_, by simpa using hcon⟩
            by_cases h0 : 0 < i
            · right
              rw [← hprev h0]
              by_contra he
              exact h1 ⟨h0, by simpa using he⟩
            · left; exact h0
          rw [if_pos h2]
      rw [hstep, if_neg hk, List.append_nil]
      refine ⟨hlen, by omega, ?_, fun j hj => hrest j (by omega)⟩
      have e : i + 1 - (off + 1) = i - off := by omega
      rw [e, htake]

theorem jcv_prune_eq (rect : Option (jcv_rect α)) (sites : List (jcv_site α)) :
    jcv_prune rect sites sites.length = kept_upto rect sites sites.length := by
  unfold jcv_prune
  exact (jcv_prune_loop_inv rect sites sites.length (le_refl _)).2.2.1

theorem mem_kept_upto (rect : Option (jcv_rect α)) (sites : List (jcv_site α)) (n : Nat)
    (s : jcv_site α) :
    s ∈ kept_upto rect sites n ↔
      ∃ k, k < n ∧ kept_at rect sites k = true ∧ sites.getD k ⟨⟨0, 0⟩, 0, []⟩ = s := by
  unfold kept_upto
  simp only [List.mem_map, List.mem_filter, List.mem_range]
  constructor
  · rintro ⟨k, ⟨h1, h2⟩, h3⟩
    exact ⟨k, h1, h2, h3⟩
  · rintro ⟨k, h1, h2, h3⟩
    exact ⟨k, ⟨h1, h2⟩, h3⟩

end PruneLemmas

section SiteOrder

variable {α : Type} [LinearOrderedRing α]

theorem jcv_point_ext (a b : jcv_point α) (hx : a.x = b.x) (hy : a.y = b.y) : a = b := by
  cases a; cases b; simp only [jcv_point.mk.injEq]; exact ⟨hx, hy⟩

theorem jcv_point_eq_iff (a b : jcv_point α) : jcv_point_eq a b = true ↔ a = b := by
  unfold jcv_point_eq
  simp only [Bool.and_eq_true, decide_eq_true_eq]
  constructor
  · rintro ⟨hy, hx⟩; exact jcv_point_ext a b hx hy
  · rintro rfl; exact ⟨rfl, rfl⟩

theorem jcv_point_cmp_iff (a b : jcv_point α) :
    jcv_point_cmp b a ≠ -1 ↔ jcv_point_less b a = false := by
  unfold jcv_point_cmp jcv_point_less
  by_cases hy : b.y = a.y
  · simp only [hy, ne_eq, not_true_eq_false, if_false, if_true]
    by_cases hx : b.x < a.x
    · simp [hx]
    · simp [hx]
  · simp only [ne_eq, hy, not_false_eq_true, if_true, if_false]
    by_cases hlt : b.y < a.y
    · simp [hlt]
    · simp [hlt]

theorem jcv_point_less_irrefl (a : jcv_point α) : jcv_point_less a a = false := by
  simp [jcv_point_less]

theorem jcv_point_antisymm (a b : jcv_point α) (h1 : jcv_point_less a b = false)
    (h2 : jcv_point_less b a = false) : a = b := by
  unfold jcv_point_less at h1 h2
  by_cases hy : a.y = b.y
  · simp only [hy, if_true, decide_eq_false_iff_not, not_lt] at h1 h2
    exact jcv_point_ext a b (le_antisymm h2 h1) hy
  · simp only [hy, if_false, Ne.symm hy, decide_eq_false_iff_not, not_lt] at h1 h2
    exact absurd (le_antisymm h2 h1) hy

theorem jcv_point_less_of_ne (a b : jcv_point α) (h : jcv_point_less b a = false)
    (hne : a ≠ b) : jcv_point_less a b = true := by
  by_contra hcon
  exact hne (jcv_point_antisymm a b (by simpa using hcon) h)

theorem getD_site_eq {sites : List (jcv_site α)} {k : Nat} (hk : k < sites.length) :
    sites.getD k ⟨⟨0, 0⟩, 0, []⟩ = sites[k] := by
  rw [List.getD_eq_getElem?_getD, List.getElem?_eq_getElem hk]; rfl

theorem sorted_getD (sites : List (jcv_site α)) (hs : sorted_by_cmp sites) (i j : Nat)
    (hij : i ≤ j) (hj : j < sites.length) :
    jcv_point_less (sites.getD j ⟨⟨0, 0⟩, 0, []⟩).p (sites.getD i ⟨⟨0, 0⟩, 0, []⟩).p = false := by
  rcases Nat.eq_or_lt_of_le hij with rfl | hlt
  · exact jcv_point_less_irrefl _
  · rw [getD_site_eq hj, getD_site_eq (by omega : i < sites.length)]
    exact (jcv_point_cmp_iff _ _).1 (List.pairwise_iff_getElem.1 hs i j (by omega) hj hlt)

theorem kept_upto_strict (rect : Option (jcv_rect α)) (sites : List (jcv_site α))
    (hs : sorted_by_cmp sites) :
    (kept_upto rect sites sites.length).Pairwise (fun a b => jcv_point_less a.p b.p = true) := by
  unfold kept_upto
  rw [List.pairwise_map]
  have hp : List.Pairwise (fun a b => a < b)
      ((List.range sites.length).filter (kept_at rect sites)) :=
    List.Pairwise.filter _ (List.pairwise_lt_range sites.length)
  refine hp.imp_of_mem ?_
  intro i j hi hj hij
  rw [List.mem_filter, List.mem_range] at hi hj
  apply jcv_point_less_of_ne _ _ (sorted_getD sites hs i j (le_of_lt hij) hj.1)
  intro heq
  have h1 := sorted_getD sites hs i (j - 1) (by omega) (by omega)
  have h2 := sorted_getD sites hs (j - 1) j (by omega) hj.1
  rw [heq] at h1
  have h3 := jcv_point_antisymm _ _ h2 h1
  have hk := hj.2
  unfold kept_at at hk
  simp only [Bool.and_eq_true, Bool.not_eq_true', Bool.and_eq_false_iff,
    decide_eq_false_iff_not] at hk
  rcases hk.1 with h | h
  · omega
  · rw [(jcv_point_eq_iff _ _).2 h3] at h
    cases h

theorem mem_init_sites (points : List (jcv_point α)) (s : jcv_site α)
    (hs : s ∈ jcv_init_sites points) :
    s.index < points.length ∧ points[s.index]? = some s.p := by
  unfold jcv_init_sites at hs
  obtain ⟨i, hi, rfl⟩ := List.mem_map.1 hs
  rw [List.mem_range] at hi
  exact ⟨hi, getElem?_of_lt_getD points i _ hi⟩

theorem init_sites_length (points : List (jcv_point α)) :
    (jcv_init_sites points).length = points.length := by
  simp [jcv_init_sites]

theorem mem_sorted_of_kept (rect : Option (jcv_rect α)) (sites : List (jcv_site α))
    (s : jcv_site α) (hs : s ∈ kept_upto rect sites sites.length) : s ∈ sites := by
  obtain ⟨k, hk, _, rfl⟩ := (mem_kept_upto rect sites _ s).1 hs
  rw [getD_site_eq hk]
  exact List.getElem_mem _

theorem outside_rect_some (r : jcv_rect α) (p : jcv_point α) :
    outside_rect (some r) p = false ↔
      (r.min.x ≤ p.x ∧ p.x ≤ r.max.x ∧ r.min.y ≤ p.y ∧ p.y ≤ r.max.y) := by
  simp only [outside_rect, Bool.or_eq_false_iff, decide_eq_false_iff_not, not_lt, gt_iff_lt]
  tauto

theorem kept_of_first_occurrence (rect : Option (jcv_rect α)) (sites : List (jcv_site α))
    (p : jcv_point α) (hout : outside_rect rect p = false) (s : jcv_site α) (hs : s ∈ sites)
    (hp : s.p = p) : ∃ s' ∈ kept_upto rect sites sites.length, s'.p = p := by
  classical
  have hex : ∃ k, k < sites.length ∧ (sites.getD k ⟨⟨0, 0⟩, 0, []⟩).p = p := by
    obtain ⟨k, hk, rfl⟩ := List.getElem_of_mem hs
    exact ⟨k, hk, by rw [getD_site_eq hk]; exact hp⟩
  obtain ⟨hk, hpk⟩ := Nat.find_spec hex
  refine ⟨_, (mem_kept_upto rect sites _ _).2 ⟨Nat.find hex, hk, ?_, rfl⟩, hpk⟩
  unfold kept_at
  simp only [Bool.and_eq_true, Bool.not_eq_true', Bool.and_eq_false_iff,
    decide_eq_false_iff_not]
  refine ⟨?_, by rw [hpk]; exact hout⟩
  by_cases h0 : 0 < Nat.find hex
  · right
    by_contra hcon
    have htrue : jcv_point_eq (sites.getD (Nat.find hex) ⟨⟨0, 0⟩, 0, []⟩).p
        (sites.getD (Nat.find hex - 1) ⟨⟨0, 0⟩, 0, []⟩).p = true := by
      cases hb : jcv_point_eq (sites.getD (Nat.find hex) ⟨⟨0, 0⟩, 0, []⟩).p
        (sites.getD (Nat.find hex - 1) ⟨⟨0, 0⟩, 0, []⟩).p
      · exact absurd hb hcon
      · rfl
    have heq := (jcv_point_eq_iff _ _).1 htrue
    exact Nat.find_min hex (by omega : Nat.find hex - 1 < Nat.find hex)
      ⟨by omega, heq ▸ hpk⟩
  · left; exact h0

end SiteOrder

/-! ## Claims on the sites of the diagram -/

section ClaimsSites

variable {α : Type} [LinearOrderedRing α]

theorem mem_prune_sorted (rect : Option (jcv_rect α)) (points : List (jcv_point α))
    (sorted_sites : List (jcv_site α)) (hperm : sorted_sites.Perm (jcv_init_sites points))
    (s : jcv_site α) (hs : s ∈ jcv_prune rect sorted_sites points.length) :
    s ∈ kept_upto rect sorted_sites sorted_sites.length ∧ s ∈ jcv_init_sites points := by
  have hlen : sorted_sites.length = points.length := by
    rw [hperm.length_eq, init_sites_length]
  rw [← hlen, jcv_prune_eq] at hs
  exact ⟨hs, hperm.mem_iff.1 (mem_sorted_of_kept rect sorted_sites s hs)⟩

theorem entry_is_site_index (fmt : α → String) (diagram : jcv_diagram α)
    (geoms : GeometryCollection α) (is_queen : Bool) (precision_threshold : α)
    (order_contiguity : Nat) (include_lower_order : Bool) (A : List (List Nat))
    (hA : point_contiguity_weights fmt (some diagram) geoms is_queen precision_threshold
      order_contiguity include_lower_order = some A) (l : List Nat)
    (hl : l ∈ A) (x : Nat) (hx : x ∈ l) :
    ∃ s ∈ diagram.sites, s.index = x := by
  rw [point_contiguity_weights_some fmt diagram geoms is_queen precision_threshold
    order_contiguity include_lower_order A hA, convert_to_weights_eq] at hl
  obtain ⟨i, hi⟩ := mem_getD_of_mem hl
  rw [← hi] at hx
  obtain ⟨u, hu⟩ := make_higher_ord_mem_source _ _ _ _ _ _ hx
  rw [(point_nbr_map_ext fmt diagram geoms.size is_queen).mem_iff] at hu
  exact (point_pairs_spec fmt diagram is_queen u x hu.2).2.2.2

/-- C18. Site indices refer to input positions: every site `s` that the
preparation of `jcv_diagram_generate` retains, whatever order the sort left,
has `s.index < num_points` and `s.p = points[s.index]`; hence every index of
every adjacency that `point_contiguity_weights` returns for the generated
diagram (it returns one for `order_contiguity ≤ 1`) is the input position of a
retained site. -/
theorem site_index_is_input_position (rect : Option (jcv_rect α))
    (points : List (jcv_point α)) (sorted_sites : List (jcv_site α))
    (hperm : sorted_sites.Perm (jcv_init_sites points)) :
    (∀ s ∈ jcv_prune rect sorted_sites points.length,
      s.index < points.length ∧ points[s.index]? = some s.p) ∧
    (∀ (fmt : α → String) (diagram : jcv_diagram α) (geoms : GeometryCollection α) (r : jcv_rect α)
      (is_queen : Bool) (precision_threshold : α) (order_contiguity : Nat)
      (include_lower_order : Bool),
      rect = some r → generated_from diagram r sorted_sites →
      (order_contiguity ≤ 1 →
        ∃ A, point_contiguity_weights fmt (some diagram) geoms is_queen precision_threshold
          order_contiguity include_lower_order = some A) ∧
      ∀ A, point_contiguity_weights fmt (some diagram) geoms is_queen precision_threshold
          order_contiguity include_lower_order = some A →
        ∀ l ∈ A, ∀ x ∈ l, x < points.length ∧
          ∃ s ∈ jcv_prune rect sorted_sites points.length, s.index = x ∧
            points[x]? = some s.p) := by
  have hfirst : ∀ s ∈ jcv_prune rect sorted_sites points.length,
      s.index < points.length ∧ points[s.index]? = some s.p :=
    fun s hs => mem_init_sites points s (mem_prune_sorted rect points sorted_sites hperm s hs).2
  refine ⟨hfirst, ?_⟩
  intro fmt diagram geoms r is_queen precision_threshold order_contiguity include_lower_order
    hr hgen
  refine ⟨fun hle => ⟨_, point_contiguity_weights_low fmt diagram geoms is_queen
    precision_threshold order_contiguity include_lower_order hle⟩, ?_⟩
  intro A hA l hl x hx
  obtain ⟨s, hs, rfl⟩ := entry_is_site_index fmt diagram geoms is_queen precision_threshold
    order_contiguity include_lower_order A hA l hl x hx
  have hlen : sorted_sites.length = points.length := by
    rw [hperm.length_eq, init_sites_length]
  have hmem : (s.p, s.index) ∈ (jcv_prune (some r) sorted_sites sorted_sites.length).map
      (fun s => (s.p, s.index)) := by
    rw [← hgen.1]
    exact List.mem_map.2 ⟨s, hs, rfl⟩
  obtain ⟨s', hs', heq⟩ := List.mem_map.1 hmem
  simp only [Prod.mk.injEq] at heq
  rw [hlen, ← hr] at hs'
  obtain ⟨h1, h2⟩ := hfirst s' hs'
  rw [heq.2] at h1 h2
  exact ⟨h1, s', hs', heq.2, h2⟩

/-- C19. Site pruning: after the preparation of `jcv_diagram_generate` the
retained sites are strictly increasing in the lexicographic order of `(y, x)`,
hence at pairwise distinct points, all lie in the closed rectangle, and every
input point in the rectangle is the point of a retained site. -/
theorem site_pruning (r : jcv_rect α) (points : List (jcv_point α))
    (sorted_sites : List (jcv_site α)) (hperm : sorted_sites.Perm (jcv_init_sites points))
    (hsorted : sorted_by_cmp sorted_sites) :
    (jcv_prune (some r) sorted_sites points.length).Pairwise
      (fun a b => jcv_point_less a.p b.p = true) ∧
    ((jcv_prune (some r) sorted_sites points.length).map (fun s => s.p)).Nodup ∧
    (∀ s ∈ jcv_prune (some r) sorted_sites points.length,
      r.min.x ≤ s.p.x ∧ s.p.x ≤ r.max.x ∧ r.min.y ≤ s.p.y ∧ s.p.y ≤ r.max.y) ∧
    (∀ p ∈ points, r.min.x ≤ p.x ∧ p.x ≤ r.max.x ∧ r.min.y ≤ p.y ∧ p.y ≤ r.max.y →
      p ∈ (jcv_prune (some r) sorted_sites points.length).map (fun s => s.p)) := by
  have hlen : sorted_sites.length = points.length := by
    rw [hperm.length_eq, init_sites_length]
  rw [← hlen, jcv_prune_eq]
  have hstrict := kept_upto_strict (some r) sorted_sites hsorted
  refine ⟨hstrict, ?_, ?_, ?_⟩
  · rw [List.Nodup, List.pairwise_map]
    refine hstrict.imp ?_
    intro a b hab heq
    rw [heq, jcv_point_less_irrefl] at hab
    cases hab
  · intro s hs
    obtain ⟨k, _, hk, rfl⟩ := (mem_kept_upto (some r) sorted_sites _ s).1 hs
    unfold kept_at at hk
    simp only [Bool.and_eq_true, Bool.not_eq_true'] at hk
    exact (outside_rect_some r _).1 hk.2
  · intro p hp hin
    obtain ⟨i, hi, rfl⟩ := List.getElem_of_mem hp
    have hsite : (⟨points[i], i, []⟩ : jcv_site α) ∈ sorted_sites := by
      rw [hperm.mem_iff]
      unfold jcv_init_sites
      refine List.mem_map.2 ⟨i, List.mem_range.2 hi, ?_⟩
      rw [List.getD_eq_getElem?_getD, List.getElem?_eq_getElem hi]
      rfl
    obtain ⟨s', hs', hp'⟩ := kept_of_first_occurrence (some r) sorted_sites points[i]
      ((outside_rect_some r _).2 hin) _ hsite rfl
    exact List.mem_map.2 ⟨s', hs', hp'⟩

theorem kept_upto_same_index (rect : Option (jcv_rect α)) (sites : List (jcv_site α))
    (hsame : ∀ a ∈ sites, ∀ b ∈ sites, a.p = b.p) :
    ∀ a ∈ kept_upto rect sites sites.length, ∀ b ∈ kept_upto rect sites sites.length, a = b := by
  have hzero : ∀ s ∈ kept_upto rect sites sites.length, s = sites.getD 0 ⟨⟨0, 0⟩, 0, []⟩ := by
    intro s hs
    obtain ⟨k, hk, hkept, rfl⟩ := (mem_kept_upto rect sites _ s).1 hs
    by_cases h0 : k = 0
    · rw [h0]
    · exfalso
      unfold kept_at at hkept
      simp only [Bool.and_eq_true, Bool.not_eq_true', Bool.and_eq_false_iff,
        decide_eq_false_iff_not] at hkept
      rcases hkept.1 with h | h
      · omega
      · have heq : (sites.getD k ⟨⟨0, 0⟩, 0, []⟩).p = (sites.getD (k - 1) ⟨⟨0, 0⟩, 0, []⟩).p := by
          rw [getD_site_eq hk, getD_site_eq (by omega : k - 1 < sites.length)]
          exact hsame _ (List.getElem_mem _) _ (List.getElem_mem _)
        rw [(jcv_point_eq_iff _ _).2 heq] at h
        cases h
  intro a ha b hb
  rw [hzero a ha, hzero b hb]

theorem nbr_map_eq_replicate {R : Nat → Nat → Prop} {N : Nat} {nm : List (List Nat)}
    (h : Extends R (List.replicate N []) nm) (hR : ∀ i j, ¬ R i j) :
    nm = List.replicate N [] := by
  rw [List.eq_replicate_iff]
  refine ⟨h.length_eq, fun l hl => ?_⟩
  obtain ⟨i, rfl⟩ := mem_getD_of_mem hl
  rw [List.eq_nil_iff_forall_not_mem]
  intro x hx
  exact hR i x ((h.mem_iff i x).1 hx).2

/-- C15. Identical points: when the centroids of all `N ≥ 1` geometries coincide,
`point_contiguity_weights` returns `N` empty lists for the diagram generated
from them, for both rules, at `order_contiguity ≤ 1`; at every order from `2` on
the call does not return, because `delete gal` frees an array that came from
`new[]`. -/
theorem identical_points_abort_at_order_two (fmt : α → String)
    (get_centroid : GeometryCollection α → Nat → α × α) (geoms : GeometryCollection α)
    (diagram : jcv_diagram α) (r : jcv_rect α) (sorted_sites : List (jcv_site α))
    (is_queen : Bool) (precision_threshold : α)
    (include_lower_order : Bool) (hN : 1 ≤ geoms.size)
    (hall : ∀ i < geoms.size, ∀ j < geoms.size, get_centroid geoms i = get_centroid geoms j)
    (hperm : sorted_sites.Perm (jcv_init_sites (seed_sites get_centroid geoms)))
    (hgen : generated_from diagram r sorted_sites) :
    (∀ order_contiguity, order_contiguity ≤ 1 →
      point_contiguity_weights fmt (some diagram) geoms is_queen precision_threshold
        order_contiguity include_lower_order = some (List.replicate geoms.size [])) ∧
    (∀ order_contiguity, 2 ≤ order_contiguity →
      point_contiguity_weights fmt (some diagram) geoms is_queen precision_threshold
        order_contiguity include_lower_order = none) := by
  have hsame : ∀ a ∈ sorted_sites, ∀ b ∈ sorted_sites, a.p = b.p := by
    intro a ha b hb
    have ha2 := mem_init_sites _ a (hperm.mem_iff.1 ha)
    have hb2 := mem_init_sites _ b (hperm.mem_iff.1 hb)
    have hlen : (seed_sites get_centroid geoms).length = geoms.size := by simp [seed_sites]
    have hget : ∀ k < geoms.size, (seed_sites get_centroid geoms)[k]?
        = some ⟨(get_centroid geoms k).1, (get_centroid geoms k).2⟩ := by
      intro k hk
      unfold seed_sites
      rw [List.getElem?_map, List.getElem?_range hk]
      rfl
    rw [hlen] at ha2 hb2
    rw [hget _ ha2.1] at ha2
    rw [hget _ hb2.1] at hb2
    have e1 := Option.some.inj ha2.2
    have e2 := Option.some.inj hb2.2
    rw [← e1, ← e2, hall _ ha2.1 _ hb2.1]
  have hidx : ∀ a ∈ diagram.sites, ∀ b ∈ diagram.sites, a.index = b.index := by
    intro a ha b hb
    have hma : (a.p, a.index) ∈ (jcv_prune (some r) sorted_sites sorted_sites.length).map
        (fun s => (s.p, s.index)) := by
      rw [← hgen.1]; exact List.mem_map.2 ⟨a, ha, rfl⟩
    have hmb : (b.p, b.index) ∈ (jcv_prune (some r) sorted_sites sorted_sites.length).map
        (fun s => (s.p, s.index)) := by
      rw [← hgen.1]; exact List.mem_map.2 ⟨b, hb, rfl⟩
    rw [jcv_prune_eq] at hma hmb
    obtain ⟨a', ha', hea⟩ := List.mem_map.1 hma
    obtain ⟨b', hb', heb⟩ := List.mem_map.1 hmb
    simp only [Prod.mk.injEq] at hea heb
    rw [← hea.2, ← heb.2, kept_upto_same_index (some r) sorted_sites hsame a' ha' b' hb']
  refine ⟨fun order_contiguity hle => ?_, fun order_contiguity h2 =>
    point_contiguity_weights_high fmt diagram geoms is_queen precision_threshold
      order_contiguity include_lower_order h2 hN⟩
  rw [point_contiguity_weights_low fmt diagram geoms is_queen precision_threshold
      order_contiguity include_lower_order hle,
    nbr_map_eq_replicate (point_nbr_map_ext fmt diagram geoms.size is_queen) ?_,
    convert_to_weights_replicate]
  intro i j hp
  obtain ⟨_, hne, ⟨si, hsi, rfl⟩, sj, hsj, rfl⟩ := point_pairs_spec fmt diagram is_queen i j hp
  exact hne (hidx si hsi sj hsj)

end ClaimsSites

/-- The array `sample_sorted` is a reordering of the initial sites of
`sample_points` and is in the order of the comparison. -/
theorem sample_sorted_spec :
    sample_sorted.Perm (jcv_init_sites sample_points) ∧ sorted_by_cmp sample_sorted := by
  constructor
  · have h : jcv_init_sites sample_points
        = [⟨⟨2, 0⟩, 0, []⟩, ⟨⟨0, 0⟩, 1, []⟩, ⟨⟨2, 0⟩, 2, []⟩, ⟨⟨9, 9⟩, 3, []⟩] := rfl
    rw [h]
    exact List.Perm.swap _ _ _
  · unfold sorted_by_cmp sample_sorted
    decide

/-- C18 on `sample_points`: the retained sites are the points at the input
positions `1` and `0`, and each carries the point of its position. -/
theorem site_index_is_input_position_witness :
    sample_sorted.Perm (jcv_init_sites sample_points) ∧
    (jcv_prune (some sample_rect) sample_sorted sample_points.length).map
        (fun s => (s.p.x, s.p.y, s.index)) = [(0, 0, 1), (2, 0, 0)] ∧
    (∀ s ∈ jcv_prune (some sample_rect) sample_sorted sample_points.length,
      s.index < sample_points.length ∧ sample_points[s.index]? = some s.p) :=
  ⟨sample_sorted_spec.1, by decide,
    (site_index_is_input_position (some sample_rect) sample_points sample_sorted
      sample_sorted_spec.1).1⟩

/-- C19 on `sample_points`: of the four input points the repeated one is kept
once and the one outside of the rectangle is dropped. -/
theorem site_pruning_witness :
    sample_sorted.Perm (jcv_init_sites sample_points) ∧ sorted_by_cmp sample_sorted ∧
    (jcv_prune (some sample_rect) sample_sorted sample_points.length).map
        (fun s => (s.p.x, s.p.y, s.index)) = [(0, 0, 1), (2, 0, 0)] ∧
    (jcv_prune (some sample_rect) sample_sorted sample_points.length).Pairwise
      (fun a b => jcv_point_less a.p b.p = true) ∧
    ((jcv_prune (some sample_rect) sample_sorted sample_points.length).map
      (fun s => s.p)).Nodup ∧
    (∀ s ∈ jcv_prune (some sample_rect) sample_sorted sample_points.length,
      sample_rect.min.x ≤ s.p.x ∧ s.p.x ≤ sample_rect.max.x ∧
        sample_rect.min.y ≤ s.p.y ∧ s.p.y ≤ sample_rect.max.y) ∧
    (∀ p ∈ sample_points,
      sample_rect.min.x ≤ p.x ∧ p.x ≤ sample_rect.max.x ∧
        sample_rect.min.y ≤ p.y ∧ p.y ≤ sample_rect.max.y →
      p ∈ (jcv_prune (some sample_rect) sample_sorted sample_points.length).map
        (fun s => s.p)) :=
  ⟨sample_sorted_spec.1, sample_sorted_spec.2, by decide,
    site_pruning sample_rect sample_points sample_sorted sample_sorted_spec.1
      sample_sorted_spec.2⟩

/-- C15 on three geometries with the centroid `(1,1)`: the hypotheses hold for
the diagram `one_cell`; at order `1` the queen rule gives three empty lists, at
order `2` the call has no result. -/
theorem identical_points_abort_at_order_two_witness :
    generated_from one_cell ⟨⟨1, 1⟩, ⟨1, 1⟩⟩
      (jcv_init_sites (seed_sites (fun _ _ => ((1 : Int), (1 : Int))) three_squares)) ∧
    point_contiguity_weights int_fmt (some one_cell) three_squares true 0 1 true
      = some [[], [], []] ∧
    point_contiguity_weights int_fmt (some one_cell) three_squares true 0 2 true = none ∧
    ((∀ order_contiguity, order_contiguity ≤ 1 →
      point_contiguity_weights int_fmt (some one_cell) three_squares true 0
        order_contiguity true = some (List.replicate three_squares.size [])) ∧
    (∀ order_contiguity, 2 ≤ order_contiguity →
      point_contiguity_weights int_fmt (some one_cell) three_squares true 0
        order_contiguity true = none)) :=
  ⟨⟨rfl, rfl, rfl⟩, by decide, by decide,
    identical_points_abort_at_order_two int_fmt (fun _ _ => ((1 : Int), (1 : Int)))
      three_squares one_cell ⟨⟨1, 1⟩, ⟨1, 1⟩⟩ _ true 0 true (by decide) (fun _ _ _ _ => rfl)
      (List.Perm.refl _) ⟨rfl, rfl, rfl⟩⟩

/-! ## Collinear sites in the rectangle of the point route -/

section CollinearSites

variable {α : Type} [LinearOrderedField α]

theorem jcv_edge_create_level (s1 s2 : jcv_point α) (hy : s1.y = s2.y) (hx : s1.x ≠ s2.x) :
    (jcv_edge_create s1 s2).a = 1 ∧ (jcv_edge_create s1 s2).b = 0 ∧
      (jcv_edge_create s1 s2).c = (s1.x + s2.x) / 2 := by
  have hdx : s2.x - s1.x ≠ 0 := sub_ne_zero.2 (Ne.symm hx)
  have hdy : s2.y - s1.y = 0 := by rw [hy]; exact sub_self _
  have hlarger : (s2.x - s1.x) * (s2.x - s1.x) > (s2.y - s1.y) * (s2.y - s1.y) := by
    rw [hdy, mul_zero]
    exact mul_self_pos.2 hdx
  have h : jcv_edge_create s1 s2 =
      { site0 := s1, site1 := some s2, pos0 := none, pos1 := none, a := 1,
        b := (s2.y - s1.y) / (s2.x - s1.x),
        c := ((s2.x - s1.x) * (s1.x + (s2.x - s1.x) * (1 / 2)) +
          (s2.y - s1.y) * (s1.y + (s2.y - s1.y) * (1 / 2))) / (s2.x - s1.x) } := by
    simp only [jcv_edge_create, hlarger, decide_True, if_true]
  rw [h]
  refine ⟨rfl, ?_, ?_⟩
  · show (s2.y - s1.y) / (s2.x - s1.x) = 0
    rw [hdy, zero_div]
  · show ((s2.x - s1.x) * (s1.x + (s2.x - s1.x) * (1 / 2)) +
        (s2.y - s1.y) * (s1.y + (s2.y - s1.y) * (1 / 2))) / (s2.x - s1.x) = (s1.x + s2.x) / 2
    rw [hdy, zero_mul, add_zero, mul_comm, mul_div_assoc, div_self hdx]
    ring

theorem clipline_level_edge (e : jcv_edge α) (min max : jcv_point α) (ha : e.a = 1)
    (hb : e.b = 0) (hflat : min.y = max.y) (hc1 : min.x ≤ e.c) (hc2 : e.c ≤ max.x) :
    (jcv_edge_clipline e min max).1 = false := by
  have hx1 : ¬ e.c > max.x := not_lt.2 hc2
  have hx2 : ¬ e.c < min.x := not_lt.2 hc1
  have hup : ∀ y : α, (if (if y > max.y then y else max.y) > max.y then max.y
      else (if y > max.y then y else max.y)) = max.y := by
    intro y
    by_cases h : y > max.y
    · simp [h]
    · simp [h]
  have hdown : ∀ y : α, (if (if y < max.y then y else max.y) < max.y then max.y
      else (if y < max.y then y else max.y)) = max.y := by
    intro y
    by_cases h : y < max.y
    · simp [h]
    · simp [h]
  unfold jcv_edge_clipline
  simp only [ha, hb, hflat, zero_mul, sub_zero, hx1, hx2, if_false, if_true, le_refl, ge_iff_le,
    and_self]
  cases e.pos0 <;> cases e.pos1 <;> simp [hup, hdown]

theorem fillgaps_site_edgeless (atan2 : α → α → α) (pi : α) (fuel numsites : Nat)
    (min max uninit : jcv_point α) (site : jcv_site α) (hedges : site.edges = [])
    (hflat : min.y = max.y) (hwide : min.x < max.x) :
    ∃ a0 a1 : α, jcv_fillgaps_site atan2 pi true (fuel + 2) numsites min max uninit site
      = some { site with edges := [⟨none, min, ⟨max.x, min.y⟩, a0⟩,
          ⟨none, ⟨max.x, min.y⟩, ⟨min.x, max.y⟩, a1⟩] } := by
  refine ⟨jcv_calc_sort_metric atan2 pi site.p min ⟨max.x, min.y⟩,
    jcv_calc_sort_metric atan2 pi site.p ⟨max.x, min.y⟩ ⟨min.x, max.y⟩, ?_⟩
  unfold jcv_fillgaps_site
  simp only [hedges, Bool.true_eq_false, false_and, if_false]
  simp only [jcv_create_corner_edge, lt_irrefl, false_and, if_false, hwide, gt_iff_lt, hflat,
    true_and, if_true, and_self]
  simp only [jcv_fillgaps_loop, List.getElem?_cons_succ, List.getElem?_cons_zero, List.head?_cons,
    List.getElem?_nil, Option.getD_none, jcv_point_eq, hflat, decide_True, Bool.and_self,
    Bool.true_eq_false, and_false, if_false, List.length_cons, List.length_nil]

theorem fillgaps_sites_edgeless (atan2 : α → α → α) (pi : α) (fuel numsites : Nat)
    (min max uninit : jcv_point α) (hflat : min.y = max.y) (hwide : min.x < max.x)
    (sites : List (jcv_site α)) (hedges : ∀ s ∈ sites, s.edges = []) :
    ∃ filled, jcv_fillgaps_sites atan2 pi true (fuel + 2) numsites min max uninit sites
        = some filled ∧
      filled.map (fun s => s.index) = sites.map (fun s => s.index) ∧
      ∀ s ∈ filled, ∃ e ∈ s.edges, e.pos0 = min := by
  induction sites with
  | nil => exact ⟨[], rfl, rfl, by simp⟩
  | cons site rest ih =>
    obtain ⟨others, ho, hidx, hcorner⟩ := ih (fun s hs => hedges s (List.mem_cons_of_mem _ hs))
    obtain ⟨a0, a1, hsite⟩ := fillgaps_site_edgeless atan2 pi fuel numsites min max uninit site
      (hedges site (List.mem_cons_self _ _)) hflat hwide
    refine ⟨{ site with edges := [⟨none, min, ⟨max.x, min.y⟩, a0⟩,
      ⟨none, ⟨max.x, min.y⟩, ⟨min.x, max.y⟩, a1⟩] } :: others, ?_, ?_, ?_⟩
    · simp only [jcv_fillgaps_sites, hsite, ho]
    · simp only [List.map_cons, hidx]
    · intro s hs
      rcases List.mem_cons.1 hs with h | h
      · subst h
        exact ⟨_, List.mem_cons_self _ _, rfl⟩
      · exact hcorner s h

end CollinearSites


/-! ## Scenario S2: three collinear points -/

theorem sorted_eq_of_mem_iff {l l' : List Nat} (h : l.Pairwise (fun a b => a < b))
    (h' : l'.Pairwise (fun a b => a < b)) (hm : ∀ x, x ∈ l ↔ x ∈ l') : l = l' := by
  have hn : l.Nodup := h.imp (fun hab => ne_of_lt hab)
  have hn' : l'.Nodup := h'.imp (fun hab => ne_of_lt hab)
  exact List.eq_of_perm_of_sorted ((List.perm_ext_iff_of_nodup hn hn').2 hm) h h'

theorem queen_common_corner {α : Type} [LinearOrderedRing α] (fmt : α → String)
    (diagram : jcv_diagram α) (c : jcv_point α)
    (hc : ∀ s ∈ diagram.sites, ∃ e ∈ s.edges, e.pos0 = c) (i j : Nat) (hne : i ≠ j)
    (hi : ∃ s ∈ diagram.sites, s.index = i) (hj : ∃ s ∈ diagram.sites, s.index = j) :
    point_pairs fmt diagram true i j := by
  obtain ⟨si, hsi, hii⟩ := hi
  obtain ⟨sj, hsj, hjj⟩ := hj
  obtain ⟨ei, hei, hci⟩ := hc si hsi
  obtain ⟨ej, hej, hcj⟩ := hc sj hsj
  have hq := (queen_keys_ext fmt diagram).2
  have hi2 : i ∈ map_find (site_maps fmt diagram true).2 (jcv_point_str fmt c) [] :=
    (hq _ i).2 (Or.inr ⟨si, hsi, ei, hei, hii.symm, Or.inl (by rw [hci])⟩)
  have hj2 : j ∈ map_find (site_maps fmt diagram true).2 (jcv_point_str fmt c) [] :=
    (hq _ j).2 (Or.inr ⟨sj, hsj, ej, hej, hjj.symm, Or.inl (by rw [hcj])⟩)
  refine ⟨(jcv_point_str fmt c,
    map_find (site_maps fmt diagram true).2 (jcv_point_str fmt c) []), ?_, hne, hi2, hj2⟩
  simp only [if_true]
  rcases map_find_mem (site_maps fmt diagram true).2 (jcv_point_str fmt c) [] with h | h
  · exact h
  · rw [h] at hi2; simp at hi2

theorem collinear_rect_eq : collinear_rect.min.x = -1 / 25 ∧ collinear_rect.min.y = 0 ∧
    collinear_rect.max.x = 51 / 25 ∧ collinear_rect.max.y = 0 := by
  decide!

theorem collinear_sites_eq :
    collinear_sites.sites = [⟨⟨0, 0⟩, 0, []⟩, ⟨⟨1, 0⟩, 1, []⟩, ⟨⟨2, 0⟩, 2, []⟩] := by
  decide!

theorem common_corner_rows {α : Type} [LinearOrderedRing α] (fmt : α → String)
    (diagram : jcv_diagram α) (c : jcv_point α)
    (hc : ∀ s ∈ diagram.sites, ∃ e ∈ s.edges, e.pos0 = c) (N i : Nat) (hi : i < N)
    (hidx : i ∈ diagram.sites.map (fun s => s.index)) (x : Nat) :
    x ∈ (point_nbr_map fmt diagram N true).getD i [] ↔
      x ≠ i ∧ x ∈ diagram.sites.map (fun s => s.index) := by
  rw [(point_nbr_map_ext fmt diagram N true).mem_iff]
  constructor
  · rintro ⟨_, hp⟩
    obtain ⟨_, hne, _, s, hs, hsx⟩ := point_pairs_spec fmt diagram true i x hp
    exact ⟨Ne.symm hne, List.mem_map.2 ⟨s, hs, hsx⟩⟩
  · rintro ⟨hne, hx⟩
    obtain ⟨s, hs, hsx⟩ := List.mem_map.1 hx
    obtain ⟨t, ht, hti⟩ := List.mem_map.1 hidx
    exact ⟨hi, queen_common_corner fmt diagram c hc i x (Ne.symm hne) ⟨t, ht, hti⟩ ⟨s, hs, hsx⟩⟩

theorem point_row_sorted {α : Type} [LinearOrderedRing α] (fmt : α → String)
    (diagram : jcv_diagram α) (N i : Nat) (is_queen : Bool) :
    ((point_nbr_map fmt diagram N is_queen).getD i []).Pairwise (fun a b => a < b) := by
  have hext := point_nbr_map_ext fmt diagram N is_queen
  by_cases hi : i < (point_nbr_map fmt diagram N is_queen).length
  · rw [List.getD_eq_getElem _ _ hi]
    exact hext.sorted _ (List.getElem_mem hi)
  · rw [List.getD_eq_default _ _ (not_lt.1 hi)]
    exact List.Pairwise.nil

theorem fillgaps_assert_fails {α : Type} [LinearOrderedField α] (atan2 : α → α → α) (pi : α)
    (fuel : Nat) (uninit : jcv_point α) (diagram : jcv_diagram α) (site : jcv_site α)
    (rest : List (jcv_site α)) (hsites : diagram.sites = site :: rest)
    (hedges : site.edges = []) (hrest : rest ≠ []) :
    jcv_fillgaps atan2 pi false fuel uninit diagram = none := by
  have hlen : (site :: rest).length ≠ 1 := by
    cases rest with
    | nil => exact absurd rfl hrest
    | cons _ _ => simp
  unfold jcv_fillgaps
  rw [hsites]
  simp only [jcv_fillgaps_sites, jcv_fillgaps_site, hedges, hlen, ne_eq, not_false_eq_true,
    and_self, if_true]

/-- C13, at the input of the claim.  For the points `(0,0)`, `(1,0)`, `(2,0)` the
rectangle that `point_contiguity_weights` hands to the Voronoi engine is the
segment from `(-1/25, 0)` to `(51/25, 0)`: the padding is 2% of a range that is
zero in `y`.  All three sites are retained.  `jcv_edge_clipline` returns `0` for
the edge of every pair of these sites, whatever end points the sweep has set, so
`jcv_finishline` attaches no graph edge.  With no graph edge at any site,
`jcv_fillgaps` fails on its assertion `numsites == 1`; with assertions compiled
out it gives every site the same two gap edges, and `point_contiguity_weights`
then returns `[[1,2],[0,2],[0,1]]` and not `[[1],[0,2],[1]]`. -/
theorem collinear_points_lose_every_edge :
    (collinear_rect.min.x = -1 / 25 ∧ collinear_rect.min.y = 0 ∧
      collinear_rect.max.x = 51 / 25 ∧ collinear_rect.max.y = 0) ∧
    collinear_sites.sites = [⟨⟨0, 0⟩, 0, []⟩, ⟨⟨1, 0⟩, 1, []⟩, ⟨⟨2, 0⟩, 2, []⟩] ∧
    (∀ pos0 pos1 : Option (jcv_point ℚ),
      collinear_clip ⟨0, 0⟩ ⟨1, 0⟩ pos0 pos1 = false ∧
      collinear_clip ⟨1, 0⟩ ⟨2, 0⟩ pos0 pos1 = false ∧
      collinear_clip ⟨0, 0⟩ ⟨2, 0⟩ pos0 pos1 = false ∧
      collinear_clip ⟨1, 0⟩ ⟨0, 0⟩ pos0 pos1 = false ∧
      collinear_clip ⟨2, 0⟩ ⟨1, 0⟩ pos0 pos1 = false ∧
      collinear_clip ⟨2, 0⟩ ⟨0, 0⟩ pos0 pos1 = false) ∧
    (∀ (atan2 : ℚ → ℚ → ℚ) (pi : ℚ) (fuel : Nat) (uninit : jcv_point ℚ),
      jcv_fillgaps atan2 pi false fuel uninit collinear_sites = none) ∧
    (∀ (fmt : ℚ → String) (atan2 : ℚ → ℚ → ℚ) (pi : ℚ) (fuel : Nat) (uninit : jcv_point ℚ),
      ∃ filled, jcv_fillgaps atan2 pi true (fuel + 2) uninit collinear_sites = some filled ∧
        ∀ (precision_threshold : ℚ) (include_lower_order : Bool),
          point_contiguity_weights fmt (some filled) collinear_geoms true precision_threshold 1
            include_lower_order = some [[1, 2], [0, 2], [0, 1]]) := by
  obtain ⟨hminx, hminy, hmaxx, hmaxy⟩ := collinear_rect_eq
  have hclip : ∀ (s1 s2 : jcv_point ℚ) (pos0 pos1 : Option (jcv_point ℚ)), s1.y = 0 → s2.y = 0 →
      s1.x ≠ s2.x → -1 / 25 ≤ (s1.x + s2.x) / 2 → (s1.x + s2.x) / 2 ≤ 51 / 25 →
      collinear_clip s1 s2 pos0 pos1 = false := by
    intro s1 s2 pos0 pos1 h1 h2 hx hlo hhi
    obtain ⟨ha, hb, hc⟩ := jcv_edge_create_level s1 s2 (h1.trans h2.symm) hx
    refine clipline_level_edge _ _ _ ha hb (hminy.trans hmaxy.symm) ?_ ?_
    · show collinear_rect.min.x ≤ (jcv_edge_create s1 s2).c
      rw [hc, hminx]
      exact hlo
    · show (jcv_edge_create s1 s2).c ≤ collinear_rect.max.x
      rw [hc, hmaxx]
      exact hhi
  refine ⟨collinear_rect_eq, collinear_sites_eq, ?_, ?_, ?_⟩
  · intro pos0 pos1
    refine ⟨hclip _ _ _ _ rfl rfl ?_ ?_ ?_, hclip _ _ _ _ rfl rfl ?_ ?_ ?_,
      hclip _ _ _ _ rfl rfl ?_ ?_ ?_, hclip _ _ _ _ rfl rfl ?_ ?_ ?_,
      hclip _ _ _ _ rfl rfl ?_ ?_ ?_, hclip _ _ _ _ rfl rfl ?_ ?_ ?_⟩ <;> norm_num
  · intro atan2 pi fuel uninit
    exact fillgaps_assert_fails atan2 pi fuel uninit collinear_sites _ _ collinear_sites_eq rfl
      (by simp)
  · intro fmt atan2 pi fuel uninit
    have hflat : collinear_sites.min.y = collinear_sites.max.y := hminy.trans hmaxy.symm
    have hwide : collinear_sites.min.x < collinear_sites.max.x := by
      show collinear_rect.min.x < collinear_rect.max.x
      rw [hminx, hmaxx]
      norm_num
    obtain ⟨filled, hfilled, hidx, hcorner⟩ := fillgaps_sites_edgeless atan2 pi fuel
      collinear_sites.sites.length collinear_sites.min collinear_sites.max uninit hflat hwide
      collinear_sites.sites (by rw [collinear_sites_eq]; simp)
    refine ⟨{ collinear_sites with sites := filled }, ?_, ?_⟩
    · unfold jcv_fillgaps
      rw [hfilled]
    · intro precision_threshold include_lower_order
      rw [collinear_sites_eq] at hidx
      have hidx3 : List.map (fun s => s.index)
          ({ collinear_sites with sites := filled } : jcv_diagram ℚ).sites = [0, 1, 2] := hidx
      have hrow : ∀ i, i < 3 → ∀ x, x ∈ (point_nbr_map fmt
          { collinear_sites with sites := filled } 3 true).getD i [] ↔
            x ≠ i ∧ x ∈ [0, 1, 2] := by
        intro i hi x
        rw [common_corner_rows fmt _ collinear_sites.min hcorner 3 i hi
          (by rw [hidx3]; simp; omega), hidx3]
      have hsorted := point_row_sorted fmt { collinear_sites with sites := filled } 3
      have h0 : (point_nbr_map fmt { collinear_sites with sites := filled } 3 true).getD 0 []
          = [1, 2] := sorted_eq_of_mem_iff (hsorted 0 true) (by simp)
        (fun x => (hrow 0 (by omega) x).trans (by simp; omega))
      have h1 : (point_nbr_map fmt { collinear_sites with sites := filled } 3 true).getD 1 []
          = [0, 2] := sorted_eq_of_mem_iff (hsorted 1 true) (by simp)
        (fun x => (hrow 1 (by omega) x).trans (by simp; omega))
      have h2 : (point_nbr_map fmt { collinear_sites with sites := filled } 3 true).getD 2 []
          = [0, 1] := sorted_eq_of_mem_iff (hsorted 2 true) (by simp)
        (fun x => (hrow 2 (by omega) x).trans (by simp; omega))
      have hsize : collinear_geoms.size = 3 := rfl
      unfold point_contiguity_weights
      simp only [hsize, lt_irrefl, if_false, List.range_succ, List.range_zero, List.nil_append,
        List.cons_append, List.map_cons, List.map_nil, h0, h1, h2]

/-! ## Bisector edges (`jcv_edge_create`) -/

section Bisector

variable {α : Type} [LinearOrderedField α]

theorem equidistant_iff (s1 s2 : jcv_point α) (x y : α) :
    (x - s1.x) ^ 2 + (y - s1.y) ^ 2 = (x - s2.x) ^ 2 + (y - s2.y) ^ 2 ↔
      (s2.x - s1.x) * x + (s2.y - s1.y) * y
        = (s2.x - s1.x) * (s1.x + (s2.x - s1.x) * (1 / 2))
          + (s2.y - s1.y) * (s1.y + (s2.y - s1.y) * (1 / 2)) := by
  constructor
  · intro h
    have h2 : 2 * ((s2.x - s1.x) * x + (s2.y - s1.y) * y)
        = 2 * ((s2.x - s1.x) * (s1.x + (s2.x - s1.x) * (1 / 2))
          + (s2.y - s1.y) * (s1.y + (s2.y - s1.y) * (1 / 2))) := by
      linear_combination h
    exact mul_left_cancel₀ two_ne_zero h2
  · intro h
    linear_combination 2 * h

/-- C27. A new edge is the perpendicular bisector of its two sites: for sites at
two different points, the line `a*x + b*y = c` that `jcv_edge_create` sets is the
set of the points at equal distance from both, and either `a = 1` and `|b| < 1`,
or `b = 1` and `|a| ≤ 1`. -/
theorem edge_is_perpendicular_bisector (s1 s2 : jcv_point α)
    (hne : s1.x ≠ s2.x ∨ s1.y ≠ s2.y) :
    (∀ x y : α, (jcv_edge_create s1 s2).a * x + (jcv_edge_create s1 s2).b * y
        = (jcv_edge_create s1 s2).c ↔
      (x - s1.x) ^ 2 + (y - s1.y) ^ 2 = (x - s2.x) ^ 2 + (y - s2.y) ^ 2) ∧
    (((jcv_edge_create s1 s2).a = 1 ∧ |(jcv_edge_create s1 s2).b| < 1) ∨
      ((jcv_edge_create s1 s2).b = 1 ∧ |(jcv_edge_create s1 s2).a| ≤ 1)) := by
  by_cases hlarger : (s2.x - s1.x) * (s2.x - s1.x) > (s2.y - s1.y) * (s2.y - s1.y)
  · have hdx : s2.x - s1.x ≠ 0 := by
      intro h0
      rw [h0, mul_zero] at hlarger
      exact absurd hlarger (not_lt.2 (mul_self_nonneg _))
    have h : jcv_edge_create s1 s2 =
        { site0 := s1, site1 := some s2, pos0 := none, pos1 := none, a := 1,
          b := (s2.y - s1.y) / (s2.x - s1.x),
          c := ((s2.x - s1.x) * (s1.x + (s2.x - s1.x) * (1 / 2)) +
            (s2.y - s1.y) * (s1.y + (s2.y - s1.y) * (1 / 2))) / (s2.x - s1.x) } := by
      simp only [jcv_edge_create, hlarger, decide_True, if_true]
    rw [h]
    refine ⟨fun x y => ?_, Or.inl ⟨rfl, ?_⟩⟩
    · rw [equidistant_iff]
      show 1 * x + (s2.y - s1.y) / (s2.x - s1.x) * y = _ / (s2.x - s1.x) ↔ _
      rw [eq_div_iff hdx]
      constructor
      · intro h1
        rw [← h1]
        field_simp
        ring
      · intro h1
        rw [← h1]
        field_simp
        ring
    · show |(s2.y - s1.y) / (s2.x - s1.x)| < 1
      rw [abs_div, div_lt_one (abs_pos.2 hdx), ← sq_lt_sq, sq, sq]
      exact hlarger
  · have hle : (s2.x - s1.x) * (s2.x - s1.x) ≤ (s2.y - s1.y) * (s2.y - s1.y) := not_lt.1 hlarger
    have hdy : s2.y - s1.y ≠ 0 := by
      intro h0
      rw [h0, mul_zero] at hle
      have hx0 : s2.x - s1.x = 0 :=
        mul_self_eq_zero.1 (le_antisymm hle (mul_self_nonneg _))
      rcases hne with hx | hy
      · exact hx (sub_eq_zero.1 hx0).symm
      · exact hy (sub_eq_zero.1 h0).symm
    have h : jcv_edge_create s1 s2 =
        { site0 := s1, site1 := some s2, pos0 := none, pos1 := none,
          a := (s2.x - s1.x) / (s2.y - s1.y), b := 1,
          c := ((s2.x - s1.x) * (s1.x + (s2.x - s1.x) * (1 / 2)) +
            (s2.y - s1.y) * (s1.y + (s2.y - s1.y) * (1 / 2))) / (s2.y - s1.y) } := by
      simp only [jcv_edge_create, hlarger, decide_False, Bool.false_eq_true, if_false]
    rw [h]
    refine ⟨fun x y => ?_, Or.inr ⟨rfl, ?_⟩⟩
    · rw [equidistant_iff]
      show (s2.x - s1.x) / (s2.y - s1.y) * x + 1 * y = _ / (s2.y - s1.y) ↔ _
      rw [eq_div_iff hdy]
      constructor
      · intro h1
        rw [← h1]
        field_simp
        ring
      · intro h1
        rw [← h1]
        field_simp
        ring
    · show |(s2.x - s1.x) / (s2.y - s1.y)| ≤ 1
      rw [abs_div, div_le_one (abs_pos.2 hdy), ← sq_le_sq, sq, sq]
      exact hle

end Bisector

/-- C27 for the sites `(0,0)` and `(2,1)`: the edge is `x + y/2 = 5/4`. -/
theorem edge_is_perpendicular_bisector_witness :
    ((0 : ℚ) ≠ 2 ∨ (0 : ℚ) ≠ 1) ∧
    ((∀ x y : ℚ, (jcv_edge_create ⟨0, 0⟩ ⟨(2 : ℚ), 1⟩).a * x
        + (jcv_edge_create ⟨0, 0⟩ ⟨(2 : ℚ), 1⟩).b * y
        = (jcv_edge_create ⟨0, 0⟩ ⟨(2 : ℚ), 1⟩).c ↔
      (x - 0) ^ 2 + (y - 0) ^ 2 = (x - 2) ^ 2 + (y - 1) ^ 2) ∧
    (((jcv_edge_create ⟨0, 0⟩ ⟨(2 : ℚ), 1⟩).a = 1
        ∧ |(jcv_edge_create ⟨0, 0⟩ ⟨(2 : ℚ), 1⟩).b| < 1) ∨
      ((jcv_edge_create ⟨0, 0⟩ ⟨(2 : ℚ), 1⟩).b = 1
        ∧ |(jcv_edge_create ⟨0, 0⟩ ⟨(2 : ℚ), 1⟩).a| ≤ 1))) :=
  ⟨Or.inl (by norm_num), edge_is_perpendicular_bisector ⟨0, 0⟩ ⟨2, 1⟩ (Or.inl (by norm_num))⟩

/-! ## Gap filling for a single site (`jcv_fillgaps`) -/

/-- C30. A single site gets the whole rectangle: for a diagram with one site,
which the sweep leaves without graph edge, and a rectangle with `min.x < max.x`
and `min.y < max.y`, `jcv_fillgaps` returns, the assertion holding, and gives the
site exactly four graph edges with a null neighbour, running
`(min.x,min.y) → (max.x,min.y) → (max.x,max.y) → (min.x,max.y) → (min.x,min.y)`. -/
theorem single_site_gets_rectangle {α : Type} [LinearOrderedField α] (atan2 : α → α → α)
    (pi : α) (ndebug : Bool) (fuel : Nat) (uninit min max p : jcv_point α) (index : Nat)
    (hx : min.x < max.x) (hy : min.y < max.y) :
    ∃ a0 a1 a2 a3 : α,
      jcv_fillgaps atan2 pi ndebug (fuel + 4) uninit
          { sites := [{ p := p, index := index, edges := [] }], min := min, max := max }
        = some { sites := [{ p := p, index := index, edges :=
                  [⟨none, ⟨min.x, min.y⟩, ⟨max.x, min.y⟩, a0⟩,
                   ⟨none, ⟨max.x, min.y⟩, ⟨max.x, max.y⟩, a1⟩,
                   ⟨none, ⟨max.x, max.y⟩, ⟨min.x, max.y⟩, a2⟩,
                   ⟨none, ⟨min.x, max.y⟩, ⟨min.x, min.y⟩, a3⟩] }],
                 min := min, max := max } := by
  have hxne : max.x ≠ min.x := ne_of_gt hx
  have hyne : max.y ≠ min.y := ne_of_gt hy
  have hyne2 : min.y ≠ max.y := ne_of_lt hy
  have hxne2 : min.x ≠ max.x := ne_of_lt hx
  refine ⟨jcv_calc_sort_metric atan2 pi p min ⟨max.x, min.y⟩,
    jcv_calc_sort_metric atan2 pi p ⟨max.x, min.y⟩ ⟨max.x, max.y⟩,
    jcv_calc_sort_metric atan2 pi p ⟨max.x, max.y⟩ ⟨min.x, max.y⟩,
    jcv_calc_sort_metric atan2 pi p ⟨min.x, max.y⟩ ⟨min.x, min.y⟩, ?_⟩
  simp [jcv_fillgaps, jcv_fillgaps_sites, jcv_fillgaps_site, jcv_create_corner_edge,
    jcv_fillgaps_loop, jcv_point_on_edge, jcv_point_eq, hx, hy, hxne, hyne, hxne2, hyne2,
    lt_irrefl, List.insertIdx, List.modifyTailIdx]

/-- C30 for the site `(1, 1/2)` in the rectangle from `(0,0)` to `(2,1)`. -/
theorem single_site_gets_rectangle_witness :
    (0 : ℚ) < 2 ∧ (0 : ℚ) < 1 ∧
    ∃ a0 a1 a2 a3 : ℚ,
      jcv_fillgaps (fun _ _ => (0 : ℚ)) 0 false (0 + 4) ⟨9, 9⟩
          ({ sites := [{ p := ⟨1, 1 / 2⟩, index := 0, edges := [] }], min := ⟨0, 0⟩,
             max := ⟨2, 1⟩ } : jcv_diagram ℚ)
        = some { sites := [{ p := ⟨1, 1 / 2⟩, index := 0, edges :=
                  [⟨none, ⟨0, 0⟩, ⟨2, 0⟩, a0⟩, ⟨none, ⟨2, 0⟩, ⟨2, 1⟩, a1⟩,
                   ⟨none, ⟨2, 1⟩, ⟨0, 1⟩, a2⟩, ⟨none, ⟨0, 1⟩, ⟨0, 0⟩, a3⟩] }],
                 min := ⟨0, 0⟩, max := ⟨2, 1⟩ } :=
  ⟨by norm_num, by norm_num,
    single_site_gets_rectangle (fun _ _ => 0) 0 false 0 ⟨9, 9⟩ ⟨0, 0⟩ ⟨2, 1⟩ ⟨1, 1 / 2⟩ 0
      (by norm_num) (by norm_num)⟩

/-! ## Edge chain of a site -/

section SortedEdgesProofs

variable {α : Type} [LinearOrderedRing α]

theorem sortedges_walk_spec (edge : jcv_graphedge α) (l : List (jcv_graphedge α)) :
    (sortedges_walk edge l).1 ++ (sortedges_walk edge l).2 = l ∧
    (∀ e ∈ (sortedges_walk edge l).1, e.angle < edge.angle) ∧
    (∀ e, (sortedges_walk edge l).2.head? = some e → edge.angle ≤ e.angle) := by
  induction l with
  | nil => simp [sortedges_walk]
  | cons next rest ih =>
    unfold sortedges_walk
    split_ifs with h
    · refine ⟨by simp [ih.1], ?_, ih.2.2⟩
      intro e he
      rcases List.mem_cons.1 he with h1 | h1
      · rw [h1]; exact h
      · exact ih.2.1 e h1
    · refine ⟨rfl, by simp, ?_⟩
      intro e he
      simp only [List.head?_cons, Option.some.injEq] at he
      rw [← he]
      exact not_lt.1 h

theorem sortedges_place_spec (edges : List (jcv_graphedge α)) (edge : jcv_graphedge α) :
    (sortedges_place edges edge).1 ++ (sortedges_place edges edge).2 = edges ∧
    (∀ e ∈ (sortedges_place edges edge).1, e.angle < edge.angle) ∧
    (∀ e, (sortedges_place edges edge).2.head? = some e → edge.angle ≤ e.angle) := by
  cases edges with
  | nil => simp [sortedges_place]
  | cons head rest =>
    obtain ⟨h1, h2, h3⟩ := sortedges_walk_spec edge rest
    simp only [sortedges_place]
    split_ifs with h
    · refine ⟨rfl, by simp, ?_⟩
      intro e he
      simp only [List.head?_cons, Option.some.injEq] at he
      rw [← he]
      exact h
    · refine ⟨by simp [h1], ?_, h3⟩
      intro e he
      rcases List.mem_cons.1 he with h4 | h4
      · rw [h4]; exact not_le.1 h
      · exact h2 e h4

theorem sorted_after_place (before after : List (jcv_graphedge α)) (edge : jcv_graphedge α)
    (hsorted : (before ++ after).Pairwise (fun a b => a.angle ≤ b.angle))
    (hbefore : ∀ e ∈ before, e.angle < edge.angle)
    (hafter : ∀ e ∈ after, edge.angle ≤ e.angle) :
    (before ++ edge :: after).Pairwise (fun a b => a.angle ≤ b.angle) := by
  rw [List.pairwise_append] at hsorted ⊢
  refine ⟨hsorted.1, ?_, ?_⟩
  · rw [List.pairwise_cons]
    exact ⟨hafter, hsorted.2.1⟩
  · intro a ha b hb
    rcases List.mem_cons.1 hb with h | h
    · rw [h]; exact le_of_lt (hbefore a ha)
    · exact hsorted.2.2 a ha b h

theorem after_place_bound (l : List (jcv_graphedge α)) (edge : jcv_graphedge α)
    (hsorted : l.Pairwise (fun a b => a.angle ≤ b.angle))
    (hhead : ∀ e, l.head? = some e → edge.angle ≤ e.angle) :
    ∀ e ∈ l, edge.angle ≤ e.angle := by
  cases l with
  | nil => simp
  | cons next rest =>
    intro e he
    have hn := hhead next rfl
    rcases List.mem_cons.1 he with h | h
    · rw [h]; exact hn
    · exact le_trans hn ((List.pairwise_cons.1 hsorted).1 e h)

/-- C29. The edge chain of a cell stays sorted by angle: if the chain is in
non-decreasing order of angle, then after `jcv_sortedges_insert` it is in
non-decreasing order and holds the new edge and every old edge, and after the
duplicate removal of `jcv_finishline` it is in non-decreasing order, holds the
new edge, and has lost at most one old edge, which has the angle and the two end
points of the new edge. -/
theorem edge_chain_stays_sorted (edges : List (jcv_graphedge α)) (edge : jcv_graphedge α)
    (hsorted : edges.Pairwise (fun a b => a.angle ≤ b.angle)) :
    (jcv_sortedges_insert edges edge).Pairwise (fun a b => a.angle ≤ b.angle) ∧
    (jcv_sortedges_insert edges edge).Perm (edge :: edges) ∧
    (finishline_attach edges edge).Pairwise (fun a b => a.angle ≤ b.angle) ∧
    edge ∈ finishline_attach edges edge ∧
    (finishline_attach edges edge = jcv_sortedges_insert edges edge ∨
      ∃ dup, (dup :: finishline_attach edges edge).Perm (edge :: edges) ∧
        dup.angle = edge.angle ∧ dup.pos0 = edge.pos0 ∧ dup.pos1 = edge.pos1) := by
  obtain ⟨happ, hbefore, hhead⟩ := sortedges_place_spec edges edge
  have hs2 : ((sortedges_place edges edge).1 ++ (sortedges_place edges edge).2).Pairwise
      (fun a b => a.angle ≤ b.angle) := by rw [happ]; exact hsorted
  have hafter := after_place_bound _ edge (List.pairwise_append.1 hs2).2.1 hhead
  have hperm : (jcv_sortedges_insert edges edge).Perm (edge :: edges) := by
    unfold jcv_sortedges_insert
    refine List.perm_middle.trans ?_
    rw [happ]
  refine ⟨sorted_after_place _ _ edge hs2 hbefore hafter, hperm, ?_⟩
  unfold finishline_attach
  simp only []
  generalize hb : (sortedges_place edges edge).1 = before at *
  generalize ha : (sortedges_place edges edge).2 = after at *
  cases after with
  | nil =>
    refine ⟨?_, by simp, Or.inl ?_⟩
    · exact sorted_after_place before [] edge hs2 hbefore hafter
    · unfold jcv_sortedges_insert
      rw [hb, ha]
  | cons next rest =>
    dsimp only
    by_cases hdup : edge.angle = next.angle ∧
        (jcv_point_eq edge.pos0 next.pos0 = true ∧ jcv_point_eq edge.pos1 next.pos1 = true)
    · rw [if_pos hdup.1, if_pos hdup.2]
      have hs3 : (before ++ rest).Pairwise (fun a b => a.angle ≤ b.angle) := by
        rw [List.pairwise_append] at hs2 ⊢
        exact ⟨hs2.1, (List.pairwise_cons.1 hs2.2.1).2,
          fun a ha b hb => hs2.2.2 a ha b (List.mem_cons_of_mem _ hb)⟩
      refine ⟨sorted_after_place before rest edge hs3 hbefore
        (fun e he => hafter e (List.mem_cons_of_mem _ he)), by simp, Or.inr ⟨next, ?_, ?_⟩⟩
      · have h1 : (next :: (before ++ edge :: rest)).Perm (before ++ edge :: next :: rest) := by
          refine (List.perm_middle.symm).trans ?_
          refine List.Perm.append_left before ?_
          exact List.Perm.swap edge next rest
        refine h1.trans ?_
        unfold jcv_sortedges_insert at hperm
        rw [hb, ha] at hperm
        exact hperm
      · obtain ⟨h0, h1⟩ := hdup.2
        rw [jcv_point_eq_iff] at h0 h1
        exact ⟨hdup.1.symm, h0.symm, h1.symm⟩
    · have hkeep : (if edge.angle = next.angle then
          if jcv_point_eq edge.pos0 next.pos0 = true ∧ jcv_point_eq edge.pos1 next.pos1 = true
          then rest else next :: rest
        else next :: rest) = next :: rest := by
        split_ifs with h1 h2
        · exact absurd ⟨h1, h2⟩ hdup
        · rfl
        · rfl
      rw [hkeep]
      refine ⟨sorted_after_place before (next :: rest) edge hs2 hbefore hafter, by simp,
        Or.inl ?_⟩
      unfold jcv_sortedges_insert
      rw [hb, ha]

end SortedEdgesProofs

/-- C29 on `sample_chain` and `sample_edge`: the new edge is linked in before the
edge with its angle, which is then dropped. -/
theorem edge_chain_stays_sorted_witness :
    sample_chain.Pairwise (fun a b => a.angle ≤ b.angle) ∧
    ((jcv_sortedges_insert sample_chain sample_edge).Pairwise (fun a b => a.angle ≤ b.angle) ∧
    (jcv_sortedges_insert sample_chain sample_edge).Perm (sample_edge :: sample_chain) ∧
    (finishline_attach sample_chain sample_edge).Pairwise (fun a b => a.angle ≤ b.angle) ∧
    sample_edge ∈ finishline_attach sample_chain sample_edge ∧
    (finishline_attach sample_chain sample_edge = jcv_sortedges_insert sample_chain sample_edge ∨
      ∃ dup, (dup :: finishline_attach sample_chain sample_edge).Perm
          (sample_edge :: sample_chain) ∧
        dup.angle = sample_edge.angle ∧ dup.pos0 = sample_edge.pos0 ∧
          dup.pos1 = sample_edge.pos1)) :=
  ⟨by decide, edge_chain_stays_sorted sample_chain sample_edge (by decide)⟩

/-! ## Empty geometries in the exact engines -/

section EmptyGeometry

variable {α β μ : Type} [LinearOrderedRing α]

theorem layer_of_isolated (W1 : List (List Nat)) (i : Nat) (h : W1.getD i [] = []) (d : Nat)
    (hd : 1 ≤ d) : layer W1 i d = ∅ := by
  induction d using Nat.strong_induction_on with
  | _ d ih =>
    match d with
    | 0 => omega
    | 1 =>
      simp only [layer, h]
      rfl
    | d + 2 =>
      simp only [layer]
      rw [ih (d + 1) (by omega) (by omega)]
      simp

theorem row_of_isolated (nm : List (List Nat)) (i order : Nat) (cumulative : Bool)
    (h : nm.getD i [] = []) :
    (convert_to_weights nm order cumulative).getD i [] = [] := by
  rw [convert_to_weights_eq, make_higher_ord_getD_gen]
  split_ifs with hc
  · rw [List.eq_nil_iff_forall_not_mem]
    intro x hx
    rw [mem_higher_ord_row nm i order cumulative (by omega)] at hx
    obtain ⟨d, h1, _, hd⟩ := hx
    have hd1 : 1 ≤ d := by split_ifs at h1 <;> omega
    rw [layer_of_isolated nm i h d hd1] at hd
    simp at hd
  · exact h

theorem queen_files_empty (geoms : GeometryCollection α) (i : Nat)
    (hi : geoms.sizes[i]? = some 0) (x y : α) : ¬ queen_files geoms i x y := by
  rintro ⟨_, j, hj, _⟩
  rw [getD_eq_of_getElem? hi] at hj
  simp at hj

/-- C21. Empty geometries are isolated: in a well-formed collection a geometry
with `sizes[i] = 0` has no point (`get_num_points` is `0`), gets an empty list
in every adjacency that `polygon_contiguity_weights` returns at threshold `0`
and is in no other list, for both rules and every order; the queen engine
always returns, the rook engine when the part offsets ascend; and the dictionary
of the queen engine files under every point exactly the polygons that have it as
a vertex, the slot of the empty geometry being stepped over. -/
theorem empty_geometry_is_isolated (ops : PartitionOps α β μ) (fuel : Nat) (fmt : α → String)
    (geoms : GeometryCollection α) (i : Nat) (hwf : well_formed geoms)
    (hi : geoms.sizes[i]? = some 0) :
    get_num_points geoms i = 0 ∧
    (∀ (is_queen : Bool) (order_contiguity : Nat) (include_lower_order : Bool),
      (∀ A, polygon_contiguity_weights ops fuel fmt geoms is_queen 0 order_contiguity
          include_lower_order = some A →
        A.length = geoms.size ∧ A.getD i [] = [] ∧ ∀ j, i ∉ A.getD j []) ∧
      (is_queen = true ∨ ascending_parts geoms →
        ∃ A, polygon_contiguity_weights ops fuel fmt geoms is_queen 0 order_contiguity
          include_lower_order = some A)) ∧
    (∀ (p : Nat) (pt : α × α),
      p ∈ bucket (queen_point_to_polygon geoms).1 pt.1 pt.2 ↔ IsVertex geoms p pt) := by
  have hilt : i < geoms.sizes.length := by
    by_contra hcon
    rw [List.getElem?_eq_none (not_lt.1 hcon)] at hi
    cases hi
  have hnm : (queen_nbr_map geoms).getD i [] = [] := by
    rw [List.eq_nil_iff_forall_not_mem]
    intro x hx
    rw [mem_queen_nbr_map] at hx
    obtain ⟨_, a, b, h, _⟩ := hx
    exact queen_files_empty geoms i hi a b h
  refine ⟨?_, ?_, ?_⟩
  · have hoff : part_offset geoms i < geoms.parts.length := by
      rw [part_offset_eq_slot_start geoms i (le_of_lt hilt)]
      have := slot_start_succ_le geoms.sizes i hilt
      have := hwf.2.1
      omega
    unfold get_num_points
    simp only [getD_eq_of_getElem? hi, add_zero, ge_iff_le, not_le.2 hoff, if_false, le_refl,
      if_true]
    exact Nat.sub_self _
  · intro is_queen order_contiguity include_lower_order
    cases is_queen with
    | true =>
      have hrun : polygon_contiguity_weights ops fuel fmt geoms true 0 order_contiguity
          include_lower_order
            = some (convert_to_weights (queen_nbr_map geoms) order_contiguity
                include_lower_order) := by
        simp [polygon_contiguity_weights, simple_polygon_queen_weights]
      refine ⟨fun A hA => ?_, fun _ => ⟨_, hrun⟩⟩
      rw [hrun] at hA
      rw [← Option.some.inj hA]
      refine ⟨?_, row_of_isolated _ i _ _ hnm, ?_⟩
      · rw [convert_to_weights_eq, make_higher_ord_length, queen_nbr_map_length]
      · intro j hj
        rw [convert_to_weights_eq] at hj
        obtain ⟨u, hu⟩ := make_higher_ord_mem_source _ _ _ _ _ _ hj
        rw [mem_queen_nbr_map] at hu
        obtain ⟨_, a, b, _, h⟩ := hu
        exact queen_files_empty geoms i hi a b h
    | false =>
      refine ⟨fun A hA => ?_, fun h => ?_⟩
      · simp only [polygon_contiguity_weights, if_true, Bool.false_eq_true, if_false] at hA
        rw [rook_result_eq fmt geoms order_contiguity include_lower_order A hA]
        refine ⟨List.length_replicate _ _, getD_replicate_nil _ _, ?_⟩
        intro j hj
        rw [getD_replicate_nil] at hj
        simp at hj
      · rcases h with h | h
        · cases h
        · refine ⟨List.replicate geoms.size [], ?_⟩
          simp only [polygon_contiguity_weights, if_true, Bool.false_eq_true, if_false]
          exact rook_returns fmt geoms order_contiguity include_lower_order hwf h
  · intro p pt
    rw [queen_bucket_iff, queen_files_iff_isVertex geoms hwf]

end EmptyGeometry

/-- C21 on `squares_around_empty`: the empty geometry `1` is isolated and the two
squares, which share the point `(1,1)`, are neighbours of each other. -/
theorem empty_geometry_is_isolated_witness :
    well_formed squares_around_empty ∧ squares_around_empty.sizes[1]? = some 0 ∧
    polygon_contiguity_weights single_bucket_ops 0 int_fmt squares_around_empty true 0 1 false
      = some [[2], [], [0]] ∧
    ascending_parts squares_around_empty ∧
    (get_num_points squares_around_empty 1 = 0 ∧
    (∀ (is_queen : Bool) (order_contiguity : Nat) (include_lower_order : Bool),
      (∀ A, polygon_contiguity_weights single_bucket_ops 0 int_fmt squares_around_empty
          is_queen 0 order_contiguity include_lower_order = some A →
        A.length = squares_around_empty.size ∧ A.getD 1 [] = [] ∧ ∀ j, 1 ∉ A.getD j []) ∧
      (is_queen = true ∨ ascending_parts squares_around_empty →
        ∃ A, polygon_contiguity_weights single_bucket_ops 0 int_fmt squares_around_empty
          is_queen 0 order_contiguity include_lower_order = some A)) ∧
    (∀ (p : Nat) (pt : Int × Int),
      p ∈ bucket (queen_point_to_polygon squares_around_empty).1 pt.1 pt.2 ↔
        IsVertex squares_around_empty p pt)) :=
  ⟨by decide, by decide, by decide, by decide,
    empty_geometry_is_isolated single_bucket_ops 0 int_fmt squares_around_empty 1 (by decide)
      (by decide)⟩

/-! ## The bucket loop of the tolerant engine -/

section BucketLoop

variable {α β μ : Type} [LinearOrderedRing α]

theorem halve_buckets_lt_iff (gy : Nat) : halve_buckets gy < gy ↔ 3 ≤ gy := by
  unfold halve_buckets
  omega

theorem y_partition_loop_returns (ops : PartitionOps α β μ) (geoms : GeometryCollection α)
    (gRecords : Nat) (shp_y_len shp_min_y : α)
    (hsum : ∀ gy, ops.m_sum (y_partition_build ops geoms gRecords gy shp_y_len shp_min_y) ≠ 0)
    (hsmall : ∀ gy, gy ≤ 2 →
      ops.m_sum (y_partition_build ops geoms gRecords gy shp_y_len shp_min_y) ≤ gRecords * 8)
    (gy : Nat) :
    ∀ fuel, ∃ gy', gy' ≤ gy ∧
      ops.m_sum (y_partition_build ops geoms gRecords gy' shp_y_len shp_min_y) ≤ gRecords * 8 ∧
      y_partition_loop ops geoms gRecords shp_y_len shp_min_y (fuel + gy + 1) gy
        = some (y_partition_build ops geoms gRecords gy' shp_y_len shp_min_y) := by
  induction gy using Nat.strong_induction_on with
  | _ gy ih =>
    intro fuel
    rw [show fuel + gy + 1 = (fuel + gy) + 1 from rfl]
    simp only [y_partition_loop]
    by_cases hbig : ops.m_sum (y_partition_build ops geoms gRecords gy shp_y_len shp_min_y)
        > gRecords * 8
    · rw [if_pos hbig]
      have h3 : 3 ≤ gy := by
        by_contra hcon
        exact absurd (hsmall gy (by omega)) (not_le.2 hbig)
      obtain ⟨gy', hle, hs, hres⟩ := ih (gy / 2 + 1) (by omega) (fuel + (gy - (gy / 2 + 1) - 1))
      refine ⟨gy', by omega, hs, ?_⟩
      rw [show fuel + gy = fuel + (gy - (gy / 2 + 1) - 1) + (gy / 2 + 1) + 1 by omega]
      exact hres
    · rw [if_neg hbig, if_neg (hsum gy)]
      exact ⟨gy, le_refl _, not_lt.1 hbig, rfl⟩

end BucketLoop

section SpecPartition

theorem spec_bucket_span (n : Nat) (len lwr upr : Int) (h0 : 0 ≤ upr - lwr)
    (hlen : upr - lwr ≤ len) : spec_bucket n len upr - spec_bucket n len lwr ≤ n := by
  unfold spec_bucket
  rcases eq_or_lt_of_le (le_trans h0 hlen) with hz | hpos
  · rw [← hz, Int.fdiv_zero, Int.fdiv_zero]
    simp
  · rw [Int.fdiv_eq_ediv _ (le_of_lt hpos), Int.fdiv_eq_ediv _ (le_of_lt hpos)]
    have hle : upr * (n : Int) ≤ lwr * n + n * len := by nlinarith
    have h1 : upr * (n : Int) / len ≤ (lwr * n + n * len) / len :=
      Int.ediv_le_ediv hpos hle
    rw [Int.add_mul_ediv_right _ _ (ne_of_gt hpos)] at h1
    omega

theorem spec_build_fields (geoms : GeometryCollection Int) (N gy : Nat) (len ymin : Int) :
    ∀ n, n ≤ N →
      ((List.range n).foldl
        (fun part cnt =>
          let box := spec_partition_ops.get_bbox geoms cnt
          let lwr := box.min_corner.2 - ymin
          let upr := box.max_corner.2 - ymin
          spec_partition_ops.m_initIx part cnt lwr upr)
        (spec_partition_ops.m_new N gy len)).items = N ∧
      ((List.range n).foldl
        (fun part cnt =>
          let box := spec_partition_ops.get_bbox geoms cnt
          let lwr := box.min_corner.2 - ymin
          let upr := box.max_corner.2 - ymin
          spec_partition_ops.m_initIx part cnt lwr upr)
        (spec_partition_ops.m_new N gy len)).cells = gy ∧
      ((List.range n).foldl
        (fun part cnt =>
          let box := spec_partition_ops.get_bbox geoms cnt
          let lwr := box.min_corner.2 - ymin
          let upr := box.max_corner.2 - ymin
          spec_partition_ops.m_initIx part cnt lwr upr)
        (spec_partition_ops.m_new N gy len)).len = len ∧
      ∀ id < n,
        ((List.range n).foldl
          (fun part cnt =>
            let box := spec_partition_ops.get_bbox geoms cnt
            let lwr := box.min_corner.2 - ymin
            let upr := box.max_corner.2 - ymin
            spec_partition_ops.m_initIx part cnt lwr upr)
          (spec_partition_ops.m_new N gy len)).lowest id
            = spec_bucket gy len ((spec_get_bbox geoms id).min_corner.2 - ymin) ∧
        ((List.range n).foldl
          (fun part cnt =>
            let box := spec_partition_ops.get_bbox geoms cnt
            let lwr := box.min_corner.2 - ymin
            let upr := box.max_corner.2 - ymin
            spec_partition_ops.m_initIx part cnt lwr upr)
          (spec_partition_ops.m_new N gy len)).upmost id
            = spec_bucket gy len ((spec_get_bbox geoms id).max_corner.2 - ymin) := by
  intro n
  induction n with
  | zero =>
    intro _
    exact ⟨rfl, rfl, rfl, fun id hid => absurd hid (Nat.not_lt_zero _)⟩
  | succ n ih =>
    intro hn
    obtain ⟨h1, h2, h3, h4⟩ := ih (by omega)
    rw [List.range_succ, List.foldl_append]
    simp only [List.foldl_cons, List.foldl_nil]
    generalize (List.range n).foldl
        (fun part cnt =>
          let box := spec_partition_ops.get_bbox geoms cnt
          let lwr := box.min_corner.2 - ymin
          let upr := box.max_corner.2 - ymin
          spec_partition_ops.m_initIx part cnt lwr upr)
        (spec_partition_ops.m_new N gy len) = m at h1 h2 h3 h4 ⊢
    refine ⟨h1, h2, h3, ?_⟩
    intro id hid
    show Function.update m.lowest n _ id = _ ∧ Function.update m.upmost n _ id = _
    by_cases hidn : id = n
    · subst hidn
      rw [Function.update_same, Function.update_same, h2, h3]
      exact ⟨rfl, rfl⟩
    · rw [Function.update_noteq hidn, Function.update_noteq hidn]
      exact h4 id (by omega)

theorem spec_sum_bounds (geoms : GeometryCollection Int) (gy : Nat) (len ymin : Int)
    (hbox : ∀ cnt < geoms.size,
      (spec_get_bbox geoms cnt).min_corner.2 ≤ (spec_get_bbox geoms cnt).max_corner.2 ∧
      (spec_get_bbox geoms cnt).max_corner.2 - (spec_get_bbox geoms cnt).min_corner.2 ≤ len) :
    geoms.size ≤ spec_partition_ops.m_sum
        (y_partition_build spec_partition_ops geoms geoms.size gy len ymin) ∧
    spec_partition_ops.m_sum
        (y_partition_build spec_partition_ops geoms geoms.size gy len ymin)
      ≤ geoms.size * (gy + 1) := by
  obtain ⟨h1, h2, h3, h4⟩ := spec_build_fields geoms geoms.size gy len ymin geoms.size
    (le_refl _)
  unfold y_partition_build
  generalize (List.range geoms.size).foldl
      (fun part cnt =>
        let box := spec_partition_ops.get_bbox geoms cnt
        let lwr := box.min_corner.2 - ymin
        let upr := box.max_corner.2 - ymin
        spec_partition_ops.m_initIx part cnt lwr upr)
      (spec_partition_ops.m_new geoms.size gy len) = m at h1 h2 h3 h4 ⊢
  show geoms.size ≤ ((List.range m.items).map (fun id => m.upmost id - m.lowest id + 1)).sum ∧
    ((List.range m.items).map (fun id => m.upmost id - m.lowest id + 1)).sum
      ≤ geoms.size * (gy + 1)
  rw [h1]
  have hlen : ((List.range geoms.size).map (fun id => m.upmost id - m.lowest id + 1)).length
      = geoms.size := by simp
  constructor
  · have := List.card_nsmul_le_sum
      ((List.range geoms.size).map (fun id => m.upmost id - m.lowest id + 1)) 1
      (by
        intro x hx
        obtain ⟨id, _, rfl⟩ := List.mem_map.1 hx
        omega)
    rw [hlen] at this
    simpa using this
  · have := List.sum_le_card_nsmul
      ((List.range geoms.size).map (fun id => m.upmost id - m.lowest id + 1)) (gy + 1)
      (by
        intro x hx
        obtain ⟨id, hid, rfl⟩ := List.mem_map.1 hx
        have hid2 := List.mem_range.1 hid
        obtain ⟨e1, e2⟩ := h4 id hid2
        obtain ⟨b1, b2⟩ := hbox id hid2
        rw [e1, e2]
        have := spec_bucket_span gy len ((spec_get_bbox geoms id).min_corner.2 - ymin)
          ((spec_get_bbox geoms id).max_corner.2 - ymin) (by omega) (by omega)
        omega)
    rw [hlen] at this
    simpa using this

theorem spec_loop_returns (geoms : GeometryCollection Int) (len ymin : Int)
    (hN : 1 ≤ geoms.size)
    (hbox : ∀ cnt < geoms.size,
      (spec_get_bbox geoms cnt).min_corner.2 ≤ (spec_get_bbox geoms cnt).max_corner.2 ∧
      (spec_get_bbox geoms cnt).max_corner.2 - (spec_get_bbox geoms cnt).min_corner.2 ≤ len)
    (fuel : Nat) :
    ∃ gy', gy' ≤ initial_buckets geoms.size ∧
      spec_partition_ops.m_sum
          (y_partition_build spec_partition_ops geoms geoms.size gy' len ymin)
        ≤ geoms.size * 8 ∧
      y_partition_loop spec_partition_ops geoms geoms.size len ymin
          (fuel + initial_buckets geoms.size + 1) (initial_buckets geoms.size)
        = some (y_partition_build spec_partition_ops geoms geoms.size gy' len ymin) := by
  apply y_partition_loop_returns
  · intro gy
    have := (spec_sum_bounds geoms gy len ymin hbox).1
    omega
  · intro gy hgy
    have h := (spec_sum_bounds geoms gy len ymin hbox).2
    have h2 : geoms.size * (gy + 1) ≤ geoms.size * 8 := Nat.mul_le_mul_left _ (by omega)
    omega

theorem spec_loop_spins (geoms : GeometryCollection Int) (hN : geoms.size = 0)
    (len ymin : Int) :
    ∀ fuel gy, y_partition_loop spec_partition_ops geoms geoms.size len ymin fuel gy = none := by
  intro fuel
  induction fuel with
  | zero => intro gy; rfl
  | succ n ih =>
    intro gy
    have hsum : spec_partition_ops.m_sum
        (y_partition_build spec_partition_ops geoms geoms.size gy len ymin) = 0 := by
      rw [hN]
      rfl
    simp only [y_partition_loop, hsum]
    simp only [gt_iff_lt, Nat.not_lt_zero, if_false, if_true]
    exact ih gy

theorem loop_spins_of_empty_sum {β μ : Type} (ops : PartitionOps Int β μ)
    (geoms : GeometryCollection Int) (hN : geoms.size = 0)
    (hsum : ∀ (gy : Nat) (len : Int), ops.m_sum (ops.m_new 0 gy len) = 0) (len ymin : Int) :
    ∀ fuel gy, y_partition_loop ops geoms geoms.size len ymin fuel gy = none := by
  intro fuel
  induction fuel with
  | zero => intro gy; rfl
  | succ n ih =>
    intro gy
    have h0 : ops.m_sum (y_partition_build ops geoms geoms.size gy len ymin) = 0 := by
      rw [hN]
      exact hsum gy len
    simp only [y_partition_loop, h0]
    simp only [gt_iff_lt, Nat.not_lt_zero, if_false, if_true]
    exact ih gy

theorem min_element_le (l : List Int) (m : Int) (h : min_element l = some m) :
    ∀ a ∈ l, m ≤ a := by
  cases l with
  | nil => cases h
  | cons a t =>
    have key : ∀ (t : List Int) (init : Int),
        t.foldl (fun m b => if b < m then b else m) init ≤ init ∧
        ∀ b ∈ t, t.foldl (fun m b => if b < m then b else m) init ≤ b := by
      intro t
      induction t with
      | nil => intro init; exact ⟨le_refl _, fun b hb => absurd hb (List.not_mem_nil _)⟩
      | cons c t ih =>
        intro init
        simp only [List.foldl_cons]
        obtain ⟨h1, h2⟩ := ih (if c < init then c else init)
        refine ⟨?_, ?_⟩
        · split_ifs at h1 ⊢ with hc
          · exact le_trans h1 (le_of_lt hc)
          · exact h1
        · intro b hb
          rcases List.mem_cons.1 hb with rfl | hb
          · split_ifs at h1 ⊢ with hc
            · exact h1
            · exact le_trans h1 (not_lt.1 hc)
          · exact h2 b hb
    simp only [min_element, Option.some.injEq] at h
    subst h
    intro b hb
    rcases List.mem_cons.1 hb with rfl | hb
    · exact (key t b).1
    · exact (key t a).2 b hb

theorem le_max_element (l : List Int) (m : Int) (h : max_element l = some m) :
    ∀ a ∈ l, a ≤ m := by
  cases l with
  | nil => cases h
  | cons a t =>
    have key : ∀ (t : List Int) (init : Int),
        init ≤ t.foldl (fun m b => if m < b then b else m) init ∧
        ∀ b ∈ t, b ≤ t.foldl (fun m b => if m < b then b else m) init := by
      intro t
      induction t with
      | nil => intro init; exact ⟨le_refl _, fun b hb => absurd hb (List.not_mem_nil _)⟩
      | cons c t ih =>
        intro init
        simp only [List.foldl_cons]
        obtain ⟨h1, h2⟩ := ih (if init < c then c else init)
        refine ⟨?_, ?_⟩
        · split_ifs at h1 ⊢ with hc
          · exact le_trans (le_of_lt hc) h1
          · exact h1
        · intro b hb
          rcases List.mem_cons.1 hb with rfl | hb
          · split_ifs at h1 ⊢ with hc
            · exact h1
            · exact le_trans (not_lt.1 hc) h1
          · exact h2 b hb
    simp only [max_element, Option.some.injEq] at h
    subst h
    intro b hb
    rcases List.mem_cons.1 hb with rfl | hb
    · exact (key t b).1
    · exact (key t a).2 b hb

theorem bbox_fold_attained (rest : List (Int × Int)) :
    ∀ (b : box_type Int) (pts : List (Int × Int)),
      (∀ q ∈ rest, q ∈ pts) →
      (∃ p ∈ pts, b.min_corner.2 = p.2) → (∃ p ∈ pts, b.max_corner.2 = p.2) →
      b.min_corner.2 ≤ b.max_corner.2 →
      (∃ p ∈ pts, (rest.foldl
          (fun b q =>
            ({ min_corner := (min b.min_corner.1 q.1, min b.min_corner.2 q.2)
               max_corner := (max b.max_corner.1 q.1, max b.max_corner.2 q.2) } : box_type Int))
          b).min_corner.2 = p.2) ∧
      (∃ p ∈ pts, (rest.foldl
          (fun b q =>
            ({ min_corner := (min b.min_corner.1 q.1, min b.min_corner.2 q.2)
               max_corner := (max b.max_corner.1 q.1, max b.max_corner.2 q.2) } : box_type Int))
          b).max_corner.2 = p.2) ∧
      (rest.foldl
          (fun b q =>
            ({ min_corner := (min b.min_corner.1 q.1, min b.min_corner.2 q.2)
               max_corner := (max b.max_corner.1 q.1, max b.max_corner.2 q.2) } : box_type Int))
          b).min_corner.2 ≤
        (rest.foldl
          (fun b q =>
            ({ min_corner := (min b.min_corner.1 q.1, min b.min_corner.2 q.2)
               max_corner := (max b.max_corner.1 q.1, max b.max_corner.2 q.2) } : box_type Int))
          b).max_corner.2 := by
  induction rest with
  | nil => intro b pts _ h1 h2 h3; exact ⟨h1, h2, h3⟩
  | cons q rest ih =>
    intro b pts hsub h1 h2 h3
    simp only [List.foldl_cons]
    apply ih _ pts (fun r hr => hsub r (List.mem_cons_of_mem _ hr))
    · show ∃ p ∈ pts, min b.min_corner.2 q.2 = p.2
      rcases min_choice b.min_corner.2 q.2 with h | h
      · rw [h]; exact h1
      · rw [h]; exact ⟨q, hsub q (List.mem_cons_self _ _), rfl⟩
    · show ∃ p ∈ pts, max b.max_corner.2 q.2 = p.2
      rcases max_choice b.max_corner.2 q.2 with h | h
      · rw [h]; exact h2
      · rw [h]; exact ⟨q, hsub q (List.mem_cons_self _ _), rfl⟩
    · show min b.min_corner.2 q.2 ≤ max b.max_corner.2 q.2
      exact le_trans (min_le_left _ _) (le_trans h3 (le_max_left _ _))

theorem spec_bbox_in_map (geoms : GeometryCollection Int) (hwf : well_formed geoms)
    (hasc : ascending_parts geoms) (lo hi : Int) (hlo : ∀ a ∈ geoms.y, lo ≤ a)
    (hhi : ∀ a ∈ geoms.y, a ≤ hi) (hlohi : lo ≤ hi) (cnt : Nat) (hcnt : cnt < geoms.size) :
    (spec_get_bbox geoms cnt).min_corner.2 ≤ (spec_get_bbox geoms cnt).max_corner.2 ∧
    (spec_get_bbox geoms cnt).max_corner.2 - (spec_get_bbox geoms cnt).min_corner.2
      ≤ hi - lo := by
  obtain ⟨hoff, hb⟩ := get_num_points_bounds geoms hwf hasc cnt hcnt
  have hpts : ∀ p ∈ (List.range (get_num_points geoms cnt)).map (get_point geoms cnt),
      p.2 ∈ geoms.y := by
    intro p hp
    obtain ⟨j, hj, rfl⟩ := List.mem_map.1 hp
    have hj2 := List.mem_range.1 hj
    have hk : j + geoms.parts.getD (part_offset geoms cnt) 0 < geoms.y.length := by
      have := hwf.1
      omega
    show geoms.y.getD (j + geoms.parts.getD (part_offset geoms cnt) 0) 0 ∈ geoms.y
    rw [List.getD_eq_getElem _ _ hk]
    exact List.getElem_mem _
  unfold spec_get_bbox
  generalize (List.range (get_num_points geoms cnt)).map (get_point geoms cnt) = pts at hpts
  cases pts with
  | nil =>
    show (0 : Int) ≤ 0 ∧ (0 : Int) - 0 ≤ hi - lo
    omega
  | cons p rest =>
    obtain ⟨⟨a, ha, ea⟩, ⟨c, hc, ec⟩, hle⟩ := bbox_fold_attained rest
      { min_corner := p, max_corner := p } (p :: rest)
      (fun q hq => List.mem_cons_of_mem _ hq) ⟨p, List.mem_cons_self _ _, rfl⟩
      ⟨p, List.mem_cons_self _ _, rfl⟩ (le_refl _)
    refine ⟨hle, ?_⟩
    have h1 := hlo _ (hpts a ha)
    have h2 := hhi _ (hpts c hc)
    have h3 : (rest.foldl
        (fun b q =>
          ({ min_corner := (min b.min_corner.1 q.1, min b.min_corner.2 q.2)
             max_corner := (max b.max_corner.1 q.1, max b.max_corner.2 q.2) } : box_type Int))
        { min_corner := p, max_corner := p }).max_corner.2
        - (rest.foldl
        (fun b q =>
          ({ min_corner := (min b.min_corner.1 q.1, min b.min_corner.2 q.2)
             max_corner := (max b.max_corner.1 q.1, max b.max_corner.2 q.2) } : box_type Int))
        { min_corner := p, max_corner := p }).min_corner.2 ≤ hi - lo := by
      rw [ea, ec]
      omega
    exact h3

theorem spec_engine_returns (geoms : GeometryCollection Int) (hwf : well_formed geoms)
    (hasc : ascending_parts geoms) (hN : 1 ≤ geoms.size) (hx : geoms.x ≠ []) (fuel : Nat)
    (is_queen : Bool) (precision_threshold : Int) (order_contiguity : Nat)
    (include_lower_order : Bool) :
    ∃ A, polygon_contiguity_weights_threshold spec_partition_ops
      (fuel + initial_buckets geoms.size + 1) geoms is_queen precision_threshold
      order_contiguity include_lower_order = some A := by
  obtain ⟨xs, ys, ps, ss⟩ := geoms
  cases xs with
  | nil => exact absurd rfl hx
  | cons x0 xt =>
    cases ys with
    | nil =>
      have := hwf.1
      simp at this
    | cons y0 yt =>
      have hlo := min_element_le (y0 :: yt) _ rfl
      have hhi := le_max_element (y0 :: yt) _ rfl
      have hlohi := le_trans (hlo y0 (List.mem_cons_self _ _)) (hhi y0 (List.mem_cons_self _ _))
      obtain ⟨gy', _, _, hrun⟩ := spec_loop_returns
        (GeometryCollection.mk (x0 :: xt) (y0 :: yt) ps ss)
        (yt.foldl (fun m b => if m < b then b else m) y0
          - yt.foldl (fun m b => if b < m then b else m) y0)
        (yt.foldl (fun m b => if b < m then b else m) y0) hN
        (fun cnt hcnt => spec_bbox_in_map _ hwf hasc _ _ hlo hhi hlohi cnt hcnt) fuel
      simp only [polygon_contiguity_weights_threshold, min_element, max_element]
      have hrun2 : y_partition_loop spec_partition_ops
          (GeometryCollection.mk (x0 :: xt) (y0 :: yt) ps ss)
          (GeometryCollection.mk (x0 :: xt) (y0 :: yt) ps ss).size
          (yt.foldl (fun m b => if m < b then b else m) y0
            - yt.foldl (fun m b => if b < m then b else m) y0)
          (yt.foldl (fun m b => if b < m then b else m) y0)
          (fuel + initial_buckets (GeometryCollection.mk (x0 :: xt) (y0 :: yt) ps ss).size + 1)
          (Nat.sqrt (GeometryCollection.mk (x0 :: xt) (y0 :: yt) ps ss).size + 2)
            = some _ := hrun
      rw [hrun2]
      exact ⟨_, rfl⟩

/-- C23. The bucket loop of the tolerant engine with the partitions of spec
section 4.5, whose `Sum()` adds `upmost - lowest + 1` over the records.  The
halving `gy / 2 + 1` is strictly smaller than `gy` exactly from `gy = 3` on.
With `N ≥ 1` records whose boxes are at most as high as the map, a rebuilt
partition has a sum between `N` and `N * (gy + 1)`, so the loop halves only
bucket counts `gy ≥ 8`, every halving is strictly smaller, and the loop started
at `floor(sqrt N) + 2` ends within that many turns plus one; the boxes of a
well-formed collection with ascending part offsets are such, so the engine
returns for it when it has a record and a point.  With `N = 0` records the sum
is `0` in every turn, the loop rebuilds the partition with the same `gy` and
does not end for any amount of fuel; this holds for every partition class
whose `Sum()` is `0` when nothing was filed.  On `full_height_strips` the first turn
finds the sum `324 > 288` with `8` buckets, halves to `5`, and the second turn
ends the loop with the sum `216`. -/
theorem halving_loop_spins_without_records :
    (∀ gy, halve_buckets gy < gy ↔ 3 ≤ gy) ∧
    (∀ (geoms : GeometryCollection Int) (len ymin : Int), 1 ≤ geoms.size →
      (∀ cnt < geoms.size,
        (spec_get_bbox geoms cnt).min_corner.2 ≤ (spec_get_bbox geoms cnt).max_corner.2 ∧
        (spec_get_bbox geoms cnt).max_corner.2 - (spec_get_bbox geoms cnt).min_corner.2
          ≤ len) →
      (∀ gy, geoms.size ≤ spec_partition_ops.m_sum
            (y_partition_build spec_partition_ops geoms geoms.size gy len ymin) ∧
          spec_partition_ops.m_sum
            (y_partition_build spec_partition_ops geoms geoms.size gy len ymin)
              ≤ geoms.size * (gy + 1)) ∧
      (∀ gy, spec_partition_ops.m_sum
            (y_partition_build spec_partition_ops geoms geoms.size gy len ymin)
              > geoms.size * 8 →
          8 ≤ gy ∧ halve_buckets gy < gy) ∧
      ∀ fuel, ∃ gy', gy' ≤ initial_buckets geoms.size ∧
        spec_partition_ops.m_sum
            (y_partition_build spec_partition_ops geoms geoms.size gy' len ymin)
          ≤ geoms.size * 8 ∧
        y_partition_loop spec_partition_ops geoms geoms.size len ymin
            (fuel + initial_buckets geoms.size + 1) (initial_buckets geoms.size)
          = some (y_partition_build spec_partition_ops geoms geoms.size gy' len ymin)) ∧
    (∀ geoms : GeometryCollection Int, well_formed geoms → ascending_parts geoms →
      1 ≤ geoms.size → geoms.x ≠ [] →
      ∀ (fuel : Nat) (is_queen : Bool) (precision_threshold : Int) (order_contiguity : Nat)
        (include_lower_order : Bool),
        ∃ A, polygon_contiguity_weights_threshold spec_partition_ops
          (fuel + initial_buckets geoms.size + 1) geoms is_queen precision_threshold
          order_contiguity include_lower_order = some A) ∧
    (initial_buckets stray_collection.size = 2 ∧ halve_buckets 2 = 2) ∧
    (∀ (β μ : Type) (ops : PartitionOps Int β μ) (geoms : GeometryCollection Int),
      geoms.size = 0 → (∀ (gy : Nat) (len : Int), ops.m_sum (ops.m_new 0 gy len) = 0) →
      ∀ (fuel gy : Nat) (len ymin : Int),
        y_partition_loop ops geoms geoms.size len ymin fuel gy = none) ∧
    (∀ (fuel gy : Nat) (len ymin : Int),
      y_partition_loop spec_partition_ops stray_collection stray_collection.size len ymin
        fuel gy = none) ∧
    (∀ (fuel : Nat) (is_queen : Bool) (precision_threshold : Int) (order_contiguity : Nat)
      (include_lower_order : Bool),
      polygon_contiguity_weights_threshold spec_partition_ops fuel stray_collection is_queen
        precision_threshold order_contiguity include_lower_order = none) ∧
    (full_height_strips.size = 36 ∧ initial_buckets 36 = 8 ∧ halve_buckets 8 = 5 ∧
      spec_partition_ops.m_sum
        (y_partition_build spec_partition_ops full_height_strips 36 8 1 0) = 324 ∧
      spec_partition_ops.m_sum
        (y_partition_build spec_partition_ops full_height_strips 36 5 1 0) = 216 ∧
      y_partition_loop spec_partition_ops full_height_strips 36 1 0 1 8 = none ∧
      (y_partition_loop spec_partition_ops full_height_strips 36 1 0 2 8).map
          (fun m => (m.cells, spec_partition_ops.m_sum m)) = some (5, 216)) := by
  refine ⟨halve_buckets_lt_iff, ?_, ?_, ⟨by decide, by decide⟩, ?_, ?_, ?_, ?_⟩
  · intro geoms len ymin hN hbox
    refine ⟨fun gy => spec_sum_bounds geoms gy len ymin hbox, ?_,
      spec_loop_returns geoms len ymin hN hbox⟩
    intro gy hbig
    have h := (spec_sum_bounds geoms gy len ymin hbox).2
    have h8 : 8 ≤ gy := by
      by_contra hcon
      have h2 : geoms.size * (gy + 1) ≤ geoms.size * 8 := Nat.mul_le_mul_left _ (by omega)
      omega
    exact ⟨h8, (halve_buckets_lt_iff gy).2 (by omega)⟩
  · intro geoms hwf hasc hN hx fuel is_queen precision_threshold order_contiguity
      include_lower_order
    exact spec_engine_returns geoms hwf hasc hN hx fuel is_queen precision_threshold
      order_contiguity include_lower_order
  · intro β μ ops geoms hN hsum fuel gy len ymin
    exact loop_spins_of_empty_sum ops geoms hN hsum len ymin fuel gy
  · intro fuel gy len ymin
    exact spec_loop_spins stray_collection rfl len ymin fuel gy
  · intro fuel is_queen precision_threshold order_contiguity include_lower_order
    simp only [polygon_contiguity_weights_threshold, stray_collection, min_element, max_element,
      List.foldl_nil, GeometryCollection.size, List.length_nil]
    rw [show (GeometryCollection.mk [(0 : Int)] [0] [] []) = stray_collection from rfl]
    have := spec_loop_spins stray_collection rfl (0 - 0) 0 fuel (Nat.sqrt 0 + 2)
    rw [show stray_collection.size = 0 from rfl] at this
    rw [this]
  · have hsqrt : initial_buckets 36 = 8 := by
      show Nat.sqrt (6 * 6) + 2 = 8
      rw [Nat.sqrt_eq]
    have hnone : (y_partition_loop spec_partition_ops full_height_strips 36 1 0 1 8).map
        (fun m => m.cells) = none := by decide!
    refine ⟨by decide, hsqrt, by decide, by decide!, by decide!,
      Option.map_eq_none'.1 hnone, by decide!⟩

end SpecPartition

/-! ## Clipping of an edge (`jcv_edge_clipline`) -/

section Clipline

variable {α : Type} [LinearOrderedField α]

theorem clamp_low_in_range (lo hi : α) (h : lo ≤ hi) (f : jcv_point α → α)
    (s : Option (jcv_point α)) :
    lo ≤ (if (match s with | some v => if f v > lo then f v else lo | none => lo) > hi then hi
        else (match s with | some v => if f v > lo then f v else lo | none => lo)) ∧
      (if (match s with | some v => if f v > lo then f v else lo | none => lo) > hi then hi
        else (match s with | some v => if f v > lo then f v else lo | none => lo)) ≤ hi := by
  cases s with
  | none => simp [not_lt.2 h, h]
  | some v =>
    dsimp only
    by_cases h1 : f v > lo
    · rw [if_pos h1]
      by_cases h2 : f v > hi
      · rw [if_pos h2]; exact ⟨h, le_refl _⟩
      · rw [if_neg h2]; exact ⟨le_of_lt h1, not_lt.1 h2⟩
    · rw [if_neg h1, if_neg (not_lt.2 h)]
      exact ⟨le_refl _, h⟩

theorem clamp_high_in_range (lo hi : α) (h : lo ≤ hi) (f : jcv_point α → α)
    (s : Option (jcv_point α)) :
    lo ≤ (if (match s with | some v => if f v < hi then f v else hi | none => hi) < lo then lo
        else (match s with | some v => if f v < hi then f v else hi | none => hi)) ∧
      (if (match s with | some v => if f v < hi then f v else hi | none => hi) < lo then lo
        else (match s with | some v => if f v < hi then f v else hi | none => hi)) ≤ hi := by
  cases s with
  | none => simp [not_lt.2 h, h]
  | some v =>
    dsimp only
    by_cases h1 : f v < hi
    · rw [if_pos h1]
      by_cases h2 : f v < lo
      · rw [if_pos h2]; exact ⟨le_refl _, h⟩
      · rw [if_neg h2]; exact ⟨not_lt.1 h2, le_of_lt h1⟩
    · rw [if_neg h1, if_neg (not_lt.2 h)]
      exact ⟨h, le_refl _⟩

/-- The clamp of the second step of `jcv_edge_clipline` on the line
`u + k * v = c`: for `v` and `w` between `vlo` and `vhi`, when the clamped
points of `v` and of `w` differ, the clamped point of `v` has its first
coordinate between `lo` and `hi`, its second between `vlo` and `vhi`, and lies on
the line. -/
theorem clamp_line_one (c k lo hi vlo vhi v w : α) (hlo : lo ≤ hi) (hv : vlo ≤ v ∧ v ≤ vhi)
    (hw : vlo ≤ w ∧ w ≤ vhi)
    (hne : (if c - k * v > hi then (hi, (c - hi) / k)
        else if c - k * v < lo then (lo, (c - lo) / k) else (c - k * v, v))
      ≠ (if c - k * w > hi then (hi, (c - hi) / k)
        else if c - k * w < lo then (lo, (c - lo) / k) else (c - k * w, w))) :
    (lo ≤ (if c - k * v > hi then (hi, (c - hi) / k)
        else if c - k * v < lo then (lo, (c - lo) / k) else (c - k * v, v)).1 ∧
      (if c - k * v > hi then (hi, (c - hi) / k)
        else if c - k * v < lo then (lo, (c - lo) / k) else (c - k * v, v)).1 ≤ hi ∧
      vlo ≤ (if c - k * v > hi then (hi, (c - hi) / k)
        else if c - k * v < lo then (lo, (c - lo) / k) else (c - k * v, v)).2 ∧
      (if c - k * v > hi then (hi, (c - hi) / k)
        else if c - k * v < lo then (lo, (c - lo) / k) else (c - k * v, v)).2 ≤ vhi) ∧
    (if c - k * v > hi then (hi, (c - hi) / k)
        else if c - k * v < lo then (lo, (c - lo) / k) else (c - k * v, v)).1
      + k * (if c - k * v > hi then (hi, (c - hi) / k)
        else if c - k * v < lo then (lo, (c - lo) / k) else (c - k * v, v)).2 = c := by
  have hbetween : ∀ t : α, (k * v < t ∧ t ≤ k * w) ∨ (k * w ≤ t ∧ t < k * v) →
      k ≠ 0 ∧ vlo ≤ t / k ∧ t / k ≤ vhi := by
    intro t ht
    have hk : k ≠ 0 := by
      rintro rfl
      simp only [zero_mul] at ht
      rcases ht with ⟨h1, h2⟩ | ⟨h1, h2⟩
      · exact absurd (lt_of_lt_of_le h1 h2) (lt_irrefl _)
      · exact absurd (lt_of_le_of_lt h1 h2) (lt_irrefl _)
    refine ⟨hk, ?_⟩
    rcases lt_or_gt_of_ne hk with hneg | hpos
    · rcases ht with ⟨h1, h2⟩ | ⟨h1, h2⟩
      · have h3 : t / k < v := by rw [div_lt_iff_of_neg hneg]; linarith
        have h4 : w ≤ t / k := by rw [le_div_iff_of_neg hneg]; linarith
        exact ⟨le_trans hw.1 h4, le_trans (le_of_lt h3) hv.2⟩
      · have h3 : v < t / k := by rw [lt_div_iff_of_neg hneg]; linarith
        have h4 : t / k ≤ w := by rw [div_le_iff_of_neg hneg]; linarith
        exact ⟨le_trans hv.1 (le_of_lt h3), le_trans h4 hw.2⟩
    · rcases ht with ⟨h1, h2⟩ | ⟨h1, h2⟩
      · have h3 : v < t / k := by rw [lt_div_iff₀ hpos]; linarith
        have h4 : t / k ≤ w := by rw [div_le_iff₀ hpos]; linarith
        exact ⟨le_trans hv.1 (le_of_lt h3), le_trans h4 hw.2⟩
      · have h3 : t / k < v := by rw [div_lt_iff₀ hpos]; linarith
        have h4 : w ≤ t / k := by rw [le_div_iff₀ hpos]; linarith
        exact ⟨le_trans hw.1 h4, le_trans (le_of_lt h3) hv.2⟩
  by_cases h1 : c - k * v > hi
  · rw [if_pos h1] at hne ⊢
    have h2 : ¬ c - k * w > hi := by
      intro hcon
      rw [if_pos hcon] at hne
      exact hne rfl
    obtain ⟨hk, hr1, hr2⟩ := hbetween (c - hi) (Or.inl ⟨by linarith, by linarith [not_lt.1 h2]⟩)
    refine ⟨⟨hlo, le_refl _, hr1, hr2⟩, ?_⟩
    show hi + k * ((c - hi) / k) = c
    rw [mul_div_cancel₀ _ hk]
    ring
  · rw [if_neg h1] at hne ⊢
    by_cases h3 : c - k * v < lo
    · rw [if_pos h3] at hne ⊢
      have h4 : ¬ c - k * w < lo := by
        intro hcon
        by_cases h5 : c - k * w > hi
        · exact absurd (lt_trans hcon (lt_of_le_of_lt hlo h5)) (lt_irrefl _)
        · rw [if_neg h5, if_pos hcon] at hne
          exact hne rfl
      obtain ⟨hk, hr1, hr2⟩ := hbetween (c - lo)
        (Or.inr ⟨by linarith [not_lt.1 h4], by linarith⟩)
      refine ⟨⟨le_refl _, hlo, hr1, hr2⟩, ?_⟩
      show lo + k * ((c - lo) / k) = c
      rw [mul_div_cancel₀ _ hk]
      ring
    · rw [if_neg h3]
      refine ⟨⟨not_lt.1 h3, not_lt.1 h1, hv.1, hv.2⟩, ?_⟩
      show c - k * v + k * v = c
      ring

theorem clipline_of_a_one (e : jcv_edge α) (min max : jcv_point α) (ha : e.a = 1)
    (hy : min.y ≤ max.y) :
    ∃ y1 y2 : α, (min.y ≤ y1 ∧ y1 ≤ max.y) ∧ (min.y ≤ y2 ∧ y2 ≤ max.y) ∧
      jcv_edge_clipline e min max =
        (!(decide ((if e.c - e.b * y1 > max.x then (max.x, (e.c - max.x) / e.b)
              else if e.c - e.b * y1 < min.x then (min.x, (e.c - min.x) / e.b)
              else (e.c - e.b * y1, y1)).1
            = (if e.c - e.b * y2 > max.x then (max.x, (e.c - max.x) / e.b)
              else if e.c - e.b * y2 < min.x then (min.x, (e.c - min.x) / e.b)
              else (e.c - e.b * y2, y2)).1) &&
          decide ((if e.c - e.b * y1 > max.x then (max.x, (e.c - max.x) / e.b)
              else if e.c - e.b * y1 < min.x then (min.x, (e.c - min.x) / e.b)
              else (e.c - e.b * y1, y1)).2
            = (if e.c - e.b * y2 > max.x then (max.x, (e.c - max.x) / e.b)
              else if e.c - e.b * y2 < min.x then (min.x, (e.c - min.x) / e.b)
              else (e.c - e.b * y2, y2)).2)),
         { e with
           pos0 := some ⟨(if e.c - e.b * y1 > max.x then (max.x, (e.c - max.x) / e.b)
              else if e.c - e.b * y1 < min.x then (min.x, (e.c - min.x) / e.b)
              else (e.c - e.b * y1, y1)).1,
             (if e.c - e.b * y1 > max.x then (max.x, (e.c - max.x) / e.b)
              else if e.c - e.b * y1 < min.x then (min.x, (e.c - min.x) / e.b)
              else (e.c - e.b * y1, y1)).2⟩,
           pos1 := some ⟨(if e.c - e.b * y2 > max.x then (max.x, (e.c - max.x) / e.b)
              else if e.c - e.b * y2 < min.x then (min.x, (e.c - min.x) / e.b)
              else (e.c - e.b * y2, y2)).1,
             (if e.c - e.b * y2 > max.x then (max.x, (e.c - max.x) / e.b)
              else if e.c - e.b * y2 < min.x then (min.x, (e.c - min.x) / e.b)
              else (e.c - e.b * y2, y2)).2⟩ }) := by
  refine ⟨_, _,
    clamp_low_in_range min.y max.y hy (fun s => s.y)
      (if e.a = 1 ∧ e.b ≥ 0 then (e.pos1, e.pos0) else (e.pos0, e.pos1)).1,
    clamp_high_in_range min.y max.y hy (fun s => s.y)
      (if e.a = 1 ∧ e.b ≥ 0 then (e.pos1, e.pos0) else (e.pos0, e.pos1)).2, ?_⟩
  simp only [jcv_edge_clipline, ha, if_true]

theorem clipline_of_a_ne_one (e : jcv_edge α) (min max : jcv_point α) (ha : e.a ≠ 1)
    (hx : min.x ≤ max.x) :
    ∃ x1 x2 : α, (min.x ≤ x1 ∧ x1 ≤ max.x) ∧ (min.x ≤ x2 ∧ x2 ≤ max.x) ∧
      jcv_edge_clipline e min max =
        (!(decide ((if e.c - e.a * x1 > max.y then ((e.c - max.y) / e.a, max.y)
              else if e.c - e.a * x1 < min.y then ((e.c - min.y) / e.a, min.y)
              else (x1, e.c - e.a * x1)).1
            = (if e.c - e.a * x2 > max.y then ((e.c - max.y) / e.a, max.y)
              else if e.c - e.a * x2 < min.y then ((e.c - min.y) / e.a, min.y)
              else (x2, e.c - e.a * x2)).1) &&
          decide ((if e.c - e.a * x1 > max.y then ((e.c - max.y) / e.a, max.y)
              else if e.c - e.a * x1 < min.y then ((e.c - min.y) / e.a, min.y)
              else (x1, e.c - e.a * x1)).2
            = (if e.c - e.a * x2 > max.y then ((e.c - max.y) / e.a, max.y)
              else if e.c - e.a * x2 < min.y then ((e.c - min.y) / e.a, min.y)
              else (x2, e.c - e.a * x2)).2)),
         { e with
           pos0 := some ⟨(if e.c - e.a * x1 > max.y then ((e.c - max.y) / e.a, max.y)
              else if e.c - e.a * x1 < min.y then ((e.c - min.y) / e.a, min.y)
              else (x1, e.c - e.a * x1)).1,
             (if e.c - e.a * x1 > max.y then ((e.c - max.y) / e.a, max.y)
              else if e.c - e.a * x1 < min.y then ((e.c - min.y) / e.a, min.y)
              else (x1, e.c - e.a * x1)).2⟩,
           pos1 := some ⟨(if e.c - e.a * x2 > max.y then ((e.c - max.y) / e.a, max.y)
              else if e.c - e.a * x2 < min.y then ((e.c - min.y) / e.a, min.y)
              else (x2, e.c - e.a * x2)).1,
             (if e.c - e.a * x2 > max.y then ((e.c - max.y) / e.a, max.y)
              else if e.c - e.a * x2 < min.y then ((e.c - min.y) / e.a, min.y)
              else (x2, e.c - e.a * x2)).2⟩ }) := by
  refine ⟨_, _,
    clamp_low_in_range min.x max.x hx (fun s => s.x)
      (if e.a = 1 ∧ e.b ≥ 0 then (e.pos1, e.pos0) else (e.pos0, e.pos1)).1,
    clamp_high_in_range min.x max.x hx (fun s => s.x)
      (if e.a = 1 ∧ e.b ≥ 0 then (e.pos1, e.pos0) else (e.pos0, e.pos1)).2, ?_⟩
  simp only [jcv_edge_clipline, ha, if_false]

theorem swap_clamp (c k lo hi v : α) :
    (if c - k * v > hi then ((c - hi) / k, hi)
      else if c - k * v < lo then ((c - lo) / k, lo) else (v, c - k * v))
    = ((if c - k * v > hi then (hi, (c - hi) / k)
        else if c - k * v < lo then (lo, (c - lo) / k) else (c - k * v, v)).2,
       (if c - k * v > hi then (hi, (c - hi) / k)
        else if c - k * v < lo then (lo, (c - lo) / k) else (c - k * v, v)).1) := by
  split_ifs <;> rfl

/-- C28. Clipped edges lie inside the rectangle: for an edge with `a = 1` or
`b = 1`, whatever its end points are (valid or not), and a rectangle with
`min.x ≤ max.x` and `min.y ≤ max.y`, `jcv_edge_clipline` stores two end points; it
returns `0` exactly when they coincide, and whenever it returns `1` both lie in
the closed rectangle and on the line `a*x + b*y = c`. -/
theorem clipped_edge_in_rectangle (e : jcv_edge α) (min max : jcv_point α)
    (hnorm : e.a = 1 ∨ e.b = 1) (hx : min.x ≤ max.x) (hy : min.y ≤ max.y) :
    ∃ p0 p1 : jcv_point α,
      (jcv_edge_clipline e min max).2 = { e with pos0 := some p0, pos1 := some p1 } ∧
      ((jcv_edge_clipline e min max).1 = false ↔ p0 = p1) ∧
      ((jcv_edge_clipline e min max).1 = true →
        in_rect min max p0 ∧ in_rect min max p1 ∧ on_line e p0 ∧ on_line e p1) := by
  by_cases ha : e.a = 1
  · obtain ⟨y1, y2, h1, h2, heq⟩ := clipline_of_a_one e min max ha hy
    have g1 := clamp_line_one e.c e.b min.x max.x min.y max.y y1 y2 hx h1 h2
    have g2 := clamp_line_one e.c e.b min.x max.x min.y max.y y2 y1 hx h2 h1
    rw [heq]
    generalize (if e.c - e.b * y1 > max.x then (max.x, (e.c - max.x) / e.b)
      else if e.c - e.b * y1 < min.x then (min.x, (e.c - min.x) / e.b)
      else (e.c - e.b * y1, y1)) = P1 at g1 g2 ⊢
    generalize (if e.c - e.b * y2 > max.x then (max.x, (e.c - max.x) / e.b)
      else if e.c - e.b * y2 < min.x then (min.x, (e.c - min.x) / e.b)
      else (e.c - e.b * y2, y2)) = P2 at g1 g2 ⊢
    refine ⟨⟨P1.1, P1.2⟩, ⟨P2.1, P2.2⟩, rfl, ?_, ?_⟩
    · simp only [Bool.not_eq_false', Bool.and_eq_true, decide_eq_true_eq]
      constructor
      · rintro ⟨hx1, hy1⟩
        rw [hx1, hy1]
      · intro h
        exact ⟨congrArg jcv_point.x h, congrArg jcv_point.y h⟩
    · intro hflag
      have hne : P1 ≠ P2 := by
        intro hcon
        rw [hcon] at hflag
        simp at hflag
      obtain ⟨hr1, hl1⟩ := g1 hne
      obtain ⟨hr2, hl2⟩ := g2 (Ne.symm hne)
      refine ⟨hr1, hr2, ?_, ?_⟩
      · show e.a * P1.1 + e.b * P1.2 = e.c
        rw [ha, one_mul]; exact hl1
      · show e.a * P2.1 + e.b * P2.2 = e.c
        rw [ha, one_mul]; exact hl2
  · have hb : e.b = 1 := hnorm.resolve_left ha
    obtain ⟨x1, x2, h1, h2, heq⟩ := clipline_of_a_ne_one e min max ha hx
    have g1 := clamp_line_one e.c e.a min.y max.y min.x max.x x1 x2 hy h1 h2
    have g2 := clamp_line_one e.c e.a min.y max.y min.x max.x x2 x1 hy h2 h1
    rw [heq, swap_clamp e.c e.a min.y max.y x1, swap_clamp e.c e.a min.y max.y x2]
    generalize (if e.c - e.a * x1 > max.y then (max.y, (e.c - max.y) / e.a)
      else if e.c - e.a * x1 < min.y then (min.y, (e.c - min.y) / e.a)
      else (e.c - e.a * x1, x1)) = P1 at g1 g2 ⊢
    generalize (if e.c - e.a * x2 > max.y then (max.y, (e.c - max.y) / e.a)
      else if e.c - e.a * x2 < min.y then (min.y, (e.c - min.y) / e.a)
      else (e.c - e.a * x2, x2)) = P2 at g1 g2 ⊢
    refine ⟨⟨P1.2, P1.1⟩, ⟨P2.2, P2.1⟩, rfl, ?_, ?_⟩
    · simp only [Bool.not_eq_false', Bool.and_eq_true, decide_eq_true_eq]
      constructor
      · rintro ⟨hx1, hy1⟩
        rw [hx1, hy1]
      · intro h
        exact ⟨congrArg jcv_point.x h, congrArg jcv_point.y h⟩
    · intro hflag
      have hne : P1 ≠ P2 := by
        intro hcon
        rw [hcon] at hflag
        simp at hflag
      obtain ⟨⟨ha1, hb1, hc1, hd1⟩, hl1⟩ := g1 hne
      obtain ⟨⟨ha2, hb2, hc2, hd2⟩, hl2⟩ := g2 (Ne.symm hne)
      refine ⟨⟨hc1, hd1, ha1, hb1⟩, ⟨hc2, hd2, ha2, hb2⟩, ?_, ?_⟩
      · show e.a * P1.2 + e.b * P1.1 = e.c
        rw [hb, one_mul, add_comm]; exact hl1
      · show e.a * P2.2 + e.b * P2.1 = e.c
        rw [hb, one_mul, add_comm]; exact hl2

end Clipline

/-- C28 for `sample_bisector` in the unit square: the edge is clipped to the
segment from `(1, 1/2)` to `(3/4, 1)`. -/
theorem clipped_edge_in_rectangle_witness :
    (sample_bisector.a = 1 ∨ sample_bisector.b = 1) ∧ (0 : ℚ) ≤ 1 ∧
    sample_bisector = jcv_edge_create ⟨0, 0⟩ ⟨2, 1⟩ ∧
    jcv_edge_clipline sample_bisector ⟨0, 0⟩ ⟨1, 1⟩
      = (true, { sample_bisector with pos0 := some ⟨1, 1 / 2⟩, pos1 := some ⟨3 / 4, 1⟩ }) ∧
    ∃ p0 p1 : jcv_point ℚ,
      (jcv_edge_clipline sample_bisector ⟨0, 0⟩ ⟨1, 1⟩).2
        = { sample_bisector with pos0 := some p0, pos1 := some p1 } ∧
      ((jcv_edge_clipline sample_bisector ⟨0, 0⟩ ⟨1, 1⟩).1 = false ↔ p0 = p1) ∧
      ((jcv_edge_clipline sample_bisector ⟨0, 0⟩ ⟨1, 1⟩).1 = true →
        in_rect ⟨0, 0⟩ ⟨1, 1⟩ p0 ∧ in_rect ⟨0, 0⟩ ⟨1, 1⟩ p1 ∧ on_line sample_bisector p0 ∧
          on_line sample_bisector p1) :=
  ⟨Or.inl rfl, by norm_num, by decide!, by decide!,
    clipped_edge_in_rectangle sample_bisector ⟨0, 0⟩ ⟨1, 1⟩ (Or.inl rfl) (by norm_num)
      (by norm_num)⟩

/-! ## Event queue -/

section EventQueueProofs

variable {α : Type} [LinearOrder α]

theorem compare_eq_true_iff (a b : jcv_halfedge α) :
    jcv_halfedge_compare a b = true ↔ pq_key b < pq_key a := by
  unfold jcv_halfedge_compare pq_key
  rw [Prod.Lex.lt_iff]
  by_cases h : a.y = b.y
  · simp only [h, if_true, decide_eq_true_eq, gt_iff_lt, lt_irrefl, false_or, true_and]
  · simp only [h, if_false, decide_eq_true_eq, gt_iff_lt, Ne.symm h, false_and, or_false]

theorem compare_eq_false_iff (a b : jcv_halfedge α) :
    jcv_halfedge_compare a b = false ↔ pq_key a ≤ pq_key b := by
  rw [← not_lt, ← compare_eq_true_iff]
  simp

theorem up_ord_swap (kf : Nat → α ×ₗ α) (w : Nat → Nat) (n pos : Nat) (h : up_ord kf w n pos)
    (hpos : 2 ≤ pos) (hlt : pos < n) (hkey : kf (w pos) < kf (w (pos / 2))) :
    up_ord kf (swap_slots w pos (pos / 2)) n (pos / 2) := by
  obtain ⟨h1, h2⟩ := h
  have hq : pos / 2 ≠ pos := by omega
  constructor
  · intro i hi hin hne
    unfold swap_slots
    by_cases hip : i = pos
    · subst hip
      simp only [if_true, if_neg (Ne.symm hq)]
      exact le_of_lt hkey
    · by_cases hc : i / 2 = pos
      · have hi2 : i / 2 ≠ pos / 2 := by omega
        simp only [if_neg hne, if_neg hip, if_neg hi2, hc, if_true, if_neg (Ne.symm hq)]
        exact h2 i hi hin hc hpos
      · by_cases hs : i / 2 = pos / 2
        · simp only [hs, if_true, if_neg hne, if_neg hip]
          have := h1 i hi hin hip
          rw [hs] at this
          exact le_trans (le_of_lt hkey) this
        · simp only [if_neg hs, if_neg hc, if_neg hne, if_neg hip]
          exact h1 i hi hin hip
  · intro i hi hin hc hq2
    unfold swap_slots
    have h4 : pos / 2 / 2 ≠ pos / 2 := by omega
    have h5 : pos / 2 / 2 ≠ pos := by omega
    have h6 : i ≠ pos / 2 := by omega
    simp only [if_neg h4, if_neg h5, if_neg h6]
    have hpar := h1 (pos / 2) hq2 (by omega) hq
    by_cases hip : i = pos
    · simp only [hip, if_true]
      exact hpar
    · simp only [if_neg hip]
      exact le_trans hpar (hc ▸ h1 i hi hin hip)

theorem up_ord_done (kf : Nat → α ×ₗ α) (w : Nat → Nat) (n pos : Nat) (h : up_ord kf w n pos)
    (hstop : pos ≤ 1 ∨ kf (w (pos / 2)) ≤ kf (w pos)) :
    ∀ i, 2 ≤ i → i < n → kf (w (i / 2)) ≤ kf (w i) := by
  intro i hi hin
  by_cases hip : i = pos
  · subst hip
    rcases hstop with h1 | h1
    · omega
    · exact h1
  · exact h.1 i hi hin hip

theorem down_ord_swap (kf : Nat → α ×ₗ α) (w : Nat → Nat) (n pos c : Nat)
    (h : down_ord kf w n pos) (hc : c / 2 = pos) (hc2 : 2 ≤ c) (hcn : c < n)
    (hkey : kf (w c) < kf (w pos))
    (hmin : ∀ i, 2 ≤ i → i < n → i / 2 = pos → kf (w c) ≤ kf (w i)) :
    down_ord kf (swap_slots w pos c) n c := by
  obtain ⟨h1, h2⟩ := h
  have hcp : c ≠ pos := by omega
  constructor
  · intro i hi hin hne
    unfold swap_slots
    by_cases hic : i = c
    · subst hic
      simp only [if_true, hc, if_neg (Ne.symm hcp)]
      exact le_of_lt hkey
    · by_cases hip : i = pos
      · subst hip
        have h3 : i / 2 ≠ c := by omega
        have h4 : i / 2 ≠ i := by omega
        simp only [if_neg hic, if_true, if_neg h3, if_neg h4]
        exact h2 c hc2 hcn hc (by omega)
      · by_cases hs : i / 2 = pos
        · simp only [if_neg hic, if_neg hip, hs, if_true, if_neg (Ne.symm hcp)]
          exact hmin i hi hin hs
        · simp only [if_neg hic, if_neg hip, if_neg hne, if_neg hs]
          exact h1 i hi hin hs
  · intro i hi hin hic _
    unfold swap_slots
    have h3 : i ≠ c := by omega
    have h4 : i ≠ pos := by omega
    simp only [hc, if_true, if_neg (Ne.symm hcp), if_neg h3, if_neg h4]
    have := h1 i hi hin (by omega)
    rw [hic] at this
    exact this

theorem down_ord_done (kf : Nat → α ×ₗ α) (w : Nat → Nat) (n pos : Nat)
    (h : down_ord kf w n pos)
    (hstop : ∀ i, 2 ≤ i → i < n → i / 2 = pos → kf (w pos) ≤ kf (w i)) :
    ∀ i, 2 ≤ i → i < n → kf (w (i / 2)) ≤ kf (w i) := by
  intro i hi hin
  by_cases hip : i / 2 = pos
  · rw [hip]
    exact hstop i hi hin hip
  · exact h.1 i hi hin hip

theorem swap_slots_eq (w : Nat → Nat) (p q i : Nat) :
    swap_slots w p q i = w (if i = q then p else if i = p then q else i) := by
  unfold swap_slots
  split_ifs <;> rfl

theorem pq_hole_step (kf : Nat → α ×ₗ α) (Mem0 : Nat → Prop) (he0 : Nat → jcv_halfedge α)
    (node : Nat) (st : pq_state α) (pos q : Nat) (h : pq_hole kf Mem0 he0 node st pos)
    (hpos : 1 ≤ pos) (hposn : pos < st.numitems) (hq : 1 ≤ q) (hqn : q < st.numitems)
    (hne : q ≠ pos) :
    pq_hole kf Mem0 he0 node
        (pq_set_pqpos (pq_set_item st pos (st.items q))
          ((pq_set_item st pos (st.items q)).items pos) pos) q ∧
      pq_virtual (pq_set_pqpos (pq_set_item st pos (st.items q))
          ((pq_set_item st pos (st.items q)).items pos) pos) q node
        = swap_slots (pq_virtual st pos node) pos q := by
  obtain ⟨hk, hb, hinj, hm, hfr⟩ := h
  have hvq : pq_virtual st pos node q = st.items q := by
    unfold pq_virtual
    rw [Function.update_noteq hne]
  have hvirt : pq_virtual (pq_set_pqpos (pq_set_item st pos (st.items q))
      ((pq_set_item st pos (st.items q)).items pos) pos) q node
        = swap_slots (pq_virtual st pos node) pos q := by
    funext i
    unfold swap_slots pq_virtual pq_set_pqpos pq_set_item
    simp only [Function.update_apply]
    split_ifs <;> rfl
  have hitem : (pq_set_item st pos (st.items q)).items pos = st.items q := by
    unfold pq_set_item
    simp only [Function.update_same]
  refine ⟨⟨?_, ?_, ?_, ?_, ?_⟩, hvirt⟩
  · intro x
    rw [← hk x, hitem]
    unfold pq_set_pqpos pq_set_item pq_key
    simp only [Function.update_apply]
    split_ifs with hx
    · rw [hx]
    · rfl
  · intro i hi hin hiq
    rw [hitem]
    show ((Function.update st.he (st.items q) { st.he (st.items q) with pqpos := pos })
      ((Function.update st.items pos (st.items q)) i)).pqpos = i
    by_cases hip : i = pos
    · rw [hip, Function.update_same, Function.update_same]
    · rw [Function.update_noteq hip]
      have hdiff : st.items i ≠ st.items q := by
        intro hcon
        apply hiq
        apply hinj i q hi hin hq hqn
        unfold pq_virtual
        rw [Function.update_noteq hip, Function.update_noteq hne]
        exact hcon
      rw [Function.update_noteq hdiff]
      exact hb i hi hin hip
  · intro i j hi hin hj hjn hij
    rw [hvirt, swap_slots_eq, swap_slots_eq] at hij
    have hin' : i < st.numitems := hin
    have hjn' : j < st.numitems := hjn
    have := hinj _ _ (by split_ifs <;> omega) (by split_ifs <;> omega)
      (by split_ifs <;> omega) (by split_ifs <;> omega) hij
    split_ifs at this <;> omega
  · intro x
    rw [← hm x, hvirt]
    constructor
    · rintro ⟨i, hi, hin, hx⟩
      have hin' : i < st.numitems := hin
      rw [swap_slots_eq] at hx
      exact ⟨_, by split_ifs <;> omega, by split_ifs <;> omega, hx⟩
    · rintro ⟨i, hi, hin, hx⟩
      refine ⟨if i = q then pos else if i = pos then q else i, by split_ifs <;> omega,
        ?_, ?_⟩
      · show _ < st.numitems
        split_ifs <;> omega
      · rw [swap_slots_eq, ← hx]
        congr 1
        split_ifs <;> omega
  · intro x hx
    rw [← hfr x hx, hitem]
    have hxq : x ≠ st.items q := by
      rintro rfl
      exact hx ((hm _).1 ⟨q, hq, hqn, hvq⟩)
    show (Function.update st.he (st.items q) _) x = st.he x
    rw [Function.update_noteq hxq]

theorem pq_hole_fill (kf : Nat → α ×ₗ α) (Mem0 : Nat → Prop) (he0 : Nat → jcv_halfedge α)
    (node : Nat) (st : pq_state α) (pos : Nat) (h : pq_hole kf Mem0 he0 node st pos)
    (hpos : 1 ≤ pos) (hposn : pos < st.numitems)
    (hheap : ∀ i, 2 ≤ i → i < st.numitems →
      kf (pq_virtual st pos node (i / 2)) ≤ kf (pq_virtual st pos node i)) :
    pq_inv (pq_set_item (pq_set_pqpos st node pos) pos node) ∧
    (∀ x, pq_mem (pq_set_item (pq_set_pqpos st node pos) pos node) x ↔ Mem0 x) ∧
    (∀ x, pq_key ((pq_set_item (pq_set_pqpos st node pos) pos node).he x) = kf x) ∧
    (∀ x, ¬ Mem0 x → (pq_set_item (pq_set_pqpos st node pos) pos node).he x = he0 x) ∧
    (pq_set_item (pq_set_pqpos st node pos) pos node).numitems = st.numitems ∧
    (pq_set_item (pq_set_pqpos st node pos) pos node).maxnumitems = st.maxnumitems := by
  obtain ⟨hk, hb, hinj, hm, hfr⟩ := h
  have hkeys : ∀ x, pq_key ((pq_set_item (pq_set_pqpos st node pos) pos node).he x) = kf x := by
    intro x
    rw [← hk x]
    show pq_key ((Function.update st.he node { st.he node with pqpos := pos }) x) = _
    by_cases hx : x = node
    · rw [hx, Function.update_same]
      rfl
    · rw [Function.update_noteq hx]
  have hvpos : pq_virtual st pos node pos = node := by
    unfold pq_virtual
    rw [Function.update_same]
  refine ⟨⟨by show 1 ≤ st.numitems; omega, ?_, ?_⟩, ?_, hkeys, ?_, rfl, rfl⟩
  · intro i hi hin
    rw [compare_eq_false_iff, hkeys, hkeys]
    exact hheap i hi hin
  · intro i hi hin
    show ((Function.update st.he node { st.he node with pqpos := pos })
      ((Function.update st.items pos node) i)).pqpos = i
    by_cases hip : i = pos
    · rw [hip, Function.update_same, Function.update_same]
    · rw [Function.update_noteq hip]
      have hdiff : st.items i ≠ node := by
        intro hcon
        apply hip
        apply hinj i pos hi hin hpos hposn
        rw [hvpos]
        unfold pq_virtual
        rw [Function.update_noteq hip]
        exact hcon
      rw [Function.update_noteq hdiff]
      exact hb i hi hin hip
  · intro x
    rw [← hm x]
    rfl
  · intro x hx
    rw [← hfr x hx]
    have hxn : x ≠ node := by
      rintro rfl
      exact hx ((hm _).1 ⟨pos, hpos, hposn, hvpos⟩)
    show (Function.update st.he node _) x = st.he x
    rw [Function.update_noteq hxn]

theorem pq_moveup_loop_spec (kf : Nat → α ×ₗ α) (Mem0 : Nat → Prop)
    (he0 : Nat → jcv_halfedge α) (node : Nat) :
    ∀ (fuel : Nat) (st : pq_state α) (pos : Nat), pq_hole kf Mem0 he0 node st pos →
      up_ord kf (pq_virtual st pos node) st.numitems pos → 1 ≤ pos → pos < st.numitems →
      pos ≤ fuel →
      pq_hole kf Mem0 he0 node (pq_moveup_loop node fuel st pos).1
          (pq_moveup_loop node fuel st pos).2 ∧
        (pq_moveup_loop node fuel st pos).1.numitems = st.numitems ∧
        (pq_moveup_loop node fuel st pos).1.maxnumitems = st.maxnumitems ∧
        1 ≤ (pq_moveup_loop node fuel st pos).2 ∧
        (pq_moveup_loop node fuel st pos).2 < st.numitems ∧
        ∀ i, 2 ≤ i → i < st.numitems →
          kf (pq_virtual (pq_moveup_loop node fuel st pos).1
              (pq_moveup_loop node fuel st pos).2 node (i / 2))
            ≤ kf (pq_virtual (pq_moveup_loop node fuel st pos).1
              (pq_moveup_loop node fuel st pos).2 node i) := by
  intro fuel
  induction fuel with
  | zero =>
    intro st pos _ _ h1 _ h0
    omega
  | succ fuel ih =>
    intro st pos hh ho h1 hn hf
    have hvpos : pq_virtual st pos node pos = node := by
      unfold pq_virtual
      rw [Function.update_same]
    by_cases hc : pos > 1 ∧
        jcv_halfedge_compare (st.he (st.items (pos / 2))) (st.he node) = true
    · have hq : pos / 2 ≠ pos := by omega
      have hvq : pq_virtual st pos node (pos / 2) = st.items (pos / 2) := by
        unfold pq_virtual
        rw [Function.update_noteq hq]
      obtain ⟨hh2, hv2⟩ := pq_hole_step kf Mem0 he0 node st pos (pos / 2) hh h1 hn (by omega)
        (by omega) hq
      have hkey : kf (pq_virtual st pos node pos) < kf (pq_virtual st pos node (pos / 2)) := by
        rw [hvpos, hvq, ← hh.1, ← hh.1, ← compare_eq_true_iff]
        exact hc.2
      have ho2 := up_ord_swap kf _ st.numitems pos ho (by omega) hn hkey
      rw [← hv2] at ho2
      have hres := ih _ (pos / 2) hh2 ho2 (by omega)
        (by show pos / 2 < st.numitems; omega) (by omega)
      have hloop : pq_moveup_loop node (fuel + 1) st pos
          = pq_moveup_loop node fuel
              (pq_set_pqpos (pq_set_item st pos (st.items (pos / 2)))
                ((pq_set_item st pos (st.items (pos / 2))).items pos) pos) (pos / 2) := by
        simp only [pq_moveup_loop, hc, and_self, if_true]
      rw [hloop]
      exact hres
    · have hloop : pq_moveup_loop node (fuel + 1) st pos = (st, pos) := by
        simp only [pq_moveup_loop, hc, if_false]
      rw [hloop]
      refine ⟨hh, rfl, rfl, h1, hn, up_ord_done kf _ st.numitems pos ho ?_⟩
      by_cases hp : pos ≤ 1
      · exact Or.inl hp
      · right
        have hq : pos / 2 ≠ pos := by omega
        have hvq : pq_virtual st pos node (pos / 2) = st.items (pos / 2) := by
          unfold pq_virtual
          rw [Function.update_noteq hq]
        rw [hvpos, hvq, ← hh.1, ← hh.1, ← compare_eq_false_iff]
        have : ¬ jcv_halfedge_compare (st.he (st.items (pos / 2))) (st.he node) = true :=
          fun hcon => hc ⟨by omega, hcon⟩
        simpa using this

theorem pq_maxchild_spec (kf : Nat → α ×ₗ α) (st : pq_state α) (pos : Nat)
    (hk : ∀ h, pq_key (st.he h) = kf h) (hpos : 1 ≤ pos) :
    (jcv_pq_maxchild st pos = 0 ∧ st.numitems ≤ 2 * pos) ∨
    (jcv_pq_maxchild st pos / 2 = pos ∧ 2 ≤ jcv_pq_maxchild st pos ∧
      jcv_pq_maxchild st pos < st.numitems ∧
      ∀ i, 2 ≤ i → i < st.numitems → i / 2 = pos →
        kf (st.items (jcv_pq_maxchild st pos)) ≤ kf (st.items i)) := by
  unfold jcv_pq_maxchild
  by_cases h1 : 2 * pos ≥ st.numitems
  · left
    simp only [h1, if_true, true_and]
  · right
    simp only [h1, if_false]
    by_cases h2 : 2 * pos + 1 < st.numitems ∧
        jcv_halfedge_compare (st.he (st.items (2 * pos))) (st.he (st.items (2 * pos + 1))) = true
    · rw [if_pos h2]
      refine ⟨by omega, by omega, h2.1, ?_⟩
      intro i hi hin hip
      have hlt : kf (st.items (2 * pos + 1)) < kf (st.items (2 * pos)) := by
        rw [← hk, ← hk, ← compare_eq_true_iff]
        exact h2.2
      have hcases : i = 2 * pos ∨ i = 2 * pos + 1 := by omega
      rcases hcases with rfl | rfl
      · exact le_of_lt hlt
      · exact le_refl _
    · rw [if_neg h2]
      refine ⟨by omega, by omega, by omega, ?_⟩
      intro i hi hin hip
      have hcases : i = 2 * pos ∨ i = 2 * pos + 1 := by omega
      rcases hcases with rfl | rfl
      · exact le_refl _
      · rw [← hk, ← hk, ← compare_eq_false_iff]
        have : ¬ jcv_halfedge_compare (st.he (st.items (2 * pos)))
            (st.he (st.items (2 * pos + 1))) = true := fun hcon => h2 ⟨hin, hcon⟩
        simpa using this

theorem pq_movedown_loop_spec (kf : Nat → α ×ₗ α) (Mem0 : Nat → Prop)
    (he0 : Nat → jcv_halfedge α) (node : Nat) :
    ∀ (fuel : Nat) (st : pq_state α) (pos child : Nat), pq_hole kf Mem0 he0 node st pos →
      down_ord kf (pq_virtual st pos node) st.numitems pos → 1 ≤ pos → pos < st.numitems →
      child = jcv_pq_maxchild st pos → st.numitems ≤ pos + fuel →
      pq_hole kf Mem0 he0 node (pq_movedown_loop node fuel st pos child).1
          (pq_movedown_loop node fuel st pos child).2 ∧
        (pq_movedown_loop node fuel st pos child).1.numitems = st.numitems ∧
        (pq_movedown_loop node fuel st pos child).1.maxnumitems = st.maxnumitems ∧
        1 ≤ (pq_movedown_loop node fuel st pos child).2 ∧
        (pq_movedown_loop node fuel st pos child).2 < st.numitems ∧
        ∀ i, 2 ≤ i → i < st.numitems →
          kf (pq_virtual (pq_movedown_loop node fuel st pos child).1
              (pq_movedown_loop node fuel st pos child).2 node (i / 2))
            ≤ kf (pq_virtual (pq_movedown_loop node fuel st pos child).1
              (pq_movedown_loop node fuel st pos child).2 node i) := by
  intro fuel
  induction fuel with
  | zero =>
    intro st pos child _ _ _ hn _ hf
    omega
  | succ fuel ih =>
    intro st pos child hh ho h1 hn hchild hf
    have hvpos : pq_virtual st pos node pos = node := by
      unfold pq_virtual
      rw [Function.update_same]
    have hvne : ∀ i, i ≠ pos → pq_virtual st pos node i = st.items i := by
      intro i hi
      unfold pq_virtual
      rw [Function.update_noteq hi]
    have hspec := pq_maxchild_spec kf st pos hh.1 h1
    rw [← hchild] at hspec
    by_cases hc : child ≠ 0 ∧
        jcv_halfedge_compare (st.he node) (st.he (st.items child)) = true
    · rcases hspec with ⟨h0, _⟩ | ⟨hc1, hc2, hc3, hmin⟩
      · exact absurd h0 hc.1
      · have hcp : child ≠ pos := by omega
        obtain ⟨hh2, hv2⟩ := pq_hole_step kf Mem0 he0 node st pos child hh h1 hn (by omega)
          hc3 hcp
        have hkey : kf (pq_virtual st pos node child) < kf (pq_virtual st pos node pos) := by
          rw [hvpos, hvne child hcp, ← hh.1, ← hh.1, ← compare_eq_true_iff]
          exact hc.2
        have hmin2 : ∀ i, 2 ≤ i → i < st.numitems → i / 2 = pos →
            kf (pq_virtual st pos node child) ≤ kf (pq_virtual st pos node i) := by
          intro i hi hin hip
          rw [hvne child hcp, hvne i (by omega)]
          exact hmin i hi hin hip
        have ho2 := down_ord_swap kf _ st.numitems pos child ho hc1 hc2 hc3 hkey hmin2
        rw [← hv2] at ho2
        have hres := ih _ child _ hh2 ho2 (by omega) (by show child < st.numitems; omega) rfl
          (by show st.numitems ≤ child + fuel; omega)
        have hloop : pq_movedown_loop node (fuel + 1) st pos child
            = pq_movedown_loop node fuel
                (pq_set_pqpos (pq_set_item st pos (st.items child))
                  ((pq_set_item st pos (st.items child)).items pos) pos) child
                (jcv_pq_maxchild (pq_set_pqpos (pq_set_item st pos (st.items child))
                  ((pq_set_item st pos (st.items child)).items pos) pos) child) := by
          simp only [pq_movedown_loop, hc, and_self, if_true, ne_eq, not_false_eq_true]
        rw [hloop]
        exact hres
    · have hloop : pq_movedown_loop node (fuel + 1) st pos child = (st, pos) := by
        simp only [pq_movedown_loop, hc, if_false]
      rw [hloop]
      refine ⟨hh, rfl, rfl, h1, hn, down_ord_done kf _ st.numitems pos ho ?_⟩
      intro i hi hin hip
      rw [hvpos, hvne i (by omega)]
      rcases hspec with ⟨_, h0⟩ | ⟨hc1, hc2, hc3, hmin⟩
      · omega
      · refine le_trans ?_ (hmin i hi hin hip)
        rw [← hh.1, ← hh.1, ← compare_eq_false_iff]
        have : ¬ jcv_halfedge_compare (st.he node) (st.he (st.items child)) = true :=
          fun hcon => hc ⟨by omega, hcon⟩
        simpa using this

theorem pq_moveup_spec (kf : Nat → α ×ₗ α) (Mem0 : Nat → Prop) (he0 : Nat → jcv_halfedge α)
    (st : pq_state α) (pos : Nat) (hh : pq_hole kf Mem0 he0 (st.items pos) st pos)
    (ho : up_ord kf (pq_virtual st pos (st.items pos)) st.numitems pos) (h1 : 1 ≤ pos)
    (hn : pos < st.numitems) :
    pq_inv (jcv_pq_moveup st pos).1 ∧
    (∀ x, pq_mem (jcv_pq_moveup st pos).1 x ↔ Mem0 x) ∧
    (∀ x, pq_key ((jcv_pq_moveup st pos).1.he x) = kf x) ∧
    (∀ x, ¬ Mem0 x → (jcv_pq_moveup st pos).1.he x = he0 x) ∧
    (jcv_pq_moveup st pos).1.numitems = st.numitems ∧
    (jcv_pq_moveup st pos).1.maxnumitems = st.maxnumitems := by
  obtain ⟨hh2, hnum, hmax, hr1, hrn, hheap⟩ :=
    pq_moveup_loop_spec kf Mem0 he0 (st.items pos) pos st pos hh ho h1 hn (le_refl _)
  obtain ⟨g1, g2, g3, g4, g5, g6⟩ := pq_hole_fill kf Mem0 he0 (st.items pos) _ _ hh2 hr1
    (hrn.trans_eq hnum.symm) (fun i hi hin => hheap i hi (hin.trans_eq hnum))
  exact ⟨g1, g2, g3, g4, g5.trans hnum, g6.trans hmax⟩

theorem pq_fill_comm (st : pq_state α) (p node : Nat) :
    pq_set_pqpos (pq_set_item st p node) ((pq_set_item st p node).items p) p
      = pq_set_item (pq_set_pqpos st node p) p node := by
  unfold pq_set_pqpos pq_set_item
  simp only [Function.update_same]

theorem pq_movedown_spec (kf : Nat → α ×ₗ α) (Mem0 : Nat → Prop) (he0 : Nat → jcv_halfedge α)
    (st : pq_state α) (pos : Nat) (hh : pq_hole kf Mem0 he0 (st.items pos) st pos)
    (ho : down_ord kf (pq_virtual st pos (st.items pos)) st.numitems pos) (h1 : 1 ≤ pos)
    (hn : pos < st.numitems) :
    pq_inv (jcv_pq_movedown st pos).1 ∧
    (∀ x, pq_mem (jcv_pq_movedown st pos).1 x ↔ Mem0 x) ∧
    (∀ x, pq_key ((jcv_pq_movedown st pos).1.he x) = kf x) ∧
    (∀ x, ¬ Mem0 x → (jcv_pq_movedown st pos).1.he x = he0 x) ∧
    (jcv_pq_movedown st pos).1.numitems = st.numitems ∧
    (jcv_pq_movedown st pos).1.maxnumitems = st.maxnumitems := by
  obtain ⟨hh2, hnum, hmax, hr1, hrn, hheap⟩ :=
    pq_movedown_loop_spec kf Mem0 he0 (st.items pos) st.numitems st pos _ hh ho h1 hn rfl
      (by omega)
  obtain ⟨g1, g2, g3, g4, g5, g6⟩ := pq_hole_fill kf Mem0 he0 (st.items pos) _ _ hh2 hr1
    (hrn.trans_eq hnum.symm) (fun i hi hin => hheap i hi (hin.trans_eq hnum))
  have heq : (jcv_pq_movedown st pos).1
      = pq_set_item (pq_set_pqpos
          (pq_movedown_loop (st.items pos) st.numitems st pos (jcv_pq_maxchild st pos)).1
          (st.items pos)
          (pq_movedown_loop (st.items pos) st.numitems st pos (jcv_pq_maxchild st pos)).2)
          (pq_movedown_loop (st.items pos) st.numitems st pos (jcv_pq_maxchild st pos)).2
          (st.items pos) := by
    unfold jcv_pq_movedown
    simp only []
    rw [pq_fill_comm]
  rw [heq]
  exact ⟨g1, g2, g3, g4, g5.trans hnum, g6.trans hmax⟩

theorem pq_movedown_outside (st : pq_state α) (pos : Nat) (hn : 1 ≤ st.numitems)
    (hout : st.numitems ≤ 2 * pos) :
    (jcv_pq_movedown st pos).1 = pq_set_item (pq_set_pqpos st (st.items pos) pos) pos
      (st.items pos) := by
  have hchild : jcv_pq_maxchild st pos = 0 := by
    unfold jcv_pq_maxchild
    simp only [ge_iff_le, hout, if_true]
  obtain ⟨m, hm⟩ : ∃ m, st.numitems = m + 1 := ⟨st.numitems - 1, by omega⟩
  unfold jcv_pq_movedown
  simp only [hchild, hm, pq_movedown_loop, ne_eq, not_true_eq_false, false_and, if_false]
  rw [pq_fill_comm]

theorem pq_inv_outside (st st' : pq_state α) (hinv : pq_inv st)
    (hnum : st'.numitems = st.numitems)
    (hitems : ∀ i, 1 ≤ i → i < st.numitems → st'.items i = st.items i)
    (hhe : ∀ x, pq_mem st x → st'.he x = st.he x) :
    pq_inv st' ∧ ∀ x, pq_mem st' x ↔ pq_mem st x := by
  obtain ⟨h1, hheap, hback⟩ := hinv
  refine ⟨⟨by omega, ?_, ?_⟩, ?_⟩
  · intro i hi hin
    rw [hnum] at hin
    rw [hitems i (by omega) hin, hitems (i / 2) (by omega) (by omega),
      hhe _ ⟨i, by omega, hin, rfl⟩, hhe _ ⟨i / 2, by omega, by omega, rfl⟩]
    exact hheap i hi hin
  · intro i hi hin
    rw [hnum] at hin
    rw [hitems i hi hin, hhe _ ⟨i, hi, hin, rfl⟩]
    exact hback i hi hin
  · intro x
    unfold pq_mem
    rw [hnum]
    constructor
    · rintro ⟨i, hi, hin, hx⟩
      exact ⟨i, hi, hin, by rw [← hitems i hi hin]; exact hx⟩
    · rintro ⟨i, hi, hin, hx⟩
      exact ⟨i, hi, hin, by rw [hitems i hi hin]; exact hx⟩

theorem pq_backptr_inj (st : pq_state α) (hinv : pq_inv st) (i j : Nat) (hi : 1 ≤ i)
    (hin : i < st.numitems) (hj : 1 ≤ j) (hjn : j < st.numitems)
    (h : st.items i = st.items j) : i = j := by
  have h1 := hinv.2.2 i hi hin
  have h2 := hinv.2.2 j hj hjn
  rw [h] at h1
  omega

end EventQueueProofs

section EventQueueCalls

variable {α : Type} [LinearOrder α]

theorem pq_push_spec (st : pq_state α) (h : Nat) (hinv : pq_inv st) (hnew : ¬ pq_mem st h)
    (hcap : st.numitems < st.maxnumitems) :
    ∃ st' p, jcv_pq_push st h = some (st', p) ∧
      pq_post st st' (fun x => pq_mem st x ∨ x = h) ∧ st'.numitems = st.numitems + 1 := by
  obtain ⟨hn1, hheap, hback⟩ := hinv
  have hpush : jcv_pq_push st h
      = some (jcv_pq_moveup
          (pq_set_item { st with numitems := st.numitems + 1 } st.numitems h) st.numitems) := by
    unfold jcv_pq_push
    rw [if_pos hcap]
  have hitem : (pq_set_item { st with numitems := st.numitems + 1 } st.numitems h).items
      st.numitems = h := by
    unfold pq_set_item
    simp only [Function.update_same]
  have hv : ∀ i, pq_virtual (pq_set_item { st with numitems := st.numitems + 1 } st.numitems h)
      st.numitems h i = if i = st.numitems then h else st.items i := by
    intro i
    unfold pq_virtual pq_set_item
    simp only [Function.update_apply]
    split_ifs <;> rfl
  have hhole : pq_hole (fun x => pq_key (st.he x)) (fun x => pq_mem st x ∨ x = h) st.he
      ((pq_set_item { st with numitems := st.numitems + 1 } st.numitems h).items st.numitems)
      (pq_set_item { st with numitems := st.numitems + 1 } st.numitems h) st.numitems := by
    rw [hitem]
    refine ⟨fun _ => rfl, ?_, ?_, ?_, fun _ _ => rfl⟩
    · intro i hi hin hne
      have hin' : i < st.numitems + 1 := hin
      show (st.he ((Function.update st.items st.numitems h) i)).pqpos = i
      rw [Function.update_noteq hne]
      exact hback i hi (by omega)
    · intro i j hi hin hj hjn hij
      have hin' : i < st.numitems + 1 := hin
      have hjn' : j < st.numitems + 1 := hjn
      rw [hv, hv] at hij
      by_cases h1 : i = st.numitems
      · by_cases h2 : j = st.numitems
        · omega
        · rw [if_pos h1, if_neg h2] at hij
          exact absurd ⟨j, hj, by omega, hij.symm⟩ hnew
      · by_cases h2 : j = st.numitems
        · rw [if_neg h1, if_pos h2] at hij
          exact absurd ⟨i, hi, by omega, hij⟩ hnew
        · rw [if_neg h1, if_neg h2] at hij
          exact pq_backptr_inj st ⟨hn1, hheap, hback⟩ i j hi (by omega) hj (by omega) hij
    · intro x
      constructor
      · rintro ⟨i, hi, hin, hx⟩
        have hin' : i < st.numitems + 1 := hin
        rw [hv] at hx
        by_cases h1 : i = st.numitems
        · rw [if_pos h1] at hx
          exact Or.inr hx.symm
        · rw [if_neg h1] at hx
          exact Or.inl ⟨i, hi, by omega, hx⟩
      · rintro (⟨i, hi, hin, hx⟩ | hx)
        · refine ⟨i, hi, ?_, ?_⟩
          · show i < st.numitems + 1
            omega
          · rw [hv, if_neg (by omega)]
            exact hx
        · refine ⟨st.numitems, hn1, ?_, ?_⟩
          · show st.numitems < st.numitems + 1
            omega
          · rw [hv, if_pos rfl, hx]
  have hord : up_ord (fun x => pq_key (st.he x))
      (pq_virtual (pq_set_item { st with numitems := st.numitems + 1 } st.numitems h)
        st.numitems
        ((pq_set_item { st with numitems := st.numitems + 1 } st.numitems h).items st.numitems))
      (pq_set_item { st with numitems := st.numitems + 1 } st.numitems h).numitems
      st.numitems := by
    rw [hitem]
    constructor
    · intro i hi hin hne
      have hin' : i < st.numitems + 1 := hin
      rw [hv, hv, if_neg hne, if_neg (by omega)]
      exact (compare_eq_false_iff _ _).1 (hheap i hi (by omega))
    · intro i hi hin hip
      have hin' : i < st.numitems + 1 := hin
      omega
  obtain ⟨g1, g2, g3, g4, g5, g6⟩ := pq_moveup_spec _ _ _ _ _ hhole hord hn1
    (by show st.numitems < st.numitems + 1; omega)
  refine ⟨_, _, hpush, ⟨g1, g2, g3, ?_, g6⟩, g5⟩
  intro x _ hx
  exact g4 x hx

theorem pq_hole_replace (st : pq_state α) (hinv : pq_inv st) (pos : Nat) (hpos : 1 ≤ pos)
    (hlt : pos < st.numitems - 1) :
    (pq_set_item { st with numitems := st.numitems - 1 } pos
      (st.items (st.numitems - 1))).items pos = st.items (st.numitems - 1) ∧
    (∀ i, pq_virtual (pq_set_item { st with numitems := st.numitems - 1 } pos
        (st.items (st.numitems - 1))) pos (st.items (st.numitems - 1)) i
      = if i = pos then st.items (st.numitems - 1) else st.items i) ∧
    pq_hole (fun x => pq_key (st.he x)) (fun x => pq_mem st x ∧ x ≠ st.items pos) st.he
      (st.items (st.numitems - 1))
      (pq_set_item { st with numitems := st.numitems - 1 } pos (st.items (st.numitems - 1)))
      pos := by
  have hitem : (pq_set_item { st with numitems := st.numitems - 1 } pos
      (st.items (st.numitems - 1))).items pos = st.items (st.numitems - 1) := by
    unfold pq_set_item
    simp only [Function.update_same]
  have hv : ∀ i, pq_virtual (pq_set_item { st with numitems := st.numitems - 1 } pos
        (st.items (st.numitems - 1))) pos (st.items (st.numitems - 1)) i
      = if i = pos then st.items (st.numitems - 1) else st.items i := by
    intro i
    unfold pq_virtual pq_set_item
    simp only [Function.update_apply]
    split_ifs <;> rfl
  have hinj := pq_backptr_inj st hinv
  refine ⟨hitem, hv, fun _ => rfl, ?_, ?_, ?_, fun _ _ => rfl⟩
  · intro i hi hin hne
    have hin' : i < st.numitems - 1 := hin
    show (st.he ((Function.update st.items pos (st.items (st.numitems - 1))) i)).pqpos = i
    rw [Function.update_noteq hne]
    exact hinv.2.2 i hi (by omega)
  · intro i j hi hin hj hjn hij
    have hin' : i < st.numitems - 1 := hin
    have hjn' : j < st.numitems - 1 := hjn
    rw [hv, hv] at hij
    have := hinj (if i = pos then st.numitems - 1 else i) (if j = pos then st.numitems - 1 else j)
      (by split_ifs <;> omega) (by split_ifs <;> omega) (by split_ifs <;> omega)
      (by split_ifs <;> omega) (by split_ifs at hij ⊢ <;> exact hij)
    split_ifs at this <;> omega
  · intro x
    constructor
    · rintro ⟨i, hi, hin, hx⟩
      have hin' : i < st.numitems - 1 := hin
      rw [hv] at hx
      by_cases h1 : i = pos
      · rw [if_pos h1] at hx
        refine ⟨⟨st.numitems - 1, by omega, by omega, hx⟩, ?_⟩
        intro hcon
        have := hinj (st.numitems - 1) pos (by omega) (by omega) hpos (by omega)
          (hx.trans hcon)
        omega
      · rw [if_neg h1] at hx
        refine ⟨⟨i, hi, by omega, hx⟩, ?_⟩
        intro hcon
        exact h1 (hinj i pos hi (by omega) hpos (by omega) (hx.trans hcon))
    · rintro ⟨⟨j, hj, hjn, hx⟩, hne⟩
      have hjp : j ≠ pos := by
        rintro rfl
        exact hne hx.symm
      by_cases h1 : j = st.numitems - 1
      · refine ⟨pos, hpos, hlt, ?_⟩
        rw [hv, if_pos rfl, ← h1]
        exact hx
      · refine ⟨j, hj, ?_, ?_⟩
        · show j < st.numitems - 1
          omega
        · rw [hv, if_neg hjp]
          exact hx

theorem pq_pop_spec (st : pq_state α) (hinv : pq_inv st) (hne : 1 < st.numitems) :
    (jcv_pq_pop st).1 = st.items 1 ∧
    pq_post st (jcv_pq_pop st).2 (fun x => pq_mem st x ∧ x ≠ st.items 1) ∧
    (jcv_pq_pop st).2.numitems = st.numitems - 1 := by
  refine ⟨rfl, ?_⟩
  have hpop : (jcv_pq_pop st).2
      = (jcv_pq_movedown (pq_set_item { st with numitems := st.numitems - 1 } 1
          (st.items (st.numitems - 1))) 1).1 := rfl
  rw [hpop]
  by_cases hlast : st.numitems = 2
  · rw [pq_movedown_outside _ 1 (by show 1 ≤ st.numitems - 1; omega)
      (by show st.numitems - 1 ≤ 2 * 1; omega)]
    have hempty : ∀ x, ¬ pq_mem (pq_set_item (pq_set_pqpos
        (pq_set_item { st with numitems := st.numitems - 1 } 1 (st.items (st.numitems - 1)))
        ((pq_set_item { st with numitems := st.numitems - 1 } 1
          (st.items (st.numitems - 1))).items 1) 1) 1
        ((pq_set_item { st with numitems := st.numitems - 1 } 1
          (st.items (st.numitems - 1))).items 1)) x := by
      rintro x ⟨i, hi, hin, _⟩
      have hin' : i < st.numitems - 1 := hin
      omega
    have hit : (pq_set_item { st with numitems := st.numitems - 1 } 1
        (st.items (st.numitems - 1))).items 1 = st.items 1 := by
      unfold pq_set_item
      simp only [Function.update_same]
      rw [show st.numitems - 1 = 1 by omega]
    refine ⟨⟨⟨by show 1 ≤ st.numitems - 1; omega, ?_, ?_⟩, ?_, ?_, ?_, rfl⟩, rfl⟩
    · intro i hi hin
      have hin' : i < st.numitems - 1 := hin
      omega
    · intro i hi hin
      have hin' : i < st.numitems - 1 := hin
      omega
    · intro x
      constructor
      · intro hx
        exact absurd hx (hempty x)
      · rintro ⟨⟨i, hi, hin, hx⟩, hne2⟩
        have : i = 1 := by omega
        rw [this] at hx
        exact absurd hx.symm hne2
    · intro x
      rw [hit]
      show pq_key ((Function.update st.he (st.items 1) { st.he (st.items 1) with pqpos := 1 }) x)
        = _
      by_cases hx : x = st.items 1
      · rw [hx, Function.update_same]
        rfl
      · rw [Function.update_noteq hx]
    · intro x hx _
      rw [hit]
      have hx1 : x ≠ st.items 1 := by
        rintro rfl
        exact hx ⟨1, le_refl _, hne, rfl⟩
      show (Function.update st.he (st.items 1) _) x = st.he x
      rw [Function.update_noteq hx1]
  · obtain ⟨hitem, hv, hhole⟩ := pq_hole_replace st hinv 1 (le_refl _) (by omega)
    have hord : down_ord (fun x => pq_key (st.he x))
        (pq_virtual (pq_set_item { st with numitems := st.numitems - 1 } 1
          (st.items (st.numitems - 1))) 1
          ((pq_set_item { st with numitems := st.numitems - 1 } 1
            (st.items (st.numitems - 1))).items 1))
        (pq_set_item { st with numitems := st.numitems - 1 } 1
          (st.items (st.numitems - 1))).numitems 1 := by
      rw [hitem]
      constructor
      · intro i hi hin hip
        have hin' : i < st.numitems - 1 := hin
        rw [hv, hv, if_neg hip, if_neg (by omega)]
        exact (compare_eq_false_iff _ _).1 (hinv.2.1 i hi (by omega))
      · intro i hi hin hip h2
        omega
    rw [← hitem] at hhole
    obtain ⟨g1, g2, g3, g4, g5, g6⟩ := pq_movedown_spec _ _ _ _ _ hhole hord (le_refl _)
      (by show 1 < st.numitems - 1; omega)
    refine ⟨⟨g1, g2, g3, ?_, g6⟩, g5⟩
    intro x _ hx
    exact g4 x hx

theorem pq_key_set_pqpos (st : pq_state α) (h p x : Nat) :
    pq_key ((pq_set_pqpos st h p).he x) = pq_key (st.he x) := by
  show pq_key ((Function.update st.he h { st.he h with pqpos := p }) x) = _
  by_cases hx : x = h
  · rw [hx, Function.update_same]
    rfl
  · rw [Function.update_noteq hx]

theorem pq_he_set_pqpos (st : pq_state α) (h p x : Nat) (hx : x ≠ h) :
    (pq_set_pqpos st h p).he x = st.he x := by
  show (Function.update st.he h { st.he h with pqpos := p }) x = _
  rw [Function.update_noteq hx]

theorem pq_set_pqpos_outside (st : pq_state α) (h p : Nat) (hinv : pq_inv st)
    (hout : ¬ pq_mem st h) :
    pq_inv (pq_set_pqpos st h p) ∧ ∀ x, pq_mem (pq_set_pqpos st h p) x ↔ pq_mem st x := by
  refine pq_inv_outside st _ hinv rfl (fun _ _ _ => rfl) ?_
  intro x hx
  exact pq_he_set_pqpos st h p x (fun hcon => hout (hcon ▸ hx))

theorem pq_remove_spec (st : pq_state α) (h : Nat) (hinv : pq_inv st)
    (hpre : pq_mem st h ∨ (st.he h).pqpos = 0) :
    pq_post st (jcv_pq_remove st h) (fun x => pq_mem st x ∧ x ≠ h) ∧
    (pq_mem st h → (jcv_pq_remove st h).numitems = st.numitems - 1) ∧
    (¬ pq_mem st h → jcv_pq_remove st h = st) := by
  by_cases hmem : pq_mem st h
  · obtain ⟨pos, hpos, hposn, hitem⟩ := hmem
    have hpq : (st.he h).pqpos = pos := by
      rw [← hitem]
      exact hinv.2.2 pos hpos hposn
    have hn1 : ¬ st.numitems = 1 := by omega
    have hp0 : ¬ pos = 0 := by omega
    have hinj := pq_backptr_inj st hinv
    have hrem : jcv_pq_remove st h
        = pq_set_pqpos
            (if jcv_halfedge_compare (st.he h) (st.he (st.items (st.numitems - 1))) = true then
              (jcv_pq_moveup (pq_set_item { st with numitems := st.numitems - 1 } pos
                (st.items (st.numitems - 1))) pos).1
            else (jcv_pq_movedown (pq_set_item { st with numitems := st.numitems - 1 } pos
                (st.items (st.numitems - 1))) pos).1) h pos := by
      unfold jcv_pq_remove
      simp only [hn1, if_false, hpq, hp0]
      unfold pq_set_item
      simp only [Function.update_same]
    rw [hrem]
    have hfinal : ∀ st3 : pq_state α, pq_inv st3 →
        (∀ x, pq_mem st3 x ↔ pq_mem st x ∧ x ≠ h) →
        (∀ x, pq_key (st3.he x) = pq_key (st.he x)) →
        (∀ x, ¬ (pq_mem st x ∧ x ≠ h) → x ≠ h → st3.he x = st.he x) →
        st3.numitems = st.numitems - 1 → st3.maxnumitems = st.maxnumitems →
        pq_post st (pq_set_pqpos st3 h pos) (fun x => pq_mem st x ∧ x ≠ h) ∧
        (pq_mem st h → (pq_set_pqpos st3 h pos).numitems = st.numitems - 1) ∧
        (¬ pq_mem st h → pq_set_pqpos st3 h pos = st) := by
      intro st3 g1 g2 g3 g4 g5 g6
      have hout : ¬ pq_mem st3 h := fun hc => ((g2 h).1 hc).2 rfl
      obtain ⟨k1, k2⟩ := pq_set_pqpos_outside st3 h pos g1 hout
      refine ⟨⟨k1, fun x => (k2 x).trans (g2 x), ?_, ?_, g6⟩, fun _ => g5, ?_⟩
      · intro x
        rw [pq_key_set_pqpos, g3]
      · intro x hx1 hx2
        have hxh : x ≠ h := by
          rintro rfl
          exact hx1 ⟨pos, hpos, hposn, hitem⟩
        rw [pq_he_set_pqpos _ _ _ _ hxh]
        exact g4 x hx2 hxh
      · intro hc
        exact absurd ⟨pos, hpos, hposn, hitem⟩ hc
    by_cases hlast : pos = st.numitems - 1
    · have hself : st.items (st.numitems - 1) = h := by rw [← hlast]; exact hitem
      have hcmp : ¬ jcv_halfedge_compare (st.he h) (st.he (st.items (st.numitems - 1))) = true := by
        rw [hself, compare_eq_true_iff]
        exact lt_irrefl _
      rw [if_neg hcmp, pq_movedown_outside _ pos (by show 1 ≤ st.numitems - 1; omega)
        (by show st.numitems - 1 ≤ 2 * pos; omega)]
      have hshrunk : pq_inv ({ st with numitems := st.numitems - 1 } : pq_state α) :=
        ⟨by show 1 ≤ st.numitems - 1; omega,
          fun i hi hin => hinv.2.1 i hi (by have : i < st.numitems - 1 := hin; omega),
          fun i hi hin => hinv.2.2 i hi (by have : i < st.numitems - 1 := hin; omega)⟩
      have hmem2 : ∀ x, pq_mem ({ st with numitems := st.numitems - 1 } : pq_state α) x ↔
          pq_mem st x ∧ x ≠ h := by
        intro x
        constructor
        · rintro ⟨i, hi, hin, hx⟩
          have hin' : i < st.numitems - 1 := hin
          refine ⟨⟨i, hi, by omega, hx⟩, ?_⟩
          rintro rfl
          have := hinj i pos hi (by omega) hpos hposn (hx.trans hitem.symm)
          omega
        · rintro ⟨⟨i, hi, hin, hx⟩, hne⟩
          refine ⟨i, hi, ?_, hx⟩
          show i < st.numitems - 1
          by_contra hcon
          have : i = pos := by omega
          rw [this, hitem] at hx
          exact hne hx.symm
      have hitem2 : (pq_set_item { st with numitems := st.numitems - 1 } pos
          (st.items (st.numitems - 1))).items pos = h := by
        unfold pq_set_item
        simp only [Function.update_same]
        exact hself
      rw [hitem2]
      obtain ⟨k1, k2⟩ := pq_inv_outside ({ st with numitems := st.numitems - 1 } : pq_state α)
        (pq_set_item (pq_set_pqpos (pq_set_item { st with numitems := st.numitems - 1 } pos
          (st.items (st.numitems - 1))) h pos) pos h) hshrunk rfl
        (by
          intro i hi hin
          have hin' : i < st.numitems - 1 := hin
          show (Function.update (Function.update st.items pos _) pos h) i = st.items i
          rw [Function.update_noteq (by omega), Function.update_noteq (by omega)])
        (by
          intro x hx
          have hxh : x ≠ h := ((hmem2 x).1 hx).2
          show (Function.update st.he h _) x = st.he x
          rw [Function.update_noteq hxh])
      refine hfinal _ k1 (fun x => (k2 x).trans (hmem2 x)) ?_ ?_ rfl rfl
      · intro x
        show pq_key ((Function.update st.he h { st.he h with pqpos := pos }) x) = _
        by_cases hx : x = h
        · rw [hx, Function.update_same]
          rfl
        · rw [Function.update_noteq hx]
      · intro x _ hxh
        show (Function.update st.he h _) x = st.he x
        rw [Function.update_noteq hxh]
    · obtain ⟨hitem2, hv, hhole⟩ := pq_hole_replace st hinv pos hpos (by omega)
      rw [hitem] at hhole
      have htrans : ∀ i, 2 ≤ i → i < st.numitems → i / 2 = pos → 2 ≤ pos →
          pq_key (st.he (st.items (pos / 2))) ≤ pq_key (st.he (st.items i)) := by
        intro i hi hin hip h2
        have a1 := (compare_eq_false_iff _ _).1 (hinv.2.1 pos h2 hposn)
        have a2 := (compare_eq_false_iff _ _).1 (hinv.2.1 i hi hin)
        rw [hip] at a2
        exact le_trans a1 a2
      by_cases hcmp : jcv_halfedge_compare (st.he h) (st.he (st.items (st.numitems - 1))) = true
      · rw [if_pos hcmp]
        have hord : up_ord (fun x => pq_key (st.he x))
            (pq_virtual (pq_set_item { st with numitems := st.numitems - 1 } pos
              (st.items (st.numitems - 1))) pos
              ((pq_set_item { st with numitems := st.numitems - 1 } pos
                (st.items (st.numitems - 1))).items pos))
            (pq_set_item { st with numitems := st.numitems - 1 } pos
              (st.items (st.numitems - 1))).numitems pos := by
          rw [hitem2]
          constructor
          · intro i hi hin hip
            have hin' : i < st.numitems - 1 := hin
            rw [hv, hv, if_neg hip]
            by_cases hpar : i / 2 = pos
            · rw [if_pos hpar]
              have a1 := (compare_eq_true_iff _ _).1 hcmp
              have a2 := (compare_eq_false_iff _ _).1 (hinv.2.1 i hi (by omega))
              rw [hpar, hitem] at a2
              exact le_trans (le_of_lt a1) a2
            · rw [if_neg hpar]
              exact (compare_eq_false_iff _ _).1 (hinv.2.1 i hi (by omega))
          · intro i hi hin hip h2
            have hin' : i < st.numitems - 1 := hin
            rw [hv, hv, if_neg (by omega), if_neg (by omega)]
            exact htrans i hi (by omega) hip h2
        have hhole2 : pq_hole (fun x => pq_key (st.he x)) (fun x => pq_mem st x ∧ x ≠ h) st.he
            ((pq_set_item { st with numitems := st.numitems - 1 } pos
              (st.items (st.numitems - 1))).items pos)
            (pq_set_item { st with numitems := st.numitems - 1 } pos
              (st.items (st.numitems - 1))) pos := by
          rw [hitem2]
          exact hhole
        obtain ⟨g1, g2, g3, g4, g5, g6⟩ := pq_moveup_spec _ _ _ _ _ hhole2 hord hpos
          (by show pos < st.numitems - 1; omega)
        exact hfinal _ g1 g2 g3 (fun x hx _ => g4 x hx) g5 g6
      · rw [if_neg hcmp]
        have hord : down_ord (fun x => pq_key (st.he x))
            (pq_virtual (pq_set_item { st with numitems := st.numitems - 1 } pos
              (st.items (st.numitems - 1))) pos
              ((pq_set_item { st with numitems := st.numitems - 1 } pos
                (st.items (st.numitems - 1))).items pos))
            (pq_set_item { st with numitems := st.numitems - 1 } pos
              (st.items (st.numitems - 1))).numitems pos := by
          rw [hitem2]
          constructor
          · intro i hi hin hip
            have hin' : i < st.numitems - 1 := hin
            rw [hv, hv, if_neg hip]
            by_cases hipos : i = pos
            · rw [if_pos hipos]
              have a1 : pq_key (st.he h) ≤ pq_key (st.he (st.items (st.numitems - 1))) := by
                rw [← compare_eq_false_iff]
                simpa using hcmp
              have a2 := (compare_eq_false_iff _ _).1 (hinv.2.1 i hi (by omega))
              rw [hipos, hitem] at a2
              rw [hipos]
              exact le_trans a2 a1
            · rw [if_neg hipos]
              exact (compare_eq_false_iff _ _).1 (hinv.2.1 i hi (by omega))
          · intro i hi hin hip h2
            have hin' : i < st.numitems - 1 := hin
            rw [hv, hv, if_neg (by omega), if_neg (by omega)]
            exact htrans i hi (by omega) hip h2
        have hhole2 : pq_hole (fun x => pq_key (st.he x)) (fun x => pq_mem st x ∧ x ≠ h) st.he
            ((pq_set_item { st with numitems := st.numitems - 1 } pos
              (st.items (st.numitems - 1))).items pos)
            (pq_set_item { st with numitems := st.numitems - 1 } pos
              (st.items (st.numitems - 1))) pos := by
          rw [hitem2]
          exact hhole
        obtain ⟨g1, g2, g3, g4, g5, g6⟩ := pq_movedown_spec _ _ _ _ _ hhole2 hord hpos
          (by show pos < st.numitems - 1; omega)
        exact hfinal _ g1 g2 g3 (fun x hx _ => g4 x hx) g5 g6
  · have hp0 : (st.he h).pqpos = 0 := hpre.resolve_left hmem
    have hrem : jcv_pq_remove st h = st := by
      unfold jcv_pq_remove
      simp only [hp0, if_true, ite_self]
    rw [hrem]
    refine ⟨⟨hinv, ?_, fun _ => rfl, fun _ _ _ => rfl, rfl⟩, fun hc => absurd hc hmem,
      fun _ => rfl⟩
    intro x
    constructor
    · intro hx
      exact ⟨hx, fun hc => hmem (hc ▸ hx)⟩
    · exact fun hx => hx.1

end EventQueueCalls

section EventQueueClaims

variable {α : Type} [LinearOrder α]

theorem pq_create_inv (capacity : Nat) (buffer : Nat → Nat) (he : Nat → jcv_halfedge α) :
    pq_inv (jcv_pq_create capacity buffer he) := by
  refine ⟨le_refl _, ?_, ?_⟩
  · intro i hi hin
    have : i < 1 := hin
    omega
  · intro i hi hin
    have : i < 1 := hin
    omega

theorem pq_write_inv (st : pq_state α) (h : Nat) (v : jcv_halfedge α) (hinv : pq_inv st)
    (hout : ¬ pq_mem st h) :
    pq_inv ({ st with he := Function.update st.he h v } : pq_state α) :=
  (pq_inv_outside st ({ st with he := Function.update st.he h v } : pq_state α) hinv rfl
    (fun _ _ _ => rfl) (fun x hx => by
      show (Function.update st.he h v) x = st.he x
      have hxh : x ≠ h := fun hcon => hout (by rw [← hcon]; exact hx)
      rw [Function.update_noteq hxh])).1

theorem pq_reachable_inv (st : pq_state α) (h : pq_reachable st) : pq_inv st := by
  induction h with
  | create capacity buffer he => exact pq_create_inv capacity buffer he
  | push st h st' p _ hnew hpush ih =>
    have hcap : st.numitems < st.maxnumitems := by
      by_contra hcon
      unfold jcv_pq_push at hpush
      rw [if_neg hcon] at hpush
      cases hpush
    obtain ⟨st2, p2, hp2, hpost, _⟩ := pq_push_spec st h ih hnew hcap
    rw [hpush] at hp2
    cases hp2
    exact hpost.1
  | pop st _ hne ih => exact (pq_pop_spec st ih hne).2.1.1
  | remove st h _ hpre ih => exact (pq_remove_spec st h ih hpre).1.1
  | write st h v _ hout ih => exact pq_write_inv st h v ih hout

theorem pq_top_is_least (st : pq_state α) (hinv : pq_inv st) :
    ∀ i, 1 ≤ i → i < st.numitems →
      pq_key (st.he (st.items 1)) ≤ pq_key (st.he (st.items i)) := by
  intro i
  induction i using Nat.strong_induction_on with
  | _ i ih =>
    intro hi hin
    by_cases h1 : i = 1
    · rw [h1]
    · have hpar := (compare_eq_false_iff _ _).1 (hinv.2.1 i (by omega) hin)
      exact le_trans (ih (i / 2) (by omega) (by omega) (by omega)) hpar

theorem pq_key_le_iff (a b : jcv_halfedge α) :
    pq_key a ≤ pq_key b ↔ a.y < b.y ∨ (a.y = b.y ∧ a.vertex_x ≤ b.vertex_x) := by
  unfold pq_key
  exact Prod.Lex.le_iff _ _

/-- C25, amended. Heap invariant with back-pointers: on a queue whose slots
`items[1 .. numitems)` are a binary min-heap under `jcv_halfedge_compare` and
whose stored half-edges point back to their slots, so that `items[h.pqpos] == h`
for every stored `h`, a push of a half-edge that is not stored, a pop from a
queue that is not empty, and a remove of a half-edge `g` that is stored or has
`pqpos == 0` keep the invariant; the push adds its half-edge, the pop removes the
returned one, and the remove removes exactly `g` and leaves every other member in
the queue; a remove of a `g` that is not stored changes nothing. -/
theorem heap_invariant_with_backpointers (st : pq_state α) (h g : Nat) (hinv : pq_inv st) :
    (∀ x, pq_mem st x → st.items (st.he x).pqpos = x) ∧
    (¬ pq_mem st h → st.numitems < st.maxnumitems →
      ∃ st' p, jcv_pq_push st h = some (st', p) ∧ pq_inv st' ∧
        st'.numitems = st.numitems + 1 ∧ ∀ x, pq_mem st' x ↔ pq_mem st x ∨ x = h) ∧
    (1 < st.numitems →
      pq_inv (jcv_pq_pop st).2 ∧ (jcv_pq_pop st).2.numitems = st.numitems - 1 ∧
        ∀ x, pq_mem (jcv_pq_pop st).2 x ↔ pq_mem st x ∧ x ≠ (jcv_pq_pop st).1) ∧
    (pq_mem st g ∨ (st.he g).pqpos = 0 →
      pq_inv (jcv_pq_remove st g) ∧
        (pq_mem st g → (jcv_pq_remove st g).numitems = st.numitems - 1) ∧
        (¬ pq_mem st g → jcv_pq_remove st g = st) ∧
        ∀ x, pq_mem (jcv_pq_remove st g) x ↔ pq_mem st x ∧ x ≠ g) := by
  refine ⟨?_, ?_, ?_, ?_⟩
  · rintro x ⟨i, hi, hin, rfl⟩
    rw [hinv.2.2 i hi hin]
  · intro hnew hcap
    obtain ⟨st', p, hp, hpost, hnum⟩ := pq_push_spec st h hinv hnew hcap
    exact ⟨st', p, hp, hpost.1, hnum, hpost.2.1⟩
  · intro hne
    obtain ⟨h1, hpost, hnum⟩ := pq_pop_spec st hinv hne
    refine ⟨hpost.1, hnum, ?_⟩
    rw [h1]
    exact hpost.2.1
  · intro hpre
    obtain ⟨hpost, hnum, hsame⟩ := pq_remove_spec st g hinv hpre
    exact ⟨hpost.1, hnum, hsame, hpost.2.1⟩

/-- C24, amended. The event queue is a min-priority queue when every push is of
a half-edge that is not stored, every pop is from a queue that is not empty and
every remove is of a half-edge that is stored or has `pqpos == 0`: in every
queue that such calls lead to from a queue just created (`pq_reachable`),
`jcv_pq_top` is a stored half-edge whose key `(y, vertex.x)` is
lexicographically least among the stored half-edges, `jcv_pq_pop` returns that
half-edge and removes exactly it, and `jcv_pq_empty` says whether a half-edge is
stored. -/
theorem event_queue_is_min_queue (st : pq_state α) (hreach : pq_reachable st) :
    (jcv_pq_empty st = true ↔ ∀ x, ¬ pq_mem st x) ∧
    (∀ x, pq_mem st x →
      pq_mem st (jcv_pq_top st) ∧
      jcv_halfedge_compare (st.he (jcv_pq_top st)) (st.he x) = false ∧
      ((st.he (jcv_pq_top st)).y < (st.he x).y ∨
        ((st.he (jcv_pq_top st)).y = (st.he x).y ∧
          (st.he (jcv_pq_top st)).vertex_x ≤ (st.he x).vertex_x))) ∧
    (1 < st.numitems →
      (jcv_pq_pop st).1 = jcv_pq_top st ∧
      (jcv_pq_pop st).2.numitems = st.numitems - 1 ∧
      (∀ x, pq_mem (jcv_pq_pop st).2 x ↔ pq_mem st x ∧ x ≠ jcv_pq_top st) ∧
      (∀ x, pq_key ((jcv_pq_pop st).2.he x) = pq_key (st.he x))) := by
  have hinv := pq_reachable_inv st hreach
  refine ⟨?_, ?_, ?_⟩
  · unfold jcv_pq_empty
    rw [decide_eq_true_eq]
    constructor
    · rintro h1 x ⟨i, hi, hin, _⟩
      omega
    · intro h1
      by_contra hcon
      exact h1 (st.items 1) ⟨1, le_refl _, by have := hinv.1; omega, rfl⟩
  · rintro x ⟨i, hi, hin, rfl⟩
    have hle := pq_top_is_least st hinv i hi hin
    exact ⟨⟨1, le_refl _, by omega, rfl⟩, (compare_eq_false_iff _ _).2 hle,
      (pq_key_le_iff _ _).1 hle⟩
  · intro hne
    obtain ⟨h1, hpost, hnum⟩ := pq_pop_spec st hinv hne
    exact ⟨h1, hnum, hpost.2.1, hpost.2.2.1⟩

end EventQueueClaims

theorem sample_queue_reachable : pq_reachable sample_queue := by
  have h0 : pq_reachable sample_queue0 := pq_reachable.create 4 _ _
  have hn0 : ¬ pq_mem sample_queue0 5 := by
    rintro ⟨i, h1, h2, _⟩
    have h2' : i < 1 := h2
    omega
  have h1 : pq_reachable (pq_pushed sample_queue0 5) :=
    pq_reachable.push sample_queue0 5 (pq_pushed sample_queue0 5) 1 h0 hn0 rfl
  have hn1 : ¬ pq_mem (pq_pushed sample_queue0 5) 7 := by
    rintro ⟨i, h1, h2, hx⟩
    have h2' : i < 2 := h2
    have hi : i = 1 := by omega
    subst hi
    exact absurd hx (by decide)
  exact pq_reachable.push (pq_pushed sample_queue0 5) 7 sample_queue 1 h1 hn1 rfl

/-- C24, amended, on the queue of capacity `4` after the pushes of the half-edges `5` (key
`(2, 0)`) and `7` (key `(1, 0)`): the top is `7`, and the pop returns it. -/
theorem event_queue_is_min_queue_witness :
    pq_reachable sample_queue ∧
    jcv_pq_top sample_queue = 7 ∧ (jcv_pq_pop sample_queue).1 = 7 ∧
    jcv_pq_top (jcv_pq_pop sample_queue).2 = 5 ∧
    ((jcv_pq_empty sample_queue = true ↔ ∀ x, ¬ pq_mem sample_queue x) ∧
    (∀ x, pq_mem sample_queue x →
      pq_mem sample_queue (jcv_pq_top sample_queue) ∧
      jcv_halfedge_compare (sample_queue.he (jcv_pq_top sample_queue)) (sample_queue.he x)
        = false ∧
      ((sample_queue.he (jcv_pq_top sample_queue)).y < (sample_queue.he x).y ∨
        ((sample_queue.he (jcv_pq_top sample_queue)).y = (sample_queue.he x).y ∧
          (sample_queue.he (jcv_pq_top sample_queue)).vertex_x
            ≤ (sample_queue.he x).vertex_x))) ∧
    (1 < sample_queue.numitems →
      (jcv_pq_pop sample_queue).1 = jcv_pq_top sample_queue ∧
      (jcv_pq_pop sample_queue).2.numitems = sample_queue.numitems - 1 ∧
      (∀ x, pq_mem (jcv_pq_pop sample_queue).2 x
        ↔ pq_mem sample_queue x ∧ x ≠ jcv_pq_top sample_queue) ∧
      (∀ x, pq_key ((jcv_pq_pop sample_queue).2.he x) = pq_key (sample_queue.he x)))) :=
  ⟨sample_queue_reachable, by decide, by decide, by decide,
    event_queue_is_min_queue sample_queue sample_queue_reachable⟩

/-- C25, amended, on the queue of capacity `4` that stores the half-edges `5` and `7`: a
push of `3`, a pop, and the remove of `5`. -/
theorem heap_invariant_with_backpointers_witness :
    pq_inv sample_queue ∧
    (jcv_pq_remove sample_queue 5).numitems = 2 ∧
    jcv_pq_top (jcv_pq_remove sample_queue 5) = 7 ∧
    ((∀ x, pq_mem sample_queue x → sample_queue.items (sample_queue.he x).pqpos = x) ∧
    (¬ pq_mem sample_queue 3 → sample_queue.numitems < sample_queue.maxnumitems →
      ∃ st' p, jcv_pq_push sample_queue 3 = some (st', p) ∧ pq_inv st' ∧
        st'.numitems = sample_queue.numitems + 1 ∧
        ∀ x, pq_mem st' x ↔ pq_mem sample_queue x ∨ x = 3) ∧
    (1 < sample_queue.numitems →
      pq_inv (jcv_pq_pop sample_queue).2 ∧
        (jcv_pq_pop sample_queue).2.numitems = sample_queue.numitems - 1 ∧
        ∀ x, pq_mem (jcv_pq_pop sample_queue).2 x
          ↔ pq_mem sample_queue x ∧ x ≠ (jcv_pq_pop sample_queue).1) ∧
    (pq_mem sample_queue 5 ∨ (sample_queue.he 5).pqpos = 0 →
      pq_inv (jcv_pq_remove sample_queue 5) ∧
        (pq_mem sample_queue 5 →
          (jcv_pq_remove sample_queue 5).numitems = sample_queue.numitems - 1) ∧
        (¬ pq_mem sample_queue 5 → jcv_pq_remove sample_queue 5 = sample_queue) ∧
        ∀ x, pq_mem (jcv_pq_remove sample_queue 5) x ↔ pq_mem sample_queue x ∧ x ≠ 5)) :=
  ⟨pq_reachable_inv sample_queue sample_queue_reachable, by decide, by decide,
    heap_invariant_with_backpointers sample_queue 3 5
      (pq_reachable_inv sample_queue sample_queue_reachable)⟩

/-- C24, counterexample. On a queue of capacity `16` the calls `push(1)`,
`push(20)`, `remove(20)`, `push(5)`, `push(9)`, `push(6)`, `push(7)`, `push(10)`,
`push(11)`, `push(8)` fill eight slots. The half-edge `20` is no longer stored
but keeps the `pqpos = 2` that `jcv_pq_remove` wrote back, so a second
`remove(20)` overwrites slot `2`, which drops `5`, and moves nothing down. The
next pop returns `1` and leaves `8` on top although `6` is stored. -/
theorem stale_remove_breaks_min_queue :
    trace_queue.numitems = 9 ∧ trace_queue.maxnumitems = 16 ∧
    ¬ pq_mem trace_queue 20 ∧ (trace_queue.he 20).pqpos = 2 ∧
    pq_mem trace_queue 5 ∧ ¬ pq_mem (jcv_pq_remove trace_queue 20) 5 ∧
    (jcv_pq_pop (jcv_pq_remove trace_queue 20)).1 = 1 ∧
    jcv_pq_top (jcv_pq_pop (jcv_pq_remove trace_queue 20)).2 = 8 ∧
    pq_mem (jcv_pq_pop (jcv_pq_remove trace_queue 20)).2 6 ∧
    jcv_halfedge_compare ((jcv_pq_pop (jcv_pq_remove trace_queue 20)).2.he 8)
      ((jcv_pq_pop (jcv_pq_remove trace_queue 20)).2.he 6) = true := by
  decide!

/-- C25, counterexample. The queue `trace_queue` satisfies the invariant, and the
half-edge `20` is not stored in it but has `pqpos = 2` from its earlier removal;
`jcv_pq_remove` of that half-edge puts the last item `8` into slot `2` above the
items `6` and `7`, so the slots are no longer a heap. -/
theorem stale_remove_breaks_heap :
    pq_inv trace_queue ∧ ¬ pq_mem trace_queue 20 ∧ (trace_queue.he 20).pqpos = 2 ∧
    (jcv_pq_remove trace_queue 20).items 2 = 8 ∧
    (jcv_pq_remove trace_queue 20).items 4 = 6 ∧
    4 < (jcv_pq_remove trace_queue 20).numitems ∧
    ¬ pq_heap (jcv_pq_remove trace_queue 20) := by
  decide!

section BeachLine

theorem he_right_of_not_mem (l : List Nat) (x : Nat) (hx : x ∉ l) : he_right l x = 0 := by
  induction l with
  | nil => rfl
  | cons a t ih =>
    cases t with
    | nil => rfl
    | cons b t =>
      have ha : a ≠ x := fun h => hx (by rw [h]; exact List.mem_cons_self _ _)
      simp only [he_right, if_neg ha]
      exact ih (fun h => hx (List.mem_cons_of_mem _ h))

theorem he_right_append_right (X C : List Nat) (x : Nat) (hx : x ∉ X) :
    he_right (X ++ C) x = he_right C x := by
  induction X with
  | nil => rfl
  | cons a X ih =>
    have ha : a ≠ x := fun h => hx (by rw [h]; exact List.mem_cons_self _ _)
    have hx2 : x ∉ X := fun h => hx (List.mem_cons_of_mem _ h)
    rw [← ih hx2, List.cons_append]
    generalize X ++ C = l
    cases l with
    | nil => rfl
    | cons b t => simp only [he_right, if_neg ha]

theorem he_right_append_left (A Y : List Nat) (a x : Nat) (hx : x ∈ A) :
    he_right (A ++ a :: Y) x = he_right (A ++ [a]) x := by
  induction A with
  | nil => simp at hx
  | cons b A ih =>
    cases A with
    | nil =>
      simp only [List.mem_singleton] at hx
      subst hx
      simp [he_right]
    | cons c A =>
      by_cases hb : b = x
      · simp [he_right, hb]
      · have hx2 : x ∈ c :: A := by
          rcases List.mem_cons.1 hx with h | h
          · exact absurd h.symm hb
          · exact h
        have := ih hx2
        simp only [List.cons_append, he_right, if_neg hb] at this ⊢
        exact this

theorem he_right_at (p s : List Nat) (x y : Nat) (hx : x ∉ p) :
    he_right (p ++ x :: y :: s) x = y := by
  rw [he_right_append_right p _ x hx]
  simp [he_right]

theorem he_left_of_not_mem (l : List Nat) (x : Nat) (hx : x ∉ l) : he_left l x = 0 := by
  induction l with
  | nil => rfl
  | cons a t ih =>
    cases t with
    | nil => rfl
    | cons b t =>
      have hb : b ≠ x := fun h =>
        hx (by rw [← h]; exact List.mem_cons_of_mem _ (List.mem_cons_self _ _))
      simp only [he_left, if_neg hb]
      exact ih (fun h => hx (List.mem_cons_of_mem _ h))

theorem he_left_at (p s : List Nat) (z x : Nat) (hx : x ∉ p) (hz : z ≠ x) :
    he_left (p ++ z :: x :: s) x = z := by
  induction p with
  | nil => simp [he_left]
  | cons a p ih =>
    have hx2 : x ∉ p := fun h => hx (List.mem_cons_of_mem _ h)
    have ha : a ≠ x := fun h => hx (by rw [h]; exact List.mem_cons_self _ _)
    cases p with
    | nil =>
      simp only [List.cons_append, List.nil_append, he_left, if_neg hz]
      simp
    | cons b p =>
      have hb : b ≠ x := fun h => hx2 (by rw [h]; exact List.mem_cons_self _ _)
      have := ih hx2
      simp only [List.cons_append, he_left, if_neg hb] at this ⊢
      exact this

theorem link_at (p s : List Nat) (x n : Nat) (hx : x ∉ p) :
    jcv_halfedge_link (p ++ x :: s) x n = p ++ x :: n :: s := by
  induction p with
  | nil => simp [jcv_halfedge_link]
  | cons a p ih =>
    have ha : a ≠ x := fun h => hx (by rw [h]; exact List.mem_cons_self _ _)
    show (if a = x then a :: n :: (p ++ x :: s) else a :: jcv_halfedge_link (p ++ x :: s) x n)
      = a :: (p ++ x :: n :: s)
    rw [if_neg ha, ih (fun h => hx (List.mem_cons_of_mem _ h))]

theorem unlink_at (p s : List Nat) (x : Nat) (hx : x ∉ p) :
    jcv_halfedge_unlink (p ++ x :: s) x = p ++ s := by
  unfold jcv_halfedge_unlink
  rw [List.erase_append_right _ hx, List.erase_cons_head]

end BeachLine

section BeachWalk

variable {α : Type} [LinearOrder α]

theorem line_last_iff (line l1 l2 : List Nat) (x e : Nat) (hnd : line.Nodup)
    (hlast : line.getLast? = some e) (h : line = l1 ++ x :: l2) : l2 = [] ↔ x = e := by
  subst h
  rw [List.getLast?_append_cons] at hlast
  constructor
  · rintro rfl
    simpa using hlast
  · rintro rfl
    by_contra hne
    have hmem : x ∈ l2 := by
      rcases List.eq_nil_or_concat l2 with h | ⟨L, b, h⟩
      · exact absurd h hne
      · subst h
        rw [List.concat_eq_append, ← List.cons_append, List.getLast?_concat] at hlast
        cases hlast
        simp
    have := (List.nodup_append.1 hnd).2.1
    exact (List.nodup_cons.1 this).1 hmem

theorem line_head_iff (line l1 l2 : List Nat) (x e : Nat) (hnd : line.Nodup)
    (hhead : line.head? = some e) (h : line = l1 ++ x :: l2) : l1 = [] ↔ x = e := by
  subst h
  constructor
  · rintro rfl
    simpa using hhead
  · rintro rfl
    cases l1 with
    | nil => rfl
    | cons a l1 =>
      simp only [List.cons_append, List.head?_cons, Option.some.injEq] at hhead
      subst hhead
      exact absurd (List.mem_append_right _ (List.mem_cons_self _ _))
        (List.nodup_cons.1 hnd).1

theorem walk_right_spec (rightof : Nat → Bool) (line : List Nat) (end_ : Nat)
    (hnd : line.Nodup) (hnz : ∀ x ∈ line, x ≠ 0) (hlast : line.getLast? = some end_) :
    ∀ (fuel : Nat) (l1 : List Nat) (he : Nat) (l2 : List Nat),
      line = l1 ++ he :: l2 → l2 ≠ [] → l2.length ≤ fuel →
      ∃ p left r s, line = p ++ left :: r :: s ∧
        walk_right rightof line end_ fuel he = some r := by
  intro fuel
  induction fuel with
  | zero =>
    intro l1 he l2 _ hne hlen
    exact absurd (List.length_eq_zero.1 (Nat.le_zero.1 hlen)) hne
  | succ fuel ih =>
    intro l1 he l2 hline hne hlen
    cases l2 with
    | nil => exact absurd rfl hne
    | cons y l2 =>
      have hnd2 : (l1 ++ he :: y :: l2).Nodup := hline ▸ hnd
      have hhe : he ∉ l1 := fun h =>
        (List.nodup_append.1 hnd2).2.2 h (List.mem_cons_self _ _)
      have hr : he_right line he = y := by rw [hline]; exact he_right_at l1 l2 he y hhe
      have hy0 : y ≠ 0 := hnz y (by rw [hline]; simp)
      by_cases hc : y ≠ end_ ∧ rightof y = true
      · have hline2 : line = (l1 ++ [he]) ++ y :: l2 := by rw [hline]; simp
        have hne2 : l2 ≠ [] := fun h =>
          hc.1 ((line_last_iff line _ _ y end_ hnd hlast hline2).1 h)
        obtain ⟨p, left, r, s, h1, h2⟩ := ih (l1 ++ [he]) y l2 hline2 hne2
          (by simp only [List.length_cons] at hlen; omega)
        refine ⟨p, left, r, s, h1, ?_⟩
        simp only [walk_right, hr, if_neg hy0, if_pos hc]
        exact h2
      · refine ⟨l1, he, y, l2, hline, ?_⟩
        simp only [walk_right, hr, if_neg hy0, if_neg hc]

theorem walk_left_spec (rightof : Nat → Bool) (line : List Nat) (start : Nat)
    (hnd : line.Nodup) (hnz : ∀ x ∈ line, x ≠ 0) (hhead : line.head? = some start) :
    ∀ (fuel : Nat) (l1 : List Nat) (he : Nat) (l2 : List Nat),
      line = l1 ++ he :: l2 → l1 ≠ [] → l1.length ≤ fuel →
      ∃ p left r s, line = p ++ left :: r :: s ∧
        walk_left rightof line start fuel he = some left := by
  intro fuel
  induction fuel with
  | zero =>
    intro l1 he l2 _ hne hlen
    exact absurd (List.length_eq_zero.1 (Nat.le_zero.1 hlen)) hne
  | succ fuel ih =>
    intro l1 he l2 hline hne hlen
    rcases List.eq_nil_or_concat l1 with h | ⟨L, z, h⟩
    · exact absurd h hne
    · rw [List.concat_eq_append] at h
      subst h
      have hline2 : line = L ++ z :: he :: l2 := by rw [hline]; simp
      have hnd2 : (L ++ z :: he :: l2).Nodup := hline2 ▸ hnd
      have hnd3 := (List.nodup_append.1 hnd2)
      have hhe : he ∉ L := fun h =>
        hnd3.2.2 h (List.mem_cons_of_mem _ (List.mem_cons_self _ _))
      have hz : z ≠ he := fun h =>
        (List.nodup_cons.1 hnd3.2.1).1 (by rw [h]; exact List.mem_cons_self _ _)
      have hl : he_left line he = z := by rw [hline2]; exact he_left_at L l2 z he hhe hz
      have hz0 : z ≠ 0 := hnz z (by rw [hline2]; simp)
      by_cases hc : z ≠ start ∧ rightof z = false
      · have hne2 : L ≠ [] := fun h =>
          hc.1 ((line_head_iff line _ _ z start hnd hhead hline2).1 h)
        obtain ⟨p, left, r, s, h1, h2⟩ := ih L z (he :: l2) hline2 hne2
          (by simp only [List.length_append, List.length_singleton] at hlen; omega)
        refine ⟨p, left, r, s, h1, ?_⟩
        simp only [walk_left, hl, if_neg hz0, if_pos hc]
        exact h2
      · refine ⟨L, z, he, l2, hline2, ?_⟩
        simp only [walk_left, hl, if_neg hz0, if_neg hc]

theorem get_edge_above_x_spec (a : sweep_answers α) (c : jcv_context_internal α)
    (num_points r : Nat) (hinv : sweep_inv num_points c r) :
    ∃ p left right s, c.line = p ++ left :: right :: s ∧
      jcv_get_edge_above_x a c = some left := by
  have hnz : ∀ x ∈ c.line, x ≠ 0 := fun x hx => (hinv.live x hx).1
  have hstart : c.beachline_start ∈ c.line := by
    obtain ⟨t, ht⟩ := List.head?_eq_some_iff.1 hinv.head
    rw [ht]; exact List.mem_cons_self _ _
  have hend : c.beachline_end ∈ c.line := by
    obtain ⟨t, ht⟩ := List.getLast?_eq_some_iff.1 hinv.last
    rw [ht]; simp
  unfold jcv_get_edge_above_x
  generalize hhe : (if c.last_inserted = 0 then
      if a.low_half = true then c.beachline_start else c.beachline_end
    else c.last_inserted) = he
  have hmem : he ∈ c.line := by
    rw [← hhe]
    split_ifs with h1 h2
    · exact hstart
    · exact hend
    · rcases hinv.last_ins with h | h
      · exact absurd h h1
      · exact h
  obtain ⟨l1, l2, hline⟩ := List.append_of_mem hmem
  dsimp only
  by_cases hc : he = c.beachline_start ∨ (he ≠ c.beachline_end ∧ a.rightof he = true)
  · rw [if_pos hc]
    have hne : he ≠ c.beachline_end := by
      rcases hc with h | h
      · rw [h]; exact hinv.start_ne
      · exact h.1
    have hl2 : l2 ≠ [] := fun h =>
      hne ((line_last_iff c.line _ _ he _ hinv.nodup hinv.last hline).1 h)
    obtain ⟨p, left, r, s, h1, h2⟩ := walk_right_spec a.rightof c.line c.beachline_end
      hinv.nodup hnz hinv.last c.line.length l1 he l2 hline hl2
      (by rw [hline]; simp only [List.length_append, List.length_cons]; omega)
    refine ⟨p, left, r, s, h1, ?_⟩
    rw [h2]
    have hnd2 : (p ++ left :: r :: s).Nodup := h1 ▸ hinv.nodup
    have hnd3 := List.nodup_append.1 hnd2
    have hr : r ∉ p := fun h =>
      hnd3.2.2 h (List.mem_cons_of_mem _ (List.mem_cons_self _ _))
    have hz : left ≠ r := fun h =>
      (List.nodup_cons.1 hnd3.2.1).1 (by rw [h]; exact List.mem_cons_self _ _)
    show some (he_left c.line r) = some left
    rw [h1, he_left_at p s left r hr hz]
  · rw [if_neg hc]
    have hne : he ≠ c.beachline_start := fun h => hc (Or.inl h)
    have hl1 : l1 ≠ [] := fun h =>
      hne ((line_head_iff c.line _ _ he _ hinv.nodup hinv.head hline).1 h)
    obtain ⟨p, left, r, s, h1, h2⟩ := walk_left_spec a.rightof c.line c.beachline_start
      hinv.nodup hnz hinv.head c.line.length l1 he l2 hline hl1
      (by rw [hline]; simp only [List.length_append, List.length_cons]; omega)
    exact ⟨p, left, r, s, h1, h2⟩

end BeachWalk

section SweepQueue

variable {α : Type} [LinearOrder α]

theorem pq_count_lt (q : pq_state α) (L : List Nat) (s e : Nat) (hinv : pq_inv q)
    (hsub : ∀ x, pq_mem q x → x ∈ L) (hnd : L.Nodup) (hse : s ≠ e) (hs : s ∈ L) (he : e ∈ L)
    (hsn : ¬ pq_mem q s) (hen : ¬ pq_mem q e) : q.numitems < L.length := by
  have hslots : ((List.range (q.numitems - 1)).map (fun i => q.items (i + 1))).Nodup := by
    apply List.Nodup.map_on _ (List.nodup_range _)
    intro i hi j hj hij
    have hi' := List.mem_range.1 hi
    have hj' := List.mem_range.1 hj
    have := pq_backptr_inj q hinv (i + 1) (j + 1) (by omega) (by omega) (by omega) (by omega) hij
    omega
  have hmem : ∀ x ∈ (List.range (q.numitems - 1)).map (fun i => q.items (i + 1)),
      pq_mem q x := by
    intro x hx
    obtain ⟨i, hi, rfl⟩ := List.mem_map.1 hx
    have hi' := List.mem_range.1 hi
    exact ⟨i + 1, by omega, by omega, rfl⟩
  have hnd2 : (s :: e :: (List.range (q.numitems - 1)).map (fun i => q.items (i + 1))).Nodup := by
    refine List.nodup_cons.2 ⟨?_, List.nodup_cons.2 ⟨?_, hslots⟩⟩
    · intro h
      rcases List.mem_cons.1 h with h | h
      · exact hse h
      · exact hsn (hmem _ h)
    · exact fun h => hen (hmem _ h)
  have hsub2 : (s :: e :: (List.range (q.numitems - 1)).map (fun i => q.items (i + 1))) ⊆ L := by
    intro x hx
    rcases List.mem_cons.1 hx with h | h
    · rw [h]; exact hs
    rcases List.mem_cons.1 h with h | h
    · rw [h]; exact he
    · exact hsub x (hmem x h)
  have hlen := (List.subperm_of_subset hnd2 hsub2).length_le
  simp only [List.length_cons, List.length_map, List.length_range] at hlen
  have h1 : 1 ≤ q.numitems := hinv.1
  omega

theorem pq_set_key_outside (q : pq_state α) (h : Nat) (y x : α) (hinv : pq_inv q)
    (hout : ¬ pq_mem q h) :
    pq_inv (pq_set_key q h y x) ∧ (∀ z, pq_mem (pq_set_key q h y x) z ↔ pq_mem q z) ∧
    (∀ z, ((pq_set_key q h y x).he z).pqpos = (q.he z).pqpos) := by
  have h1 := pq_inv_outside q (pq_set_key q h y x) hinv rfl (fun _ _ _ => rfl) (fun z hz => by
    show Function.update q.he h _ z = q.he z
    have hzh : z ≠ h := fun hcon => hout (by rw [← hcon]; exact hz)
    rw [Function.update_noteq hzh])
  refine ⟨h1.1, h1.2, ?_⟩
  intro z
  show (Function.update q.he h _ z).pqpos = _
  by_cases hz : z = h
  · rw [hz, Function.update_same]
  · rw [Function.update_noteq hz]

theorem enqueue_spec (q : pq_state α) (h : Nat) (y x : α) (hinv : pq_inv q)
    (hnew : ¬ pq_mem q h) (hroom : q.numitems < q.maxnumitems) :
    ∃ q' p, jcv_pq_push (pq_set_key q h y x) h = some (q', p) ∧ pq_inv q' ∧
      (∀ z, pq_mem q' z ↔ pq_mem q z ∨ z = h) ∧
      (∀ z, ¬ pq_mem q z → z ≠ h → (q'.he z).pqpos = (q.he z).pqpos) ∧
      q'.maxnumitems = q.maxnumitems := by
  obtain ⟨h1, h2, h3⟩ := pq_set_key_outside q h y x hinv hnew
  obtain ⟨q', p, hp, hpost, _⟩ := pq_push_spec (pq_set_key q h y x) h h1
    (fun hcon => hnew ((h2 h).1 hcon)) hroom
  refine ⟨q', p, hp, hpost.1, ?_, ?_, hpost.2.2.2.2⟩
  · intro z
    rw [hpost.2.1 z]
    show pq_mem (pq_set_key q h y x) z ∨ z = h ↔ _
    rw [h2 z]
  · intro z hz hzh
    rw [hpost.2.2.2.1 z (fun hcon => hz ((h2 z).1 hcon))
      (fun hcon => hcon.elim (fun hc => hz ((h2 z).1 hc)) hzh)]
    exact h3 z

theorem requeue_event_spec (c : jcv_context_internal α) (b : Bool) (he1 : Nat) (y x : α)
    (hinv : pq_inv c.eventqueue)
    (hpre : b = true → pq_mem c.eventqueue he1 ∨ (c.eventqueue.he he1).pqpos = 0)
    (hroom : ∀ q' : pq_state α, pq_inv q' → q'.maxnumitems = c.eventqueue.maxnumitems →
      (∀ z, pq_mem q' z → pq_mem c.eventqueue z) → q'.numitems < q'.maxnumitems) :
    ∃ q', (if b = true then
          push_event { c with eventqueue := jcv_pq_remove c.eventqueue he1 } he1 y x
        else some c) = some { c with eventqueue := q' } ∧
      pq_inv q' ∧ q'.maxnumitems = c.eventqueue.maxnumitems ∧
      (∀ z, pq_mem q' z ↔ pq_mem c.eventqueue z ∨ (b = true ∧ z = he1)) ∧
      (∀ z, ¬ pq_mem q' z → (q'.he z).pqpos = (c.eventqueue.he z).pqpos) := by
  by_cases hb : b = true
  · obtain ⟨hpost, _, _⟩ := pq_remove_spec c.eventqueue he1 hinv (hpre hb)
    have hmem1 := hpost.2.1
    obtain ⟨q', p, hp, hq', hmem, hframe, hmax⟩ := enqueue_spec (jcv_pq_remove c.eventqueue he1)
      he1 y x hpost.1 (fun hcon => ((hmem1 he1).1 hcon).2 rfl)
      (hroom _ hpost.1 hpost.2.2.2.2 (fun z hz => ((hmem1 z).1 hz).1))
    refine ⟨q', ?_, hq', hmax.trans hpost.2.2.2.2, ?_, ?_⟩
    · rw [if_pos hb]
      unfold push_event
      show (match jcv_pq_push (pq_set_key (jcv_pq_remove c.eventqueue he1) he1 y x) he1 with
        | some r => some ({ c with eventqueue := r.1 } : jcv_context_internal α)
        | none => none) = _
      rw [hp]
    · intro z
      rw [hmem z, hmem1 z]
      constructor
      · rintro (h | h)
        · exact Or.inl h.1
        · exact Or.inr ⟨hb, h⟩
      · rintro (h | h)
        · by_cases hz : z = he1
          · exact Or.inr hz
          · exact Or.inl ⟨h, hz⟩
        · exact Or.inr h.2
    · intro z hz
      have hz1 : z ≠ he1 := fun hcon => hz ((hmem z).2 (Or.inr hcon))
      have hz2 : ¬ pq_mem (jcv_pq_remove c.eventqueue he1) z :=
        fun hcon => hz ((hmem z).2 (Or.inl hcon))
      have hz3 : ¬ pq_mem c.eventqueue z := fun hcon => hz2 ((hmem1 z).2 ⟨hcon, hz1⟩)
      rw [hframe z hz2 hz1, hpost.2.2.2.1 z hz3 (fun hcon => hz3 hcon.1)]
  · refine ⟨c.eventqueue, ?_, hinv, rfl, ?_, fun _ _ => rfl⟩
    · rw [if_neg hb]
    · intro z
      constructor
      · exact Or.inl
      · rintro (h | h)
        · exact h
        · exact absurd h.1 hb

theorem enqueue_event_spec (c : jcv_context_internal α) (b : Bool) (he3 : Nat) (y x : α)
    (hinv : pq_inv c.eventqueue) (hnew : ¬ pq_mem c.eventqueue he3)
    (hroom : b = true → c.eventqueue.numitems < c.eventqueue.maxnumitems) :
    ∃ q', (if b = true then push_event c he3 y x else some c)
        = some { c with eventqueue := q' } ∧
      pq_inv q' ∧ q'.maxnumitems = c.eventqueue.maxnumitems ∧
      (∀ z, pq_mem q' z ↔ pq_mem c.eventqueue z ∨ (b = true ∧ z = he3)) ∧
      (∀ z, ¬ pq_mem q' z → (q'.he z).pqpos = (c.eventqueue.he z).pqpos) := by
  by_cases hb : b = true
  · obtain ⟨q', p, hp, hq', hmem, hframe, hmax⟩ :=
      enqueue_spec c.eventqueue he3 y x hinv hnew (hroom hb)
    refine ⟨q', ?_, hq', hmax, ?_, ?_⟩
    · rw [if_pos hb]
      unfold push_event
      rw [hp]
    · intro z
      rw [hmem z]
      constructor
      · rintro (h | h)
        · exact Or.inl h
        · exact Or.inr ⟨hb, h⟩
      · rintro (h | h)
        · exact Or.inl h
        · exact Or.inr h.2
    · intro z hz
      exact hframe z (fun hcon => hz ((hmem z).2 (Or.inl hcon)))
        (fun hcon => hz ((hmem z).2 (Or.inr hcon)))
  · refine ⟨c.eventqueue, ?_, hinv, rfl, ?_, fun _ _ => rfl⟩
    · rw [if_neg hb]
    · intro z
      constructor
      · exact Or.inl
      · rintro (h | h)
        · exact h
        · exact absurd h.1 hb

theorem check_circle_events_spec (a : sweep_answers α) (c : jcv_context_internal α)
    (he1 he2 he3 he4 : Nat) (hinv : pq_inv c.eventqueue)
    (hpre : c.has_edge he1 = true →
      pq_mem c.eventqueue he1 ∨ (c.eventqueue.he he1).pqpos = 0)
    (hnew : ¬ pq_mem c.eventqueue he3) (h13 : he1 ≠ he3)
    (hroom : ∀ q' : pq_state α, pq_inv q' → q'.maxnumitems = c.eventqueue.maxnumitems →
      (∀ z, pq_mem q' z → pq_mem c.eventqueue z ∨ (c.has_edge he1 = true ∧ z = he1)) →
      q'.numitems < q'.maxnumitems) :
    ∃ q', check_circle_events a c he1 he2 he3 he4 = some { c with eventqueue := q' } ∧
      pq_inv q' ∧ q'.maxnumitems = c.eventqueue.maxnumitems ∧
      (∀ z, pq_mem q' z ↔ pq_mem c.eventqueue z ∨
        (jcv_check_circle_event c a.hit1 he1 he2 = true ∧ z = he1) ∨
        (jcv_check_circle_event c a.hit2 he3 he4 = true ∧ z = he3)) ∧
      (∀ z, ¬ pq_mem q' z → (q'.he z).pqpos = (c.eventqueue.he z).pqpos) := by
  have hedge1 : jcv_check_circle_event c a.hit1 he1 he2 = true → c.has_edge he1 = true := by
    unfold jcv_check_circle_event
    intro h
    by_contra hcon
    rw [if_pos (Or.inl (by simpa using hcon))] at h
    cases h
  obtain ⟨q1, h1, hq1, hmax1, hmem1, hframe1⟩ := requeue_event_spec c
    (jcv_check_circle_event c a.hit1 he1 he2) he1 a.y1 a.x1 hinv (fun hb => hpre (hedge1 hb))
    (fun q' hq' hmax hsub => hroom q' hq' hmax (fun z hz => Or.inl (hsub z hz)))
  have hnew1 : ¬ pq_mem q1 he3 := by
    intro hcon
    rcases (hmem1 he3).1 hcon with h | h
    · exact hnew h
    · exact h13 h.2.symm
  obtain ⟨q2, h2, hq2, hmax2, hmem2, hframe2⟩ := enqueue_event_spec
    ({ c with eventqueue := q1 } : jcv_context_internal α)
    (jcv_check_circle_event c a.hit2 he3 he4) he3 a.y2 a.x2 hq1 hnew1
    (fun _ => hroom q1 hq1 hmax1 (fun z hz => by
      rcases (hmem1 z).1 hz with h | h
      · exact Or.inl h
      · exact Or.inr ⟨hedge1 h.1, h.2⟩))
  refine ⟨q2, ?_, hq2, hmax2.trans hmax1, ?_, ?_⟩
  · unfold check_circle_events
    simp only [h1]
    exact h2
  · intro z
    rw [hmem2 z]
    show pq_mem q1 z ∨ _ ↔ _
    rw [hmem1 z, or_assoc]
  · intro z hz
    have hz1 : ¬ pq_mem q1 z := fun hcon => hz ((hmem2 z).2 (Or.inl hcon))
    rw [hframe2 z hz]
    exact hframe1 z hz1

end SweepQueue

section SweepEvents

variable {α : Type} [LinearOrder α]

theorem halfedge_new_spec (c : jcv_context_internal α) (edge : Bool) (live : List Nat)
    (hnext : 0 < c.next_halfedge)
    (hlive : ∀ x ∈ live, x ≠ 0 ∧ x < c.next_halfedge)
    (hpool : ∀ x ∈ c.halfedgepool, x ≠ 0 ∧ x < c.next_halfedge ∧ x ∉ live)
    (hpnd : c.halfedgepool.Nodup) :
    ∃ he pool next,
      jcv_halfedge_new c edge
        = (he, { c with halfedgepool := pool
                        next_halfedge := next
                        has_edge := Function.update c.has_edge he edge
                        eventqueue := pq_set_pqpos c.eventqueue he 0 }) ∧
      he ≠ 0 ∧ he ∉ live ∧ 0 < next ∧
      (∀ x ∈ he :: live, x ≠ 0 ∧ x < next) ∧
      (∀ x ∈ pool, x ≠ 0 ∧ x < next ∧ x ∉ he :: live) ∧ pool.Nodup := by
  obtain ⟨bs, be, line, li, hpool0, next, hedge, q, ns, cs⟩ := c
  cases hpool0 with
  | nil =>
    refine ⟨next, [], next + 1, rfl, ?_, ?_, ?_, ?_, ?_, List.nodup_nil⟩
    · exact Nat.pos_iff_ne_zero.1 hnext
    · intro hcon
      exact absurd (hlive next hcon).2 (lt_irrefl _)
    · exact Nat.succ_pos _
    · intro x hx
      rcases List.mem_cons.1 hx with h | h
      · rw [h]
        exact ⟨Nat.pos_iff_ne_zero.1 hnext, Nat.lt_succ_self _⟩
      · exact ⟨(hlive x h).1, Nat.lt_succ_of_lt (hlive x h).2⟩
    · intro x hx
      simp at hx
  | cons h t =>
    have hh := hpool h (List.mem_cons_self _ _)
    have hnd := List.nodup_cons.1 hpnd
    refine ⟨h, t, next, rfl, hh.1, hh.2.2, hnext, ?_, ?_, hnd.2⟩
    · intro x hx
      rcases List.mem_cons.1 hx with hx | hx
      · rw [hx]
        exact ⟨hh.1, hh.2.1⟩
      · exact hlive x hx
    · intro x hx
      have hx2 := hpool x (List.mem_cons_of_mem _ hx)
      refine ⟨hx2.1, hx2.2.1, ?_⟩
      intro hcon
      rcases List.mem_cons.1 hcon with hc | hc
      · exact hnd.1 (hc ▸ hx)
      · exact hx2.2.2 hc

theorem perm_insert_two (p t : List Nat) (x a b : Nat) :
    (p ++ x :: a :: b :: t).Perm (a :: b :: (p ++ x :: t)) := by
  have h1 : p ++ x :: a :: b :: t = (p ++ [x]) ++ a :: (b :: t) := by simp
  have h2 : p ++ x :: t = (p ++ [x]) ++ t := by simp
  rw [h1, h2]
  exact (List.perm_middle).trans (List.Perm.cons a List.perm_middle)

theorem sentinels_mem (c : jcv_context_internal α) (num_points r : Nat)
    (hinv : sweep_inv num_points c r) :
    c.beachline_start ∈ c.line ∧ c.beachline_end ∈ c.line ∧ 0 < c.next_halfedge ∧
    ¬ pq_mem c.eventqueue c.beachline_start ∧ ¬ pq_mem c.eventqueue c.beachline_end := by
  have hstart : c.beachline_start ∈ c.line := by
    obtain ⟨t, ht⟩ := List.head?_eq_some_iff.1 hinv.head
    rw [ht]; exact List.mem_cons_self _ _
  have hend : c.beachline_end ∈ c.line := by
    obtain ⟨t, ht⟩ := List.getLast?_eq_some_iff.1 hinv.last
    rw [ht]; simp
  refine ⟨hstart, hend, lt_of_le_of_lt (Nat.zero_le _) (hinv.live _ hstart).2, ?_, ?_⟩
  · intro hcon
    have h1 := (hinv.stored _ hcon).2.1
    rw [(hinv.edge_iff _ hstart).2 (Or.inl rfl)] at h1
    cases h1
  · intro hcon
    have h1 := (hinv.stored _ hcon).2.1
    rw [(hinv.edge_iff _ hend).2 (Or.inr rfl)] at h1
    cases h1

theorem he_right_splice (p s m1 m2 : List Nat) (left z : Nat)
    (hz : z ∈ p ∨ (z ∉ p ∧ z ≠ left ∧ z ∉ m1 ∧ z ∉ m2)) :
    he_right (p ++ left :: (m1 ++ s)) z = he_right (p ++ left :: (m2 ++ s)) z := by
  rcases hz with h | ⟨h1, h2, h3, h4⟩
  · rw [he_right_append_left p (m1 ++ s) left z h, he_right_append_left p (m2 ++ s) left z h]
  · have e1 : p ++ left :: (m1 ++ s) = (p ++ left :: m1) ++ s := by simp
    have e2 : p ++ left :: (m2 ++ s) = (p ++ left :: m2) ++ s := by simp
    rw [e1, e2, he_right_append_right _ s z, he_right_append_right _ s z]
    · intro hcon
      rcases List.mem_append.1 hcon with h | h
      · exact h1 h
      · rcases List.mem_cons.1 h with h | h
        · exact h2 h
        · exact h4 h
    · intro hcon
      rcases List.mem_append.1 hcon with h | h
      · exact h1 h
      · rcases List.mem_cons.1 h with h | h
        · exact h2 h
        · exact h3 h

theorem check_true (c : jcv_context_internal α) (hit : Bool) (he1 he2 : Nat)
    (h : jcv_check_circle_event c hit he1 he2 = true) :
    c.has_edge he1 = true ∧ c.has_edge he2 = true := by
  unfold jcv_check_circle_event at h
  by_cases h1 : c.has_edge he1 = false ∨ c.has_edge he2 = false
  · rw [if_pos h1] at h
    cases h
  · constructor
    · by_contra hcon
      exact h1 (Or.inl (by simpa using hcon))
    · by_contra hcon
      exact h1 (Or.inr (by simpa using hcon))

theorem site_event_spec (a : sweep_answers α) (c : jcv_context_internal α)
    (num_points r : Nat) (hinv : sweep_inv num_points c r) (hr : 1 ≤ r) :
    ∃ c', jcv_site_event a c = some c' ∧ sweep_inv num_points c' (r - 1) ∧
      c'.numsites = c.numsites ∧ c'.currentsite = c.currentsite ∧
      c'.line.length = c.line.length + 2 := by
  obtain ⟨p, left, right, s, hline, hget⟩ := get_edge_above_x_spec a c num_points r hinv
  obtain ⟨hstart, hend, hnext, hsn, hen⟩ := sentinels_mem c num_points r hinv
  have hnd0 : (p ++ left :: right :: s).Nodup := hline ▸ hinv.nodup
  have hleft_mem : left ∈ c.line := by rw [hline]; simp
  have hright_mem : right ∈ c.line := by rw [hline]; simp
  have hleft0 := (hinv.live left hleft_mem).1
  have hright0 := (hinv.live right hright_mem).1
  have hleftp : left ∉ p := fun h =>
    (List.nodup_append.1 hnd0).2.2 h (List.mem_cons_self _ _)
  have hright : he_right c.line left = right := by
    rw [hline]; exact he_right_at p s left right hleftp
  obtain ⟨e1, pool1, next1, hnew1, he10, he1l, hnext1, hlive1, hpool1, hpnd1⟩ :=
    halfedge_new_spec c true c.line hnext hinv.live hinv.pool hinv.pool_nodup
  obtain ⟨e2, pool2, next2, hnew2, he20, he2l, hnext2, hlive2, hpool2, hpnd2⟩ :=
    halfedge_new_spec ({ c with halfedgepool := pool1
                                next_halfedge := next1
                                has_edge := Function.update c.has_edge e1 true
                                eventqueue := pq_set_pqpos c.eventqueue e1 0 })
      true (e1 :: c.line) hnext1 hlive1 hpool1 hpnd1
  unfold jcv_site_event
  rw [hget]
  simp only [hright, hnew1, hnew2]
  rw [if_neg (by simp [hleft0, hright0])]
  have he12 : e1 ≠ e2 := fun h => he2l (by rw [← h]; exact List.mem_cons_self _ _)
  have he2line : e2 ∉ c.line := fun h => he2l (List.mem_cons_of_mem _ h)
  have hline3 : jcv_halfedge_link (jcv_halfedge_link c.line left e1) e1 e2
      = p ++ left :: e1 :: e2 :: right :: s := by
    rw [hline, link_at p (right :: s) left e1 hleftp]
    have h : p ++ left :: e1 :: right :: s = (p ++ [left]) ++ e1 :: right :: s := by simp
    have he1p : e1 ∉ p ++ [left] := fun hcon => he1l (by
      rw [hline]
      rcases List.mem_append.1 hcon with h | h
      · exact List.mem_append_left _ h
      · rw [List.mem_singleton.1 h]; simp)
    rw [h, link_at (p ++ [left]) (right :: s) e1 e2 he1p]
    simp
  rw [hline3]
  have hperm : (p ++ left :: e1 :: e2 :: right :: s).Perm (e1 :: e2 :: c.line) := by
    rw [hline]; exact perm_insert_two p (right :: s) left e1 e2
  have hmem3 : ∀ x, x ∈ p ++ left :: e1 :: e2 :: right :: s ↔ x = e1 ∨ x = e2 ∨ x ∈ c.line := by
    intro x
    rw [hperm.mem_iff]
    simp
  have hlen : (p ++ left :: e1 :: e2 :: right :: s).length = c.line.length + 2 := by
    rw [hperm.length_eq]; simp
  have hcount : c.line.length + 2 * r ≤ 2 * c.numsites := by
    rcases hinv.count with h | h
    · exact h
    · omega
  have hsites := hinv.sites_le
  have hq1 := pq_set_pqpos_outside c.eventqueue e1 0 hinv.queue
    (fun h => he1l (hinv.stored _ h).1)
  have hq2 := pq_set_pqpos_outside (pq_set_pqpos c.eventqueue e1 0) e2 0 hq1.1
    (fun h => he2line (hinv.stored _ ((hq1.2 _).1 h)).1)
  have hmemq : ∀ z, pq_mem (pq_set_pqpos (pq_set_pqpos c.eventqueue e1 0) e2 0) z
      ↔ pq_mem c.eventqueue z := fun z => (hq2.2 z).trans (hq1.2 z)
  have hpos3 : ∀ z, z ≠ e1 → z ≠ e2 →
      ((pq_set_pqpos (pq_set_pqpos c.eventqueue e1 0) e2 0).he z).pqpos
        = (c.eventqueue.he z).pqpos := by
    intro z h1 h2
    rw [pq_he_set_pqpos _ e2 0 z h2, pq_he_set_pqpos _ e1 0 z h1]
  have hpos_e1 : ((pq_set_pqpos (pq_set_pqpos c.eventqueue e1 0) e2 0).he e1).pqpos = 0 := by
    rw [pq_he_set_pqpos _ e2 0 e1 he12]
    show (Function.update c.eventqueue.he e1 _ e1).pqpos = 0
    rw [Function.update_same]
  have hpos_e2 : ((pq_set_pqpos (pq_set_pqpos c.eventqueue e1 0) e2 0).he e2).pqpos = 0 := by
    show (Function.update (pq_set_pqpos c.eventqueue e1 0).he e2 _ e2).pqpos = 0
    rw [Function.update_same]
  have hedge3 : ∀ z, z ≠ e1 → z ≠ e2 →
      Function.update (Function.update c.has_edge e1 true) e2 true z = c.has_edge z := by
    intro z h1 h2
    rw [Function.update_noteq h2, Function.update_noteq h1]
  have hedge_e1 : Function.update (Function.update c.has_edge e1 true) e2 true e1 = true := by
    rw [Function.update_noteq he12, Function.update_same]
  have hedge_e2 : Function.update (Function.update c.has_edge e1 true) e2 true e2 = true := by
    rw [Function.update_same]
  have hedge_mono : ∀ z, c.has_edge z = true →
      Function.update (Function.update c.has_edge e1 true) e2 true z = true := by
    intro z hz
    by_cases h2 : z = e2
    · rw [h2]; exact hedge_e2
    · by_cases h1 : z = e1
      · rw [h1]; exact hedge_e1
      · rw [hedge3 z h1 h2]; exact hz
  have hne1 : ∀ z ∈ c.line, z ≠ e1 := fun z hz hcon => he1l (hcon ▸ hz)
  have hne2 : ∀ z ∈ c.line, z ≠ e2 := fun z hz hcon => he2line (hcon ▸ hz)
  obtain ⟨q5, hcheck, hq5, hmax5, hmem5, hframe5⟩ := check_circle_events_spec a
    ({ beachline_start := c.beachline_start, beachline_end := c.beachline_end,
       line := p ++ left :: e1 :: e2 :: right :: s, last_inserted := right,
       halfedgepool := pool2, next_halfedge := next2,
       has_edge := Function.update (Function.update c.has_edge e1 true) e2 true,
       eventqueue := pq_set_pqpos (pq_set_pqpos c.eventqueue e1 0) e2 0,
       numsites := c.numsites, currentsite := c.currentsite } : jcv_context_internal α)
    left e1 e2 right hq2.1
    (by
      intro _
      by_cases hm : pq_mem c.eventqueue left
      · exact Or.inl ((hmemq left).2 hm)
      · right
        show ((pq_set_pqpos (pq_set_pqpos c.eventqueue e1 0) e2 0).he left).pqpos = 0
        rw [hpos3 left (hne1 _ hleft_mem) (hne2 _ hleft_mem)]
        exact hinv.idle left hleft_mem hm)
    (fun h => he2line (hinv.stored _ ((hmemq e2).1 h)).1)
    (hne2 _ hleft_mem)
    (by
      intro q' hq' hmax hsub
      have hsub2 : ∀ z, pq_mem q' z → z ∈ c.line ∧ c.has_edge z = true := by
        intro z hz
        rcases hsub z hz with h | h
        · have := hinv.stored z ((hmemq z).1 h)
          exact ⟨this.1, this.2.1⟩
        · have h1 : Function.update (Function.update c.has_edge e1 true) e2 true left = true := h.1
          rw [hedge3 left (hne1 _ hleft_mem) (hne2 _ hleft_mem)] at h1
          rw [h.2]
          exact ⟨hleft_mem, h1⟩
      have hlt := pq_count_lt q' (p ++ left :: e1 :: e2 :: right :: s) c.beachline_start
        c.beachline_end hq' (fun z hz => (hmem3 z).2 (Or.inr (Or.inr (hsub2 z hz).1)))
        (hperm.nodup_iff.2 (List.nodup_cons.2 ⟨he2l ∘ (fun h => by
            rcases List.mem_cons.1 h with h | h
            · exact absurd h he12
            · exact absurd h he1l), List.nodup_cons.2 ⟨he2line, hinv.nodup⟩⟩))
        hinv.start_ne ((hmem3 _).2 (Or.inr (Or.inr hstart))) ((hmem3 _).2 (Or.inr (Or.inr hend)))
        (fun hcon => by
          have := (hsub2 _ hcon).2
          rw [(hinv.edge_iff _ hstart).2 (Or.inl rfl)] at this
          cases this)
        (fun hcon => by
          have := (hsub2 _ hcon).2
          rw [(hinv.edge_iff _ hend).2 (Or.inr rfl)] at this
          cases this)
      have hcap : q'.maxnumitems = num_points * 2 := hmax.trans hinv.cap
      omega)
  refine ⟨_, hcheck, ?_, rfl, rfl, hlen⟩
  refine ⟨hinv.start_ne, ?_, ?_, ?_, ?_, ?_, hpnd2, ?_, hq5, hmax5.trans hinv.cap, ?_, ?_, ?_, ?_,
    hinv.sites_le⟩
  · have := hinv.head
    rw [hline] at this
    show (p ++ left :: e1 :: e2 :: right :: s).head? = some c.beachline_start
    cases p with
    | nil => simpa using this
    | cons b p => simpa using this
  · have := hinv.last
    rw [hline] at this
    show (p ++ left :: e1 :: e2 :: right :: s).getLast? = some c.beachline_end
    have h1 : p ++ left :: e1 :: e2 :: right :: s = (p ++ [left, e1, e2]) ++ right :: s := by simp
    have h2 : p ++ left :: right :: s = (p ++ [left]) ++ right :: s := by simp
    rw [h2, List.getLast?_append_cons] at this
    rw [h1, List.getLast?_append_cons]
    exact this
  · show (p ++ left :: e1 :: e2 :: right :: s).Nodup
    refine hperm.nodup_iff.2 (List.nodup_cons.2 ⟨?_, List.nodup_cons.2 ⟨he2line, hinv.nodup⟩⟩)
    intro h
    rcases List.mem_cons.1 h with h | h
    · exact he12 h
    · exact he1l h
  · intro x hx
    have hx2 : x ∈ p ++ left :: e1 :: e2 :: right :: s := hx
    apply hlive2
    rcases (hmem3 x).1 hx2 with h | h | h
    · rw [h]; exact List.mem_cons_of_mem _ (List.mem_cons_self _ _)
    · rw [h]; exact List.mem_cons_self _ _
    · exact List.mem_cons_of_mem _ (List.mem_cons_of_mem _ h)
  · intro x hx
    have hx2 := hpool2 x hx
    refine ⟨hx2.1, hx2.2.1, ?_⟩
    intro hcon
    apply hx2.2.2
    rcases (hmem3 x).1 hcon with h | h | h
    · rw [h]; exact List.mem_cons_of_mem _ (List.mem_cons_self _ _)
    · rw [h]; exact List.mem_cons_self _ _
    · exact List.mem_cons_of_mem _ (List.mem_cons_of_mem _ h)
  · intro x hx
    show Function.update (Function.update c.has_edge e1 true) e2 true x = false
      ↔ (x = c.beachline_start ∨ x = c.beachline_end)
    rcases (hmem3 x).1 hx with h | h | h
    · rw [h, hedge_e1]
      constructor
      · intro hc; cases hc
      · rintro (hc | hc)
        · exact absurd (hc ▸ hstart) he1l
        · exact absurd (hc ▸ hend) he1l
    · rw [h, hedge_e2]
      constructor
      · intro hc; cases hc
      · rintro (hc | hc)
        · exact absurd (hc ▸ hstart) he2line
        · exact absurd (hc ▸ hend) he2line
    · rw [hedge3 x (hne1 x h) (hne2 x h)]
      exact hinv.edge_iff x h
  · intro z hz
    show z ∈ p ++ left :: e1 :: e2 :: right :: s ∧
      Function.update (Function.update c.has_edge e1 true) e2 true z = true ∧
      Function.update (Function.update c.has_edge e1 true) e2 true
        (he_right (p ++ left :: e1 :: e2 :: right :: s) z) = true
    have hleft_r : he_right (p ++ left :: e1 :: e2 :: right :: s) left = e1 :=
      he_right_at p _ left e1 hleftp
    rcases (hmem5 z).1 hz with h | h | h
    · have hst := hinv.stored z ((hmemq z).1 h)
      refine ⟨(hmem3 z).2 (Or.inr (Or.inr hst.1)), hedge_mono z hst.2.1, ?_⟩
      by_cases hzl : z = left
      · rw [hzl, hleft_r]; exact hedge_e1
      · have hsp := he_right_splice p (right :: s) [e1, e2] [] left z (by
          by_cases hzp : z ∈ p
          · exact Or.inl hzp
          · refine Or.inr ⟨hzp, hzl, ?_, by simp⟩
            intro hcon
            rcases List.mem_cons.1 hcon with h | h
            · exact hne1 z hst.1 h
            · exact hne2 z hst.1 (List.mem_singleton.1 h))
        simp only [List.cons_append, List.nil_append] at hsp
        rw [hsp, ← hline]
        exact hedge_mono _ hst.2.2
    · have hc := check_true _ _ _ _ h.1
      rw [h.2]
      refine ⟨(hmem3 _).2 (Or.inr (Or.inr hleft_mem)), hc.1, ?_⟩
      rw [hleft_r]; exact hedge_e1
    · have hc := check_true _ _ _ _ h.1
      rw [h.2]
      refine ⟨(hmem3 _).2 (Or.inr (Or.inl rfl)), hedge_e2, ?_⟩
      have h1 : p ++ left :: e1 :: e2 :: right :: s = (p ++ [left, e1]) ++ e2 :: right :: s := by
        simp
      have h2 : e2 ∉ p ++ [left, e1] := by
        intro hcon
        rcases List.mem_append.1 hcon with h | h
        · exact he2line (by rw [hline]; exact List.mem_append_left _ h)
        · rcases List.mem_cons.1 h with h | h
          · exact hne2 _ hleft_mem h.symm
          · exact he12 (List.mem_singleton.1 h).symm
      rw [h1, he_right_at _ s e2 right h2]
      exact hc.2
  · intro z hz hzq
    have hz2 : z ∈ p ++ left :: e1 :: e2 :: right :: s := hz
    rw [hframe5 z hzq]
    have hzq3 : ¬ pq_mem (pq_set_pqpos (pq_set_pqpos c.eventqueue e1 0) e2 0) z :=
      fun hcon => hzq ((hmem5 z).2 (Or.inl hcon))
    rcases (hmem3 z).1 hz2 with h | h | h
    · rw [h]; exact hpos_e1
    · rw [h]; exact hpos_e2
    · show ((pq_set_pqpos (pq_set_pqpos c.eventqueue e1 0) e2 0).he z).pqpos = 0
      rw [hpos3 z (hne1 z h) (hne2 z h)]
      exact hinv.idle z h (fun hcon => hzq3 ((hmemq z).2 hcon))
  · right
    show right ∈ p ++ left :: e1 :: e2 :: right :: s
    exact (hmem3 _).2 (Or.inr (Or.inr hright_mem))
  · left
    show (p ++ left :: e1 :: e2 :: right :: s).length + 2 * (r - 1) ≤ 2 * c.numsites
    omega

theorem circle_event_spec (a : sweep_answers α) (c : jcv_context_internal α)
    (num_points r : Nat) (hinv : sweep_inv num_points c r)
    (hne : 1 < c.eventqueue.numitems) :
    ∃ c', jcv_circle_event a c = some c' ∧ sweep_inv num_points c' r ∧
      c'.numsites = c.numsites ∧ c'.currentsite = c.currentsite ∧
      c'.line.length + 1 = c.line.length := by
  obtain ⟨hstart, hend, hnext, hsn, hen⟩ := sentinels_mem c num_points r hinv
  obtain ⟨hpop1, hpost1, hnum1⟩ := pq_pop_spec c.eventqueue hinv.queue hne
  have hleftq : pq_mem c.eventqueue (c.eventqueue.items 1) := ⟨1, le_refl _, hne, rfl⟩
  generalize hleft : c.eventqueue.items 1 = left at hpop1 hpost1 hleftq
  obtain ⟨hleft_mem, hleft_edge, hright_edge⟩ := hinv.stored left hleftq
  obtain ⟨p, t, hline0⟩ := List.append_of_mem hleft_mem
  have hleft_ns : left ≠ c.beachline_start := fun h => hsn (h ▸ hleftq)
  have hleft_ne : left ≠ c.beachline_end := fun h => hen (h ▸ hleftq)
  have hp : p ≠ [] := fun h =>
    hleft_ns ((line_head_iff c.line _ _ left _ hinv.nodup hinv.head hline0).1 h)
  have ht : t ≠ [] := fun h =>
    hleft_ne ((line_last_iff c.line _ _ left _ hinv.nodup hinv.last hline0).1 h)
  rcases List.eq_nil_or_concat p with h | ⟨p0, ll, h⟩
  · exact absurd h hp
  rw [List.concat_eq_append] at h
  subst h
  cases t with
  | nil => exact absurd rfl ht
  | cons right t2 =>
    have hline1 : c.line = (p0 ++ [ll, left]) ++ right :: t2 := by rw [hline0]; simp
    have hnd1 : ((p0 ++ [ll]) ++ left :: right :: t2).Nodup := hline0 ▸ hinv.nodup
    have hleftp : left ∉ p0 ++ [ll] := fun h =>
      (List.nodup_append.1 hnd1).2.2 h (List.mem_cons_self _ _)
    have hright : he_right c.line left = right := by
      rw [hline0]; exact he_right_at _ t2 left right hleftp
    rw [hright] at hright_edge
    have hright_mem : right ∈ c.line := by rw [hline1]; simp
    have hright_ne : right ≠ c.beachline_end := by
      intro h
      rw [(hinv.edge_iff right hright_mem).2 (Or.inr h)] at hright_edge
      cases hright_edge
    have ht2 : t2 ≠ [] := fun h =>
      hright_ne ((line_last_iff c.line _ _ right _ hinv.nodup hinv.last hline1).1 h)
    cases t2 with
    | nil => exact absurd rfl ht2
    | cons rr s3 =>
      have hline : c.line = p0 ++ ll :: left :: right :: rr :: s3 := by rw [hline0]; simp
      have hnd : (p0 ++ ll :: left :: right :: rr :: s3).Nodup := hline ▸ hinv.nodup
      have hll_mem : ll ∈ c.line := by rw [hline]; simp
      have hrr_mem : rr ∈ c.line := by rw [hline]; simp
      have hleft0 := (hinv.live left hleft_mem).1
      have hright0 := (hinv.live right hright_mem).1
      have hll0 := (hinv.live ll hll_mem).1
      have hrr0 := (hinv.live rr hrr_mem).1
      have hnd_a := List.nodup_append.1 hnd
      have hnd_b := List.nodup_cons.1 hnd_a.2.1
      have hnd_c := List.nodup_cons.1 hnd_b.2
      have hnd_d := List.nodup_cons.1 hnd_c.2
      have hll_p0 : ll ∉ p0 := fun h => hnd_a.2.2 h (List.mem_cons_self _ _)
      have hleft_p0 : left ∉ p0 := fun h =>
        hnd_a.2.2 h (List.mem_cons_of_mem _ (List.mem_cons_self _ _))
      have hright_p0 : right ∉ p0 := fun h =>
        hnd_a.2.2 h (List.mem_cons_of_mem _ (List.mem_cons_of_mem _ (List.mem_cons_self _ _)))
      have hll_left : ll ≠ left := fun h => hnd_b.1 (by rw [h]; exact List.mem_cons_self _ _)
      have hll_right : ll ≠ right := fun h =>
        hnd_b.1 (by rw [h]; exact List.mem_cons_of_mem _ (List.mem_cons_self _ _))
      have hleft_right : left ≠ right := fun h =>
        hnd_c.1 (by rw [h]; exact List.mem_cons_self _ _)
      have hll : he_left c.line left = ll := by
        rw [hline]; exact he_left_at p0 _ ll left hleft_p0 hll_left
      have hrr : he_right c.line right = rr := by
        rw [hline1]
        refine he_right_at _ s3 right rr ?_
        intro hcon
        rcases List.mem_append.1 hcon with h | h
        · exact hright_p0 h
        · rcases List.mem_cons.1 h with h | h
          · exact hll_right h.symm
          · exact hleft_right (List.mem_singleton.1 h).symm
      have hline2 : jcv_halfedge_unlink (jcv_halfedge_unlink c.line left) right
          = p0 ++ ll :: rr :: s3 := by
        have h1 : c.line = (p0 ++ [ll]) ++ left :: right :: rr :: s3 := by rw [hline]; simp
        rw [h1, unlink_at _ _ left hleftp]
        have h2 : p0 ++ [ll] ++ right :: rr :: s3 = (p0 ++ [ll]) ++ right :: rr :: s3 := rfl
        rw [unlink_at (p0 ++ [ll]) (rr :: s3) right (by
          intro hcon
          rcases List.mem_append.1 hcon with h | h
          · exact hright_p0 h
          · exact hll_right (List.mem_singleton.1 h).symm)]
        simp
      have hmem2 : ∀ x, x ∈ p0 ++ ll :: rr :: s3 ↔ x ≠ right ∧ x ≠ left ∧ x ∈ c.line := by
        intro x
        rw [← hline2]
        unfold jcv_halfedge_unlink
        rw [(hinv.nodup.erase left).mem_erase_iff, hinv.nodup.mem_erase_iff]
      have hnd2 : (p0 ++ ll :: rr :: s3).Nodup := by
        rw [← hline2]
        exact (hinv.nodup.erase left).erase right
      unfold jcv_circle_event
      simp only [hpop1, hll, hright, hrr, jcv_halfedge_delete]
      rw [if_neg (by simp [hleft0, hright0, hll0, hrr0, hleft_edge, hright_edge])]
      have hright_ns : right ≠ c.beachline_start := by
        intro h
        rw [(hinv.edge_iff right hright_mem).2 (Or.inl h)] at hright_edge
        cases hright_edge
      have hmemq1 : ∀ z, pq_mem (jcv_pq_pop c.eventqueue).2 z ↔ pq_mem c.eventqueue z ∧ z ≠ left :=
        hpost1.2.1
      have hpre_r : pq_mem (jcv_pq_pop c.eventqueue).2 right
          ∨ ((jcv_pq_pop c.eventqueue).2.he right).pqpos = 0 := by
        by_cases hm : pq_mem c.eventqueue right
        · exact Or.inl ((hmemq1 right).2 ⟨hm, hleft_right.symm⟩)
        · right
          rw [hpost1.2.2.2.1 right hm (fun hcon => hm hcon.1)]
          exact hinv.idle right hright_mem hm
      obtain ⟨hpost2, _, _⟩ := pq_remove_spec (jcv_pq_pop c.eventqueue).2 right hpost1.1 hpre_r
      have hmemq2 : ∀ z, pq_mem (jcv_pq_remove (jcv_pq_pop c.eventqueue).2 right) z
          ↔ pq_mem c.eventqueue z ∧ z ≠ left ∧ z ≠ right := by
        intro z
        rw [hpost2.2.1 z]
        show pq_mem (jcv_pq_pop c.eventqueue).2 z ∧ z ≠ right ↔ _
        rw [hmemq1 z, and_assoc]
      have hposq2 : ∀ z, ¬ pq_mem c.eventqueue z →
          ((jcv_pq_remove (jcv_pq_pop c.eventqueue).2 right).he z).pqpos
            = (c.eventqueue.he z).pqpos := by
        intro z hz
        have hz1 : ¬ pq_mem (jcv_pq_pop c.eventqueue).2 z := fun hcon => hz ((hmemq1 z).1 hcon).1
        rw [hpost2.2.2.2.1 z hz1 (fun hcon => hz1 hcon.1),
          hpost1.2.2.2.1 z hz (fun hcon => hz hcon.1)]
      obtain ⟨he, pool3, next3, hnew, he0, hel, hnext3, hlive3, hpool3, hpnd3⟩ :=
        halfedge_new_spec
          ({ beachline_start := c.beachline_start, beachline_end := c.beachline_end,
             line := p0 ++ ll :: rr :: s3,
             last_inserted := rr,
             halfedgepool := right :: left :: c.halfedgepool, next_halfedge := c.next_halfedge,
             has_edge := c.has_edge,
             eventqueue := jcv_pq_remove (jcv_pq_pop c.eventqueue).2 right,
             numsites := c.numsites, currentsite := c.currentsite } : jcv_context_internal α)
          true (p0 ++ ll :: rr :: s3) hnext
          (fun x hx => hinv.live x ((hmem2 x).1 hx).2.2)
          (by
            intro x hx
            rcases List.mem_cons.1 hx with h | h
            · rw [h]
              exact ⟨hright0, (hinv.live right hright_mem).2, fun hcon => ((hmem2 right).1 hcon).1 rfl⟩
            rcases List.mem_cons.1 h with h | h
            · rw [h]
              exact ⟨hleft0, (hinv.live left hleft_mem).2, fun hcon => ((hmem2 left).1 hcon).2.1 rfl⟩
            · have hx2 := hinv.pool x h
              exact ⟨hx2.1, hx2.2.1, fun hcon => hx2.2.2 ((hmem2 x).1 hcon).2.2⟩)
          (by
            refine List.nodup_cons.2 ⟨?_, List.nodup_cons.2 ⟨?_, hinv.pool_nodup⟩⟩
            · intro hcon
              rcases List.mem_cons.1 hcon with h | h
              · exact hleft_right h.symm
              · exact (hinv.pool right h).2.2 hright_mem
            · exact fun hcon => (hinv.pool left hcon).2.2 hleft_mem)
      simp only [hline2]
      simp only [hnew]
      rw [link_at p0 (rr :: s3) ll he hll_p0]
      have hperm3 : (p0 ++ ll :: he :: rr :: s3).Perm (he :: (p0 ++ ll :: rr :: s3)) := by
        have h1 : p0 ++ ll :: he :: rr :: s3 = (p0 ++ [ll]) ++ he :: (rr :: s3) := by simp
        have h2 : p0 ++ ll :: rr :: s3 = (p0 ++ [ll]) ++ (rr :: s3) := by simp
        rw [h1, h2]
        exact List.perm_middle
      have hmem3 : ∀ x, x ∈ p0 ++ ll :: he :: rr :: s3 ↔ x = he ∨ x ∈ p0 ++ ll :: rr :: s3 := by
        intro x
        rw [hperm3.mem_iff, List.mem_cons]
      have hlen3 : (p0 ++ ll :: he :: rr :: s3).length + 1 = c.line.length := by
        rw [hline]
        simp only [List.length_append, List.length_cons]
        omega
      have hne_he : ∀ z ∈ p0 ++ ll :: rr :: s3, z ≠ he := fun z hz hcon => hel (hcon ▸ hz)
      have hstart2 : c.beachline_start ∈ p0 ++ ll :: rr :: s3 :=
        (hmem2 _).2 ⟨hright_ns.symm, hleft_ns.symm, hstart⟩
      have hend2 : c.beachline_end ∈ p0 ++ ll :: rr :: s3 :=
        (hmem2 _).2 ⟨hright_ne.symm, hleft_ne.symm, hend⟩
      have hll2 : ll ∈ p0 ++ ll :: rr :: s3 := by simp
      have hrr2 : rr ∈ p0 ++ ll :: rr :: s3 := by simp
      have hq3 := pq_set_pqpos_outside (jcv_pq_remove (jcv_pq_pop c.eventqueue).2 right) he 0
        hpost2.1 (fun h => by
          have h1 := (hmemq2 he).1 h
          exact hel ((hmem2 he).2 ⟨h1.2.2, h1.2.1, (hinv.stored he h1.1).1⟩))
      have hmemq3 : ∀ z,
          pq_mem (pq_set_pqpos (jcv_pq_remove (jcv_pq_pop c.eventqueue).2 right) he 0) z
            ↔ pq_mem c.eventqueue z ∧ z ≠ left ∧ z ≠ right :=
        fun z => (hq3.2 z).trans (hmemq2 z)
      have hpos3 : ∀ z, z ≠ he → ¬ pq_mem c.eventqueue z →
          ((pq_set_pqpos (jcv_pq_remove (jcv_pq_pop c.eventqueue).2 right) he 0).he z).pqpos
            = (c.eventqueue.he z).pqpos := by
        intro z h1 h2
        rw [pq_he_set_pqpos _ he 0 z h1]
        exact hposq2 z h2
      have hpos_he :
          ((pq_set_pqpos (jcv_pq_remove (jcv_pq_pop c.eventqueue).2 right) he 0).he he).pqpos
            = 0 := by
        show (Function.update (jcv_pq_remove (jcv_pq_pop c.eventqueue).2 right).he he _ he).pqpos
          = 0
        rw [Function.update_same]
      have hedge3 : ∀ z, z ≠ he → Function.update c.has_edge he true z = c.has_edge z :=
        fun z h => Function.update_noteq h _ _
      have hedge_he : Function.update c.has_edge he true he = true := Function.update_same _ _ _
      have hedge_mono : ∀ z, c.has_edge z = true → Function.update c.has_edge he true z = true := by
        intro z hz
        by_cases h : z = he
        · rw [h]; exact hedge_he
        · rw [hedge3 z h]; exact hz
      have hsites := hinv.sites_le
      have hcount : c.line.length + 2 * r ≤ 2 * c.numsites := by
        rcases hinv.count with h | h
        · exact h
        · have h1 := h.1
          rw [hline] at h1
          simp only [List.length_append, List.length_cons] at h1
          omega
      have hnd3 : (p0 ++ ll :: he :: rr :: s3).Nodup :=
        hperm3.nodup_iff.2 (List.nodup_cons.2 ⟨hel, hnd2⟩)
      obtain ⟨q5, hcheck, hq5, hmax5, hmem5, hframe5⟩ := check_circle_events_spec a
        ({ beachline_start := c.beachline_start, beachline_end := c.beachline_end,
           line := p0 ++ ll :: he :: rr :: s3, last_inserted := rr,
           halfedgepool := pool3, next_halfedge := next3,
           has_edge := Function.update c.has_edge he true,
           eventqueue := pq_set_pqpos (jcv_pq_remove (jcv_pq_pop c.eventqueue).2 right) he 0,
           numsites := c.numsites, currentsite := c.currentsite } : jcv_context_internal α)
        ll he he rr hq3.1
        (by
          intro _
          by_cases hm : pq_mem c.eventqueue ll
          · exact Or.inl ((hmemq3 ll).2 ⟨hm, hll_left, hll_right⟩)
          · right
            show ((pq_set_pqpos (jcv_pq_remove (jcv_pq_pop c.eventqueue).2 right) he 0).he
              ll).pqpos = 0
            rw [hpos3 ll (hne_he ll hll2) hm]
            exact hinv.idle ll hll_mem hm)
        (fun h => by
          have h1 := (hmemq3 he).1 h
          exact hel ((hmem2 he).2 ⟨h1.2.2, h1.2.1, (hinv.stored he h1.1).1⟩))
        (hne_he ll hll2)
        (by
          intro q' hq' hmax hsub
          have hsub2 : ∀ z, pq_mem q' z → z ∈ p0 ++ ll :: rr :: s3 ∧ c.has_edge z = true := by
            intro z hz
            rcases hsub z hz with h | h
            · have h1 := (hmemq3 z).1 h
              have h2 := hinv.stored z h1.1
              exact ⟨(hmem2 z).2 ⟨h1.2.2, h1.2.1, h2.1⟩, h2.2.1⟩
            · have h1 : Function.update c.has_edge he true ll = true := h.1
              rw [hedge3 ll (hne_he ll hll2)] at h1
              rw [h.2]
              exact ⟨hll2, h1⟩
          have hlt := pq_count_lt q' (p0 ++ ll :: he :: rr :: s3) c.beachline_start
            c.beachline_end hq' (fun z hz => (hmem3 z).2 (Or.inr (hsub2 z hz).1)) hnd3
            hinv.start_ne ((hmem3 _).2 (Or.inr hstart2)) ((hmem3 _).2 (Or.inr hend2))
            (fun hcon => by
              have := (hsub2 _ hcon).2
              rw [(hinv.edge_iff _ hstart).2 (Or.inl rfl)] at this
              cases this)
            (fun hcon => by
              have := (hsub2 _ hcon).2
              rw [(hinv.edge_iff _ hend).2 (Or.inr rfl)] at this
              cases this)
          have hcap : q'.maxnumitems = num_points * 2 :=
            hmax.trans (hpost2.2.2.2.2.trans (hpost1.2.2.2.2.trans hinv.cap))
          omega)
      refine ⟨_, hcheck, ?_, rfl, rfl, hlen3⟩
      refine ⟨hinv.start_ne, ?_, ?_, hnd3, ?_, ?_, hpnd3, ?_, hq5,
        hmax5.trans (hpost2.2.2.2.2.trans (hpost1.2.2.2.2.trans hinv.cap)), ?_, ?_, ?_, ?_,
        hinv.sites_le⟩
      · have := hinv.head
        rw [hline] at this
        show (p0 ++ ll :: he :: rr :: s3).head? = some c.beachline_start
        cases p0 with
        | nil => simpa using this
        | cons b p0 => simpa using this
      · have := hinv.last
        rw [hline] at this
        show (p0 ++ ll :: he :: rr :: s3).getLast? = some c.beachline_end
        have h1 : p0 ++ ll :: he :: rr :: s3 = (p0 ++ [ll, he]) ++ rr :: s3 := by simp
        have h2 : p0 ++ ll :: left :: right :: rr :: s3 = (p0 ++ [ll, left, right]) ++ rr :: s3 := by
          simp
        rw [h2, List.getLast?_append_cons] at this
        rw [h1, List.getLast?_append_cons]
        exact this
      · intro x hx
        have hx2 : x ∈ p0 ++ ll :: he :: rr :: s3 := hx
        apply hlive3
        rcases (hmem3 x).1 hx2 with h | h
        · rw [h]; exact List.mem_cons_self _ _
        · exact List.mem_cons_of_mem _ h
      · intro x hx
        have hx2 := hpool3 x hx
        refine ⟨hx2.1, hx2.2.1, ?_⟩
        intro hcon
        apply hx2.2.2
        rcases (hmem3 x).1 hcon with h | h
        · rw [h]; exact List.mem_cons_self _ _
        · exact List.mem_cons_of_mem _ h
      · intro x hx
        show Function.update c.has_edge he true x = false
          ↔ (x = c.beachline_start ∨ x = c.beachline_end)
        rcases (hmem3 x).1 hx with h | h
        · rw [h, hedge_he]
          constructor
          · intro hc; cases hc
          · rintro (hc | hc)
            · exact absurd (hc ▸ hstart2) hel
            · exact absurd (hc ▸ hend2) hel
        · rw [hedge3 x (hne_he x h)]
          exact hinv.edge_iff x ((hmem2 x).1 h).2.2
      · intro z hz
        show z ∈ p0 ++ ll :: he :: rr :: s3 ∧
          Function.update c.has_edge he true z = true ∧
          Function.update c.has_edge he true (he_right (p0 ++ ll :: he :: rr :: s3) z) = true
        have hll_r : he_right (p0 ++ ll :: he :: rr :: s3) ll = he :=
          he_right_at p0 _ ll he hll_p0
        rcases (hmem5 z).1 hz with h | h | h
        · have h1 := (hmemq3 z).1 h
          have hst := hinv.stored z h1.1
          have hz2 : z ∈ p0 ++ ll :: rr :: s3 := (hmem2 z).2 ⟨h1.2.2, h1.2.1, hst.1⟩
          refine ⟨(hmem3 z).2 (Or.inr hz2), hedge_mono z hst.2.1, ?_⟩
          by_cases hzl : z = ll
          · rw [hzl, hll_r]; exact hedge_he
          · have hsp := he_right_splice p0 (rr :: s3) [he] [left, right] ll z (by
              by_cases hzp : z ∈ p0
              · exact Or.inl hzp
              · refine Or.inr ⟨hzp, hzl, ?_, ?_⟩
                · intro hcon
                  exact hne_he z hz2 (List.mem_singleton.1 hcon)
                · intro hcon
                  rcases List.mem_cons.1 hcon with h | h
                  · exact h1.2.1 h
                  · exact h1.2.2 (List.mem_singleton.1 h))
            simp only [List.cons_append, List.nil_append] at hsp
            rw [hsp, ← hline]
            exact hedge_mono _ hst.2.2
        · have hc := check_true _ _ _ _ h.1
          rw [h.2]
          refine ⟨(hmem3 _).2 (Or.inr hll2), hc.1, ?_⟩
          rw [hll_r]; exact hedge_he
        · have hc := check_true _ _ _ _ h.1
          rw [h.2]
          refine ⟨(hmem3 _).2 (Or.inl rfl), hedge_he, ?_⟩
          have h1 : p0 ++ ll :: he :: rr :: s3 = (p0 ++ [ll]) ++ he :: rr :: s3 := by simp
          have h2 : he ∉ p0 ++ [ll] := by
            intro hcon
            apply hel
            rcases List.mem_append.1 hcon with h | h
            · exact List.mem_append_left _ h
            · rw [List.mem_singleton.1 h]; exact hll2
          rw [h1, he_right_at _ s3 he rr h2]
          exact hc.2
      · intro z hz hzq
        have hz2 : z ∈ p0 ++ ll :: he :: rr :: s3 := hz
        rw [hframe5 z hzq]
        have hzq3 : ¬ pq_mem
            (pq_set_pqpos (jcv_pq_remove (jcv_pq_pop c.eventqueue).2 right) he 0) z :=
          fun hcon => hzq ((hmem5 z).2 (Or.inl hcon))
        rcases (hmem3 z).1 hz2 with h | h
        · rw [h]; exact hpos_he
        · have h1 := (hmem2 z).1 h
          have hzq0 : ¬ pq_mem c.eventqueue z :=
            fun hcon => hzq3 ((hmemq3 z).2 ⟨hcon, h1.2.1, h1.1⟩)
          show ((pq_set_pqpos (jcv_pq_remove (jcv_pq_pop c.eventqueue).2 right) he 0).he
            z).pqpos = 0
          rw [hpos3 z (hne_he z h) hzq0]
          exact hinv.idle z h1.2.2 hzq0
      · right
        show rr ∈ p0 ++ ll :: he :: rr :: s3
        exact (hmem3 _).2 (Or.inr hrr2)
      · left
        show (p0 ++ ll :: he :: rr :: s3).length + 2 * r ≤ 2 * c.numsites
        omega

end SweepEvents

section SweepLoop

variable {α : Type} [LinearOrder α]

theorem pq_pqpos_set_same (st : pq_state α) (h p : Nat) :
    ((pq_set_pqpos st h p).he h).pqpos = p := by
  show (Function.update st.he h { st.he h with pqpos := p } h).pqpos = p
  rw [Function.update_same]

theorem sweep_inv_nextsite (num_points r : Nat) (c : jcv_context_internal α)
    (h : sweep_inv num_points c r) : sweep_inv num_points (jcv_nextsite c).2 r := by
  unfold jcv_nextsite
  split_ifs
  · exact ⟨h.start_ne, h.head, h.last, h.nodup, h.live, h.pool, h.pool_nodup, h.edge_iff,
      h.queue, h.cap, h.stored, h.idle, h.last_ins, h.count, h.sites_le⟩
  · exact h

theorem nextsite_left (c : jcv_context_internal α) :
    sites_left (jcv_nextsite c).2 (jcv_nextsite c).1 = c.numsites - c.currentsite ∧
    (jcv_nextsite c).2.numsites = c.numsites ∧ (jcv_nextsite c).2.line = c.line := by
  unfold jcv_nextsite sites_left
  by_cases h : c.currentsite < c.numsites
  · simp only [if_pos h]
    refine ⟨?_, trivial, trivial⟩
    simp only [Option.isSome_some, if_true]
    omega
  · simp only [if_neg h]
    refine ⟨?_, trivial, trivial⟩
    simp

theorem line_length_ge (num_points r : Nat) (c : jcv_context_internal α)
    (h : sweep_inv num_points c r) : 2 ≤ c.line.length := by
  obtain ⟨t, ht⟩ := List.head?_eq_some_iff.1 h.head
  have hl := h.last
  rw [ht] at hl ⊢
  cases t with
  | nil =>
    simp only [List.getLast?_singleton, Option.some.injEq] at hl
    exact absurd hl h.start_ne
  | cons b t => simp

theorem sweep_step_spec (a : sweep_answers α) (c : jcv_context_internal α) (site : Option Nat)
    (num_points : Nat) (hinv : sweep_inv num_points c (sites_left c site)) :
    jcv_sweep_step a c site = sweep_result.finished (c, site) ∨
    ∃ c' site', jcv_sweep_step a c site = sweep_result.running (c', site') ∧
      sweep_inv num_points c' (sites_left c' site') ∧ c'.numsites = c.numsites ∧
      3 * sites_left c' site' + c'.line.length < 3 * sites_left c site + c.line.length := by
  unfold jcv_sweep_step
  by_cases h1 : site.isSome = true ∧ (jcv_pq_empty c.eventqueue = true ∨ a.site_less = true)
  · right
    rw [if_pos h1]
    have hleft : sites_left c site = c.numsites - c.currentsite + 1 := by
      unfold sites_left
      rw [if_pos h1.1]
    obtain ⟨c', hev, hinv', hns, hcs, hlen⟩ :=
      site_event_spec a c num_points _ hinv (by rw [hleft]; omega)
    obtain ⟨hl1, hl2, hl3⟩ := nextsite_left c'
    refine ⟨(jcv_nextsite c').2, (jcv_nextsite c').1, ?_, ?_, hl2.trans hns, ?_⟩
    · simp only [hev]
    · have := sweep_inv_nextsite num_points _ c' hinv'
      rw [hl1, hns, hcs]
      rw [hleft] at this
      exact this
    · rw [hl1, hl3, hlen, hleft, hns, hcs]
      omega
  · rw [if_neg h1]
    by_cases h2 : jcv_pq_empty c.eventqueue = false
    · right
      rw [if_pos h2]
      have hne : 1 < c.eventqueue.numitems := by
        unfold jcv_pq_empty at h2
        have h3 : c.eventqueue.numitems ≠ 1 := by simpa using h2
        have h4 : 1 ≤ c.eventqueue.numitems := hinv.queue.1
        omega
      obtain ⟨c', hev, hinv', hns, hcs, hlen⟩ := circle_event_spec a c num_points _ hinv hne
      have hleft : sites_left c' site = sites_left c site := by
        unfold sites_left
        rw [hns, hcs]
      refine ⟨c', site, ?_, ?_, hns, ?_⟩
      · simp only [hev]
      · rw [hleft]; exact hinv'
      · rw [hleft]; omega
    · left
      rw [if_neg h2]

theorem sweep_loop_spec (num_points : Nat) :
    ∀ (answers : List (sweep_answers α)) (c : jcv_context_internal α) (site : Option Nat),
      sweep_inv num_points c (sites_left c site) →
      jcv_sweep_loop answers c site ≠ sweep_result.failed ∧
      (3 * sites_left c site + c.line.length ≤ answers.length + 1 →
        ∃ c', jcv_sweep_loop answers c site = sweep_result.finished c') ∧
      (∀ c', (jcv_sweep_loop answers c site = sweep_result.running c' ∨
          jcv_sweep_loop answers c site = sweep_result.finished c') →
        ∃ site', sweep_inv num_points c' (sites_left c' site') ∧ c'.numsites = c.numsites) := by
  intro answers
  induction answers with
  | nil =>
    intro c site hinv
    have hlen := line_length_ge num_points _ c hinv
    refine ⟨?_, ?_, ?_⟩
    · simp [jcv_sweep_loop]
    · intro h
      simp only [List.length_nil] at h
      omega
    · intro c' h
      simp only [jcv_sweep_loop, sweep_result.running.injEq, reduceCtorEq, or_false] at h
      subst h
      exact ⟨site, hinv, rfl⟩
  | cons a rest ih =>
    intro c site hinv
    rcases sweep_step_spec a c site num_points hinv with h | ⟨c', site', h, hinv', hns, hlt⟩
    · refine ⟨?_, ?_, ?_⟩
      · simp [jcv_sweep_loop, h]
      · intro _
        exact ⟨c, by simp [jcv_sweep_loop, h]⟩
      · intro c' hc
        simp only [jcv_sweep_loop, h, sweep_result.finished.injEq, reduceCtorEq, false_or] at hc
        subst hc
        exact ⟨site, hinv, rfl⟩
    · obtain ⟨ih1, ih2, ih3⟩ := ih c' site' hinv'
      have hloop : jcv_sweep_loop (a :: rest) c site = jcv_sweep_loop rest c' site' := by
        simp only [jcv_sweep_loop, h]
      rw [hloop]
      refine ⟨ih1, ?_, ?_⟩
      · intro hle
        apply ih2
        simp only [List.length_cons] at hle
        omega
      · intro c'' hc
        obtain ⟨s, hs1, hs2⟩ := ih3 c'' hc
        exact ⟨s, hs1, hs2.trans hns⟩

theorem sweep_init_inv (num_points offset : Nat) (buffer : Nat → Nat)
    (store : Nat → jcv_halfedge α) (r : Nat)
    (hr : 2 + 2 * r ≤ 2 * (num_points - offset) ∨ r = 0) :
    sweep_inv num_points (jcv_sweep_init num_points offset buffer store) r := by
  have hempty : ∀ x, ¬ pq_mem (jcv_sweep_init num_points offset buffer store).eventqueue x := by
    rintro x ⟨i, h1, h2, _⟩
    have h3 : i < 1 := h2
    omega
  have h12 : (1 : Nat) ≠ 2 := by decide
  have hnd12 : [1, 2].Nodup := by decide
  refine ⟨h12, rfl, rfl, hnd12, ?_, ?_, List.nodup_nil, ?_, ?_, rfl, ?_, ?_,
    Or.inl rfl, ?_, Nat.sub_le _ _⟩
  · intro x hx
    have hx2 : x ∈ [1, 2] := hx
    simp only [List.mem_cons, List.mem_singleton, List.not_mem_nil, or_false] at hx2
    show x ≠ 0 ∧ x < 3
    omega
  · intro x hx
    have hx2 : x ∈ ([] : List Nat) := hx
    simp at hx2
  · intro x hx
    have hx2 : x ∈ [1, 2] := hx
    simp only [List.mem_cons, List.mem_singleton, List.not_mem_nil, or_false] at hx2
    show false = false ↔ (x = 1 ∨ x = 2)
    simp [hx2]
  · refine ⟨le_refl _, ?_, ?_⟩
    · intro i hi hin
      have h3 : i < 1 := hin
      omega
    · intro i hi hin
      have h3 : i < 1 := hin
      omega
  · intro x hx
    exact absurd hx (hempty x)
  · intro x hx _
    have hx2 : x ∈ [1, 2] := hx
    simp only [List.mem_cons, List.mem_singleton, List.not_mem_nil, or_false] at hx2
    show ((pq_set_pqpos (pq_set_pqpos (jcv_pq_create (num_points * 2) buffer store) 1 0)
      2 0).he x).pqpos = 0
    rcases hx2 with h | h
    · rw [h, pq_he_set_pqpos _ 2 0 1 (by decide)]
      exact pq_pqpos_set_same _ 1 0
    · rw [h]
      exact pq_pqpos_set_same _ 2 0
  · show [1, 2].length + 2 * r ≤ 2 * (num_points - offset) ∨ ([1, 2].length = 2 ∧ r = 0)
    rcases hr with h | h
    · left
      simp only [List.length_cons, List.length_nil]
      omega
    · right
      exact ⟨rfl, h⟩

end SweepLoop

section SweepClaim

variable {α : Type} [LinearOrder α]

theorem sweep_start_inv (num_points offset : Nat) (buffer : Nat → Nat)
    (store : Nat → jcv_halfedge α) :
    sweep_inv num_points
      (jcv_nextsite (jcv_nextsite (jcv_sweep_init num_points offset buffer store)).2).2
      (sites_left
        (jcv_nextsite (jcv_nextsite (jcv_sweep_init num_points offset buffer store)).2).2
        (jcv_nextsite (jcv_nextsite (jcv_sweep_init num_points offset buffer store)).2).1) ∧
    3 * sites_left
        (jcv_nextsite (jcv_nextsite (jcv_sweep_init num_points offset buffer store)).2).2
        (jcv_nextsite (jcv_nextsite (jcv_sweep_init num_points offset buffer store)).2).1
      + (jcv_nextsite (jcv_nextsite (jcv_sweep_init num_points offset buffer store)).2).2.line.length
      ≤ 3 * num_points + 2 ∧
    (jcv_nextsite (jcv_nextsite (jcv_sweep_init num_points offset buffer store)).2).2.numsites
      = num_points - offset := by
  obtain ⟨h1, h2, h3⟩ :=
    nextsite_left (jcv_nextsite (jcv_sweep_init num_points offset buffer store)).2
  obtain ⟨_, k2, k3⟩ := nextsite_left (jcv_sweep_init num_points offset buffer store)
  have hcur : (jcv_nextsite (jcv_sweep_init num_points offset buffer store)).2.currentsite
      = if 0 < num_points - offset then 1 else 0 := by
    unfold jcv_nextsite
    by_cases h : 0 < num_points - offset
    · rw [if_pos h]
      have h' : (jcv_sweep_init num_points offset buffer store).currentsite
          < (jcv_sweep_init num_points offset buffer store).numsites := h
      rw [if_pos h']
      rfl
    · rw [if_neg h]
      have h' : ¬ (jcv_sweep_init num_points offset buffer store).currentsite
          < (jcv_sweep_init num_points offset buffer store).numsites := h
      rw [if_neg h']
      rfl
  have hns : (jcv_sweep_init num_points offset buffer store).numsites = num_points - offset := rfl
  have hline : (jcv_sweep_init num_points offset buffer store).line.length = 2 := rfl
  rw [h1, h2, h3, k2, k3, hcur, hns, hline]
  refine ⟨?_, ?_, rfl⟩
  · apply sweep_inv_nextsite
    apply sweep_inv_nextsite
    apply sweep_init_inv
    split_ifs <;> omega
  · split_ifs <;> omega

/-- C26. The event queue never overflows: for `num_points` input points of which
the pruning drops `offset`, and for every list of answers of the geometric
predicates, one element for each turn of the main loop, the sweep of
`jcv_diagram_generate_useralloc` does not fail: no assertion
`numitems < maxnumitems` of `jcv_pq_push` fails (`maxnumitems = 2 * num_points`)
and no null pointer is read; with `3 * num_points + 1` answers or more the loop
has ended. In every state that the loop reaches, the queued half-edges are
pairwise distinct members of the beach line other than the two sentinels, so
that `numitems` is smaller than the length of the beach line, which holds at
most `2 * (numsites - 1)` half-edges between the sentinels. -/
theorem event_queue_never_overflows (num_points offset : Nat) (buffer : Nat → Nat)
    (store : Nat → jcv_halfedge α) (answers : List (sweep_answers α)) :
    jcv_diagram_generate_useralloc num_points offset buffer store answers
      ≠ sweep_result.failed ∧
    (3 * num_points + 1 ≤ answers.length →
      ∃ c, jcv_diagram_generate_useralloc num_points offset buffer store answers
        = sweep_result.finished c) ∧
    (∀ c,
      (jcv_diagram_generate_useralloc num_points offset buffer store answers
          = sweep_result.running c ∨
        jcv_diagram_generate_useralloc num_points offset buffer store answers
          = sweep_result.finished c) →
      c.eventqueue.maxnumitems = num_points * 2 ∧ c.numsites = num_points - offset ∧
      c.line.Nodup ∧
      (∀ x, pq_mem c.eventqueue x →
        x ∈ c.line ∧ x ≠ c.beachline_start ∧ x ≠ c.beachline_end) ∧
      (∀ i j, 1 ≤ i → i < c.eventqueue.numitems → 1 ≤ j → j < c.eventqueue.numitems →
        c.eventqueue.items i = c.eventqueue.items j → i = j) ∧
      c.eventqueue.numitems < c.line.length ∧
      c.line.length ≤ 2 + 2 * (c.numsites - 1)) := by
  obtain ⟨hinv, hmeasure, hns⟩ := sweep_start_inv num_points offset buffer store
  obtain ⟨h1, h2, h3⟩ := sweep_loop_spec num_points answers _ _ hinv
  unfold jcv_diagram_generate_useralloc
  refine ⟨h1, fun hlen => h2 (by omega), ?_⟩
  intro c hc
  obtain ⟨site, hc1, hc2⟩ := h3 c hc
  obtain ⟨hstart, hend, _, hsn, hen⟩ := sentinels_mem c num_points _ hc1
  have hlen := line_length_ge num_points _ c hc1
  refine ⟨hc1.cap, hc2.trans hns, hc1.nodup, ?_, ?_, ?_, ?_⟩
  · intro x hx
    exact ⟨(hc1.stored x hx).1, fun h => hsn (h ▸ hx), fun h => hen (h ▸ hx)⟩
  · intro i j hi hin hj hjn hij
    exact pq_backptr_inj c.eventqueue hc1.queue i j hi hin hj hjn hij
  · exact pq_count_lt c.eventqueue c.line c.beachline_start c.beachline_end hc1.queue
      (fun x hx => (hc1.stored x hx).1) hc1.nodup hc1.start_ne hstart hend hsn hen
  · rcases hc1.count with h | h
    · omega
    · omega

end SweepClaim

/-- The sweep on three sites with the answers `sample_answers`: after two site
events and one circle event the beach line holds three half-edges between the
sentinels `1` and `2`, the queue holds the half-edges `5` and `3`, and the
half-edge `6` is in the pool. -/
theorem sweep_sample_run :
    ∃ c, jcv_diagram_generate_useralloc 3 0 (fun _ => 0) (fun _ => ⟨0, 0, 7⟩) sample_answers
        = sweep_result.running c ∧
      c.line = [1, 5, 3, 4, 2] ∧ c.eventqueue.numitems = 3 ∧
      c.eventqueue.items 1 = 5 ∧ c.eventqueue.items 2 = 3 ∧ c.halfedgepool = [6] := by
  refine ⟨_, rfl, ?_, ?_, ?_, ?_, ?_⟩ <;> decide

section CandidateProofs

variable {α β μ : Type} [LinearOrderedRing α]

theorem foldl_fst_eq {σ A B X : Type} (f : σ × A → X → σ × A) (g : σ × B → X → σ × B)
    (hfg : ∀ (s : σ × A) (t : σ × B) (x : X), s.1 = t.1 → (f s x).1 = (g t x).1) :
    ∀ (l : List X) (s : σ × A) (t : σ × B), s.1 = t.1 → (l.foldl f s).1 = (l.foldl g t).1 := by
  intro l
  induction l with
  | nil => intro s t h; exact h
  | cons x l ih =>
    intro s t h
    simp only [List.foldl_cons]
    exact ih _ _ (hfg s t x h)

theorem chain_count (curr nbr : Nat) (chain : List Nat) :
    ∀ acc : List Nat,
      (chain.foldl (fun neighbors potential =>
          if potential ≠ curr then potential :: neighbors else neighbors) acc).count nbr
        = acc.count nbr + (if nbr = curr then 0 else chain.count nbr) := by
  induction chain with
  | nil => intro acc; simp
  | cons p t ih =>
    intro acc
    simp only [List.foldl_cons]
    rw [ih]
    by_cases hn : nbr = curr
    · simp only [if_pos hn]
      by_cases hp : p ≠ curr
      · rw [if_pos hp, List.count_cons]
        have : (p == nbr) = false := by
          rw [hn]; simpa using hp
        simp [this]
      · rw [if_neg hp]
    · simp only [if_neg hn]
      by_cases hp : p ≠ curr
      · rw [if_pos hp, List.count_cons, List.count_cons]
        omega
      · rw [if_neg hp, List.count_cons]
        have hp2 : p = curr := by simpa using hp
        have : (p == nbr) = false := by
          rw [hp2]; simpa using fun h : curr = nbr => hn h.symm
        simp [this]

theorem cells_count (ops : PartitionOps α β μ) (gY : μ) (curr nbr : Nat) (cells : List Nat) :
    ∀ acc : List Nat,
      (cells.foldl (fun neighbors cell =>
          (ops.m_chain gY cell).foldl (fun neighbors potential =>
            if potential ≠ curr then potential :: neighbors else neighbors) neighbors) acc).count nbr
        = acc.count nbr + (if nbr = curr then 0
            else (cells.map (fun cell => (ops.m_chain gY cell).count nbr)).sum) := by
  induction cells with
  | nil => intro acc; simp
  | cons c t ih =>
    intro acc
    simp only [List.foldl_cons]
    rw [ih, chain_count]
    by_cases hn : nbr = curr
    · simp [hn]
    · simp only [if_neg hn, List.map_cons, List.sum_cons]
      omega

/-- C22, counterexample. With the partitions of spec section 4.5, on three
rectangles of which `0` and `1` overlap in `x`: when the two also span the same
three `y` buckets, the pair is handed to the bounding-box filter and the sweep
test three times, all in the turn of `1`; when their `y` extents lie in
different buckets it is not handed over at all. -/
theorem overlapping_pair_thrice_or_never :
    polygon_threshold_candidates spec_partition_ops 1 tall_rectangles
      = some [(1, 0), (1, 0), (1, 0)] ∧
    polygon_threshold_candidates spec_partition_ops 1 stacked_rectangles = some [] ∧
    (spec_get_bbox tall_rectangles 0).min_corner.1 ≤ (spec_get_bbox tall_rectangles 1).max_corner.1 ∧
    (spec_get_bbox tall_rectangles 1).min_corner.1 ≤ (spec_get_bbox tall_rectangles 0).max_corner.1 ∧
    (spec_get_bbox stacked_rectangles 0).min_corner.1
      ≤ (spec_get_bbox stacked_rectangles 1).max_corner.1 ∧
    (spec_get_bbox stacked_rectangles 1).min_corner.1
      ≤ (spec_get_bbox stacked_rectangles 0).max_corner.1 ∧
    polygon_contiguity_weights_threshold spec_partition_ops 1 tall_rectangles true 1 1 false
      = some [[1], [0], []] := by
  decide!

/-- C22, amended. The candidates follow the partition of the sweep, and in the
turn of a polygon `curr` a polygon `nbr` is handed to the bounding-box filter and
the sweep test once for every cell from `lowest(curr)` to `upmost(curr)` and
every occurrence of `nbr` in the chain of that cell; `curr` itself is not handed
over. -/
theorem candidates_once_per_shared_cell (ops : PartitionOps α β μ)
    (geoms : GeometryCollection α) (is_queen : Bool) (precision_threshold : α)
    (gMinX gMaxX : β) (gY : μ) (gRecords curr nbr : Nat) :
    (threshold_candidates ops gMinX gMaxX gY).1
      = (threshold_sweep ops geoms is_queen precision_threshold gMinX gMaxX gY gRecords).1 ∧
    (∀ part : μ, ((collect_neighbors ops part curr).map (fun n => (curr, n))).count (curr, nbr)
      = (collect_neighbors ops part curr).count nbr) ∧
    (∀ part : μ, (collect_neighbors ops part curr).count nbr
      = if nbr = curr then 0
        else ((List.range' (ops.m_lowest part curr)
            (ops.m_upmost part curr + 1 - ops.m_lowest part curr)).map
              (fun cell => (ops.m_chain part cell).count nbr)).sum) := by
  refine ⟨?_, ?_, ?_⟩
  · unfold threshold_candidates threshold_sweep
    apply foldl_fst_eq
    · intro s t step h
      dsimp only
      apply foldl_fst_eq
      · intro s2 t2 curr2 h2
        dsimp only
        rw [h2]
      · dsimp only
        rw [h]
    · rfl
  · intro part
    generalize collect_neighbors ops part curr = l
    induction l with
    | nil => rfl
    | cons a l ih =>
      rw [List.map_cons, List.count_cons, List.count_cons, ih]
      by_cases h : a = nbr
      · simp [h]
      · have h1 : (a == nbr) = false := by simpa using h
        have h2 : ((curr, a) == (curr, nbr)) = false := by
          simpa using h
        rw [h1, h2]
  · intro part
    unfold collect_neighbors
    rw [cells_count]
    simp

end CandidateProofs

section Filters

variable {α β μ : Type} [LinearOrderedRing α]

theorem bbox_intersects_iff (b1 b2 : box_type α) :
    bbox_intersects b1 b2 = true ↔
      b1.min_corner.1 ≤ b2.max_corner.1 ∧ b2.min_corner.1 ≤ b1.max_corner.1 ∧
      b1.min_corner.2 ≤ b2.max_corner.2 ∧ b2.min_corner.2 ≤ b1.max_corner.2 := by
  unfold bbox_intersects
  simp only [Bool.not_eq_true', Bool.or_eq_false_iff, decide_eq_false_iff_not, not_lt, gt_iff_lt]
  tauto

theorem bbox_intersects_comm (b1 b2 : box_type α) :
    bbox_intersects b1 b2 = bbox_intersects b2 b1 := by
  rw [Bool.eq_iff_iff, bbox_intersects_iff, bbox_intersects_iff]
  tauto

/-- C32. The bounding-box filter is the overlap of closed rectangles: for two
boxes whose minimum corner is not beyond the maximum corner on either axis,
`bbox_intersects` holds exactly when some point lies in both closed rectangles,
and the order of the two boxes does not matter. -/
theorem bbox_filter_is_closed_overlap (b1 b2 : box_type α)
    (h1x : b1.min_corner.1 ≤ b1.max_corner.1) (h1y : b1.min_corner.2 ≤ b1.max_corner.2)
    (h2x : b2.min_corner.1 ≤ b2.max_corner.1) (h2y : b2.min_corner.2 ≤ b2.max_corner.2) :
    (bbox_intersects b1 b2 = true ↔
      ∃ x y : α,
        (b1.min_corner.1 ≤ x ∧ x ≤ b1.max_corner.1 ∧ b1.min_corner.2 ≤ y ∧ y ≤ b1.max_corner.2) ∧
        (b2.min_corner.1 ≤ x ∧ x ≤ b2.max_corner.1 ∧ b2.min_corner.2 ≤ y ∧ y ≤ b2.max_corner.2)) ∧
    bbox_intersects b1 b2 = bbox_intersects b2 b1 := by
  refine ⟨?_, bbox_intersects_comm b1 b2⟩
  rw [bbox_intersects_iff]
  constructor
  · rintro ⟨hx1, hx2, hy1, hy2⟩
    refine ⟨max b1.min_corner.1 b2.min_corner.1, max b1.min_corner.2 b2.min_corner.2,
      ⟨le_max_left _ _, max_le h1x hx2, le_max_left _ _, max_le h1y hy2⟩,
      ⟨le_max_right _ _, max_le hx1 h2x, le_max_right _ _, max_le hy1 h2y⟩⟩
  · rintro ⟨x, y, ⟨a1, a2, a3, a4⟩, ⟨c1, c2, c3, c4⟩⟩
    exact ⟨a1.trans c2, c1.trans a2, a3.trans c4, c3.trans a4⟩

/-- C32 on two squares that touch in one corner: they intersect. -/
theorem bbox_filter_is_closed_overlap_witness :
    bbox_intersects corner_boxes.1 corner_boxes.2 = true ∧
    ((bbox_intersects corner_boxes.1 corner_boxes.2 = true ↔
      ∃ x y : Int,
        (corner_boxes.1.min_corner.1 ≤ x ∧ x ≤ corner_boxes.1.max_corner.1 ∧
          corner_boxes.1.min_corner.2 ≤ y ∧ y ≤ corner_boxes.1.max_corner.2) ∧
        (corner_boxes.2.min_corner.1 ≤ x ∧ x ≤ corner_boxes.2.max_corner.1 ∧
          corner_boxes.2.min_corner.2 ≤ y ∧ y ≤ corner_boxes.2.max_corner.2)) ∧
    bbox_intersects corner_boxes.1 corner_boxes.2
      = bbox_intersects corner_boxes.2 corner_boxes.1) :=
  ⟨by decide, bbox_filter_is_closed_overlap corner_boxes.1 corner_boxes.2
    (by decide) (by decide) (by decide) (by decide)⟩

/-- C37. The tolerance never bridges separated bounding boxes: whatever the
partitions and the sweep test answer, and for every threshold and both rules, a
polygon `j` in the list of `i` in the result of order `1` of
`polygon_contiguity_weights_threshold` has a bounding box that intersects the one
of `i`; polygons whose boxes do not intersect are not neighbours. -/
theorem tolerance_never_bridges_boxes (ops : PartitionOps α β μ) (fuel : Nat)
    (geoms : GeometryCollection α) (is_queen : Bool) (precision_threshold : α)
    (include_lower_order : Bool) (A : List (List Nat))
    (h : polygon_contiguity_weights_threshold ops fuel geoms is_queen precision_threshold 1
      include_lower_order = some A) :
    (∀ i j, j ∈ A.getD i [] →
      bbox_intersects (ops.get_bbox geoms i) (ops.get_bbox geoms j) = true) ∧
    (∀ i j, bbox_intersects (ops.get_bbox geoms i) (ops.get_bbox geoms j) = false →
      j ∉ A.getD i [] ∧ i ∉ A.getD j []) := by
  obtain ⟨nm, R, hA, hclass, hext⟩ := threshold_result ops fuel geoms is_queen
    precision_threshold 1 include_lower_order A (fun _ => True) (fun _ _ => trivial)
    (confined_true ops geoms.size) h
  rw [convert_to_weights_one] at hA
  subst hA
  have key : ∀ i j, j ∈ A.getD i [] →
      bbox_intersects (ops.get_bbox geoms i) (ops.get_bbox geoms j) = true := by
    intro i j hj
    have hR := ((Extends.mem_iff hext i j).1 hj).2
    rcases (hclass i j hR).2.2.2.2 with hacc | hacc
    · exact hacc.1
    · rw [bbox_intersects_comm]
      exact hacc.1
  refine ⟨key, ?_⟩
  intro i j hbox
  constructor
  · intro hj
    rw [key i j hj] at hbox
    cases hbox
  · intro hi
    rw [bbox_intersects_comm, key j i hi] at hbox
    cases hbox

end Filters

/-- C37 on three rectangles with the partitions of spec section 4.5 and a sweep
test that accepts every pair: the first two rectangles overlap and are
neighbours, the third is apart and stays alone. -/
theorem tolerance_never_bridges_boxes_witness :
    polygon_contiguity_weights_threshold spec_partition_ops 1 tall_rectangles true 1 1 false
      = some [[1], [0], []] ∧
    bbox_intersects (spec_partition_ops.get_bbox tall_rectangles 0)
      (spec_partition_ops.get_bbox tall_rectangles 2) = false ∧
    ((∀ i j, j ∈ ([[1], [0], []] : List (List Nat)).getD i [] →
      bbox_intersects (spec_partition_ops.get_bbox tall_rectangles i)
        (spec_partition_ops.get_bbox tall_rectangles j) = true) ∧
    (∀ i j, bbox_intersects (spec_partition_ops.get_bbox tall_rectangles i)
        (spec_partition_ops.get_bbox tall_rectangles j) = false →
      j ∉ ([[1], [0], []] : List (List Nat)).getD i [] ∧
        i ∉ ([[1], [0], []] : List (List Nat)).getD j [])) :=
  ⟨by decide!, by decide!,
    tolerance_never_bridges_boxes spec_partition_ops 1 tall_rectangles true 1 false
      [[1], [0], []] (by decide!)⟩

section UTMProofs

variable {α : Type} [LinearOrderedField α]

theorem utm_letter_cases (Lat : α) :
    (84 < Lat ∧ UTMLetterDesignator Lat = 'Z') ∨ (Lat < -80 ∧ UTMLetterDesignator Lat = 'Z') ∨
    (72 ≤ Lat ∧ Lat ≤ 84 ∧ UTMLetterDesignator Lat = 'X') ∨
    (64 ≤ Lat ∧ Lat < 72 ∧ UTMLetterDesignator Lat = 'W') ∨
    (56 ≤ Lat ∧ Lat < 64 ∧ UTMLetterDesignator Lat = 'V') ∨
    (48 ≤ Lat ∧ Lat < 56 ∧ UTMLetterDesignator Lat = 'U') ∨
    (40 ≤ Lat ∧ Lat < 48 ∧ UTMLetterDesignator Lat = 'T') ∨
    (32 ≤ Lat ∧ Lat < 40 ∧ UTMLetterDesignator Lat = 'S') ∨
    (24 ≤ Lat ∧ Lat < 32 ∧ UTMLetterDesignator Lat = 'R') ∨
    (16 ≤ Lat ∧ Lat < 24 ∧ UTMLetterDesignator Lat = 'Q') ∨
    (8 ≤ Lat ∧ Lat < 16 ∧ UTMLetterDesignator Lat = 'P') ∨
    (0 ≤ Lat ∧ Lat < 8 ∧ UTMLetterDesignator Lat = 'N') ∨
    (-8 ≤ Lat ∧ Lat < 0 ∧ UTMLetterDesignator Lat = 'M') ∨
    (-16 ≤ Lat ∧ Lat < -8 ∧ UTMLetterDesignator Lat = 'L') ∨
    (-24 ≤ Lat ∧ Lat < -16 ∧ UTMLetterDesignator Lat = 'K') ∨
    (-32 ≤ Lat ∧ Lat < -24 ∧ UTMLetterDesignator Lat = 'J') ∨
    (-40 ≤ Lat ∧ Lat < -32 ∧ UTMLetterDesignator Lat = 'H') ∨
    (-48 ≤ Lat ∧ Lat < -40 ∧ UTMLetterDesignator Lat = 'G') ∨
    (-56 ≤ Lat ∧ Lat < -48 ∧ UTMLetterDesignator Lat = 'F') ∨
    (-64 ≤ Lat ∧ Lat < -56 ∧ UTMLetterDesignator Lat = 'E') ∨
    (-72 ≤ Lat ∧ Lat < -64 ∧ UTMLetterDesignator Lat = 'D') ∨
    (-80 ≤ Lat ∧ Lat < -72 ∧ UTMLetterDesignator Lat = 'C') := by
  by_cases h84 : (84 : α) < Lat
  · refine Or.inl ⟨h84, ?_⟩
    unfold UTMLetterDesignator
    simp only [ge_iff_le, gt_iff_lt, (not_le.2 h84 : ¬ Lat ≤ 84),
      (not_lt.2 (le_of_lt (lt_trans (by norm_num : (72 : α) < 84) h84)) : ¬ Lat < 72),
      (not_lt.2 (le_of_lt (lt_trans (by norm_num : (64 : α) < 84) h84)) : ¬ Lat < 64),
      (not_lt.2 (le_of_lt (lt_trans (by norm_num : (56 : α) < 84) h84)) : ¬ Lat < 56),
      (not_lt.2 (le_of_lt (lt_trans (by norm_num : (48 : α) < 84) h84)) : ¬ Lat < 48),
      (not_lt.2 (le_of_lt (lt_trans (by norm_num : (40 : α) < 84) h84)) : ¬ Lat < 40),
      (not_lt.2 (le_of_lt (lt_trans (by norm_num : (32 : α) < 84) h84)) : ¬ Lat < 32),
      (not_lt.2 (le_of_lt (lt_trans (by norm_num : (24 : α) < 84) h84)) : ¬ Lat < 24),
      (not_lt.2 (le_of_lt (lt_trans (by norm_num : (16 : α) < 84) h84)) : ¬ Lat < 16),
      (not_lt.2 (le_of_lt (lt_trans (by norm_num : (8 : α) < 84) h84)) : ¬ Lat < 8),
      (not_lt.2 (le_of_lt (lt_trans (by norm_num : (0 : α) < 84) h84)) : ¬ Lat < 0),
      (not_lt.2 (le_of_lt (lt_trans (by norm_num : (-8 : α) < 84) h84)) : ¬ Lat < -8),
      (not_lt.2 (le_of_lt (lt_trans (by norm_num : (-16 : α) < 84) h84)) : ¬ Lat < -16),
      (not_lt.2 (le_of_lt (lt_trans (by norm_num : (-24 : α) < 84) h84)) : ¬ Lat < -24),
      (not_lt.2 (le_of_lt (lt_trans (by norm_num : (-32 : α) < 84) h84)) : ¬ Lat < -32),
      (not_lt.2 (le_of_lt (lt_trans (by norm_num : (-40 : α) < 84) h84)) : ¬ Lat < -40),
      (not_lt.2 (le_of_lt (lt_trans (by norm_num : (-48 : α) < 84) h84)) : ¬ Lat < -48),
      (not_lt.2 (le_of_lt (lt_trans (by norm_num : (-56 : α) < 84) h84)) : ¬ Lat < -56),
      (not_lt.2 (le_of_lt (lt_trans (by norm_num : (-64 : α) < 84) h84)) : ¬ Lat < -64),
      (not_lt.2 (le_of_lt (lt_trans (by norm_num : (-72 : α) < 84) h84)) : ¬ Lat < -72),
      false_and, if_false]
  by_cases h0 : (72 : α) ≤ Lat
  · refine Or.inr (Or.inr (Or.inl ⟨h0, not_lt.1 h84, ?_⟩))
    unfold UTMLetterDesignator
    simp only [ge_iff_le, gt_iff_lt, h0, (not_lt.1 h84 : Lat ≤ 84),
      and_false, and_true, and_self, if_true, if_false]
  by_cases h1 : (64 : α) ≤ Lat
  · refine Or.inr (Or.inr (Or.inr (Or.inl ⟨h1, not_le.1 h0, ?_⟩)))
    unfold UTMLetterDesignator
    simp only [ge_iff_le, gt_iff_lt, h0, h1, (not_le.1 h0 : Lat < 72),
      and_false, and_true, and_self, if_true, if_false]
  by_cases h2 : (56 : α) ≤ Lat
  · refine Or.inr (Or.inr (Or.inr (Or.inr (Or.inl ⟨h2, not_le.1 h1, ?_⟩))))
    unfold UTMLetterDesignator
    simp only [ge_iff_le, gt_iff_lt, h0, h1, h2, (not_le.1 h1 : Lat < 64),
      and_false, and_true, and_self, if_true, if_false]
  by_cases h3 : (48 : α) ≤ Lat
  · refine Or.inr (Or.inr (Or.inr (Or.inr (Or.inr (Or.inl ⟨h3, not_le.1 h2, ?_⟩)))))
    unfold UTMLetterDesignator
    simp only [ge_iff_le, gt_iff_lt, h0, h1, h2, h3, (not_le.1 h2 : Lat < 56),
      and_false, and_true, and_self, if_true, if_false]
  by_cases h4 : (40 : α) ≤ Lat
  · refine Or.inr (Or.inr (Or.inr (Or.inr (Or.inr (Or.inr (Or.inl ⟨h4, not_le.1 h3, ?_⟩))))))
    unfold UTMLetterDesignator
    simp only [ge_iff_le, gt_iff_lt, h0, h1, h2, h3, h4, (not_le.1 h3 : Lat < 48),
      and_false, and_true, and_self, if_true, if_false]
  by_cases h5 : (32 : α) ≤ Lat
  · refine Or.inr (Or.inr (Or.inr (Or.inr (Or.inr (Or.inr (Or.inr (Or.inl ⟨h5, not_le.1 h4, ?_⟩)))))))
    unfold UTMLetterDesignator
    simp only [ge_iff_le, gt_iff_lt, h0, h1, h2, h3, h4, h5, (not_le.1 h4 : Lat < 40),
      and_false, and_true, and_self, if_true, if_false]
  by_cases h6 : (24 : α) ≤ Lat
  · refine Or.inr (Or.inr (Or.inr (Or.inr (Or.inr (Or.inr (Or.inr (Or.inr (Or.inl ⟨h6, not_le.1 h5, ?_⟩))))))))
    unfold UTMLetterDesignator
    simp only [ge_iff_le, gt_iff_lt, h0, h1, h2, h3, h4, h5, h6, (not_le.1 h5 : Lat < 32),
      and_false, and_true, and_self, if_true, if_false]
  by_cases h7 : (16 : α) ≤ Lat
  · refine Or.inr (Or.inr (Or.inr (Or.inr (Or.inr (Or.inr (Or.inr (Or.inr (Or.inr (Or.inl ⟨h7, not_le.1 h6, ?_⟩)))))))))
    unfold UTMLetterDesignator
    simp only [ge_iff_le, gt_iff_lt, h0, h1, h2, h3, h4, h5, h6, h7, (not_le.1 h6 : Lat < 24),
      and_false, and_true, and_self, if_true, if_false]
  by_cases h8 : (8 : α) ≤ Lat
  · refine Or.inr (Or.inr (Or.inr (Or.inr (Or.inr (Or.inr (Or.inr (Or.inr (Or.inr (Or.inr (Or.inl ⟨h8, not_le.1 h7, ?_⟩))))))))))
    unfold UTMLetterDesignator
    simp only [ge_iff_le, gt_iff_lt, h0, h1, h2, h3, h4, h5, h6, h7, h8, (not_le.1 h7 : Lat < 16),
      and_false, and_true, and_self, if_true, if_false]
  by_cases h9 : (0 : α) ≤ Lat
  · refine Or.inr (Or.inr (Or.inr (Or.inr (Or.inr (Or.inr (Or.inr (Or.inr (Or.inr (Or.inr (Or.inr (Or.inl ⟨h9, not_le.1 h8, ?_⟩)))))))))))
    unfold UTMLetterDesignator
    simp only [ge_iff_le, gt_iff_lt, h0, h1, h2, h3, h4, h5, h6, h7, h8, h9, (not_le.1 h8 : Lat < 8),
      and_false, and_true, and_self, if_true, if_false]
  by_cases h10 : (-8 : α) ≤ Lat
  · refine Or.inr (Or.inr (Or.inr (Or.inr (Or.inr (Or.inr (Or.inr (Or.inr (Or.inr (Or.inr (Or.inr (Or.inr (Or.inl ⟨h10, not_le.1 h9, ?_⟩))))))))))))
    unfold UTMLetterDesignator
    simp only [ge_iff_le, gt_iff_lt, h0, h1, h2, h3, h4, h5, h6, h7, h8, h9, h10, (not_le.1 h9 : Lat < 0),
      and_false, and_true, and_self, if_true, if_false]
  by_cases h11 : (-16 : α) ≤ Lat
  · refine Or.inr (Or.inr (Or.inr (Or.inr (Or.inr (Or.inr (Or.inr (Or.inr (Or.inr (Or.inr (Or.inr (Or.inr (Or.inr (Or.inl ⟨h11, not_le.1 h10, ?_⟩)))))))))))))
    unfold UTMLetterDesignator
    simp only [ge_iff_le, gt_iff_lt, h0, h1, h2, h3, h4, h5, h6, h7, h8, h9, h10, h11, (not_le.1 h10 : Lat < -8),
      and_false, and_true, and_self, if_true, if_false]
  by_cases h12 : (-24 : α) ≤ Lat
  · refine Or.inr (Or.inr (Or.inr (Or.inr (Or.inr (Or.inr (Or.inr (Or.inr (Or.inr (Or.inr (Or.inr (Or.inr (Or.inr (Or.inr (Or.inl ⟨h12, not_le.1 h11, ?_⟩))))))))))))))
    unfold UTMLetterDesignator
    simp only [ge_iff_le, gt_iff_lt, h0, h1, h2, h3, h4, h5, h6, h7, h8, h9, h10, h11, h12, (not_le.1 h11 : Lat < -16),
      and_false, and_true, and_self, if_true, if_false]
  by_cases h13 : (-32 : α) ≤ Lat
  · refine Or.inr (Or.inr (Or.inr (Or.inr (Or.inr (Or.inr (Or.inr (Or.inr (Or.inr (Or.inr (Or.inr (Or.inr (Or.inr (Or.inr (Or.inr (Or.inl ⟨h13, not_le.1 h12, ?_⟩)))))))))))))))
    unfold UTMLetterDesignator
    simp only [ge_iff_le, gt_iff_lt, h0, h1, h2, h3, h4, h5, h6, h7, h8, h9, h10, h11, h12, h13, (not_le.1 h12 : Lat < -24),
      and_false, and_true, and_self, if_true, if_false]
  by_cases h14 : (-40 : α) ≤ Lat
  · refine Or.inr (Or.inr (Or.inr (Or.inr (Or.inr (Or.inr (Or.inr (Or.inr (Or.inr (Or.inr (Or.inr (Or.inr (Or.inr (Or.inr (Or.inr (Or.inr (Or.inl ⟨h14, not_le.1 h13, ?_⟩))))))))))))))))
    unfold UTMLetterDesignator
    simp only [ge_iff_le, gt_iff_lt, h0, h1, h2, h3, h4, h5, h6, h7, h8, h9, h10, h11, h12, h13, h14, (not_le.1 h13 : Lat < -32),
      and_false, and_true, and_self, if_true, if_false]
  by_cases h15 : (-48 : α) ≤ Lat
  · refine Or.inr (Or.inr (Or.inr (Or.inr (Or.inr (Or.inr (Or.inr (Or.inr (Or.inr (Or.inr (Or.inr (Or.inr (Or.inr (Or.inr (Or.inr (Or.inr (Or.inr (Or.inl ⟨h15, not_le.1 h14, ?_⟩)))))))))))))))))
    unfold UTMLetterDesignator
    simp only [ge_iff_le, gt_iff_lt, h0, h1, h2, h3, h4, h5, h6, h7, h8, h9, h10, h11, h12, h13, h14, h15, (not_le.1 h14 : Lat < -40),
      and_false, and_true, and_self, if_true, if_false]
  by_cases h16 : (-56 : α) ≤ Lat
  · refine Or.inr (Or.inr (Or.inr (Or.inr (Or.inr (Or.inr (Or.inr (Or.inr (Or.inr (Or.inr (Or.inr (Or.inr (Or.inr (Or.inr (Or.inr (Or.inr (Or.inr (Or.inr (Or.inl ⟨h16, not_le.1 h15, ?_⟩))))))))))))))))))
    unfold UTMLetterDesignator
    simp only [ge_iff_le, gt_iff_lt, h0, h1, h2, h3, h4, h5, h6, h7, h8, h9, h10, h11, h12, h13, h14, h15, h16, (not_le.1 h15 : Lat < -48),
      and_false, and_true, and_self, if_true, if_false]
  by_cases h17 : (-64 : α) ≤ Lat
  · refine Or.inr (Or.inr (Or.inr (Or.inr (Or.inr (Or.inr (Or.inr (Or.inr (Or.inr (Or.inr (Or.inr (Or.inr (Or.inr (Or.inr (Or.inr (Or.inr (Or.inr (Or.inr (Or.inr (Or.inl ⟨h17, not_le.1 h16, ?_⟩)))))))))))))))))))
    unfold UTMLetterDesignator
    simp only [ge_iff_le, gt_iff_lt, h0, h1, h2, h3, h4, h5, h6, h7, h8, h9, h10, h11, h12, h13, h14, h15, h16, h17, (not_le.1 h16 : Lat < -56),
      and_false, and_true, and_self, if_true, if_false]
  by_cases h18 : (-72 : α) ≤ Lat
  · refine Or.inr (Or.inr (Or.inr (Or.inr (Or.inr (Or.inr (Or.inr (Or.inr (Or.inr (Or.inr (Or.inr (Or.inr (Or.inr (Or.inr (Or.inr (Or.inr (Or.inr (Or.inr (Or.inr (Or.inr (Or.inl ⟨h18, not_le.1 h17, ?_⟩))))))))))))))))))))
    unfold UTMLetterDesignator
    simp only [ge_iff_le, gt_iff_lt, h0, h1, h2, h3, h4, h5, h6, h7, h8, h9, h10, h11, h12, h13, h14, h15, h16, h17, h18, (not_le.1 h17 : Lat < -64),
      and_false, and_true, and_self, if_true, if_false]
  by_cases h19 : (-80 : α) ≤ Lat
  · refine Or.inr (Or.inr (Or.inr (Or.inr (Or.inr (Or.inr (Or.inr (Or.inr (Or.inr (Or.inr (Or.inr (Or.inr (Or.inr (Or.inr (Or.inr (Or.inr (Or.inr (Or.inr (Or.inr (Or.inr (Or.inr (⟨h19, not_le.1 h18, ?_⟩)))))))))))))))))))))
    unfold UTMLetterDesignator
    simp only [ge_iff_le, gt_iff_lt, h0, h1, h2, h3, h4, h5, h6, h7, h8, h9, h10, h11, h12, h13, h14, h15, h16, h17, h18, h19, (not_le.1 h18 : Lat < -72),
      and_false, and_true, and_self, if_true, if_false]
  · refine Or.inr (Or.inl ⟨not_le.1 h19, ?_⟩)
    unfold UTMLetterDesignator
    simp only [ge_iff_le, gt_iff_lt, h0, h1, h2, h3, h4, h5, h6, h7, h8, h9, h10, h11, h12, h13, h14, h15, h16, h17, h18, h19,
      and_false, if_false]

theorem utm_band_floor_step :
    ∀ c1 ∈ utm_band_letters, ∀ c2 ∈ utm_band_letters, c2 < c1 →
      utm_band_floor c2 + 8 ≤ utm_band_floor c1 := by
  decide

theorem utm_band_top : ∀ c ∈ utm_band_letters, ¬ 'X' < c := by
  decide

theorem utm_band_south : ∀ c ∈ utm_band_letters, (c < 'N' ↔ utm_band_floor c < 0) := by
  decide

theorem utm_letter_bounds (Lat : α) (hlo : -80 ≤ Lat) (hhi : Lat ≤ 84) :
    UTMLetterDesignator Lat ∈ utm_band_letters ∧
    ((utm_band_floor (UTMLetterDesignator Lat) : Int) : α) ≤ Lat ∧
    (Lat < ((utm_band_floor (UTMLetterDesignator Lat) : Int) : α) + 8 ∨
      UTMLetterDesignator Lat = 'X') := by
  rcases utm_letter_cases Lat with ⟨a1, e1⟩ | ⟨a1, e1⟩ | ⟨l1, u1, e1⟩ | ⟨l1, u1, e1⟩ | ⟨l1, u1, e1⟩ | ⟨l1, u1, e1⟩ | ⟨l1, u1, e1⟩ | ⟨l1, u1, e1⟩ | ⟨l1, u1, e1⟩ | ⟨l1, u1, e1⟩ | ⟨l1, u1, e1⟩ | ⟨l1, u1, e1⟩ | ⟨l1, u1, e1⟩ | ⟨l1, u1, e1⟩ | ⟨l1, u1, e1⟩ | ⟨l1, u1, e1⟩ | ⟨l1, u1, e1⟩ | ⟨l1, u1, e1⟩ | ⟨l1, u1, e1⟩ | ⟨l1, u1, e1⟩ | ⟨l1, u1, e1⟩ | ⟨l1, u1, e1⟩
  · exact absurd hhi (not_le.2 a1)
  · exact absurd hlo (not_le.2 a1)
  · rw [e1]
    have hf : utm_band_floor 'X' = 72 := by decide
    exact ⟨by decide, by rw [hf]; push_cast; exact l1, Or.inr rfl⟩
  · rw [e1]
    have hf : utm_band_floor 'W' = 64 := by decide
    exact ⟨by decide, by rw [hf]; push_cast; exact l1, Or.inl (by rw [hf]; push_cast; linarith)⟩
  · rw [e1]
    have hf : utm_band_floor 'V' = 56 := by decide
    exact ⟨by decide, by rw [hf]; push_cast; exact l1, Or.inl (by rw [hf]; push_cast; linarith)⟩
  · rw [e1]
    have hf : utm_band_floor 'U' = 48 := by decide
    exact ⟨by decide, by rw [hf]; push_cast; exact l1, Or.inl (by rw [hf]; push_cast; linarith)⟩
  · rw [e1]
    have hf : utm_band_floor 'T' = 40 := by decide
    exact ⟨by decide, by rw [hf]; push_cast; exact l1, Or.inl (by rw [hf]; push_cast; linarith)⟩
  · rw [e1]
    have hf : utm_band_floor 'S' = 32 := by decide
    exact ⟨by decide, by rw [hf]; push_cast; exact l1, Or.inl (by rw [hf]; push_cast; linarith)⟩
  · rw [e1]
    have hf : utm_band_floor 'R' = 24 := by decide
    exact ⟨by decide, by rw [hf]; push_cast; exact l1, Or.inl (by rw [hf]; push_cast; linarith)⟩
  · rw [e1]
    have hf : utm_band_floor 'Q' = 16 := by decide
    exact ⟨by decide, by rw [hf]; push_cast; exact l1, Or.inl (by rw [hf]; push_cast; linarith)⟩
  · rw [e1]
    have hf : utm_band_floor 'P' = 8 := by decide
    exact ⟨by decide, by rw [hf]; push_cast; exact l1, Or.inl (by rw [hf]; push_cast; linarith)⟩
  · rw [e1]
    have hf : utm_band_floor 'N' = 0 := by decide
    exact ⟨by decide, by rw [hf]; push_cast; exact l1, Or.inl (by rw [hf]; push_cast; linarith)⟩
  · rw [e1]
    have hf : utm_band_floor 'M' = -8 := by decide
    exact ⟨by decide, by rw [hf]; push_cast; exact l1, Or.inl (by rw [hf]; push_cast; linarith)⟩
  · rw [e1]
    have hf : utm_band_floor 'L' = -16 := by decide
    exact ⟨by decide, by rw [hf]; push_cast; exact l1, Or.inl (by rw [hf]; push_cast; linarith)⟩
  · rw [e1]
    have hf : utm_band_floor 'K' = -24 := by decide
    exact ⟨by decide, by rw [hf]; push_cast; exact l1, Or.inl (by rw [hf]; push_cast; linarith)⟩
  · rw [e1]
    have hf : utm_band_floor 'J' = -32 := by decide
    exact ⟨by decide, by rw [hf]; push_cast; exact l1, Or.inl (by rw [hf]; push_cast; linarith)⟩
  · rw [e1]
    have hf : utm_band_floor 'H' = -40 := by decide
    exact ⟨by decide, by rw [hf]; push_cast; exact l1, Or.inl (by rw [hf]; push_cast; linarith)⟩
  · rw [e1]
    have hf : utm_band_floor 'G' = -48 := by decide
    exact ⟨by decide, by rw [hf]; push_cast; exact l1, Or.inl (by rw [hf]; push_cast; linarith)⟩
  · rw [e1]
    have hf : utm_band_floor 'F' = -56 := by decide
    exact ⟨by decide, by rw [hf]; push_cast; exact l1, Or.inl (by rw [hf]; push_cast; linarith)⟩
  · rw [e1]
    have hf : utm_band_floor 'E' = -64 := by decide
    exact ⟨by decide, by rw [hf]; push_cast; exact l1, Or.inl (by rw [hf]; push_cast; linarith)⟩
  · rw [e1]
    have hf : utm_band_floor 'D' = -72 := by decide
    exact ⟨by decide, by rw [hf]; push_cast; exact l1, Or.inl (by rw [hf]; push_cast; linarith)⟩
  · rw [e1]
    have hf : utm_band_floor 'C' = -80 := by decide
    exact ⟨by decide, by rw [hf]; push_cast; exact l1, Or.inl (by rw [hf]; push_cast; linarith)⟩

/-- C35. The latitude band of UTM: `UTMLetterDesignator` returns `Z` exactly for
a latitude above `84` or below `-80`; for a latitude from `-80` to `84` it
returns one of the letters `C` to `X` without `I` and `O`, a greater latitude
never gets a smaller letter, and the letter is below `N`, which is what
`UTMtoLL` tests as `*ZoneLetter - 'N' < 0`, exactly for a negative latitude. -/
theorem utm_latitude_band (Lat Lat2 : α) :
    (UTMLetterDesignator Lat = 'Z' ↔ Lat > 84 ∨ Lat < -80) ∧
    (-80 ≤ Lat → Lat ≤ 84 →
      UTMLetterDesignator Lat ∈ ['C', 'D', 'E', 'F', 'G', 'H', 'J', 'K', 'L', 'M', 'N', 'P', 'Q',
        'R', 'S', 'T', 'U', 'V', 'W', 'X']) ∧
    (-80 ≤ Lat → Lat ≤ Lat2 → Lat2 ≤ 84 →
      UTMLetterDesignator Lat ≤ UTMLetterDesignator Lat2) ∧
    (-80 ≤ Lat → Lat ≤ 84 → (UTMLetterDesignator Lat < 'N' ↔ Lat < 0)) ∧
    (-80 ≤ Lat → Lat ≤ 84 →
      (((UTMLetterDesignator Lat).toNat : Int) - ('N'.toNat : Int) < 0 ↔ Lat < 0)) := by
  have hsouth : -80 ≤ Lat → Lat ≤ 84 → (UTMLetterDesignator Lat < 'N' ↔ Lat < 0) := by
    intro hlo hhi
    obtain ⟨hmem, hfl, hup⟩ := utm_letter_bounds Lat hlo hhi
    rw [utm_band_south _ hmem]
    constructor
    · intro hneg
      rcases hup with h | h
      · have h8 : utm_band_floor (UTMLetterDesignator Lat) + 8 ≤ 0 := by
          have hdvd : ∀ c ∈ utm_band_letters, utm_band_floor c < 0 → utm_band_floor c + 8 ≤ 0 := by
            decide
          exact hdvd _ hmem hneg
        have h8' : ((utm_band_floor (UTMLetterDesignator Lat) : Int) : α) + 8 ≤ 0 := by
          exact_mod_cast h8
        exact lt_of_lt_of_le h h8'
      · rw [h] at hneg
        exact absurd hneg (by decide)
    · intro hneg
      have h1 : ((utm_band_floor (UTMLetterDesignator Lat) : Int) : α) < 0 :=
        lt_of_le_of_lt hfl hneg
      exact_mod_cast h1
  refine ⟨?_, ?_, ?_, hsouth, ?_⟩
  · constructor
    · intro hz
      by_contra hcon
      rw [not_or, not_lt, not_lt] at hcon
      have hmem := (utm_letter_bounds Lat hcon.2 hcon.1).1
      rw [hz] at hmem
      exact absurd hmem (by decide)
    · intro hz
      rcases utm_letter_cases Lat with ⟨a1, e1⟩ | ⟨a1, e1⟩ | ⟨l1, u1, e1⟩ | ⟨l1, u1, e1⟩ | ⟨l1, u1, e1⟩ | ⟨l1, u1, e1⟩ | ⟨l1, u1, e1⟩ | ⟨l1, u1, e1⟩ | ⟨l1, u1, e1⟩ | ⟨l1, u1, e1⟩ | ⟨l1, u1, e1⟩ | ⟨l1, u1, e1⟩ | ⟨l1, u1, e1⟩ | ⟨l1, u1, e1⟩ | ⟨l1, u1, e1⟩ | ⟨l1, u1, e1⟩ | ⟨l1, u1, e1⟩ | ⟨l1, u1, e1⟩ | ⟨l1, u1, e1⟩ | ⟨l1, u1, e1⟩ | ⟨l1, u1, e1⟩ | ⟨l1, u1, e1⟩
      all_goals first
        | exact e1
        | (exfalso; rcases hz with hz | hz <;> linarith)
  · intro hlo hhi
    exact (utm_letter_bounds Lat hlo hhi).1
  · intro hlo hle hhi
    obtain ⟨hmem1, hfl1, _⟩ := utm_letter_bounds Lat hlo (le_trans hle hhi)
    obtain ⟨hmem2, _, hup2⟩ := utm_letter_bounds Lat2 (le_trans hlo hle) hhi
    by_contra hcon
    have hlt : UTMLetterDesignator Lat2 < UTMLetterDesignator Lat := not_le.1 hcon
    rcases hup2 with h | h
    · have hstep := utm_band_floor_step _ hmem1 _ hmem2 hlt
      have hstep' : ((utm_band_floor (UTMLetterDesignator Lat2) : Int) : α) + 8
          ≤ ((utm_band_floor (UTMLetterDesignator Lat) : Int) : α) := by
        exact_mod_cast hstep
      exact absurd (lt_of_le_of_lt (le_trans hstep' (le_trans hfl1 hle)) h) (lt_irrefl _)
    · rw [h] at hlt
      exact utm_band_top _ hmem1 hlt
  · intro hlo hhi
    rw [← hsouth hlo hhi]
    have hchar : ∀ c : Char, ((c.toNat : Int) - ('N'.toNat : Int) < 0 ↔ c < 'N') := by
      intro c
      rw [sub_neg, Char.lt_iff_val_lt_val]
      show ((c.toNat : Int) < ('N'.toNat : Int)) ↔ c.toNat < 'N'.toNat
      exact Int.ofNat_lt
    exact hchar _

end UTMProofs

section LongTempProofs

variable {α : Type} [LinearOrderedField α] [FloorRing α]

theorem long_temp_some (Long v : α) (h : LLtoUTM_LongTemp Long = some v) :
    ∃ t : Int, (t = if 0 ≤ (Long + 180) / 360 then ⌊(Long + 180) / 360⌋
        else ⌈(Long + 180) / 360⌉) ∧
      v = (Long + 180) - (t : α) * 360 - 180 := by
  unfold LLtoUTM_LongTemp static_cast_int at h
  dsimp only at h
  split_ifs at h with h1 h2 h3
  · dsimp only at h
    split_ifs at h with h5
    simp only [Option.some.injEq] at h
    refine ⟨_, (if_pos h1).symm, ?_⟩
    rw [← h]
    push_cast
    ring
  · dsimp only at h
    split_ifs at h with h5
    simp only [Option.some.injEq] at h
    refine ⟨_, (if_neg h1).symm, ?_⟩
    rw [← h]
    push_cast
    ring

/-- C36. The normalisation of the longitude in `LLtoUTM`: for a longitude of
`-180` or more the value `LongTemp` lies in `-180 ≤ LongTemp < 180`; for a
longitude below `-180` the conversion to `int` rounds toward zero and `LongTemp`
lies in `-540 < LongTemp ≤ -180`, so `-190` stays `-190`. The value is computed
for every longitude between `-10^9` and `10^9`. -/
theorem longitude_normalisation_range (Long v : α) :
    LLtoUTM_LongTemp (-190 : ℚ) = some (-190) ∧
    LLtoUTM_LongTemp (190 : ℚ) = some (-170) ∧
    (LLtoUTM_LongTemp Long = some v → -180 ≤ Long → -180 ≤ v ∧ v < 180) ∧
    (LLtoUTM_LongTemp Long = some v → Long < -180 → -540 < v ∧ v ≤ -180) ∧
    (-1000000000 ≤ Long → Long ≤ 1000000000 → ∃ w, LLtoUTM_LongTemp Long = some w) := by
  have hq : (Long + 180) / 360 * 360 = Long + 180 := by
    rw [div_mul_cancel₀]
    norm_num
  refine ⟨by decide!, by decide!, ?_, ?_, ?_⟩
  · intro h hlo
    obtain ⟨t, ht, hv⟩ := long_temp_some Long v h
    have h0 : 0 ≤ (Long + 180) / 360 := by
      apply div_nonneg
      · linarith
      · norm_num
    rw [if_pos h0] at ht
    have h1 : (t : α) ≤ (Long + 180) / 360 := by rw [ht]; exact Int.floor_le _
    have h2 : (Long + 180) / 360 < (t : α) + 1 := by rw [ht]; exact Int.lt_floor_add_one _
    constructor
    · rw [hv]; nlinarith
    · rw [hv]; nlinarith
  · intro h hlo
    obtain ⟨t, ht, hv⟩ := long_temp_some Long v h
    have h0 : ¬ 0 ≤ (Long + 180) / 360 := by
      rw [not_le]
      apply div_neg_of_neg_of_pos
      · linarith
      · norm_num
    rw [if_neg h0] at ht
    have h1 : (Long + 180) / 360 ≤ (t : α) := by rw [ht]; exact Int.le_ceil _
    have h2 : (t : α) < (Long + 180) / 360 + 1 := by rw [ht]; exact Int.ceil_lt_add_one _
    constructor
    · rw [hv]; nlinarith
    · rw [hv]; nlinarith
  · intro hlo hhi
    have hbound : ∀ t : Int, (t : α) * 360 ≤ 1000000540 → -1000000540 ≤ (t : α) * 360 →
        (-2147483648 ≤ t ∧ t ≤ 2147483647) ∧
          (-2147483648 ≤ t * 360 ∧ t * 360 ≤ 2147483647) := by
      intro t h1 h2
      have h1' : t * 360 ≤ 1000000540 := by exact_mod_cast h1
      have h2' : -1000000540 ≤ t * 360 := by exact_mod_cast h2
      omega
    unfold LLtoUTM_LongTemp static_cast_int
    dsimp only
    by_cases h0 : 0 ≤ (Long + 180) / 360
    · have h1 : ((⌊(Long + 180) / 360⌋ : Int) : α) ≤ (Long + 180) / 360 := Int.floor_le _
      have h2 : (Long + 180) / 360 < ((⌊(Long + 180) / 360⌋ : Int) : α) + 1 :=
        Int.lt_floor_add_one _
      obtain ⟨hb1, hb2⟩ := hbound ⌊(Long + 180) / 360⌋ (by nlinarith) (by nlinarith)
      rw [if_pos h0, if_pos hb1]
      dsimp only
      rw [if_pos hb2]
      exact ⟨_, rfl⟩
    · have h1 : (Long + 180) / 360 ≤ ((⌈(Long + 180) / 360⌉ : Int) : α) := Int.le_ceil _
      have h2 : ((⌈(Long + 180) / 360⌉ : Int) : α) < (Long + 180) / 360 + 1 :=
        Int.ceil_lt_add_one _
      obtain ⟨hb1, hb2⟩ := hbound ⌈(Long + 180) / 360⌉ (by nlinarith) (by nlinarith)
      rw [if_neg h0, if_pos hb1]
      dsimp only
      rw [if_pos hb2]
      exact ⟨_, rfl⟩

end LongTempProofs

section PolygonAccessProofs

variable {α ζ : Type} [LinearOrderedRing α]

theorem get_polygon_points_plain (geoms : GeometryCollection α)
    (LLtoUTM : α → α → Option ζ → α × α × ζ) (polygon_index : Nat) (l : List Nat)
    (st : Polygon α × List (Option ζ)) :
    l.foldl (get_polygon_point geoms false LLtoUTM polygon_index) st
      = ({ st.1 with
            x := st.1.x ++ l.map (fun k => geoms.x.getD k 0)
            y := st.1.y ++ l.map (fun k => geoms.y.getD k 0) }, st.2) := by
  induction l generalizing st with
  | nil => simp
  | cons k l ih =>
    rw [List.foldl_cons, ih]
    simp [get_polygon_point]

theorem get_polygon_ring_plain (geoms : GeometryCollection α) (holes : List Bool)
    (LLtoUTM : α → α → Option ζ → α × α × ζ) (polygon_index j : Nat)
    (st : Polygon α × List (Option ζ)) :
    get_polygon_ring geoms holes false LLtoUTM polygon_index st j
      = ({ x := st.1.x ++ ring_x geoms j
           y := st.1.y ++ ring_y geoms j
           parts := st.1.parts ++
             [if st.1.parts.isEmpty then 0 else st.1.x.length + (ring_x geoms j).length]
           holes := st.1.holes ++ [holes.getD j false] }, st.2) := by
  unfold get_polygon_ring
  simp only [get_polygon_points_plain, ring_x, ring_y, List.length_append]

theorem ring_lengths (geoms : GeometryCollection α) (j : Nat) :
    (ring_x geoms j).length = (ring_y geoms j).length := by
  simp [ring_x, ring_y]

theorem part_index_le (geoms : GeometryCollection α) (n : Nat) :
    (List.range n).foldl (fun part_index i => part_index + geoms.sizes.getD i 0) 0
      ≤ part_offset geoms n ∧
    ((∀ j < n, geoms.sizes.getD j 0 ≠ 0) →
      (List.range n).foldl (fun part_index i => part_index + geoms.sizes.getD i 0) 0
      = part_offset geoms n) ∧
    ((∃ j < n, geoms.sizes.getD j 0 = 0) →
      (List.range n).foldl (fun part_index i => part_index + geoms.sizes.getD i 0) 0
      < part_offset geoms n) := by
  induction n with
  | zero => simp [part_offset]
  | succ n ih =>
    obtain ⟨ih1, ih2, ih3⟩ := ih
    rw [List.range_succ, List.foldl_append, part_offset_succ]
    simp only [List.foldl_cons, List.foldl_nil]
    refine ⟨?_, ?_, ?_⟩
    · split_ifs <;> omega
    · intro h
      rw [ih2 (fun j hj => h j (by omega)), if_neg (h n (by omega))]
    · rintro ⟨j, hj, hz⟩
      by_cases hjn : j = n
      · subst hjn
        rw [if_pos hz, hz]
        omega
      · have := ih3 ⟨j, by omega, hz⟩
        split_ifs <;> omega

theorem get_polygon_part_index_pos (geoms : GeometryCollection α) (i : Nat)
    (hi : geoms.sizes.getD i 0 ≠ 0) :
    get_polygon_part_index geoms i
      = (List.range i).foldl (fun part_index j => part_index + geoms.sizes.getD j 0) 0 := by
  unfold get_polygon_part_index
  simp only [if_neg hi]

/-- C33. The slot where `get_polygon` starts reading: it is the slot of
`get_point` and `get_num_points` when no earlier polygon is empty, and a smaller
one when polygon `i` has parts and an earlier polygon is empty; a polygon without
parts is left as it was.  On the well-formed collection
`squares_around_empty` the call for polygon `2` reads slot `1` and copies no
point, while `get_num_points` counts the `5` points of the square. -/
theorem get_polygon_offset_ignores_empty (geoms : GeometryCollection α) (i : Nat) :
    ((∀ j < i, geoms.sizes.getD j 0 ≠ 0) → geoms.sizes.getD i 0 ≠ 0 →
      get_polygon_part_index geoms i = part_offset geoms i) ∧
    (geoms.sizes.getD i 0 ≠ 0 → (∃ j < i, geoms.sizes.getD j 0 = 0) →
      get_polygon_part_index geoms i < part_offset geoms i) ∧
    (geoms.sizes.getD i 0 = 0 →
      ∀ (holes : List Bool) (c : Bool) (LLtoUTM : α → α → Option ζ → α × α × ζ)
        (utm_zones : List (Option ζ)) (poly : Polygon α),
        get_polygon geoms holes c LLtoUTM utm_zones i poly = (poly, utm_zones)) ∧
    well_formed squares_around_empty ∧
    part_offset squares_around_empty 2 = 2 ∧
    get_polygon_part_index squares_around_empty 2 = 1 ∧
    get_num_points squares_around_empty 2 = 5 ∧
    get_point squares_around_empty 2 0 = (1, 1) ∧
    get_polygon squares_around_empty [false, false, false] false no_conversion [] 2 empty_polygon
      = (⟨[], [], [0], [false]⟩, []) := by
  refine ⟨?_, ?_, ?_, by decide, by decide, by decide, by decide, by decide, by decide⟩
  · intro h hi
    rw [get_polygon_part_index_pos geoms i hi]
    exact (part_index_le geoms i).2.1 h
  · intro hi h
    rw [get_polygon_part_index_pos geoms i hi]
    exact (part_index_le geoms i).2.2 h
  · intro hi holes c LLtoUTM utm_zones poly
    unfold get_polygon
    simp only [hi, List.range'_zero, List.foldl_nil]

/-- C34. One ring read by `get_polygon` (no conversion) against `Polygon::add` of
the same ring: `x`, `y` and `holes` agree, but `get_polygon` pushes on `parts` the
number of points after the ring was copied, `Polygon::add` the number before. On
`square_with_hole` the polygon read back has `parts = [0, 10]`, the polygon built
by two calls of `Polygon::add` has `parts = [0, 5]`. -/
theorem get_polygon_parts_are_ring_ends (geoms : GeometryCollection α) (holes : List Bool)
    (LLtoUTM : α → α → Option ζ → α × α × ζ) (polygon_index j : Nat)
    (st : Polygon α × List (Option ζ)) :
    ((get_polygon_ring geoms holes false LLtoUTM polygon_index st j).1.x
        = (st.1.add (ring_x geoms j) (ring_y geoms j) (holes.getD j false)).x ∧
      (get_polygon_ring geoms holes false LLtoUTM polygon_index st j).1.y
        = (st.1.add (ring_x geoms j) (ring_y geoms j) (holes.getD j false)).y ∧
      (get_polygon_ring geoms holes false LLtoUTM polygon_index st j).1.holes
        = (st.1.add (ring_x geoms j) (ring_y geoms j) (holes.getD j false)).holes ∧
      (get_polygon_ring geoms holes false LLtoUTM polygon_index st j).1.parts
        = st.1.parts ++
            [if st.1.parts.isEmpty then 0 else st.1.x.length + (ring_x geoms j).length] ∧
      (st.1.add (ring_x geoms j) (ring_y geoms j) (holes.getD j false)).parts
        = st.1.parts ++ [if st.1.parts.isEmpty then 0 else st.1.x.length]) ∧
    (get_polygon square_with_hole [false, true] false no_conversion [] 0 empty_polygon).1
      = ⟨[0, 3, 3, 0, 0, 1, 1, 2, 2, 1], [0, 0, 3, 3, 0, 1, 2, 2, 1, 1], [0, 10],
          [false, true]⟩ ∧
    (empty_polygon.add (ring_x square_with_hole 0) (ring_y square_with_hole 0) false).add
        (ring_x square_with_hole 1) (ring_y square_with_hole 1) true
      = ⟨[0, 3, 3, 0, 0, 1, 1, 2, 2, 1], [0, 0, 3, 3, 0, 1, 2, 2, 1, 1], [0, 5],
          [false, true]⟩ := by
  refine ⟨?_, by decide, by decide⟩
  rw [get_polygon_ring_plain]
  unfold Polygon.add
  rw [if_pos (ring_lengths geoms j)]
  exact ⟨rfl, rfl, rfl, rfl, rfl⟩

end PolygonAccessProofs

section Connectivity

theorem set_insert_perm (a : Nat) (l : List Nat) (h : a ∉ l) :
    (set_insert a l).Perm (a :: l) := by
  induction l with
  | nil => simp [set_insert]
  | cons b t ih =>
    have hab : a ≠ b := fun e => h (by simp [e])
    have hat : a ∉ t := fun e => h (by simp [e])
    unfold set_insert
    split_ifs with h1
    · exact List.Perm.refl _
    · exact ((ih hat).cons b).trans (List.Perm.swap a b t)

theorem bfs_scan_cons (v : Nat) (l : List Nat) (st : List Nat × List Nat) :
    bfs_scan (v :: l) st
      = bfs_scan l (if v ∈ st.1 then st else (set_insert v st.1, st.2 ++ [v])) := rfl

theorem bfs_scan_spec (l : List Nat) (st : List Nat × List Nat) (hnd : st.1.Nodup) :
    (∀ v, v ∈ (bfs_scan l st).1 ↔ v ∈ st.1 ∨ v ∈ l) ∧
    (∀ v, v ∈ (bfs_scan l st).2 → v ∈ st.2 ∨ v ∈ l) ∧
    (∀ v, v ∈ st.2 → v ∈ (bfs_scan l st).2) ∧
    (∀ v ∈ l, v ∉ st.1 → v ∈ (bfs_scan l st).2) ∧
    (bfs_scan l st).1.Nodup ∧
    (bfs_scan l st).1.length + st.2.length = st.1.length + (bfs_scan l st).2.length := by
  induction l generalizing st with
  | nil =>
    refine ⟨fun v => by simp [bfs_scan], fun v h => Or.inl h, fun v h => h, ?_, hnd, rfl⟩
    intro v hv
    cases hv
  | cons a l ih =>
    rw [bfs_scan_cons]
    by_cases ha : a ∈ st.1
    · rw [if_pos ha]
      obtain ⟨i1, i2, i3, i4, i5, i6⟩ := ih st hnd
      refine ⟨?_, ?_, i3, ?_, i5, i6⟩
      · intro v
        rw [i1 v, List.mem_cons]
        constructor
        · rintro (h | h)
          · exact Or.inl h
          · exact Or.inr (Or.inr h)
        · rintro (h | h | h)
          · exact Or.inl h
          · exact Or.inl (h ▸ ha)
          · exact Or.inr h
      · intro v hv
        rcases i2 v hv with h | h
        · exact Or.inl h
        · exact Or.inr (List.mem_cons_of_mem _ h)
      · intro v hv hnot
        rcases List.mem_cons.1 hv with h | h
        · exact absurd (h ▸ ha) hnot
        · exact i4 v h hnot
    · rw [if_neg ha]
      have hperm := set_insert_perm a st.1 ha
      have hnd2 : (set_insert a st.1).Nodup :=
        hperm.nodup_iff.2 (List.nodup_cons.2 ⟨ha, hnd⟩)
      obtain ⟨i1, i2, i3, i4, i5, i6⟩ := ih (set_insert a st.1, st.2 ++ [a]) hnd2
      have hlen : (set_insert a st.1).length = st.1.length + 1 := by
        rw [hperm.length_eq, List.length_cons]
      refine ⟨?_, ?_, ?_, ?_, i5, ?_⟩
      · intro v
        rw [i1 v, List.mem_cons]
        show v ∈ set_insert a st.1 ∨ v ∈ l ↔ _
        rw [mem_set_insert]
        constructor
        · rintro ((h | h) | h)
          · exact Or.inr (Or.inl h)
          · exact Or.inl h
          · exact Or.inr (Or.inr h)
        · rintro (h | h | h)
          · exact Or.inl (Or.inr h)
          · exact Or.inl (Or.inl h)
          · exact Or.inr h
      · intro v hv
        rcases i2 v hv with h | h
        · rcases List.mem_append.1 h with h | h
          · exact Or.inl h
          · exact Or.inr (by rw [List.mem_singleton.1 h]; exact List.mem_cons_self _ _)
        · exact Or.inr (List.mem_cons_of_mem _ h)
      · intro v hv
        exact i3 v (List.mem_append_left _ hv)
      · intro v hv hnot
        by_cases hva : v = a
        · exact i3 v (by rw [hva]; exact List.mem_append_right _ (List.mem_singleton_self a))
        · rcases List.mem_cons.1 hv with h | h
          · exact absurd h hva
          · apply i4 v h
            show v ∉ set_insert a st.1
            rw [mem_set_insert]
            rintro (h2 | h2)
            · exact hva h2
            · exact hnot h2
      · have h6 : (bfs_scan l (set_insert a st.1, st.2 ++ [a])).1.length + (st.2 ++ [a]).length
            = (set_insert a st.1).length + (bfs_scan l (set_insert a st.1, st.2 ++ [a])).2.length :=
          i6
        rw [List.length_append, List.length_singleton, hlen] at h6
        omega

theorem bfs_access_length_le (G : Nat → List Nat) (N : Nat) (st : List Nat × List Nat)
    (h : bfs_inv G N st) : st.1.length ≤ N := by
  have hsub : st.1 ⊆ List.range N := fun v hv => List.mem_range.2 (h.2.2.1 v hv).1
  have := (List.subperm_of_subset h.2.1 hsub).length_le
  rwa [List.length_range] at this

theorem bfs_pop_inv (G : Nat → List Nat) (N : Nat) (hrange : ∀ i < N, ∀ j ∈ G i, j < N)
    (access magzine : List Nat) (nbr : Nat) (h : bfs_inv G N (access, nbr :: magzine)) :
    bfs_inv G N (bfs_scan (G nbr) (access, magzine)) ∧
    (bfs_scan (G nbr) (access, magzine)).1.length + magzine.length
      = access.length + (bfs_scan (G nbr) (access, magzine)).2.length := by
  obtain ⟨h0, hnd, hreach, hsub, hclosed⟩ := h
  obtain ⟨i1, i2, i3, i4, i5, i6⟩ := bfs_scan_spec (G nbr) (access, magzine) hnd
  have hnbr : nbr ∈ access := hsub nbr (List.mem_cons_self _ _)
  refine ⟨⟨(i1 0).2 (Or.inl h0), i5, ?_, ?_, ?_⟩, i6⟩
  · intro v hv
    rcases (i1 v).1 hv with h | h
    · exact hreach v h
    · exact ⟨hrange nbr (hreach nbr hnbr).1 v h, (hreach nbr hnbr).2.tail h⟩
  · intro v hv
    rcases i2 v hv with h | h
    · exact (i1 v).2 (Or.inl (hsub v (List.mem_cons_of_mem _ h)))
    · exact (i1 v).2 (Or.inr h)
  · intro v hv
    by_cases hva : v ∈ access
    · rcases hclosed v hva with h | h
      · rcases List.mem_cons.1 h with h | h
        · right
          intro w hw
          exact (i1 w).2 (Or.inr (h ▸ hw))
        · exact Or.inl (i3 v h)
      · right
        intro w hw
        exact (i1 w).2 (Or.inl (h w hw))
    · rcases (i1 v).1 hv with h | h
      · exact absurd h hva
      · exact Or.inl (i4 v h hva)

theorem bfs_loop_spec (G : Nat → List Nat) (N : Nat) (hrange : ∀ i < N, ∀ j ∈ G i, j < N)
    (fuel : Nat) (st : List Nat × List Nat) (h : bfs_inv G N st)
    (hfuel : st.2.length + N ≤ fuel + st.1.length) :
    ∃ access, bfs_loop G fuel st = some access ∧ bfs_inv G N (access, []) := by
  induction fuel generalizing st with
  | zero =>
    obtain ⟨access, magzine⟩ := st
    have hle := bfs_access_length_le G N _ h
    have hm : magzine = [] := by
      apply List.eq_nil_of_length_eq_zero
      simp only at hfuel hle
      omega
    subst hm
    exact ⟨access, rfl, h⟩
  | succ fuel ih =>
    obtain ⟨access, magzine⟩ := st
    cases magzine with
    | nil => exact ⟨access, rfl, h⟩
    | cons nbr magzine =>
      obtain ⟨hinv, hlen⟩ := bfs_pop_inv G N hrange access magzine nbr h
      have hfuel2 : magzine.length + 1 + N ≤ fuel + 1 + access.length := hfuel
      have hgoal : (bfs_scan (G nbr) (access, magzine)).2.length + N
          ≤ fuel + (bfs_scan (G nbr) (access, magzine)).1.length := by
        clear hfuel
        omega
      exact ih _ hinv hgoal

theorem bfs_closed_reach (G : Nat → List Nat) (N : Nat) (access : List Nat)
    (h : bfs_inv G N (access, [])) (i : Nat)
    (hi : Relation.ReflTransGen (fun a c => c ∈ G a) 0 i) : i ∈ access := by
  induction hi with
  | refl => exact h.1
  | tail _ hbc ih =>
    rcases h.2.2.2.2 _ ih with h1 | h1
    · cases h1
    · exact h1 _ hbc

/-- C38. `CheckConnectivity` on symmetric neighbour lists of `num_obs ≥ 2`
observations with entries below `num_obs`: with `num_obs` rounds of fuel the call
returns, the answer is true exactly when every observation is reached from
observation `0` by a path of neighbour links, and it is false when observation
`0` has no neighbour. -/
theorem check_connectivity_decides_connected (GetNeighbors : Nat → List Nat)
    (num_obs fuel : Nat) (hN : 2 ≤ num_obs)
    (hsym : ∀ i < num_obs, ∀ j < num_obs, j ∈ GetNeighbors i → i ∈ GetNeighbors j)
    (hrange : ∀ i < num_obs, ∀ j ∈ GetNeighbors i, j < num_obs)
    (hfuel : num_obs ≤ fuel) :
    ∃ b, CheckConnectivity GetNeighbors num_obs fuel = some b ∧
      (b = true ↔
        ∀ i < num_obs, Relation.ReflTransGen (fun a c => c ∈ GetNeighbors a) 0 i) ∧
      (GetNeighbors 0 = [] → b = false) := by
  unfold CheckConnectivity
  dsimp only
  by_cases h0 : GetNeighbors 0 = []
  · refine ⟨false, by simp [h0], ?_, fun _ => rfl⟩
    constructor
    · intro h
      cases h
    · intro h
      exfalso
      have h1 := h 1 (by omega)
      rcases Relation.ReflTransGen.cases_head h1 with h2 | ⟨c, hc, _⟩
      · cases h2
      · rw [h0] at hc
        cases hc
  · have hne : (GetNeighbors 0).isEmpty = false := by
      cases hg : GetNeighbors 0 with
      | nil => exact absurd hg h0
      | cons a t => rfl
    rw [hne]
    simp only [Bool.false_eq_true, if_false]
    have hstart : bfs_inv GetNeighbors num_obs ([0], 0 :: ([] : List Nat)) := by
      refine ⟨List.mem_singleton_self 0, List.nodup_singleton 0, ?_, ?_, ?_⟩
      · intro v hv
        rw [List.mem_singleton.1 hv]
        exact ⟨by omega, Relation.ReflTransGen.refl⟩
      · intro v hv
        exact hv
      · intro v hv
        exact Or.inl hv
    obtain ⟨hinv, hlen⟩ := bfs_pop_inv GetNeighbors num_obs hrange [0] [] 0 hstart
    have hlen2 : (bfs_scan (GetNeighbors 0) ([0], [])).1.length + 0
        = 1 + (bfs_scan (GetNeighbors 0) ([0], [])).2.length := hlen
    obtain ⟨access, hrun, hfin⟩ :=
      bfs_loop_spec GetNeighbors num_obs hrange fuel _ hinv (by omega)
    rw [hrun]
    dsimp only
    have hiff : ∀ i, i < num_obs →
        (i ∈ access ↔ Relation.ReflTransGen (fun a c => c ∈ GetNeighbors a) 0 i) :=
      fun i _ => ⟨fun h => (hfin.2.2.1 i h).2, bfs_closed_reach GetNeighbors num_obs access hfin i⟩
    by_cases hlt : access.length < num_obs
    · rw [if_pos hlt]
      refine ⟨_, rfl, ?_, fun h => absurd h h0⟩
      rw [List.all_eq_true]
      constructor
      · intro h i hi
        have := h i (List.mem_range.2 hi)
        rw [Bool.or_eq_true, decide_eq_true_eq, List.any_eq_true] at this
        rcases this with h1 | ⟨j, hj, hja⟩
        · exact (hiff i hi).1 h1
        · rw [decide_eq_true_eq] at hja
          have hjN := (hfin.2.2.1 j hja).1
          have hij : i ∈ GetNeighbors j := hsym i hi j hjN hj
          rcases hfin.2.2.2.2 j hja with h2 | h2
          · cases h2
          · exact (hiff i hi).1 (h2 i hij)
      · intro h i hi
        rw [Bool.or_eq_true, decide_eq_true_eq]
        exact Or.inl ((hiff i (List.mem_range.1 hi)).2 (h i (List.mem_range.1 hi)))
    · rw [if_neg hlt]
      refine ⟨true, rfl, ?_, fun h => absurd h h0⟩
      refine ⟨fun _ => ?_, fun _ => rfl⟩
      intro i hi
      have hsub : access ⊆ List.range num_obs :=
        fun v hv => List.mem_range.2 (hfin.2.2.1 v hv).1
      have hnd : access.Nodup := hfin.2.1
      have hperm : access.Perm (List.range num_obs) :=
        (List.subperm_of_subset hnd hsub).perm_of_length_le
          (by rw [List.length_range]; omega)
      exact (hiff i hi).1 (hperm.mem_iff.2 (List.mem_range.2 hi))

/-- The path `0 - 1 - 2` is connected and `CheckConnectivity` says so. -/
theorem check_connectivity_decides_connected_witness :
    ∃ b, CheckConnectivity path_graph 3 3 = some b ∧
      (b = true ↔ ∀ i < 3, Relation.ReflTransGen (fun a c => c ∈ path_graph a) 0 i) ∧
      (path_graph 0 = [] → b = false) :=
  check_connectivity_decides_connected path_graph 3 3 (by decide) (by decide) (by decide)
    (by decide)

end Connectivity

section SweepCountProofs

variable {α : Type} [LinearOrder α]

theorem walk_right_all (rightof : Nat → Bool) (line : List Nat) (end_ : Nat)
    (hnd : line.Nodup) (hnz : ∀ x ∈ line, x ≠ 0) (hlast : line.getLast? = some end_)
    (hall : ∀ x, rightof x = true) :
    ∀ (fuel : Nat) (l1 : List Nat) (he : Nat) (l2 : List Nat),
      line = l1 ++ he :: l2 → l2 ≠ [] → l2.length ≤ fuel →
      walk_right rightof line end_ fuel he = some end_ := by
  intro fuel
  induction fuel with
  | zero =>
    intro l1 he l2 _ hne hlen
    exact absurd (List.length_eq_zero.1 (Nat.le_zero.1 hlen)) hne
  | succ fuel ih =>
    intro l1 he l2 hline hne hlen
    cases l2 with
    | nil => exact absurd rfl hne
    | cons y l2 =>
      have hnd2 : (l1 ++ he :: y :: l2).Nodup := hline ▸ hnd
      have hhe : he ∉ l1 := fun h =>
        (List.nodup_append.1 hnd2).2.2 h (List.mem_cons_self _ _)
      have hr : he_right line he = y := by rw [hline]; exact he_right_at l1 l2 he y hhe
      have hy0 : y ≠ 0 := hnz y (by rw [hline]; simp)
      by_cases hc : y ≠ end_ ∧ rightof y = true
      · have hline2 : line = (l1 ++ [he]) ++ y :: l2 := by rw [hline]; simp
        have hne2 : l2 ≠ [] := fun h =>
          hc.1 ((line_last_iff line _ _ y end_ hnd hlast hline2).1 h)
        have h2 := ih (l1 ++ [he]) y l2 hline2 hne2
          (by simp only [List.length_cons] at hlen; omega)
        simp only [walk_right, hr, if_neg hy0, if_pos hc]
        exact h2
      · have hy : y = end_ := by
          by_contra hne3
          exact hc ⟨hne3, hall y⟩
        simp only [walk_right, hr, if_neg hy0, if_neg hc]
        rw [hy]

theorem walk_left_all (rightof : Nat → Bool) (line : List Nat) (start : Nat)
    (hnd : line.Nodup) (hnz : ∀ x ∈ line, x ≠ 0) (hhead : line.head? = some start)
    (hall : ∀ x, rightof x = false) :
    ∀ (fuel : Nat) (l1 : List Nat) (he : Nat) (l2 : List Nat),
      line = l1 ++ he :: l2 → l1 ≠ [] → l1.length ≤ fuel →
      walk_left rightof line start fuel he = some start := by
  intro fuel
  induction fuel with
  | zero =>
    intro l1 he l2 _ hne hlen
    exact absurd (List.length_eq_zero.1 (Nat.le_zero.1 hlen)) hne
  | succ fuel ih =>
    intro l1 he l2 hline hne hlen
    rcases List.eq_nil_or_concat l1 with h | ⟨L, z, h⟩
    · exact absurd h hne
    · rw [List.concat_eq_append] at h
      subst h
      have hline2 : line = L ++ z :: he :: l2 := by rw [hline]; simp
      have hnd2 : (L ++ z :: he :: l2).Nodup := hline2 ▸ hnd
      have hnd3 := (List.nodup_append.1 hnd2)
      have hhe : he ∉ L := fun h =>
        hnd3.2.2 h (List.mem_cons_of_mem _ (List.mem_cons_self _ _))
      have hz : z ≠ he := fun h =>
        (List.nodup_cons.1 hnd3.2.1).1 (by rw [h]; exact List.mem_cons_self _ _)
      have hl : he_left line he = z := by rw [hline2]; exact he_left_at L l2 z he hhe hz
      have hz0 : z ≠ 0 := hnz z (by rw [hline2]; simp)
      by_cases hc : z ≠ start ∧ rightof z = false
      · have hne2 : L ≠ [] := fun h =>
          hc.1 ((line_head_iff line _ _ z start hnd hhead hline2).1 h)
        have h2 := ih L z (he :: l2) hline2 hne2
          (by simp only [List.length_append, List.length_singleton] at hlen; omega)
        simp only [walk_left, hl, if_neg hz0, if_pos hc]
        exact h2
      · have hzs : z = start := by
          by_contra hne3
          exact hc ⟨hne3, hall z⟩
        simp only [walk_left, hl, if_neg hz0, if_neg hc]
        rw [hzs]

theorem get_edge_above_x_extremes (a : sweep_answers α) (c : jcv_context_internal α)
    (num_points r : Nat) (hinv : sweep_inv num_points c r) :
    ((∀ x, a.rightof x = true) →
      jcv_get_edge_above_x a c = some (he_left c.line c.beachline_end)) ∧
    ((∀ x, a.rightof x = false) → jcv_get_edge_above_x a c = some c.beachline_start) := by
  have hnz : ∀ x ∈ c.line, x ≠ 0 := fun x hx => (hinv.live x hx).1
  have hstart : c.beachline_start ∈ c.line := by
    obtain ⟨t, ht⟩ := List.head?_eq_some_iff.1 hinv.head
    rw [ht]; exact List.mem_cons_self _ _
  have hend : c.beachline_end ∈ c.line := by
    obtain ⟨t, ht⟩ := List.getLast?_eq_some_iff.1 hinv.last
    rw [ht]; simp
  unfold jcv_get_edge_above_x
  generalize hhe : (if c.last_inserted = 0 then
      if a.low_half = true then c.beachline_start else c.beachline_end
    else c.last_inserted) = he
  have hmem : he ∈ c.line := by
    rw [← hhe]
    split_ifs with h1 h2
    · exact hstart
    · exact hend
    · rcases hinv.last_ins with h | h
      · exact absurd h h1
      · exact h
  obtain ⟨l1, l2, hline⟩ := List.append_of_mem hmem
  dsimp only
  constructor
  · intro hall
    by_cases hc : he = c.beachline_start ∨ (he ≠ c.beachline_end ∧ a.rightof he = true)
    · rw [if_pos hc]
      have hne : he ≠ c.beachline_end := by
        rcases hc with h | h
        · rw [h]; exact hinv.start_ne
        · exact h.1
      have hl2 : l2 ≠ [] := fun h =>
        hne ((line_last_iff c.line _ _ he _ hinv.nodup hinv.last hline).1 h)
      rw [walk_right_all a.rightof c.line c.beachline_end hinv.nodup hnz hinv.last hall
        c.line.length l1 he l2 hline hl2
        (by rw [hline]; simp only [List.length_append, List.length_cons]; omega)]
    · rw [if_neg hc]
      have hee : he = c.beachline_end := by
        by_contra hne
        exact hc (Or.inr ⟨hne, hall he⟩)
      have hne : he ≠ c.beachline_start := fun h => hc (Or.inl h)
      have hl1 : l1 ≠ [] := fun h =>
        hne ((line_head_iff c.line _ _ he _ hinv.nodup hinv.head hline).1 h)
      rcases List.eq_nil_or_concat l1 with h | ⟨L, z, h⟩
      · exact absurd h hl1
      · rw [List.concat_eq_append] at h
        subst h
        have hline2 : c.line = L ++ z :: he :: l2 := by rw [hline]; simp
        have hnd2 : (L ++ z :: he :: l2).Nodup := hline2 ▸ hinv.nodup
        have hnd3 := (List.nodup_append.1 hnd2)
        have hhe2 : he ∉ L := fun h =>
          hnd3.2.2 h (List.mem_cons_of_mem _ (List.mem_cons_self _ _))
        have hz : z ≠ he := fun h =>
          (List.nodup_cons.1 hnd3.2.1).1 (by rw [h]; exact List.mem_cons_self _ _)
        have hl : he_left c.line he = z := by
          rw [hline2]; exact he_left_at L l2 z he hhe2 hz
        have hz0 : z ≠ 0 := hnz z (by rw [hline2]; simp)
        have hlen : c.line.length = (L.length + l2.length + 1) + 1 := by
          rw [hline2]
          simp only [List.length_append, List.length_cons]
          omega
        have hcond : ¬ (z ≠ c.beachline_start ∧ a.rightof z = false) := by
          rintro ⟨_, h2⟩
          rw [hall z] at h2
          cases h2
        rw [hlen, ← hee]
        simp only [walk_left, hl, if_neg hz0, if_neg hcond]
  · intro hall
    by_cases hc : he = c.beachline_start ∨ (he ≠ c.beachline_end ∧ a.rightof he = true)
    · rw [if_pos hc]
      have hes : he = c.beachline_start := by
        rcases hc with h | h
        · exact h
        · rw [hall he] at h
          cases h.2
      have hne : he ≠ c.beachline_end := by
        rw [hes]; exact hinv.start_ne
      have hl2 : l2 ≠ [] := fun h =>
        hne ((line_last_iff c.line _ _ he _ hinv.nodup hinv.last hline).1 h)
      cases l2 with
      | nil => exact absurd rfl hl2
      | cons y l2 =>
        have hnd2 : (l1 ++ he :: y :: l2).Nodup := hline ▸ hinv.nodup
        have hnd3 := List.nodup_append.1 hnd2
        have hhe2 : he ∉ l1 := fun h => hnd3.2.2 h (List.mem_cons_self _ _)
        have hy1 : y ∉ l1 := fun h =>
          hnd3.2.2 h (List.mem_cons_of_mem _ (List.mem_cons_self _ _))
        have hey : he ≠ y := fun h =>
          (List.nodup_cons.1 hnd3.2.1).1 (by rw [h]; exact List.mem_cons_self _ _)
        have hr : he_right c.line he = y := by
          rw [hline]; exact he_right_at l1 l2 he y hhe2
        have hl : he_left c.line y = he := by
          rw [hline]; exact he_left_at l1 l2 he y hy1 hey
        have hy0 : y ≠ 0 := hnz y (by rw [hline]; simp)
        have hlen : c.line.length = (l1.length + l2.length + 1) + 1 := by
          rw [hline]
          simp only [List.length_append, List.length_cons]
          omega
        have hcond : ¬ (y ≠ c.beachline_end ∧ a.rightof y = true) := by
          rintro ⟨_, h2⟩
          rw [hall y] at h2
          cases h2
        rw [hlen]
        simp only [walk_right, hr, if_neg hy0, if_neg hcond]
        rw [hl, hes]
    · rw [if_neg hc]
      have hne : he ≠ c.beachline_start := fun h => hc (Or.inl h)
      have hl1 : l1 ≠ [] := fun h =>
        hne ((line_head_iff c.line _ _ he _ hinv.nodup hinv.head hline).1 h)
      exact walk_left_all a.rightof c.line c.beachline_start hinv.nodup hnz hinv.head hall
        c.line.length l1 he l2 hline hl1
        (by rw [hline]; simp only [List.length_append, List.length_cons]; omega)

theorem sweep_step_kinds (a : sweep_answers α) (c : jcv_context_internal α) (site : Option Nat)
    (num_points : Nat) (hinv : sweep_inv num_points c (sites_left c site)) :
    ((site.isSome = true ∧ (jcv_pq_empty c.eventqueue = true ∨ a.site_less = true)) →
      ∃ c' site', jcv_sweep_step a c site = sweep_result.running (c', site') ∧
        sweep_inv num_points c' (sites_left c' site') ∧
        sites_left c' site' + 1 = sites_left c site ∧
        c'.line.length = c.line.length + 2) ∧
    (¬ (site.isSome = true ∧ (jcv_pq_empty c.eventqueue = true ∨ a.site_less = true)) →
      jcv_sweep_step a c site = sweep_result.finished (c, site) ∨
      ∃ c' site', jcv_sweep_step a c site = sweep_result.running (c', site') ∧
        sweep_inv num_points c' (sites_left c' site') ∧
        sites_left c' site' = sites_left c site ∧
        c'.line.length + 1 = c.line.length) := by
  unfold jcv_sweep_step
  constructor
  · intro h1
    rw [if_pos h1]
    have hleft : sites_left c site = c.numsites - c.currentsite + 1 := by
      unfold sites_left
      rw [if_pos h1.1]
    obtain ⟨c', hev, hinv', hns, hcs, hlen⟩ :=
      site_event_spec a c num_points _ hinv (by rw [hleft]; omega)
    obtain ⟨hl1, hl2, hl3⟩ := nextsite_left c'
    refine ⟨(jcv_nextsite c').2, (jcv_nextsite c').1, ?_, ?_, ?_, ?_⟩
    · simp only [hev]
    · have := sweep_inv_nextsite num_points _ c' hinv'
      rw [hl1, hns, hcs]
      rw [hleft] at this
      exact this
    · rw [hl1, hleft, hns, hcs]
    · rw [hl3, hlen]
  · intro h1
    rw [if_neg h1]
    by_cases h2 : jcv_pq_empty c.eventqueue = false
    · right
      rw [if_pos h2]
      have hne : 1 < c.eventqueue.numitems := by
        unfold jcv_pq_empty at h2
        have h3 : c.eventqueue.numitems ≠ 1 := by simpa using h2
        have h4 : 1 ≤ c.eventqueue.numitems := hinv.queue.1
        omega
      obtain ⟨c', hev, hinv', hns, hcs, hlen⟩ := circle_event_spec a c num_points _ hinv hne
      have hleft : sites_left c' site = sites_left c site := by
        unfold sites_left
        rw [hns, hcs]
      refine ⟨c', site, ?_, ?_, hleft, hlen⟩
      · simp only [hev]
      · rw [hleft]; exact hinv'
    · left
      rw [if_neg h2]

theorem sweep_counted_spec (num_points bound : Nat) :
    ∀ (answers : List (sweep_answers α)) (c : jcv_context_internal α) (site : Option Nat)
      (n : Nat × Nat),
      sweep_inv num_points c (sites_left c site) →
      n.1 + sites_left c site ≤ bound →
      c.line.length + n.2 = 2 + 2 * n.1 →
      (jcv_sweep_counted answers c site n).1 = jcv_sweep_loop answers c site ∧
      (jcv_sweep_counted answers c site n).2.1 ≤ bound ∧
      (jcv_sweep_counted answers c site n).2.2 ≤ 2 * (jcv_sweep_counted answers c site n).2.1 ∧
      (∀ c', ((jcv_sweep_counted answers c site n).1 = sweep_result.running c' ∨
          (jcv_sweep_counted answers c site n).1 = sweep_result.finished c') →
        c'.line.length + (jcv_sweep_counted answers c site n).2.2
            = 2 + 2 * (jcv_sweep_counted answers c site n).2.1 ∧
          ∃ site', sweep_inv num_points c' (sites_left c' site')) := by
  intro answers
  induction answers with
  | nil =>
    intro c site n hinv hb hl
    have hlen := line_length_ge num_points _ c hinv
    refine ⟨rfl, ?_, ?_, ?_⟩
    · show n.1 ≤ bound
      omega
    · show n.2 ≤ 2 * n.1
      omega
    · intro c' hc
      have hc2 : sweep_result.running c = sweep_result.running c' ∨
          sweep_result.running c = sweep_result.finished c' := hc
      simp only [sweep_result.running.injEq, reduceCtorEq, or_false] at hc2
      subst hc2
      exact ⟨hl, site, hinv⟩
  | cons a rest ih =>
    intro c site n hinv hb hl
    have hlen := line_length_ge num_points _ c hinv
    obtain ⟨hk1, hk2⟩ := sweep_step_kinds a c site num_points hinv
    by_cases hcond : site.isSome = true ∧ (jcv_pq_empty c.eventqueue = true ∨ a.site_less = true)
    · obtain ⟨c', site', hstep, hinv', hsl, hll⟩ := hk1 hcond
      have hrun : jcv_sweep_counted (a :: rest) c site n
          = jcv_sweep_counted rest c' site' (n.1 + 1, n.2) := by
        simp only [jcv_sweep_counted, hstep, if_pos hcond]
      have hloop : jcv_sweep_loop (a :: rest) c site = jcv_sweep_loop rest c' site' := by
        simp only [jcv_sweep_loop, hstep]
      rw [hrun, hloop]
      exact ih c' site' (n.1 + 1, n.2) hinv' (by show n.1 + 1 + sites_left c' site' ≤ bound; omega)
        (by show c'.line.length + n.2 = 2 + 2 * (n.1 + 1); omega)
    · rcases hk2 hcond with hstep | ⟨c', site', hstep, hinv', hsl, hll⟩
      · have hrun : jcv_sweep_counted (a :: rest) c site n = (sweep_result.finished c, n) := by
          simp only [jcv_sweep_counted, hstep]
        have hloop : jcv_sweep_loop (a :: rest) c site = sweep_result.finished c := by
          simp only [jcv_sweep_loop, hstep]
        rw [hrun, hloop]
        refine ⟨rfl, ?_, ?_, ?_⟩
        · show n.1 ≤ bound
          omega
        · show n.2 ≤ 2 * n.1
          omega
        · intro c' hc
          have hc2 : sweep_result.finished c = sweep_result.running c' ∨
              sweep_result.finished c = sweep_result.finished c' := hc
          simp only [sweep_result.finished.injEq, reduceCtorEq, false_or] at hc2
          subst hc2
          exact ⟨hl, site, hinv⟩
      · have hrun : jcv_sweep_counted (a :: rest) c site n
            = jcv_sweep_counted rest c' site' (n.1, n.2 + 1) := by
          simp only [jcv_sweep_counted, hstep, if_neg hcond]
        have hloop : jcv_sweep_loop (a :: rest) c site = jcv_sweep_loop rest c' site' := by
          simp only [jcv_sweep_loop, hstep]
        rw [hrun, hloop]
        exact ih c' site' (n.1, n.2 + 1) hinv' (by show n.1 + sites_left c' site' ≤ bound; omega)
          (by show c'.line.length + (n.2 + 1) = 2 + 2 * n.1; omega)

theorem sweep_start_sites (num_points offset : Nat) (buffer : Nat → Nat)
    (store : Nat → jcv_halfedge α) :
    sites_left
        (jcv_nextsite (jcv_nextsite (jcv_sweep_init num_points offset buffer store)).2).2
        (jcv_nextsite (jcv_nextsite (jcv_sweep_init num_points offset buffer store)).2).1
      = num_points - offset - 1 ∧
    (jcv_nextsite (jcv_nextsite (jcv_sweep_init num_points offset buffer store)).2).2.line.length
      = 2 := by
  obtain ⟨h1, h2, h3⟩ :=
    nextsite_left (jcv_nextsite (jcv_sweep_init num_points offset buffer store)).2
  obtain ⟨_, k2, k3⟩ := nextsite_left (jcv_sweep_init num_points offset buffer store)
  have hcur : (jcv_nextsite (jcv_sweep_init num_points offset buffer store)).2.currentsite
      = if 0 < num_points - offset then 1 else 0 := by
    unfold jcv_nextsite
    by_cases h : 0 < num_points - offset
    · rw [if_pos h]
      have h' : (jcv_sweep_init num_points offset buffer store).currentsite
          < (jcv_sweep_init num_points offset buffer store).numsites := h
      rw [if_pos h']
      rfl
    · rw [if_neg h]
      have h' : ¬ (jcv_sweep_init num_points offset buffer store).currentsite
          < (jcv_sweep_init num_points offset buffer store).numsites := h
      rw [if_neg h']
      rfl
  have hns : (jcv_sweep_init num_points offset buffer store).numsites = num_points - offset := rfl
  have hline : (jcv_sweep_init num_points offset buffer store).line = [1, 2] := rfl
  constructor
  · rw [h1, k2, hcur, hns]
    split_ifs <;> omega
  · rw [h3, k3, hline]
    rfl

/-- C39. The main loop of `jcv_diagram_generate_useralloc` on `num_points` points,
whatever the answers of the geometric predicates: the counted run is the run of
the loop, it does not fail, and with `3 * num_points + 1` answers or more it has
finished; it performs at most `numsites - 1 ≤ num_points - 1` site events and at
most twice as many circle events as site events, so at most `2 * (num_points - 1)`.
In every state that the loop reaches the beach line holds `2 + 2 * s - k`
half-edges after `s` site events and `k` circle events, and
`jcv_get_edge_above_x` returns, for all answers, a half-edge of the beach line
that has a right neighbour: the walk has ended at a sentinel at the latest. When
`jcv_halfedge_rightof` answers yes for every half-edge the walk ends at
`beachline_end` and the call returns its left neighbour; when it always answers
no the call returns `beachline_start`. -/
theorem sweep_loop_event_bounds (num_points offset : Nat) (buffer : Nat → Nat)
    (store : Nat → jcv_halfedge α) (answers : List (sweep_answers α)) :
    (jcv_diagram_generate_counted num_points offset buffer store answers).1
      = jcv_diagram_generate_useralloc num_points offset buffer store answers ∧
    (jcv_diagram_generate_counted num_points offset buffer store answers).1
      ≠ sweep_result.failed ∧
    (3 * num_points + 1 ≤ answers.length →
      ∃ c, (jcv_diagram_generate_counted num_points offset buffer store answers).1
        = sweep_result.finished c) ∧
    (jcv_diagram_generate_counted num_points offset buffer store answers).2.1
      ≤ num_points - offset - 1 ∧
    (jcv_diagram_generate_counted num_points offset buffer store answers).2.1
      ≤ num_points - 1 ∧
    (jcv_diagram_generate_counted num_points offset buffer store answers).2.2
      ≤ 2 * (jcv_diagram_generate_counted num_points offset buffer store answers).2.1 ∧
    (jcv_diagram_generate_counted num_points offset buffer store answers).2.2
      ≤ 2 * (num_points - 1) ∧
    (∀ c,
      ((jcv_diagram_generate_counted num_points offset buffer store answers).1
          = sweep_result.running c ∨
        (jcv_diagram_generate_counted num_points offset buffer store answers).1
          = sweep_result.finished c) →
      c.line.length + (jcv_diagram_generate_counted num_points offset buffer store answers).2.2
        = 2 + 2 * (jcv_diagram_generate_counted num_points offset buffer store answers).2.1 ∧
      ∀ a : sweep_answers α,
        (∃ p left right s, c.line = p ++ left :: right :: s ∧
          jcv_get_edge_above_x a c = some left) ∧
        ((∀ x, a.rightof x = true) →
          jcv_get_edge_above_x a c = some (he_left c.line c.beachline_end)) ∧
        ((∀ x, a.rightof x = false) → jcv_get_edge_above_x a c = some c.beachline_start)) := by
  obtain ⟨hinv, hmeasure, hns⟩ := sweep_start_inv num_points offset buffer store
  obtain ⟨hsites, hline⟩ := sweep_start_sites num_points offset buffer store
  obtain ⟨h1, h2, h3⟩ := sweep_loop_spec num_points answers _ _ hinv
  obtain ⟨k1, k2, k3, k4⟩ := sweep_counted_spec num_points (num_points - offset - 1) answers _ _
    (0, 0) hinv (by rw [hsites]; show 0 + (num_points - offset - 1) ≤ _; omega)
    (by rw [hline]; rfl)
  have hrun : (jcv_diagram_generate_counted num_points offset buffer store answers).1
      = jcv_diagram_generate_useralloc num_points offset buffer store answers := k1
  refine ⟨hrun, ?_, ?_, k2, ?_, k3, ?_, ?_⟩
  · rw [hrun]
    exact h1
  · intro hlen
    rw [hrun]
    exact h2 (by omega)
  · exact le_trans k2 (by omega)
  · have hk2 : (jcv_diagram_generate_counted num_points offset buffer store answers).2.1
        ≤ num_points - offset - 1 := k2
    have hk3 : (jcv_diagram_generate_counted num_points offset buffer store answers).2.2
        ≤ 2 * (jcv_diagram_generate_counted num_points offset buffer store answers).2.1 := k3
    omega
  · intro c hc
    obtain ⟨hcount, site', hinv'⟩ := k4 c hc
    exact ⟨hcount, fun a => ⟨get_edge_above_x_spec a c num_points _ hinv',
      get_edge_above_x_extremes a c num_points _ hinv'⟩⟩

end SweepCountProofs

/-- The counted sweep on three sites with the answers `sample_answers`: two site
events and one circle event, and a beach line of `2 + 2 * 2 - 1` half-edges. -/
theorem sweep_sample_counts :
    (jcv_diagram_generate_counted 3 0 (fun _ => 0) (fun _ => ⟨0, 0, 7⟩) sample_answers).2
      = (2, 1) := by
  decide

section DoubleRounding

theorem int_log_two_eq (r : ℚ) (e : Int) (h1 : (2 : ℚ) ^ e ≤ r) (h2 : r < (2 : ℚ) ^ (e + 1)) :
    Int.log 2 r = e := by
  have hr : 0 < r := lt_of_lt_of_le (zpow_pos (by norm_num) e) h1
  have a1 : e ≤ Int.log 2 r := (Int.zpow_le_iff_le_log (by norm_num) hr).1 (by exact_mod_cast h1)
  have a2 : Int.log 2 r < e + 1 :=
    (Int.lt_zpow_iff_log_lt (by norm_num) hr).1 (by exact_mod_cast h2)
  omega

theorem round_to_double_neg (q : ℚ) : round_to_double (-q) = - round_to_double q := by
  unfold round_to_double
  by_cases h0 : q = 0
  · simp [h0]
  · have h0' : -q ≠ 0 := neg_ne_zero.2 h0
    rw [if_neg h0, if_neg h0']
    simp only [abs_neg]
    rcases lt_or_gt_of_ne h0 with h | h
    · have h2 : ¬ (-q < 0) := by linarith
      rw [if_pos h, if_neg h2]
      ring
    · have h2 : -q < 0 := by linarith
      have h3 : ¬ q < 0 := by linarith
      rw [if_neg h3, if_pos h2]
      ring

theorem round_to_double_spec (q : ℚ) (h0 : q ≠ 0) :
    ∃ (ulp m : ℚ) (n : Int), 0 < ulp ∧ |q| = m * ulp ∧ |round_to_double q| = (n : ℚ) * ulp ∧
      |(n : ℚ) - m| ≤ 1 / 2 ∧ (2 : ℚ) ^ (52 : Nat) ≤ m ∧ (1 : ℚ) ≤ n := by
  have hq : 0 < |q| := abs_pos.2 h0
  have hulp : (0 : ℚ) < (2 : ℚ) ^ (Int.log 2 |q| - 52) := zpow_pos (by norm_num) _
  have hlog : ((2 : Nat) : ℚ) ^ Int.log 2 |q| ≤ |q| := Int.zpow_log_le_self (by norm_num) hq
  have hsplit : (2 : ℚ) ^ Int.log 2 |q| = (2 : ℚ) ^ (52 : Nat) * (2 : ℚ) ^ (Int.log 2 |q| - 52) := by
    rw [← zpow_natCast, ← zpow_add₀ (by norm_num : (2 : ℚ) ≠ 0)]
    congr 1
    push_cast
    ring
  have hm : (2 : ℚ) ^ (52 : Nat) ≤ |q| / (2 : ℚ) ^ (Int.log 2 |q| - 52) := by
    rw [le_div_iff₀ hulp, ← hsplit]
    exact_mod_cast hlog
  have hf1 : ((⌊|q| / (2 : ℚ) ^ (Int.log 2 |q| - 52)⌋ : Int) : ℚ)
      ≤ |q| / (2 : ℚ) ^ (Int.log 2 |q| - 52) := Int.floor_le _
  have hf2 : |q| / (2 : ℚ) ^ (Int.log 2 |q| - 52)
      < ((⌊|q| / (2 : ℚ) ^ (Int.log 2 |q| - 52)⌋ : Int) : ℚ) + 1 := Int.lt_floor_add_one _
  have hf3 : (1 : ℚ) ≤ ((⌊|q| / (2 : ℚ) ^ (Int.log 2 |q| - 52)⌋ : Int) : ℚ) := by
    have : (1 : Int) ≤ ⌊|q| / (2 : ℚ) ^ (Int.log 2 |q| - 52)⌋ := by
      rw [Int.le_floor]
      have h1 : (1 : ℚ) ≤ (2 : ℚ) ^ (52 : Nat) := by norm_num
      push_cast
      linarith
    exact_mod_cast this
  have hsign : |(if q < 0 then (-1 : ℚ) else 1)| = 1 := by
    split_ifs <;> simp
  refine ⟨(2 : ℚ) ^ (Int.log 2 |q| - 52), |q| / (2 : ℚ) ^ (Int.log 2 |q| - 52),
    (if |q| / (2 : ℚ) ^ (Int.log 2 |q| - 52)
        - (⌊|q| / (2 : ℚ) ^ (Int.log 2 |q| - 52)⌋ : Int) < 1 / 2 then
      ⌊|q| / (2 : ℚ) ^ (Int.log 2 |q| - 52)⌋
    else if 1 / 2 < |q| / (2 : ℚ) ^ (Int.log 2 |q| - 52)
        - (⌊|q| / (2 : ℚ) ^ (Int.log 2 |q| - 52)⌋ : Int) then
      ⌊|q| / (2 : ℚ) ^ (Int.log 2 |q| - 52)⌋ + 1
    else if ⌊|q| / (2 : ℚ) ^ (Int.log 2 |q| - 52)⌋ % 2 = 0 then
      ⌊|q| / (2 : ℚ) ^ (Int.log 2 |q| - 52)⌋
    else ⌊|q| / (2 : ℚ) ^ (Int.log 2 |q| - 52)⌋ + 1), hulp, ?_, ?_, ?_, hm, ?_⟩
  · rw [div_mul_cancel₀ _ (ne_of_gt hulp)]
  · unfold round_to_double
    rw [if_neg h0]
    dsimp only
    rw [abs_mul, hsign, one_mul, abs_of_nonneg]
    apply mul_nonneg _ (le_of_lt hulp)
    split_ifs <;> push_cast <;> linarith
  · split_ifs with c1 c2 c3
    · rw [abs_le]; constructor <;> linarith
    · rw [abs_le]; push_cast; constructor <;> linarith
    · rw [abs_le]; constructor <;> linarith
    · rw [abs_le]; push_cast; constructor <;> linarith
  · split_ifs <;> push_cast <;> linarith

theorem round_to_double_eq_zero (q : ℚ) : round_to_double q = 0 ↔ q = 0 := by
  constructor
  · intro h
    by_contra h0
    obtain ⟨ulp, m, n, hulp, _, hr, _, _, hn⟩ := round_to_double_spec q h0
    rw [h, abs_zero] at hr
    have : 0 < (n : ℚ) * ulp := mul_pos (by linarith) hulp
    linarith
  · rintro rfl
    simp [round_to_double]

theorem round_to_double_error (q : ℚ) :
    |q| * (1 - 1 / 2 ^ (53 : Nat)) ≤ |round_to_double q| ∧
    |round_to_double q| ≤ |q| * (1 + 1 / 2 ^ (53 : Nat)) := by
  by_cases h0 : q = 0
  · subst h0
    simp [round_to_double]
  · obtain ⟨ulp, m, n, hulp, hq, hr, hnm, hm, _⟩ := round_to_double_spec q h0
    rw [hq, hr]
    have h1 := (abs_le.1 hnm).1
    have h2 := (abs_le.1 hnm).2
    have hm2 : (1 : ℚ) / 2 ≤ m * (1 / 2 ^ (53 : Nat)) := by
      have : (2 : ℚ) ^ (52 : Nat) * (1 / 2 ^ (53 : Nat)) = 1 / 2 := by norm_num
      nlinarith
    constructor
    · have : m * (1 - 1 / 2 ^ (53 : Nat)) ≤ (n : ℚ) := by nlinarith
      nlinarith
    · have : (n : ℚ) ≤ m * (1 + 1 / 2 ^ (53 : Nat)) := by nlinarith
      nlinarith

theorem round_to_double_eval (q : ℚ) (e f : Int) (hq : 0 < q)
    (h1 : (2 : ℚ) ^ e ≤ q) (h2 : q < (2 : ℚ) ^ (e + 1))
    (h3 : (f : ℚ) ≤ q / (2 : ℚ) ^ (e - 52)) (h4 : q / (2 : ℚ) ^ (e - 52) < (f : ℚ) + 1) :
    round_to_double q =
      ((if q / (2 : ℚ) ^ (e - 52) - f < 1 / 2 then f
        else if 1 / 2 < q / (2 : ℚ) ^ (e - 52) - f then f + 1
        else if f % 2 = 0 then f else f + 1 : Int) : ℚ) * (2 : ℚ) ^ (e - 52) := by
  unfold round_to_double
  have habs : |q| = q := abs_of_pos hq
  have hlog : Int.log 2 q = e := int_log_two_eq q e h1 h2
  have hfl : ⌊q / (2 : ℚ) ^ (e - 52)⌋ = f := by
    rw [Int.floor_eq_iff]
    exact ⟨h3, h4⟩
  rw [if_neg (ne_of_gt hq)]
  simp only [habs, hlog, hfl]
  rw [if_neg (not_lt.2 (le_of_lt hq)), one_mul]

theorem round_to_double_tie :
    round_to_double 10000000000000001 = 10000000000000000 ∧
    round_to_double 10000000000000000 = 10000000000000000 ∧
    round_to_double 1 = 1 ∧ round_to_double (-1) = -1 ∧ round_to_double 0 = 0 := by
  refine ⟨?_, ?_, ?_, ?_, ?_⟩
  · rw [round_to_double_eval 10000000000000001 53 5000000000000000 (by norm_num)
      (by norm_num) (by norm_num) (by norm_num) (by norm_num)]
    norm_num
  · rw [round_to_double_eval 10000000000000000 53 5000000000000000 (by norm_num)
      (by norm_num) (by norm_num) (by norm_num) (by norm_num)]
    norm_num
  · rw [round_to_double_eval 1 0 4503599627370496 (by norm_num)
      (by norm_num) (by norm_num) (by norm_num) (by norm_num)]
    norm_num
  · rw [round_to_double_neg, round_to_double_eval 1 0 4503599627370496 (by norm_num)
      (by norm_num) (by norm_num) (by norm_num) (by norm_num)]
    norm_num
  · simp [round_to_double]

/-- C31, counterexample: the coordinates `10^16`, `-1` and `0` and the threshold
`10^16` are doubles; the difference `10^16 - (-1)` is a tie between the doubles
`10^16` and `10^16 + 2` and is rounded to `10^16`, so `points_equals` holds for
the points `(10^16, 0)` and `(-1, 0)` although their distance in the maximum norm
is above the threshold. -/
theorem rounded_difference_within_threshold :
    round_to_double 10000000000000000 = 10000000000000000 ∧
    round_to_double (-1) = -1 ∧ round_to_double 0 = 0 ∧
    round_to_double (10000000000000000 - (-1)) = 10000000000000000 ∧
    points_equals (10000000000000000, 0) (-1, 0) 10000000000000000 = true ∧
    ¬ max |(10000000000000000 : ℚ) - (-1)| |(0 : ℚ) - 0| ≤ 10000000000000000 := by
  obtain ⟨h1, h2, _, h4, h5⟩ := round_to_double_tie
  have hd : round_to_double (10000000000000000 - (-1)) = 10000000000000000 := by
    rw [show (10000000000000000 : ℚ) - (-1) = 10000000000000001 by norm_num]
    exact h1
  refine ⟨h2, h4, h5, hd, ?_, by norm_num⟩
  unfold points_equals
  simp only [hd, sub_zero, h5]
  norm_num

/-- C31, amended. Vertex coincidence is closeness in the maximum norm of the
rounded differences: `points_equals` holds exactly when the greater of
`|fl(p1.x - p2.x)|` and `|fl(p1.y - p2.y)|` is at most the threshold, `fl` giving
the double nearest to the difference.  It is symmetric in the two points; for
the threshold `0` it holds exactly when the two points have the same
coordinates; when both differences are doubles it is closeness in the maximum
norm; and in every case it follows from a distance of at most
`eps / (1 + 2^-53)` and implies a distance of at most `eps / (1 - 2^-53)`. -/
theorem points_equals_is_rounded_max_norm (p1 p2 : ℚ × ℚ) (eps : ℚ) :
    (points_equals p1 p2 eps = true ↔
      max |round_to_double (p1.1 - p2.1)| |round_to_double (p1.2 - p2.2)| ≤ eps) ∧
    points_equals p1 p2 eps = points_equals p2 p1 eps ∧
    (points_equals p1 p2 0 = true ↔ p1 = p2) ∧
    (round_to_double (p1.1 - p2.1) = p1.1 - p2.1 →
      round_to_double (p1.2 - p2.2) = p1.2 - p2.2 →
      (points_equals p1 p2 eps = true ↔ max |p1.1 - p2.1| |p1.2 - p2.2| ≤ eps)) ∧
    (points_equals p1 p2 eps = true →
      max |p1.1 - p2.1| |p1.2 - p2.2| * (1 - 1 / 2 ^ (53 : Nat)) ≤ eps) ∧
    (max |p1.1 - p2.1| |p1.2 - p2.2| * (1 + 1 / 2 ^ (53 : Nat)) ≤ eps →
      points_equals p1 p2 eps = true) := by
  have hiff : ∀ e : ℚ, points_equals p1 p2 e = true ↔
      |round_to_double (p1.1 - p2.1)| ≤ e ∧ |round_to_double (p1.2 - p2.2)| ≤ e := by
    intro e
    unfold points_equals
    rw [Bool.and_eq_true, decide_eq_true_eq, decide_eq_true_eq]
  obtain ⟨hx1, hx2⟩ := round_to_double_error (p1.1 - p2.1)
  obtain ⟨hy1, hy2⟩ := round_to_double_error (p1.2 - p2.2)
  have hpos1 : (0 : ℚ) < 1 - 1 / 2 ^ (53 : Nat) := by norm_num
  have hpos2 : (0 : ℚ) < 1 + 1 / 2 ^ (53 : Nat) := by norm_num
  refine ⟨?_, ?_, ?_, ?_, ?_, ?_⟩
  · rw [hiff, max_le_iff]
  · unfold points_equals
    rw [← neg_sub p1.1 p2.1, ← neg_sub p1.2 p2.2, round_to_double_neg, round_to_double_neg,
      abs_neg, abs_neg]
  · rw [hiff, abs_nonpos_iff, abs_nonpos_iff, round_to_double_eq_zero,
      round_to_double_eq_zero, sub_eq_zero, sub_eq_zero]
    constructor
    · rintro ⟨h1, h2⟩
      exact Prod.ext h1 h2
    · rintro rfl
      exact ⟨rfl, rfl⟩
  · intro e1 e2
    rw [hiff, e1, e2, max_le_iff]
  · intro h
    obtain ⟨h1, h2⟩ := (hiff eps).1 h
    rcases max_choice |p1.1 - p2.1| |p1.2 - p2.2| with hm | hm
    · rw [hm]; linarith
    · rw [hm]; linarith
  · intro h
    rw [hiff]
    have hmx : |p1.1 - p2.1| * (1 + 1 / 2 ^ (53 : Nat)) ≤ eps :=
      le_trans (mul_le_mul_of_nonneg_right (le_max_left _ _) (le_of_lt hpos2)) h
    have hmy : |p1.2 - p2.2| * (1 + 1 / 2 ^ (53 : Nat)) ≤ eps :=
      le_trans (mul_le_mul_of_nonneg_right (le_max_right _ _) (le_of_lt hpos2)) h
    exact ⟨le_trans hx2 hmx, le_trans hy2 hmy⟩

end DoubleRounding

end geoda
